import Mathlib

/-!
# Calculator: the expression pipeline, the input collector and the display

A shallow embedding of `CalculateAnswer` and of the private functions it calls
(`syntax_check_stage1`, `syntax_check_stage2`, `identify_tokens`,
`syntax_check_stage3`, `evaluate_expression`) from `calculate_answer.c`, and of
`ReadAndEchoInput` and `DisplayResult` from `high_level_funcs.c`, followed by
theorems about them.

Modelling conventions

* A C string / character buffer is a `List Char`: the bytes found at the
  pointer, in order.  A read at an index past the end of the list yields the
  terminator (`charAt`), so a list without a NUL character is a string whose
  terminator sits right after its last element.
* `uint8_t` and `int` values are natural numbers; the truncation to eight bits
  is written out (`% 256`) where a value is narrowed (`strlen` results).  Loop
  counters of type `uint8_t` are only incremented below a bound that is itself
  at most 255, so they never wrap.
* `double` arithmetic is a parameter: every function that computes with
  doubles is generic in a type `F` carrying the operations the C code uses
  (`DoubleArith`).  Theorems stated for every `F` hold for whatever the
  arithmetic does; `Dbl` is one concrete instance (exact rationals extended by
  the two infinities and NaN, no rounding) used to run examples.  Its sums,
  products and quotients are exact and never overflow, so a statement about
  `Dbl` values is made only where every step is exact in double arithmetic as
  well, or for what the text of a claim calls exact arithmetic; its power of
  ten has the range of `double` (`+inf` from 10^309 on).
* The error reference number `*p_error_ref_no` is threaded through the stages
  as an explicit argument and result.
* Arrays inside `ParsedExpression_t` are total functions on indices; the
  automatic variable `parsed_expression` of `CalculateAnswer` is not
  initialised by the C code, so its initial contents are an argument.
* Signed overflow of the `int` accumulator of `simple_atof` is modelled as the
  two's-complement wrap-around of the target (`wrap_int`).
* The text `DisplayResult` hands to the display follows the conversions `%d`
  and `%02d` of `snprintf` as the C standard gives them (`format_d`,
  `format_02d_int`); `format_result` is that text for a fractional part from
  0 to 99.
* The outer loop of the tokenizer is given twice: by well-founded recursion
  on the characters left (`identify_tokens_loop`, a total function) and with a
  bound on the number of tests of the loop condition (`identify_tokens_fuel`);
  the two agree as soon as the bound exceeds the characters left.
* `evaluate_expression_passes` is `evaluate_expression` with the final state of
  its copy of the struct kept, so that the used flags can be spoken about.
* Array accesses are made visible by companion functions that follow the
  control flow of the code and list the indices used (`Access`,
  `evaluate_expression_accesses`, `extract_number_write`,
  `extract_operator_write`); `identify_tokens_head` gives the state at each
  test of the loop condition of the tokenizer.
* In `ReadAndEchoInput` the `int` variables are integers (no operation leaves
  the range of a 32-bit `int` while `0 ≤ j ≤ input_buffer_size - 1`, which is
  proved), the buffer is a function of an integer index, the successive
  results of `get_keyboard_char()` are a list of characters, and the writes to
  the buffer are logged in the state.  The display calls and the waits are
  left out.
* `DisplayResult` is generic in the arithmetic as well: the difference and
  the product are those of `DoubleArith`, and the conversion `(int)x` is an
  operation of its own (`DoubleToInt`), undefined (`none`) where C leaves it
  undefined.  For `Dbl` the conversion truncates the rational value toward
  zero, which is what it does to the value of a finite double.
-/

namespace Calc

/-! ## Characters and strings -/

/-- The string terminator. -/
def NUL : Char := Char.ofNat 0

/-- The character `p[i]`; past the end of the list the terminator is read. -/
def charAt (p : List Char) (i : Nat) : Char := p.getD i NUL

/-- C `strlen`: the number of characters before the first terminator. -/
def strlen : List Char → Nat
  | [] => 0
  | c :: cs => if c = NUL then 0 else strlen cs + 1

/-- C `isdigit` in the "C" locale. -/
def isdigit (c : Char) : Bool := decide (48 ≤ c.toNat ∧ c.toNat ≤ 57)

/-- C `isspace` in the "C" locale: space, `\t`, `\n`, `\v`, `\f`, `\r`. -/
def isspace (c : Char) : Bool := decide (c.toNat = 32 ∨ (9 ≤ c.toNat ∧ c.toNat ≤ 13))

/-! ## Double arithmetic -/

/-- The operations on `double` used by `calculate_answer.c`. -/
class DoubleArith (F : Type) where
  /-- the literal `0.0` -/
  zero : F
  /-- the literal `10.0` -/
  ten : F
  /-- conversion of an `int` to `double` -/
  ofInt : Int → F
  /-- `a + b` -/
  add : F → F → F
  /-- `a - b` -/
  sub : F → F → F
  /-- `a * b` -/
  mul : F → F → F
  /-- `a / b` -/
  div : F → F → F
  /-- `pow(10.0, b)` -/
  pow10 : F → F

/-- The largest finite `double`, `(2^53 - 1) * 2^971`. -/
def DBL_MAX : ℚ := (2 ^ 53 - 1) * 2 ^ 971

/-- Exact model of a `double`: a rational, an infinity, or NaN.  No rounding,
no signed zero; sums, products and quotients do not overflow, the power of ten
does (`Dbl.pow10`).  The operations agree with double arithmetic wherever the
operands and the result are doubles, as for integers below 2^53. -/
inductive Dbl where
  | fin (q : ℚ)
  | pinf
  | ninf
  | nan
  deriving DecidableEq

namespace Dbl

/-- Negation. -/
def neg : Dbl → Dbl
  | fin q => fin (-q)
  | pinf => ninf
  | ninf => pinf
  | nan => nan

/-- Addition with the IEEE rules for infinities and NaN. -/
def add : Dbl → Dbl → Dbl
  | nan, _ => nan
  | _, nan => nan
  | fin a, fin b => fin (a + b)
  | pinf, ninf => nan
  | ninf, pinf => nan
  | pinf, _ => pinf
  | ninf, _ => ninf
  | fin _, pinf => pinf
  | fin _, ninf => ninf

/-- Subtraction. -/
def sub (a b : Dbl) : Dbl := add a (neg b)

/-- An infinity of the sign of `s`, NaN when `s = 0`. -/
def infOfSign (s : ℚ) : Dbl :=
  if s = 0 then nan else if 0 < s then pinf else ninf

/-- Multiplication with the IEEE rules for infinities and NaN. -/
def mul : Dbl → Dbl → Dbl
  | nan, _ => nan
  | _, nan => nan
  | fin a, fin b => fin (a * b)
  | pinf, fin b => infOfSign b
  | ninf, fin b => infOfSign (-b)
  | fin a, pinf => infOfSign a
  | fin a, ninf => infOfSign (-a)
  | pinf, pinf => pinf
  | ninf, ninf => pinf
  | pinf, ninf => ninf
  | ninf, pinf => ninf

/-- Division with the IEEE rules: a non-zero number over zero is an infinity,
zero over zero is NaN. -/
def div : Dbl → Dbl → Dbl
  | nan, _ => nan
  | _, nan => nan
  | fin a, fin b => if b = 0 then infOfSign a else fin (a / b)
  | fin _, pinf => fin 0
  | fin _, ninf => fin 0
  | pinf, fin b => if 0 ≤ b then pinf else ninf
  | ninf, fin b => if 0 ≤ b then ninf else pinf
  | pinf, pinf => nan
  | pinf, ninf => nan
  | ninf, pinf => nan
  | ninf, ninf => nan

/-- The value `pow(10.0, b)`, with the range of `double`: the largest double
lies between 10^308 and 10^309, so the power is `+inf` for an integer `b` from
309 on; half the least positive double lies between 10^-324 and 10^-323, so
the power is 0 for `b` up to -324.  In between the power of ten is given
without rounding (it is a double exactly for `0 ≤ b ≤ 22`).  For a rational
`b` that is not an integer the result is irrational and has no value in this
model; NaN stands for it. -/
def pow10 : Dbl → Dbl
  | fin q =>
    if q.den = 1 then
      if 308 < q.num then pinf
      else if q.num < -323 then fin 0
      else fin ((10 : ℚ) ^ q.num)
    else nan
  | pinf => pinf
  | ninf => fin 0
  | nan => nan

end Dbl

instance : DoubleArith Dbl where
  zero := Dbl.fin 0
  ten := Dbl.fin 10
  ofInt z := Dbl.fin z
  add := Dbl.add
  sub := Dbl.sub
  mul := Dbl.mul
  div := Dbl.div
  pow10 := Dbl.pow10

/-! ## Constants and types of the module -/

/-- Capacity of the number and operator arrays (the constant is 20). -/
def MAX_NUMS_AND_OPS : Nat := 20

/-- Size of the staging array `num_as_string` (the constant is 50). -/
def MAX_NUMBER_STRING_LENGTH : Nat := 50

/-- The struct `ParsedExpression_t`.  The three arrays are functions of the
index; `num_and_op_used` holds `char` values (0 = not used). -/
structure ParsedExpression_t (F : Type) where
  number : Nat → F
  n_numbers : Nat
  infix_operator : Nat → Char
  n_infix_operators : Nat
  num_and_op_used : Nat → Nat

/-- The assignment `a[i] = v`. -/
def setAt {α : Type} (a : Nat → α) (i : Nat) (v : α) : Nat → α :=
  fun j => if j = i then v else a j

/-! ## `is_operator` and the two string-level validators -/

/-- The function `is_operator`: true for `+ - x / E`. -/
def is_operator (character : Char) : Bool :=
  character == '+' || character == '-' || character == 'x' || character == '/' ||
    character == 'E'

/-- First loop of `syntax_check_stage1`: the error number is 3 unless one of
`p[index] .. p[index + remaining - 1]` is the terminator.  `remaining` is
`max_buffer_size - index`. -/
def stage1_find_null (p : List Char) : (remaining : Nat) → (index : Nat) → Nat
  | 0, _ => 3
  | r + 1, index => if charAt p index = NUL then 0 else stage1_find_null p r (index + 1)

/-- The `switch` of `syntax_check_stage1`: the characters that `break`. -/
def stage1_valid_char (c : Char) : Bool :=
  isdigit c || c == '+' || c == '-' || c == 'x' || c == '/' || c == '.' || c == 'E'

/-- Second loop of `syntax_check_stage1` over `index .. index + remaining - 1`
(`remaining` is `actual_buffer_size - index`); entered with error number 0. -/
def stage1_invalid_char (p : List Char) : (remaining : Nat) → (index : Nat) → Nat
  | 0, _ => 0
  | r + 1, index =>
    if stage1_valid_char (charAt p index) then stage1_invalid_char p r (index + 1) else 4

/-- The function `syntax_check_stage1`; the result is the value left in `*p_error_ref_no`
(every path through the function assigns it). -/
def syntax_check_stage1 (p_input_buffer : List Char) (max_buffer_size : Nat) : Nat :=
  if charAt p_input_buffer 0 = NUL then 2
  else if stage1_find_null p_input_buffer max_buffer_size 0 ≠ 0 then 3
  else
    let actual_buffer_size := strlen p_input_buffer % 256
    stage1_invalid_char p_input_buffer actual_buffer_size 0

/-- Body test of the adjacency loop of `syntax_check_stage2`: `b_okay`. -/
def stage2_pair_okay (ch1 ch2 : Char) : Bool :=
  if is_operator ch1 && is_operator ch2 then
    (ch2 == '-' && (ch1 == 'x' || ch1 == '/' || ch1 == 'E'))
  else true

/-- Adjacency loop of `syntax_check_stage2` over `index .. index+remaining-1`
(`remaining` is `buffer_size - 1 - index`): `true` when error 9 is raised. -/
def stage2_adjacent (p : List Char) : (remaining : Nat) → (index : Nat) → Bool
  | 0, _ => false
  | r + 1, index =>
    if stage2_pair_okay (charAt p index) (charAt p (index + 1)) then
      stage2_adjacent p r (index + 1)
    else true

/-- Inner loop of the exponent check over `buffer_index .. buffer_index +
remaining - 1` (`remaining` is `buffer_size - buffer_index`): `true` when a
`.` is met before an operator or the end. -/
def stage2_dot_after (p : List Char) : (remaining : Nat) → (buffer_index : Nat) → Bool
  | 0, _ => false
  | r + 1, buffer_index =>
    if is_operator (charAt p buffer_index) then false
    else if charAt p buffer_index = '.' then true
    else stage2_dot_after p r (buffer_index + 1)

/-- Outer loop of the exponent check over `index .. index + remaining - 1`
(`remaining` is `buffer_size - 1 - index`): `true` when error 11 is raised. -/
def stage2_exponent (p : List Char) (buffer_size : Nat) : (remaining : Nat) → (index : Nat) → Bool
  | 0, _ => false
  | r + 1, index =>
    if charAt p index = 'E' ∧
        stage2_dot_after p (buffer_size - (index + 1)) (index + 1) then true
    else stage2_exponent p buffer_size r (index + 1)

/-- The function `syntax_check_stage2`.  `error_ref_no` is the value of `*p_error_ref_no`
on entry, the result its value on return.  The function is only called on a
non-empty string, so `buffer_size - 1` does not go below zero. -/
def syntax_check_stage2 (p_input_buffer : List Char) (error_ref_no : Nat) : Nat :=
  let buffer_size := strlen p_input_buffer % 256
  let ch1 := charAt p_input_buffer 0
  if is_operator ch1 && ch1 != '-' then 7
  else if is_operator (charAt p_input_buffer (buffer_size - 1)) then 8
  else if stage2_adjacent p_input_buffer (buffer_size - 1) 0 then 9
  else if stage2_exponent p_input_buffer buffer_size (buffer_size - 1) 0 then 11
  else error_ref_no

/-! ## The tokenizer -/

/-- Two's-complement wrap-around of a 32-bit `int` (signed overflow is
undefined in C; the target wraps). -/
def wrap_int (z : Int) : Int := (z + 2147483648) % 4294967296 - 2147483648

/-- First loop of `simple_atof`: skip leading spaces. -/
def atof_skip_spaces : List Char → List Char
  | [] => []
  | c :: cs => if c = ' ' then atof_skip_spaces cs else c :: cs

/-- Integer-part loop of `simple_atof`: returns `int_part` and the rest of the
string. -/
def atof_int_part : List Char → Int → Int × List Char
  | [], int_part => (int_part, [])
  | c :: cs, int_part =>
    if isdigit c then atof_int_part cs (wrap_int (int_part * 10 + ((c.toNat : Int) - 48)))
    else (int_part, c :: cs)

/-- Fractional-part loop of `simple_atof`: returns `frac_part`. -/
def atof_frac_part {F : Type} [DoubleArith F] : List Char → F → F → F
  | [], frac_part, _ => frac_part
  | c :: cs, frac_part, divisor =>
    if isdigit c then
      atof_frac_part cs
        (DoubleArith.add frac_part (DoubleArith.div (DoubleArith.ofInt ((c.toNat : Int) - 48)) divisor))
        (DoubleArith.mul divisor (DoubleArith.ofInt 10))
    else frac_part

/-- The function `simple_atof`. -/
def simple_atof {F : Type} [DoubleArith F] (p_string : List Char) : F :=
  let s0 := atof_skip_spaces p_string
  let signed : Int × List Char :=
    match s0 with
    | c :: cs => if c = '-' then (-1, cs) else if c = '+' then (1, cs) else (1, c :: cs)
    | [] => (1, [])
  let ip := atof_int_part signed.2 0
  let frac_part : F :=
    match ip.2 with
    | c :: cs => if c = '.' then atof_frac_part cs DoubleArith.zero DoubleArith.ten
                 else DoubleArith.zero
    | [] => DoubleArith.zero
  DoubleArith.mul (DoubleArith.ofInt signed.1) (DoubleArith.add (DoubleArith.ofInt ip.1) frac_part)

/-- The values `*p_ch_no`, `*p_parsed_expression` and `*p_error_ref_no` that the
tokenizer functions read and update. -/
structure TokState (F : Type) where
  ch_no : Nat
  parsed : ParsedExpression_t F
  error_ref_no : Nat

/-- The `while` loop of `extract_number`: copies digits and dots into
`num_as_string` (`next_ch_no` is the length of the list).  Returns the new
`*p_ch_no` and the staged string. -/
def extract_number_loop (p : List Char) (buf_len : Nat) (ch_no : Nat)
    (num_as_string : List Char) : Nat × List Char :=
  if ch_no < buf_len ∧ num_as_string.length < MAX_NUMBER_STRING_LENGTH - 1 ∧
      (isdigit (charAt p ch_no) ∨ charAt p ch_no = '.') then
    extract_number_loop p buf_len (ch_no + 1) (num_as_string ++ [charAt p ch_no])
  else (ch_no, num_as_string)
termination_by buf_len - ch_no

/-- The function `extract_number`. -/
def extract_number {F : Type} [DoubleArith F] (p_input_buffer : List Char) (buf_len : Nat)
    (st : TokState F) : TokState F :=
  if ¬ isdigit (charAt p_input_buffer st.ch_no) ∧ charAt p_input_buffer st.ch_no ≠ '.' then
    { st with error_ref_no := 6 }
  else
    let r := extract_number_loop p_input_buffer buf_len st.ch_no []
    if r.2.length = 0 then { st with ch_no := r.1, error_ref_no := 6 }
    else
      let number_read : F := simple_atof r.2
      if st.parsed.n_numbers < MAX_NUMS_AND_OPS then
        { st with
          ch_no := r.1
          parsed := { st.parsed with
            number := setAt st.parsed.number st.parsed.n_numbers number_read
            n_numbers := st.parsed.n_numbers + 1 } }
      else { st with ch_no := r.1, error_ref_no := 1 }

/-- The test `ch` is one of `+ - x / E` written out in `extract_operator` and
in `identify_tokens`. -/
def is_infix_char (ch : Char) : Bool :=
  ch == '+' || ch == '-' || ch == 'x' || ch == '/' || ch == 'E'

/-- The function `extract_operator`. -/
def extract_operator {F : Type} (p_input_buffer : List Char) (buf_len : Nat)
    (st : TokState F) : TokState F :=
  if st.ch_no ≥ buf_len then st
  else
    let ch := charAt p_input_buffer st.ch_no
    if is_infix_char ch then
      if st.parsed.n_infix_operators < MAX_NUMS_AND_OPS then
        { st with
          ch_no := st.ch_no + 1
          parsed := { st.parsed with
            infix_operator := setAt st.parsed.infix_operator st.parsed.n_infix_operators ch
            n_infix_operators := st.parsed.n_infix_operators + 1 } }
      else { st with error_ref_no := 1 }
    else { st with error_ref_no := 7 }

/-- The whitespace loop of `identify_tokens`: returns the new `ch_no`. -/
def skip_whitespace (p : List Char) (buf_len : Nat) (ch_no : Nat) : Nat :=
  if ch_no < buf_len ∧ isspace (charAt p ch_no) then skip_whitespace p buf_len (ch_no + 1)
  else ch_no
termination_by buf_len - ch_no

/-- The cursor never moves backwards in the copy loop of `extract_number`. -/
theorem extract_number_loop_le (p : List Char) (buf_len : Nat) (ch_no : Nat) (s : List Char) :
    ch_no ≤ (extract_number_loop p buf_len ch_no s).1 := by
  induction ch_no, s using extract_number_loop.induct p buf_len with
  | case1 ch_no s h ih =>
    rw [extract_number_loop, if_pos h]
    omega
  | case2 ch_no s h =>
    rw [extract_number_loop, if_neg h]

/-- On a digit or dot below `buf_len`, `extract_number` either reports an
error or advances the cursor. -/
theorem extract_number_advances {F : Type} [DoubleArith F] (p : List Char) (buf_len : Nat)
    (st : TokState F) (hlt : st.ch_no < buf_len)
    (hd : (isdigit (charAt p st.ch_no) || charAt p st.ch_no == '.') = true) :
    st.ch_no < (extract_number p buf_len st).ch_no := by
  have hd' : isdigit (charAt p st.ch_no) = true ∨ charAt p st.ch_no = '.' := by
    simpa using hd
  have h1 : st.ch_no + 1 ≤ (extract_number_loop p buf_len st.ch_no []).1 := by
    rw [extract_number_loop, if_pos ⟨hlt, by simp [MAX_NUMBER_STRING_LENGTH], hd'⟩]
    exact extract_number_loop_le _ _ _ _
  have hn : ¬ (¬ isdigit (charAt p st.ch_no) = true ∧ charAt p st.ch_no ≠ '.') := by
    rcases hd' with h | h
    · simp [h]
    · simp [h]
  unfold extract_number
  rw [if_neg hn]
  dsimp only
  split
  · exact h1
  · split
    · exact h1
    · exact h1

/-- The cursor never moves backwards in the whitespace loop. -/
theorem skip_whitespace_le (p : List Char) (buf_len : Nat) (ch_no : Nat) :
    ch_no ≤ skip_whitespace p buf_len ch_no := by
  induction ch_no using skip_whitespace.induct p buf_len with
  | case1 ch_no h ih =>
    rw [skip_whitespace, if_pos h]
    omega
  | case2 ch_no h =>
    rw [skip_whitespace, if_neg h]

/-- The cursor never moves backwards in `extract_operator`. -/
theorem extract_operator_le {F : Type} (p : List Char) (buf_len : Nat) (st : TokState F) :
    st.ch_no ≤ (extract_operator p buf_len st).ch_no := by
  unfold extract_operator
  dsimp only
  split_ifs <;> simp

/-- The `while (ch_no < buf_len)` loop of `identify_tokens`, from the state
`st`; the result is the state on exit from the function. -/
def identify_tokens_loop {F : Type} [DoubleArith F] (p_input_buffer : List Char) (buf_len : Nat)
    (st : TokState F) : TokState F :=
  if hlt : st.ch_no < buf_len then
    if hd : (isdigit (charAt p_input_buffer st.ch_no) || charAt p_input_buffer st.ch_no == '.')
        = true then
      let st1 := extract_number p_input_buffer buf_len st
      if st1.error_ref_no ≠ 0 then st1
      else
        let st2 : TokState F := { st1 with ch_no := skip_whitespace p_input_buffer buf_len st1.ch_no }
        if st2.ch_no < buf_len then
          if is_infix_char (charAt p_input_buffer st2.ch_no) then
            let st3 := extract_operator p_input_buffer buf_len st2
            if st3.error_ref_no ≠ 0 then st3
            else identify_tokens_loop p_input_buffer buf_len st3
          else { st2 with error_ref_no := 7 }
        else identify_tokens_loop p_input_buffer buf_len st2
    else { st with error_ref_no := 6 }
  else st
termination_by buf_len - st.ch_no
decreasing_by
  · have h1 := extract_number_advances p_input_buffer buf_len st hlt hd
    have h2 := skip_whitespace_le p_input_buffer buf_len
      (extract_number p_input_buffer buf_len st).ch_no
    have h3 := extract_operator_le p_input_buffer buf_len
      ({ extract_number p_input_buffer buf_len st with
          ch_no := skip_whitespace p_input_buffer buf_len
            (extract_number p_input_buffer buf_len st).ch_no } : TokState F)
    simp only [st3, st2, st1] at *
    omega
  · simp only [st2, st1] at *
    omega

/-- The function `identify_tokens`: the tokenizer.  Returns `*p_error_ref_no`
and `*p_parsed_expression` as left on return. -/
def identify_tokens {F : Type} [DoubleArith F] (p_input_buffer : List Char) (error_ref_no : Nat)
    (parsed_expression : ParsedExpression_t F) : Nat × ParsedExpression_t F :=
  let buf_len := strlen p_input_buffer % 256
  let st := identify_tokens_loop p_input_buffer buf_len
    { ch_no := 0, parsed := parsed_expression, error_ref_no := error_ref_no }
  (st.error_ref_no, st.parsed)

/-- The tokenizer state after a number and the whitespace that follows it. -/
def after_number {F : Type} [DoubleArith F] (p : List Char) (buf_len : Nat) (st : TokState F) :
    TokState F :=
  { extract_number p buf_len st with
    ch_no := skip_whitespace p buf_len (extract_number p buf_len st).ch_no }

/-- The `while (ch_no < buf_len)` loop of `identify_tokens` run for at most
`fuel` tests of the loop condition: `some` of the state on exit from the
function, or `none` when the fuel runs out before the function has returned. -/
def identify_tokens_fuel {F : Type} [DoubleArith F] (p_input_buffer : List Char) (buf_len : Nat) :
    (fuel : Nat) → TokState F → Option (TokState F)
  | 0, _ => none
  | fuel + 1, st =>
    if st.ch_no < buf_len then
      if (isdigit (charAt p_input_buffer st.ch_no) || charAt p_input_buffer st.ch_no == '.')
          = true then
        let st1 := extract_number p_input_buffer buf_len st
        if st1.error_ref_no ≠ 0 then some st1
        else
          let st2 : TokState F :=
            { st1 with ch_no := skip_whitespace p_input_buffer buf_len st1.ch_no }
          if st2.ch_no < buf_len then
            if is_infix_char (charAt p_input_buffer st2.ch_no) then
              let st3 := extract_operator p_input_buffer buf_len st2
              if st3.error_ref_no ≠ 0 then some st3
              else identify_tokens_fuel p_input_buffer buf_len fuel st3
            else some { st2 with error_ref_no := 7 }
          else identify_tokens_fuel p_input_buffer buf_len fuel st2
      else some { st with error_ref_no := 6 }
    else some st

/-- One pass through the body of the `while` loop of `identify_tokens`, from
the state `st` at a test of the loop condition: `none` when the loop is left
or the function returns inside the body, otherwise the state at the next test
of the loop condition. -/
def identify_tokens_iteration {F : Type} [DoubleArith F] (p_input_buffer : List Char)
    (buf_len : Nat) (st : TokState F) : Option (TokState F) :=
  if st.ch_no < buf_len then
    if (isdigit (charAt p_input_buffer st.ch_no) || charAt p_input_buffer st.ch_no == '.')
        = true then
      let st1 := extract_number p_input_buffer buf_len st
      if st1.error_ref_no ≠ 0 then none
      else
        let st2 : TokState F :=
          { st1 with ch_no := skip_whitespace p_input_buffer buf_len st1.ch_no }
        if st2.ch_no < buf_len then
          if is_infix_char (charAt p_input_buffer st2.ch_no) then
            let st3 := extract_operator p_input_buffer buf_len st2
            if st3.error_ref_no ≠ 0 then none
            else some st3
          else none
        else some st2
    else none
  else none

/-- The state at the test of the loop condition of `identify_tokens` that
follows `k` passes through the loop body from the state `st`, if the function
gets there. -/
def identify_tokens_head {F : Type} [DoubleArith F] (p_input_buffer : List Char)
    (buf_len : Nat) : Nat → TokState F → Option (TokState F)
  | 0, st => some st
  | k + 1, st =>
    (identify_tokens_iteration p_input_buffer buf_len st).bind
      (identify_tokens_head p_input_buffer buf_len k)

/-- The index at which a call of `extract_number` writes `number[]`: the
statement `number[n_numbers++] = number_read` is reached on the path that
passes the two error returns and the capacity test; `none` on the other
paths. -/
def extract_number_write {F : Type} (p_input_buffer : List Char) (buf_len : Nat)
    (st : TokState F) : Option Nat :=
  if ¬ isdigit (charAt p_input_buffer st.ch_no) ∧ charAt p_input_buffer st.ch_no ≠ '.' then none
  else
    let r := extract_number_loop p_input_buffer buf_len st.ch_no []
    if r.2.length = 0 then none
    else if st.parsed.n_numbers < MAX_NUMS_AND_OPS then some st.parsed.n_numbers
    else none

/-- The index at which a call of `extract_operator` writes `infix_operator[]`,
`none` on the paths that do not write. -/
def extract_operator_write {F : Type} (p_input_buffer : List Char) (buf_len : Nat)
    (st : TokState F) : Option Nat :=
  if st.ch_no ≥ buf_len then none
  else
    let ch := charAt p_input_buffer st.ch_no
    if is_infix_char ch then
      if st.parsed.n_infix_operators < MAX_NUMS_AND_OPS then some st.parsed.n_infix_operators
      else none
    else none

/-! ## The token validator and the evaluator -/

/-- The loop of `syntax_check_stage3` over `i .. i + remaining - 1`
(`remaining` is `n_infix_operators - 1 - i`): `true` when error 10 is raised. -/
def stage3_adjacent_E (infix_operator : Nat → Char) : (remaining : Nat) → (i : Nat) → Bool
  | 0, _ => false
  | r + 1, i =>
    if infix_operator i = 'E' ∧ infix_operator (i + 1) = 'E' then true
    else stage3_adjacent_E infix_operator r (i + 1)

/-- The function `syntax_check_stage3`. -/
def syntax_check_stage3 {F : Type} (p_parsed_expression : ParsedExpression_t F)
    (error_ref_no : Nat) : Nat :=
  if stage3_adjacent_E p_parsed_expression.infix_operator
      (p_parsed_expression.n_infix_operators - 1) 0 then 10
  else error_ref_no

/-- The `switch` of `merge_numbers`: the value stored in `number[next_index]`
(an operator outside the five cases leaves the slot as it is). -/
def merge_value {F : Type} [DoubleArith F] (operator : Char) (num1 num2 : F) : F :=
  if operator = '+' then DoubleArith.add num1 num2
  else if operator = '-' then DoubleArith.sub num1 num2
  else if operator = 'x' then DoubleArith.mul num1 num2
  else if operator = '/' then DoubleArith.div num1 num2
  else if operator = 'E' then DoubleArith.mul num1 (DoubleArith.pow10 num2)
  else num2

/-- The function `merge_numbers`. -/
def merge_numbers {F : Type} [DoubleArith F] (p_parsed_expression : ParsedExpression_t F)
    (current_index next_index : Nat) (operator : Char) : ParsedExpression_t F :=
  let num1 := p_parsed_expression.number current_index
  let num2 := p_parsed_expression.number next_index
  { p_parsed_expression with
    number := setAt p_parsed_expression.number next_index (merge_value operator num1 num2)
    num_and_op_used := setAt p_parsed_expression.num_and_op_used current_index 1 }

/-- The inner loop of `evaluate_expression_one_operator` over `next_index ..
next_index + remaining - 1` (`remaining` is `n_numbers - next_index`): the
first index whose flag is 0, or `none` when `b_found` stays false. -/
def find_next_unused (num_and_op_used : Nat → Nat) : (remaining : Nat) → (next_index : Nat) →
    Option Nat
  | 0, _ => none
  | r + 1, next_index =>
    if num_and_op_used next_index = 0 then some next_index
    else find_next_unused num_and_op_used r (next_index + 1)

/-- The outer loop of `evaluate_expression_one_operator` over `this_index ..
this_index + remaining - 1` (`remaining` is `n_infix_operators - this_index`).
Returns the expression and the error number. -/
def evaluate_one_operator_loop {F : Type} [DoubleArith F] (operator : Char) :
    (remaining : Nat) → (this_index : Nat) → ParsedExpression_t F → Nat →
    ParsedExpression_t F × Nat
  | 0, _, pe, error_ref_no => (pe, error_ref_no)
  | r + 1, this_index, pe, error_ref_no =>
    if pe.infix_operator this_index ≠ operator then
      evaluate_one_operator_loop operator r (this_index + 1) pe error_ref_no
    else
      match find_next_unused pe.num_and_op_used (pe.n_numbers - (this_index + 1))
          (this_index + 1) with
      | none => (pe, 1)
      | some next_index =>
        evaluate_one_operator_loop operator r (this_index + 1)
          (merge_numbers pe this_index next_index operator) error_ref_no

/-- The function `evaluate_expression_one_operator`. -/
def evaluate_expression_one_operator {F : Type} [DoubleArith F]
    (p_parsed_expression : ParsedExpression_t F) (operator : Char) (error_ref_no : Nat) :
    ParsedExpression_t F × Nat :=
  evaluate_one_operator_loop operator p_parsed_expression.n_infix_operators 0
    p_parsed_expression error_ref_no

/-- The function `evaluate_expression`: returns the value and `*p_error_ref_no`. -/
def evaluate_expression {F : Type} [DoubleArith F] (p_parsed_expression : ParsedExpression_t F)
    (error_ref_no : Nat) : F × Nat :=
  let pe0 : ParsedExpression_t F :=
    { p_parsed_expression with
      num_and_op_used := fun index =>
        if index < MAX_NUMS_AND_OPS then 0 else p_parsed_expression.num_and_op_used index }
  let r1 := evaluate_expression_one_operator pe0 'E' error_ref_no
  if r1.2 ≠ 0 then (DoubleArith.zero, r1.2)
  else
    let r2 := evaluate_expression_one_operator r1.1 '/' r1.2
    if r2.2 ≠ 0 then (DoubleArith.zero, r2.2)
    else
      let r3 := evaluate_expression_one_operator r2.1 'x' r2.2
      if r3.2 ≠ 0 then (DoubleArith.zero, r3.2)
      else
        let r4 := evaluate_expression_one_operator r3.1 '+' r3.2
        if r4.2 ≠ 0 then (DoubleArith.zero, r4.2)
        else
          let r5 := evaluate_expression_one_operator r4.1 '-' r4.2
          if r5.2 ≠ 0 then (DoubleArith.zero, r5.2)
          else (r5.1.number (r5.1.n_numbers - 1), r5.2)

/-- The five passes of `evaluate_expression` together with the state they
leave: the function's copy of the struct and `*p_error_ref_no` at the `return`
that is taken.  `evaluate_expression` returns `number[n_numbers - 1]` of this
state when the error number is 0. -/
def evaluate_expression_passes {F : Type} [DoubleArith F]
    (p_parsed_expression : ParsedExpression_t F) (error_ref_no : Nat) :
    ParsedExpression_t F × Nat :=
  let pe0 : ParsedExpression_t F :=
    { p_parsed_expression with
      num_and_op_used := fun index =>
        if index < MAX_NUMS_AND_OPS then 0 else p_parsed_expression.num_and_op_used index }
  let r1 := evaluate_expression_one_operator pe0 'E' error_ref_no
  if r1.2 ≠ 0 then r1
  else
    let r2 := evaluate_expression_one_operator r1.1 '/' r1.2
    if r2.2 ≠ 0 then r2
    else
      let r3 := evaluate_expression_one_operator r2.1 'x' r2.2
      if r3.2 ≠ 0 then r3
      else
        let r4 := evaluate_expression_one_operator r3.1 '+' r3.2
        if r4.2 ≠ 0 then r4
        else evaluate_expression_one_operator r4.1 '-' r4.2

/-- An access, read or write, to one of the three arrays of
`ParsedExpression_t`: the array and the index. -/
inductive Access where
  | number (i : Nat)
  | infix_operator (i : Nat)
  | num_and_op_used (i : Nat)
  deriving DecidableEq

/-- The index of an access. -/
def Access.index : Access → Nat
  | Access.number i => i
  | Access.infix_operator i => i
  | Access.num_and_op_used i => i

/-- The reads of `num_and_op_used[]` by the inner loop of
`evaluate_expression_one_operator`, in order (same arguments as
`find_next_unused`). -/
def find_next_unused_accesses (num_and_op_used : Nat → Nat) :
    (remaining : Nat) → (next_index : Nat) → List Access
  | 0, _ => []
  | r + 1, next_index =>
    Access.num_and_op_used next_index ::
      (if num_and_op_used next_index = 0 then []
       else find_next_unused_accesses num_and_op_used r (next_index + 1))

/-- The accesses of `merge_numbers`: it reads `number[current_index]` and
`number[next_index]`, writes `number[next_index]` and writes
`num_and_op_used[current_index]`. -/
def merge_numbers_accesses (current_index next_index : Nat) : List Access :=
  [Access.number current_index, Access.number next_index, Access.number next_index,
    Access.num_and_op_used current_index]

/-- The accesses of the outer loop of `evaluate_expression_one_operator`, in
order (same arguments as `evaluate_one_operator_loop`). -/
def evaluate_one_operator_loop_accesses {F : Type} [DoubleArith F] (operator : Char) :
    (remaining : Nat) → (this_index : Nat) → ParsedExpression_t F → List Access
  | 0, _, _ => []
  | r + 1, this_index, pe =>
    Access.infix_operator this_index ::
      (if pe.infix_operator this_index ≠ operator then
        evaluate_one_operator_loop_accesses operator r (this_index + 1) pe
      else
        find_next_unused_accesses pe.num_and_op_used (pe.n_numbers - (this_index + 1))
            (this_index + 1) ++
          (match find_next_unused pe.num_and_op_used (pe.n_numbers - (this_index + 1))
              (this_index + 1) with
          | none => []
          | some next_index =>
            merge_numbers_accesses this_index next_index ++
              evaluate_one_operator_loop_accesses operator r (this_index + 1)
                (merge_numbers pe this_index next_index operator)))

/-- The accesses of one call of `evaluate_expression_one_operator`. -/
def evaluate_expression_one_operator_accesses {F : Type} [DoubleArith F]
    (p_parsed_expression : ParsedExpression_t F) (operator : Char) : List Access :=
  evaluate_one_operator_loop_accesses operator p_parsed_expression.n_infix_operators 0
    p_parsed_expression

/-- The writes of the first loop of `evaluate_expression`, which clears the
whole array `num_and_op_used[]`. -/
def evaluate_expression_reset_accesses : List Access :=
  (List.range MAX_NUMS_AND_OPS).map Access.num_and_op_used

/-- The accesses of `evaluate_expression` after its first loop: those of the
passes that are run, and the final read of `number[n_numbers - 1]` when no pass
raised an error. -/
def evaluate_expression_pass_accesses {F : Type} [DoubleArith F]
    (p_parsed_expression : ParsedExpression_t F) (error_ref_no : Nat) : List Access :=
  let pe0 : ParsedExpression_t F :=
    { p_parsed_expression with
      num_and_op_used := fun index =>
        if index < MAX_NUMS_AND_OPS then 0 else p_parsed_expression.num_and_op_used index }
  let r1 := evaluate_expression_one_operator pe0 'E' error_ref_no
  let a1 := evaluate_expression_one_operator_accesses pe0 'E'
  if r1.2 ≠ 0 then a1
  else
    let r2 := evaluate_expression_one_operator r1.1 '/' r1.2
    let a2 := a1 ++ evaluate_expression_one_operator_accesses r1.1 '/'
    if r2.2 ≠ 0 then a2
    else
      let r3 := evaluate_expression_one_operator r2.1 'x' r2.2
      let a3 := a2 ++ evaluate_expression_one_operator_accesses r2.1 'x'
      if r3.2 ≠ 0 then a3
      else
        let r4 := evaluate_expression_one_operator r3.1 '+' r3.2
        let a4 := a3 ++ evaluate_expression_one_operator_accesses r3.1 '+'
        if r4.2 ≠ 0 then a4
        else
          let r5 := evaluate_expression_one_operator r4.1 '-' r4.2
          let a5 := a4 ++ evaluate_expression_one_operator_accesses r4.1 '-'
          if r5.2 ≠ 0 then a5
          else a5 ++ [Access.number (r5.1.n_numbers - 1)]

/-- All array accesses of `evaluate_expression`, in order. -/
def evaluate_expression_accesses {F : Type} [DoubleArith F]
    (p_parsed_expression : ParsedExpression_t F) (error_ref_no : Nat) : List Access :=
  evaluate_expression_reset_accesses ++
    evaluate_expression_pass_accesses p_parsed_expression error_ref_no

/-! ## The entry point -/

/-- The function `CalculateAnswer`: returns the answer and `*p_error_ref_no`.
`parsed_expression` is the initial content of the automatic variable of that
name. -/
def CalculateAnswer {F : Type} [DoubleArith F] (parsed_expression : ParsedExpression_t F)
    (p_input_buffer : List Char) (input_buffer_size : Nat) : F × Nat :=
  let e1 := syntax_check_stage1 p_input_buffer input_buffer_size
  if e1 ≠ 0 then (DoubleArith.zero, e1)
  else
    let e2 := syntax_check_stage2 p_input_buffer e1
    if e2 ≠ 0 then (DoubleArith.zero, e2)
    else
      let t := identify_tokens p_input_buffer e2
        { parsed_expression with n_numbers := 0, n_infix_operators := 0 }
      if t.1 ≠ 0 then (DoubleArith.zero, t.1)
      else
        let e4 := syntax_check_stage3 t.2 t.1
        if e4 ≠ 0 then (DoubleArith.zero, e4)
        else evaluate_expression t.2 e4

/-- A `ParsedExpression_t` whose storage is all zeros. -/
def zeroed : ParsedExpression_t Dbl :=
  { number := fun _ => Dbl.fin 0, n_numbers := 0, infix_operator := fun _ => NUL,
    n_infix_operators := 0, num_and_op_used := fun _ => 0 }

/-! ## The character sets of the specification -/

/-- The allowed character set of the specification: `0-9 + - x / . E`. -/
def allowed_chars : List Char :=
  ['0', '1', '2', '3', '4', '5', '6', '7', '8', '9', '+', '-', 'x', '/', '.', 'E']

/-- The operator characters of the specification: `+ - x / E`. -/
def operator_chars : List Char := ['+', '-', 'x', '/', 'E']

/-- The adjacent operator pairs the specification allows: a minus sign after
`x`, after `/` or after `E`. -/
def allowed_pairs : List (Char × Char) := [('x', '-'), ('/', '-'), ('E', '-')]

/-- The operators that may not stand first: `+ x / E`. -/
def leading_forbidden : List Char := ['+', 'x', '/', 'E']

/-! ## The reference reduction of a token sequence -/

/-- One pass of the reference reduction: scanning the operators left to right,
every `a o b` whose operator `o` belongs to the tier is replaced by its value,
which becomes the left operand of what follows. -/
def reduce_pass {F : Type} [DoubleArith F] (tier : Char → Bool) :
    List F → List Char → List F × List Char
  | a :: b :: ns, o :: os =>
    if tier o then reduce_pass tier (merge_value o a b :: ns) os
    else (a :: (reduce_pass tier (b :: ns) os).1, o :: (reduce_pass tier (b :: ns) os).2)
  | ns, os => (ns, os)

/-- The passes for a list of tiers, one after the other. -/
def reduce_tiers {F : Type} [DoubleArith F] :
    List (Char → Bool) → List F → List Char → List F × List Char
  | [], ns, os => (ns, os)
  | t :: ts, ns, os => reduce_tiers ts (reduce_pass t ns os).1 (reduce_pass t ns os).2

/-- The value of a token sequence under a list of tiers: the single number
left when no operator remains. -/
def tier_value {F : Type} [DoubleArith F] (tiers : List (Char → Bool)) (ns : List F)
    (os : List Char) : Option F :=
  match reduce_tiers tiers ns os with
  | ([v], []) => some v
  | _ => none

/-- The tier order `E > {/, x} > {+, -}`. -/
def three_tiers : List (Char → Bool) :=
  [fun c => c == 'E', fun c => c == '/' || c == 'x', fun c => c == '+' || c == '-']

/-- The tier order `E > / > x > + > -`: the five passes of the evaluator. -/
def five_tiers : List (Char → Bool) :=
  [fun c => c == 'E', fun c => c == '/', fun c => c == 'x', fun c => c == '+', fun c => c == '-']

/-- The numbers of a parsed expression, in order. -/
def token_numbers {F : Type} (pe : ParsedExpression_t F) : List F :=
  (List.range pe.n_numbers).map pe.number

/-- The operators of a parsed expression, in order. -/
def token_operators {F : Type} (pe : ParsedExpression_t F) : List Char :=
  (List.range pe.n_infix_operators).map pe.infix_operator

/-- The numbers in the slots `i .. i + k` that are not marked used; slot
`i + k` is the last slot, which is never marked. -/
def live_numbers {F : Type} (number : Nat → F) (used : Nat → Nat) : Nat → Nat → List F
  | 0, i => [number i]
  | k + 1, i =>
    if used i = 0 then number i :: live_numbers number used k (i + 1)
    else live_numbers number used k (i + 1)

/-- The operators `i .. i + k - 1` whose left-hand slot is not marked used. -/
def live_operators (ops : Nat → Char) (used : Nat → Nat) : Nat → Nat → List Char
  | 0, _ => []
  | k + 1, i =>
    if used i = 0 then ops i :: live_operators ops used k (i + 1)
    else live_operators ops used k (i + 1)

/-- The invariant of the tokenizer loop at the loop head: either as many
operators as numbers have been read and the cursor stands at the start or
right after an operator, or one more number than operators has been read and
the cursor is at the end; the counts are within capacity and the operators
read are operator characters. -/
def TokInv {F : Type} (p : List Char) (buf_len : Nat) (st : TokState F) : Prop :=
  st.parsed.n_numbers ≤ MAX_NUMS_AND_OPS ∧
    (∀ l, l < st.parsed.n_infix_operators → is_infix_char (st.parsed.infix_operator l) = true) ∧
    ((st.parsed.n_numbers = st.parsed.n_infix_operators ∧ st.ch_no ≤ buf_len ∧
        (0 < st.ch_no → is_operator (charAt p (st.ch_no - 1)) = true)) ∨
      (st.parsed.n_numbers = st.parsed.n_infix_operators + 1 ∧ buf_len ≤ st.ch_no))

/-- The parsed expression that `CalculateAnswer` hands to the token validator
and the evaluator: the tokenizer's output from both counts at 0. -/
def parsed_tokens {F : Type} [DoubleArith F] (g : ParsedExpression_t F) (p : List Char) :
    ParsedExpression_t F :=
  (identify_tokens p 0 { g with n_numbers := 0, n_infix_operators := 0 }).2

/-- A parsed expression for the tokens of "1-2+3" whose used flags are all
stale (non-zero) on entry to the evaluator. -/
def stale_expression : ParsedExpression_t Dbl :=
  { number := fun i => Dbl.fin (i + 1), n_numbers := 3,
    infix_operator := fun i => if i = 0 then '-' else '+', n_infix_operators := 2,
    num_and_op_used := fun _ => 7 }

/-! ## Expressions as strings of tokens -/

/-- The characters a number token is made of: digits and the dot. -/
def is_number_char (c : Char) : Bool := isdigit c || c == '.'

/-- A number token as the tokenizer takes it in one piece: a non-empty run of
digits and dots of at most 49 characters. -/
def number_token (n : List Char) : Prop :=
  n ≠ [] ∧ n.length ≤ 49 ∧ ∀ c, c ∈ n → is_number_char c = true

/-- The string `n0 o1 n1 ... ok nk` for the first number `n0` and the list of
pairs `(oi, ni)`. -/
def expression_string : List Char → List (Char × List Char) → List Char
  | n0, [] => n0
  | n0, (o, n1) :: rest => n0 ++ o :: expression_string n1 rest

/-- The effect of `number[n_numbers++] = v`. -/
def push_number {F : Type} (pe : ParsedExpression_t F) (v : F) : ParsedExpression_t F :=
  { pe with number := setAt pe.number pe.n_numbers v, n_numbers := pe.n_numbers + 1 }

/-- The effect of `infix_operator[n_infix_operators++] = ch`. -/
def push_operator {F : Type} (pe : ParsedExpression_t F) (ch : Char) : ParsedExpression_t F :=
  { pe with
    infix_operator := setAt pe.infix_operator pe.n_infix_operators ch
    n_infix_operators := pe.n_infix_operators + 1 }

/-- The parsed expression after appending the tokens `n0 o1 n1 ... ok nk`, each
number converted by `simple_atof`. -/
def store_tokens {F : Type} [DoubleArith F] (pe : ParsedExpression_t F) :
    List Char → List (Char × List Char) → ParsedExpression_t F
  | n0, [] => push_number pe (simple_atof n0)
  | n0, (o, n1) :: rest =>
    store_tokens (push_operator (push_number pe (simple_atof n0)) o) n1 rest

/-- A number of the capacity claim: a string of 1 to 9 digits. -/
def digit_token (n : List Char) : Prop :=
  1 ≤ n.length ∧ n.length ≤ 9 ∧ ∀ c, c ∈ n → isdigit c = true

/-! ## Decimal values and decimal text -/

/-- The value of a digit character. -/
def digit_value (c : Char) : Nat := c.toNat - 48

/-- The decimal value of a digit string, by `value = value * 10 + digit`. -/
def nat_value (ds : List Char) : Nat := ds.foldl (fun v c => v * 10 + digit_value c) 0

/-- The value of the digits `f1 f2 ... fm` after a decimal point:
`f1/10 + f2/100 + ... + fm/10^m`. -/
def frac_value : List Char → ℚ
  | [] => 0
  | c :: cs => (digit_value c : ℚ) / 10 + frac_value cs / 10

/-- The character of a digit `0 .. 9`. -/
def digit_char (d : Nat) : Char := ['0', '1', '2', '3', '4', '5', '6', '7', '8', '9'].getD d '0'

/-- The text C's `%d` conversion gives for a non-negative number: its decimal
digits, most significant first, `0` for zero. -/
def format_nat (n : Nat) : List Char :=
  if n = 0 then ['0'] else (Nat.digits 10 n).reverse.map digit_char

/-- The text C's `%d` conversion gives for an `int`. -/
def format_d (z : Int) : List Char :=
  if z < 0 then '-' :: format_nat z.natAbs else format_nat z.toNat

/-- The text C's `%02d` conversion gives for a number from 0 to 99. -/
def format_02d (n : Nat) : List Char := [digit_char (n / 10 % 10), digit_char (n % 10)]

/-- The text `DisplayResult` builds with `snprintf(..., "%d.%02d", int_part,
frac_part)`, for `frac_part` from 0 to 99. -/
def format_result (int_part : Int) (frac_part : Nat) : List Char :=
  format_d int_part ++ '.' :: format_02d frac_part

/-- The text of a mantissa: the digits `ip`, optionally followed by a dot and
the digits `f`. -/
def mantissa_string (ip : List Char) (fp : Option (List Char)) : List Char :=
  match fp with
  | none => ip
  | some f => ip ++ '.' :: f

/-- Two tokenizer states that agree on everything the code can observe: the
cursor, the error number, the two counts, and the array entries below the
counts.  The entries at or beyond the counts and the used flags are free. -/
def Agree {F : Type} (s1 s2 : TokState F) : Prop :=
  s1.ch_no = s2.ch_no ∧ s1.error_ref_no = s2.error_ref_no ∧
    s1.parsed.n_numbers = s2.parsed.n_numbers ∧
    s1.parsed.n_infix_operators = s2.parsed.n_infix_operators ∧
    (∀ l, l < s1.parsed.n_numbers → s1.parsed.number l = s2.parsed.number l) ∧
    (∀ l, l < s1.parsed.n_infix_operators →
      s1.parsed.infix_operator l = s2.parsed.infix_operator l)

/-- A number written as a plain digit string that the tokenizer takes in one
piece and whose value fits the `int` accumulator of `simple_atof`: 1 to 49
digits, value at most 2147483647. -/
def plain_number (n : List Char) : Prop :=
  n ≠ [] ∧ n.length ≤ 49 ∧ (∀ c, c ∈ n → isdigit c = true) ∧ nat_value n < 2147483648

/-- The counts at a test of the loop condition of the tokenizer: at most 20
numbers, and either as many operators as numbers, or one operator fewer and
the cursor at the end. -/
def CountsAtHead {F : Type} (buf_len : Nat) (st : TokState F) : Prop :=
  st.parsed.n_numbers ≤ MAX_NUMS_AND_OPS ∧
    (st.parsed.n_numbers = st.parsed.n_infix_operators ∨
      (st.parsed.n_numbers = st.parsed.n_infix_operators + 1 ∧ buf_len ≤ st.ch_no))

/-- The bounds on the counts the specification states for every point of the
tokenizer. -/
def CountsBounded {F : Type} (pe : ParsedExpression_t F) : Prop :=
  pe.n_numbers ≤ pe.n_infix_operators + 1 ∧ pe.n_infix_operators ≤ pe.n_numbers ∧
    pe.n_numbers ≤ 20

/-! ## The input collector `ReadAndEchoInput` -/

/-- The assignment `a[i] = v` on a buffer indexed by an `int`. -/
def storeAt (a : Int → Char) (i : Int) (v : Char) : Int → Char :=
  fun k => if k = i then v else a k

/-- The state of `ReadAndEchoInput`: the contents of `input_buffer`, the local
variables `j`, `b_shift_key_pressed` and `b_cleared`, whether the function has
returned, and the log of the writes to `input_buffer` (index and character,
latest first). -/
structure ReadState where
  input_buffer : Int → Char
  j : Int
  b_shift_key_pressed : Bool
  b_cleared : Bool
  returned : Bool
  writes : List (Int × Char)

/-- The two statements `input_buffer[j++] = c; input_buffer[j] = '\0';`. -/
def append_char (st : ReadState) (c : Char) : ReadState :=
  { st with
    input_buffer := storeAt (storeAt st.input_buffer st.j c) (st.j + 1) NUL
    j := st.j + 1
    writes := (st.j + 1, NUL) :: (st.j, c) :: st.writes }

/-- The statement `b_shift_key_pressed = false;`. -/
def clear_shift (st : ReadState) : ReadState :=
  { st with b_shift_key_pressed := false }

/-- The two statements `j--; input_buffer[j] = '\0';` of the backspace. -/
def backspace (st : ReadState) : ReadState :=
  { st with
    j := st.j - 1
    input_buffer := storeAt st.input_buffer (st.j - 1) NUL
    writes := (st.j - 1, NUL) :: st.writes }

/-- The `switch (key)` of `ReadAndEchoInput`.  The cases `'0'` to `'9'` are
the characters `isdigit` accepts.  The calls that drive the display and the
waits are left out. -/
def ReadAndEchoInput_switch (st : ReadState) (key : Char) : ReadState :=
  if isdigit key then clear_shift (if st.j < 16 then append_char st key else st)
  else if key = 'A' then
    clear_shift (append_char st (if st.b_shift_key_pressed then 'x' else '+'))
  else if key = 'B' then
    clear_shift (append_char st (if st.b_shift_key_pressed then '/' else '-'))
  else if key = 'C' then
    clear_shift (append_char st (if st.b_shift_key_pressed then 'E' else '.'))
  else if key = 'D' then { st with b_shift_key_pressed := true }
  else if key = '#' then
    clear_shift
      (if st.b_shift_key_pressed then (if st.j > 0 then backspace st else st)
       else { st with j := 0 })
  else if key = '*' then { st with returned := true }
  else st

/-- One pass through the body of the `while (1)` loop of `ReadAndEchoInput`,
`key` being the value `get_keyboard_char()` returns in that pass: the test
that ends the loop when the buffer is full, the update of `b_cleared`, and the
`switch`. -/
def ReadAndEchoInput_iteration (input_buffer_size : Int) (st : ReadState) (key : Char) :
    ReadState :=
  if st.j ≥ input_buffer_size - 1 then
    { st with j := input_buffer_size - 1, returned := true }
  else
    ReadAndEchoInput_switch
      { st with b_cleared := if key ≠ '?' ∧ st.b_cleared = false then true else st.b_cleared }
      key

/-- The `while (1)` loop of `ReadAndEchoInput` on the successive values of
`get_keyboard_char()`: it runs until the function returns or the keys given
are used up. -/
def ReadAndEchoInput_loop (input_buffer_size : Int) : List Char → ReadState → ReadState
  | [], st => st
  | key :: keys, st =>
    if st.returned then st
    else ReadAndEchoInput_loop input_buffer_size keys
      (ReadAndEchoInput_iteration input_buffer_size st key)

/-- The function `ReadAndEchoInput` on a buffer with the given contents, for
the key events `keys`: the state when the function returns, or the state in
which it waits for the next key when the keys are used up before. -/
def ReadAndEchoInput (input_buffer : Int → Char) (input_buffer_size : Int) (keys : List Char) :
    ReadState :=
  ReadAndEchoInput_loop input_buffer_size keys
    { input_buffer := input_buffer, j := 0, b_shift_key_pressed := false, b_cleared := false,
      returned := false, writes := [] }

/-- The invariant of the loop of `ReadAndEchoInput`: the write index is within
`0 .. input_buffer_size - 1`, every write so far was at such an index, and
every character written is the terminator or a character of the allowed set. -/
def ReadInv (input_buffer_size : Int) (st : ReadState) : Prop :=
  0 ≤ st.j ∧ st.j ≤ input_buffer_size - 1 ∧
    ∀ w, w ∈ st.writes →
      0 ≤ w.1 ∧ w.1 ≤ input_buffer_size - 1 ∧ (w.2 = NUL ∨ w.2 ∈ allowed_chars)

/-- The buffer is changed only where the log says so. -/
def ReadFrame (input_buffer : Int → Char) (st : ReadState) : Prop :=
  ∀ i, (∀ w, w ∈ st.writes → w.1 ≠ i) → st.input_buffer i = input_buffer i

/-! ## The result display `DisplayResult` -/

/-- Truncation toward zero of a rational: the integer that the conversion
`(int)x` of C gives for the value `x`. -/
def truncate (q : ℚ) : Int := if 0 ≤ q then ⌊q⌋ else ⌈q⌉

/-- The conversion `(int)x` of a double of the model `Dbl`: the value
truncated toward zero; `none` when the behaviour is undefined in C (the value
is not finite or the truncated value is not a 32-bit `int`).  The conversion
of C is exact, so this is its result on every double. -/
def Dbl.to_int : Dbl → Option Int
  | Dbl.fin q =>
    if -2147483648 ≤ truncate q ∧ truncate q ≤ 2147483647 then some (truncate q) else none
  | _ => none

/-- The conversion `(int)x` of a `double`, for the arithmetic `F`: the `int`
it yields, or `none` where the behaviour is undefined in C. -/
class DoubleToInt (F : Type) where
  /-- `(int)x` -/
  to_int : F → Option Int

instance : DoubleToInt Dbl where
  to_int := Dbl.to_int

/-- The text C's `%02d` conversion gives for an `int`: at least two
characters, a number of one digit being padded with a zero on the left. -/
def format_02d_int (z : Int) : List Char :=
  if z < 0 then '-' :: format_nat z.natAbs
  else if z < 10 then '0' :: format_nat z.toNat
  else format_nat z.toNat

/-- The function `DisplayResult`: the text it hands to `print_string`, or
`none` when a conversion to `int` is undefined.  The difference
`answer - int_part` and the product by 100 are those of the arithmetic `F`;
the change of sign of `frac_part` is that of an `int` (`wrap_int`); `snprintf`
with the size 20 keeps at most 19 characters. -/
def DisplayResult {F : Type} [DoubleArith F] [DoubleToInt F] (answer : F) :
    Option (List Char) :=
  match DoubleToInt.to_int answer with
  | none => none
  | some int_part =>
    match DoubleToInt.to_int (DoubleArith.mul
      (DoubleArith.sub answer (DoubleArith.ofInt int_part)) (DoubleArith.ofInt 100)) with
    | none => none
    | some frac_part =>
      let frac_part1 : Int := if frac_part < 0 then wrap_int (-frac_part) else frac_part
      some ((format_d int_part ++ '.' :: format_02d_int frac_part1).take 19)

/-! ## Facts about strings and the character validator -/

theorem charAt_cons_zero (c : Char) (cs : List Char) : charAt (c :: cs) 0 = c := rfl

theorem charAt_cons_succ (c : Char) (cs : List Char) (i : Nat) :
    charAt (c :: cs) (i + 1) = charAt cs i := rfl

/-- The character at index `strlen p` is the terminator. -/
theorem charAt_strlen (p : List Char) : charAt p (strlen p) = NUL := by
  induction p with
  | nil => rfl
  | cons c cs ih =>
    unfold strlen
    split
    · rw [charAt_cons_zero]; assumption
    · rw [charAt_cons_succ]; exact ih

/-- No character before index `strlen p` is the terminator. -/
theorem charAt_ne_NUL_of_lt_strlen (p : List Char) (i : Nat) (h : i < strlen p) :
    charAt p i ≠ NUL := by
  induction p generalizing i with
  | nil => simp [strlen] at h
  | cons c cs ih =>
    unfold strlen at h
    split at h
    · omega
    · cases i with
      | zero => rw [charAt_cons_zero]; assumption
      | succ j => rw [charAt_cons_succ]; exact ih j (by omega)

/-- The terminator search yields 0 or 3. -/
theorem stage1_find_null_cases (p : List Char) (r i : Nat) :
    stage1_find_null p r i = 0 ∨ stage1_find_null p r i = 3 := by
  induction r generalizing i with
  | zero => right; rfl
  | succ r ih =>
    unfold stage1_find_null
    split
    · left; rfl
    · exact ih (i + 1)

/-- The terminator search yields 0 exactly when a terminator is in range. -/
theorem stage1_find_null_eq_zero_iff (p : List Char) (r i : Nat) :
    stage1_find_null p r i = 0 ↔ ∃ j, i ≤ j ∧ j < i + r ∧ charAt p j = NUL := by
  induction r generalizing i with
  | zero =>
    constructor
    · intro h; simp [stage1_find_null] at h
    · rintro ⟨j, h1, h2, _⟩; omega
  | succ r ih =>
    unfold stage1_find_null
    split
    · rename_i h
      constructor
      · intro _; exact ⟨i, Nat.le_refl _, by omega, h⟩
      · intro _; rfl
    · rename_i h
      rw [ih (i + 1)]
      constructor
      · rintro ⟨j, h1, h2, h3⟩; exact ⟨j, by omega, by omega, h3⟩
      · rintro ⟨j, h1, h2, h3⟩
        have : j ≠ i := by rintro rfl; exact h h3
        exact ⟨j, by omega, by omega, h3⟩

/-- When the terminator search succeeds the string is shorter than the
capacity. -/
theorem strlen_lt_of_find_null (p : List Char) (cap : Nat)
    (h : stage1_find_null p cap 0 = 0) : strlen p < cap := by
  obtain ⟨j, _, h2, h3⟩ := (stage1_find_null_eq_zero_iff p cap 0).1 h
  by_contra hc
  exact charAt_ne_NUL_of_lt_strlen p j (by omega) h3

/-- The character scan yields 0 or 4. -/
theorem stage1_invalid_char_cases (p : List Char) (r i : Nat) :
    stage1_invalid_char p r i = 0 ∨ stage1_invalid_char p r i = 4 := by
  induction r generalizing i with
  | zero => left; rfl
  | succ r ih =>
    unfold stage1_invalid_char
    split
    · exact ih (i + 1)
    · right; rfl

/-- The character scan yields 4 exactly when a character in range is not one
that the `switch` lets through. -/
theorem stage1_invalid_char_eq_four_iff (p : List Char) (r i : Nat) :
    stage1_invalid_char p r i = 4 ↔
      ∃ j, i ≤ j ∧ j < i + r ∧ stage1_valid_char (charAt p j) = false := by
  induction r generalizing i with
  | zero =>
    constructor
    · intro h; simp [stage1_invalid_char] at h
    · rintro ⟨j, h1, h2, _⟩; omega
  | succ r ih =>
    unfold stage1_invalid_char
    split
    · rename_i h
      rw [ih (i + 1)]
      constructor
      · rintro ⟨j, h1, h2, h3⟩; exact ⟨j, by omega, by omega, h3⟩
      · rintro ⟨j, h1, h2, h3⟩
        have : j ≠ i := by rintro rfl; rw [h] at h3; exact Bool.noConfusion h3
        exact ⟨j, by omega, by omega, h3⟩
    · rename_i h
      constructor
      · intro _; exact ⟨i, Nat.le_refl _, by omega, by simpa using h⟩
      · intro _; rfl

/-- The character validator yields one of 0, 2, 3, 4. -/
theorem syntax_check_stage1_cases (p : List Char) (cap : Nat) :
    syntax_check_stage1 p cap = 0 ∨ syntax_check_stage1 p cap = 2 ∨
      syntax_check_stage1 p cap = 3 ∨ syntax_check_stage1 p cap = 4 := by
  unfold syntax_check_stage1
  split
  · right; left; rfl
  · split
    · right; right; left; rfl
    · rcases stage1_invalid_char_cases p (strlen p % 256) 0 with h | h
      · left; exact h
      · right; right; right; exact h

/-- What passing the character validator means. -/
theorem syntax_check_stage1_eq_zero (p : List Char) (cap : Nat)
    (h : syntax_check_stage1 p cap = 0) :
    charAt p 0 ≠ NUL ∧ strlen p < cap ∧ 0 < strlen p ∧
      stage1_invalid_char p (strlen p % 256) 0 = 0 := by
  unfold syntax_check_stage1 at h
  split at h
  · simp at h
  · rename_i h0
    split at h
    · simp at h
    · rename_i h1
      have h1' : stage1_find_null p cap 0 = 0 := by simpa using h1
      refine ⟨h0, strlen_lt_of_find_null p cap h1', ?_, h⟩
      by_contra hc
      have hz : strlen p = 0 := by omega
      have := charAt_strlen p
      rw [hz] at this
      exact h0 this

/-! ## Which error numbers each stage can leave -/

/-- The operator-position validator leaves 7, 8, 9, 11 or the number it was
entered with. -/
theorem syntax_check_stage2_cases (p : List Char) (e : Nat) :
    syntax_check_stage2 p e = 7 ∨ syntax_check_stage2 p e = 8 ∨ syntax_check_stage2 p e = 9 ∨
      syntax_check_stage2 p e = 11 ∨ syntax_check_stage2 p e = e := by
  unfold syntax_check_stage2
  dsimp only
  split_ifs <;> simp

/-- The function `extract_number` leaves 1, 6 or the number it was entered with. -/
theorem extract_number_error_cases {F : Type} [DoubleArith F] (p : List Char) (buf_len : Nat)
    (st : TokState F) :
    (extract_number p buf_len st).error_ref_no = st.error_ref_no ∨
      (extract_number p buf_len st).error_ref_no = 1 ∨
      (extract_number p buf_len st).error_ref_no = 6 := by
  unfold extract_number
  dsimp only
  split_ifs <;> simp

/-- The function `extract_operator` leaves 1, 7 or the number it was entered with. -/
theorem extract_operator_error_cases {F : Type} (p : List Char) (buf_len : Nat)
    (st : TokState F) :
    (extract_operator p buf_len st).error_ref_no = st.error_ref_no ∨
      (extract_operator p buf_len st).error_ref_no = 1 ∨
      (extract_operator p buf_len st).error_ref_no = 7 := by
  unfold extract_operator
  dsimp only
  split_ifs <;> simp

/-- One iteration of the tokenizer loop, written out. -/
theorem identify_tokens_loop_unfold {F : Type} [DoubleArith F] (p : List Char) (buf_len : Nat)
    (st : TokState F) :
    identify_tokens_loop p buf_len st =
      if st.ch_no < buf_len then
        if (isdigit (charAt p st.ch_no) || charAt p st.ch_no == '.') = true then
          if (extract_number p buf_len st).error_ref_no ≠ 0 then extract_number p buf_len st
          else if (after_number p buf_len st).ch_no < buf_len then
            if is_infix_char (charAt p (after_number p buf_len st).ch_no) = true then
              if (extract_operator p buf_len (after_number p buf_len st)).error_ref_no ≠ 0 then
                extract_operator p buf_len (after_number p buf_len st)
              else identify_tokens_loop p buf_len
                (extract_operator p buf_len (after_number p buf_len st))
            else { after_number p buf_len st with error_ref_no := 7 }
          else identify_tokens_loop p buf_len (after_number p buf_len st)
        else { st with error_ref_no := 6 }
      else st := by
  rw [identify_tokens_loop]
  rfl

/-- The tokenizer loop leaves 1, 6, 7 or the number it was entered with. -/
theorem identify_tokens_loop_error_cases {F : Type} [inst : DoubleArith F] (p : List Char)
    (buf_len : Nat) (st : TokState F) :
    (identify_tokens_loop p buf_len st).error_ref_no = st.error_ref_no ∨
      (identify_tokens_loop p buf_len st).error_ref_no = 1 ∨
      (identify_tokens_loop p buf_len st).error_ref_no = 6 ∨
      (identify_tokens_loop p buf_len st).error_ref_no = 7 := by
  induction st using @identify_tokens_loop.induct F inst p buf_len with
  | case1 x hlt hd st1 he =>
    have he1 : (extract_number p buf_len x).error_ref_no ≠ 0 := he
    rw [identify_tokens_loop, dif_pos hlt, dif_pos hd]
    simp only [if_pos he1]
    have hn := extract_number_error_cases p buf_len x
    omega
  | case2 x hlt hd st1 he st2 hlt2 hop st3 he3 =>
    have he1 : ¬ (extract_number p buf_len x).error_ref_no ≠ 0 := he
    have hlt2a : (after_number p buf_len x).ch_no < buf_len := hlt2
    have hopa : is_infix_char (charAt p (after_number p buf_len x).ch_no) = true := hop
    have he3a : (extract_operator p buf_len (after_number p buf_len x)).error_ref_no ≠ 0 := he3
    rw [identify_tokens_loop_unfold, if_pos hlt, if_pos hd, if_neg he1, if_pos hlt2a, if_pos hopa,
      if_pos he3a]
    have hn := extract_number_error_cases p buf_len x
    have h2 := extract_operator_error_cases p buf_len (after_number p buf_len x)
    have h3 : (after_number p buf_len x).error_ref_no = (extract_number p buf_len x).error_ref_no :=
      rfl
    omega
  | case3 x hlt hd st1 he st2 hlt2 hop st3 he3 ih =>
    have he1 : ¬ (extract_number p buf_len x).error_ref_no ≠ 0 := he
    have hlt2a : (after_number p buf_len x).ch_no < buf_len := hlt2
    have hopa : is_infix_char (charAt p (after_number p buf_len x).ch_no) = true := hop
    have he3a : ¬ (extract_operator p buf_len (after_number p buf_len x)).error_ref_no ≠ 0 := he3
    have iha : (identify_tokens_loop p buf_len
        (extract_operator p buf_len (after_number p buf_len x))).error_ref_no =
          (extract_operator p buf_len (after_number p buf_len x)).error_ref_no ∨
        (identify_tokens_loop p buf_len
          (extract_operator p buf_len (after_number p buf_len x))).error_ref_no = 1 ∨
        (identify_tokens_loop p buf_len
          (extract_operator p buf_len (after_number p buf_len x))).error_ref_no = 6 ∨
        (identify_tokens_loop p buf_len
          (extract_operator p buf_len (after_number p buf_len x))).error_ref_no = 7 := ih
    rw [identify_tokens_loop_unfold, if_pos hlt, if_pos hd, if_neg he1, if_pos hlt2a, if_pos hopa,
      if_neg he3a]
    have hn := extract_number_error_cases p buf_len x
    omega
  | case4 x hlt hd st1 he st2 hlt2 hop =>
    have he1 : ¬ (extract_number p buf_len x).error_ref_no ≠ 0 := he
    have hlt2a : (after_number p buf_len x).ch_no < buf_len := hlt2
    have hopa : ¬ is_infix_char (charAt p (after_number p buf_len x).ch_no) = true := hop
    rw [identify_tokens_loop_unfold, if_pos hlt, if_pos hd, if_neg he1, if_pos hlt2a, if_neg hopa]
    simp
  | case5 x hlt hd st1 he st2 hlt2 ih =>
    have he1 : ¬ (extract_number p buf_len x).error_ref_no ≠ 0 := he
    have hlt2a : ¬ (after_number p buf_len x).ch_no < buf_len := hlt2
    have iha : (identify_tokens_loop p buf_len (after_number p buf_len x)).error_ref_no =
          (after_number p buf_len x).error_ref_no ∨
        (identify_tokens_loop p buf_len (after_number p buf_len x)).error_ref_no = 1 ∨
        (identify_tokens_loop p buf_len (after_number p buf_len x)).error_ref_no = 6 ∨
        (identify_tokens_loop p buf_len (after_number p buf_len x)).error_ref_no = 7 := ih
    rw [identify_tokens_loop_unfold, if_pos hlt, if_pos hd, if_neg he1, if_neg hlt2a]
    have hn := extract_number_error_cases p buf_len x
    have h3 : (after_number p buf_len x).error_ref_no = (extract_number p buf_len x).error_ref_no :=
      rfl
    omega
  | case6 x hlt hd =>
    rw [identify_tokens_loop, dif_pos hlt, dif_neg hd]
    simp
  | case7 x hlt =>
    rw [identify_tokens_loop, dif_neg hlt]
    simp

/-- The token validator leaves 10 or the number it was entered with. -/
theorem syntax_check_stage3_cases {F : Type} (pe : ParsedExpression_t F) (e : Nat) :
    syntax_check_stage3 pe e = 10 ∨ syntax_check_stage3 pe e = e := by
  unfold syntax_check_stage3
  split_ifs <;> simp

/-- One evaluator pass leaves 1 or the number it was entered with. -/
theorem evaluate_one_operator_loop_error_cases {F : Type} [DoubleArith F] (op : Char)
    (r i : Nat) (pe : ParsedExpression_t F) (e : Nat) :
    (evaluate_one_operator_loop op r i pe e).2 = e ∨
      (evaluate_one_operator_loop op r i pe e).2 = 1 := by
  induction r generalizing i pe with
  | zero => left; rfl
  | succ r ih =>
    unfold evaluate_one_operator_loop
    split
    · exact ih _ _
    · split
      · right; rfl
      · exact ih _ _

/-- One evaluator pass leaves 1 or the number it was entered with. -/
theorem evaluate_expression_one_operator_cases {F : Type} [DoubleArith F]
    (pe : ParsedExpression_t F) (op : Char) (e : Nat) :
    (evaluate_expression_one_operator pe op e).2 = e ∨
      (evaluate_expression_one_operator pe op e).2 = 1 :=
  evaluate_one_operator_loop_error_cases op _ 0 pe e

/-- The evaluator returns the value 0.0 together with error 1, or a value
together with the error number it was entered with. -/
theorem evaluate_expression_cases {F : Type} [DoubleArith F] (pe : ParsedExpression_t F)
    (e : Nat) :
    evaluate_expression pe e = (DoubleArith.zero, 1) ∨
      (e ≠ 0 ∧ evaluate_expression pe e = (DoubleArith.zero, e)) ∨
      (e = 0 ∧ (evaluate_expression pe e).2 = 0) := by
  unfold evaluate_expression
  dsimp only
  generalize ({ pe with num_and_op_used := fun index =>
      if index < MAX_NUMS_AND_OPS then 0 else pe.num_and_op_used index } :
      ParsedExpression_t F) = pe0
  have h1 := evaluate_expression_one_operator_cases pe0 'E' e
  generalize evaluate_expression_one_operator pe0 'E' e = r1 at h1 ⊢
  have h2 := evaluate_expression_one_operator_cases r1.1 '/' r1.2
  generalize evaluate_expression_one_operator r1.1 '/' r1.2 = r2 at h2 ⊢
  have h3 := evaluate_expression_one_operator_cases r2.1 'x' r2.2
  generalize evaluate_expression_one_operator r2.1 'x' r2.2 = r3 at h3 ⊢
  have h4 := evaluate_expression_one_operator_cases r3.1 '+' r3.2
  generalize evaluate_expression_one_operator r3.1 '+' r3.2 = r4 at h4 ⊢
  have h5 := evaluate_expression_one_operator_cases r4.1 '-' r4.2
  generalize evaluate_expression_one_operator r4.1 '-' r4.2 = r5 at h5 ⊢
  by_cases he : e = 0
  · subst he
    split_ifs with a1 a2 a3 a4 a5
    · left; rw [show r1.2 = 1 by omega]
    · left; rw [show r2.2 = 1 by omega]
    · left; rw [show r3.2 = 1 by omega]
    · left; rw [show r4.2 = 1 by omega]
    · left; rw [show r5.2 = 1 by omega]
    · right; right; exact ⟨rfl, by simpa using a5⟩
  · split_ifs with a1 a2 a3 a4 a5
    · rcases h1 with h | h
      · right; left; exact ⟨he, by rw [h]⟩
      · left; rw [h]
    · omega
    · omega
    · omega
    · omega
    · omega

/-- The pipeline, stage by stage: the character validator's error, or the
operator-position validator's, or one of the numbers the later stages can
leave; a non-zero error comes with the value 0.0. -/
theorem CalculateAnswer_stages {F : Type} [DoubleArith F] (g : ParsedExpression_t F)
    (p : List Char) (cap : Nat) :
    (syntax_check_stage1 p cap ≠ 0 ∧
        CalculateAnswer g p cap = (DoubleArith.zero, syntax_check_stage1 p cap)) ∨
      (syntax_check_stage1 p cap = 0 ∧ syntax_check_stage2 p 0 ≠ 0 ∧
        CalculateAnswer g p cap = (DoubleArith.zero, syntax_check_stage2 p 0)) ∨
      (syntax_check_stage1 p cap = 0 ∧ syntax_check_stage2 p 0 = 0 ∧
        ((CalculateAnswer g p cap).2 = 0 ∨
          CalculateAnswer g p cap = (DoubleArith.zero, 1) ∨
          CalculateAnswer g p cap = (DoubleArith.zero, 6) ∨
          CalculateAnswer g p cap = (DoubleArith.zero, 7) ∨
          CalculateAnswer g p cap = (DoubleArith.zero, 10))) := by
  unfold CalculateAnswer
  dsimp only
  by_cases h1 : syntax_check_stage1 p cap = 0
  · right
    rw [h1]
    by_cases h2 : syntax_check_stage2 p 0 = 0
    · right
      refine ⟨rfl, h2, ?_⟩
      rw [h2]
      simp only [ne_eq, not_true_eq_false, if_false]
      have h3 := identify_tokens_loop_error_cases p (strlen p % 256)
        ({ ch_no := 0, parsed := { g with n_numbers := 0, n_infix_operators := 0 },
           error_ref_no := 0 } : TokState F)
      unfold identify_tokens
      dsimp only at h3 ⊢
      generalize identify_tokens_loop p (strlen p % 256)
        ({ ch_no := 0, parsed := { g with n_numbers := 0, n_infix_operators := 0 },
           error_ref_no := 0 } : TokState F) = st at h3 ⊢
      by_cases h3z : st.error_ref_no = 0
      · rw [h3z]
        simp only [not_true_eq_false, if_false]
        rcases syntax_check_stage3_cases st.parsed 0 with h4 | h4
        · rw [h4]; simp
        · rw [h4]
          simp only [not_true_eq_false, if_false]
          rcases evaluate_expression_cases st.parsed 0 with h5 | h5 | h5
          · right; left; exact h5
          · exact absurd rfl h5.1
          · left; exact h5.2
      · rw [if_pos h3z]
        rcases h3 with h | h | h | h
        · exact absurd h h3z
        · rw [h]; simp
        · rw [h]; simp
        · rw [h]; simp
    · left
      refine ⟨rfl, h2, ?_⟩
      rw [if_neg (by simp), if_pos h2]
  · left
    exact ⟨h1, by rw [if_pos h1]⟩

theorem isdigit_iff (c : Char) :
    isdigit c = true ↔ c ∈ ['0', '1', '2', '3', '4', '5', '6', '7', '8', '9'] := by
  constructor
  · intro h
    have h' : 48 ≤ c.toNat ∧ c.toNat ≤ 57 := by simpa [isdigit] using h
    rw [← Char.ofNat_toNat c]
    generalize c.toNat = n at h'
    obtain ⟨h1, h2⟩ := h'
    interval_cases n <;> decide
  · intro h
    simp only [List.mem_cons, List.mem_singleton, List.not_mem_nil, or_false] at h
    rcases h with h | h | h | h | h | h | h | h | h | h <;> subst h <;> decide

/-- The `switch` of the character validator accepts exactly the allowed set. -/
theorem stage1_valid_char_iff (c : Char) : stage1_valid_char c = true ↔ c ∈ allowed_chars := by
  unfold stage1_valid_char allowed_chars
  simp only [Bool.or_eq_true, beq_iff_eq, isdigit_iff, List.mem_cons, List.mem_singleton,
    List.not_mem_nil, or_false]
  tauto

/-- The function `is_operator` accepts exactly the operator characters. -/
theorem is_operator_iff (c : Char) : is_operator c = true ↔ c ∈ operator_chars := by
  unfold is_operator operator_chars
  simp only [Bool.or_eq_true, beq_iff_eq, List.mem_cons, List.mem_singleton,
    List.not_mem_nil, or_false]
  tauto

/-- The error number of the pipeline, stage by stage. -/
theorem CalculateAnswer_error_stages {F : Type} [DoubleArith F] (g : ParsedExpression_t F)
    (p : List Char) (cap : Nat) :
    (syntax_check_stage1 p cap ≠ 0 ∧ (CalculateAnswer g p cap).2 = syntax_check_stage1 p cap) ∨
      (syntax_check_stage1 p cap = 0 ∧ syntax_check_stage2 p 0 ≠ 0 ∧
        (CalculateAnswer g p cap).2 = syntax_check_stage2 p 0) ∨
      (syntax_check_stage1 p cap = 0 ∧ syntax_check_stage2 p 0 = 0 ∧
        ((CalculateAnswer g p cap).2 = 0 ∨ (CalculateAnswer g p cap).2 = 1 ∨
          (CalculateAnswer g p cap).2 = 6 ∨ (CalculateAnswer g p cap).2 = 7 ∨
          (CalculateAnswer g p cap).2 = 10)) := by
  rcases CalculateAnswer_stages g p cap with ⟨h1, h⟩ | ⟨h1, h2, h⟩ | ⟨h1, h2, h⟩
  · left; exact ⟨h1, by rw [h]⟩
  · right; left; exact ⟨h1, h2, by rw [h]⟩
  · right; right
    refine ⟨h1, h2, ?_⟩
    rcases h with h | h | h | h | h
    · left; exact h
    · right; left; rw [h]
    · right; right; left; rw [h]
    · right; right; right; left; rw [h]
    · right; right; right; right; rw [h]

/-- The character validator on a non-empty string terminated within the
capacity is the character scan over the whole string. -/
theorem syntax_check_stage1_terminated (p : List Char) (cap : Nat) (h0 : charAt p 0 ≠ NUL)
    (hterm : strlen p < cap) :
    syntax_check_stage1 p cap = stage1_invalid_char p (strlen p % 256) 0 := by
  have hf : stage1_find_null p cap 0 = 0 :=
    (stage1_find_null_eq_zero_iff p cap 0).2 ⟨strlen p, Nat.zero_le _, by omega, charAt_strlen p⟩
  unfold syntax_check_stage1
  rw [if_neg h0, hf]
  simp

/-- The adjacency scan raises error 9 exactly when some pair in range is a
pair of operators outside the three exceptions. -/
theorem stage2_adjacent_iff (p : List Char) (r i : Nat) :
    stage2_adjacent p r i = true ↔
      ∃ j, i ≤ j ∧ j < i + r ∧ stage2_pair_okay (charAt p j) (charAt p (j + 1)) = false := by
  induction r generalizing i with
  | zero =>
    constructor
    · intro h; simp [stage2_adjacent] at h
    · rintro ⟨j, h1, h2, _⟩; omega
  | succ r ih =>
    unfold stage2_adjacent
    split
    · rename_i h
      rw [ih (i + 1)]
      constructor
      · rintro ⟨j, h1, h2, h3⟩; exact ⟨j, by omega, by omega, h3⟩
      · rintro ⟨j, h1, h2, h3⟩
        have : j ≠ i := by rintro rfl; rw [h] at h3; exact Bool.noConfusion h3
        exact ⟨j, by omega, by omega, h3⟩
    · rename_i h
      constructor
      · intro _; exact ⟨i, Nat.le_refl _, by omega, by simpa using h⟩
      · intro _; rfl

/-- The pair test fails exactly on two operator characters that do not form
one of the three allowed pairs. -/
theorem stage2_pair_okay_eq_false_iff (c1 c2 : Char) :
    stage2_pair_okay c1 c2 = false ↔
      c1 ∈ operator_chars ∧ c2 ∈ operator_chars ∧ (c1, c2) ∉ allowed_pairs := by
  unfold stage2_pair_okay
  rw [← is_operator_iff, ← is_operator_iff]
  unfold allowed_pairs
  cases h1 : is_operator c1 <;> cases h2 : is_operator c2 <;>
    simp only [Bool.and_true, Bool.and_false, Bool.false_and, if_true, if_false, Bool.and_self,
      Bool.false_eq_true, false_and, and_false, true_and, Bool.and_eq_false_imp,
      List.mem_cons, List.mem_singleton, List.not_mem_nil, or_false, Prod.mk.injEq,
      Bool.true_eq_false, reduceCtorEq]
  simp only [Bool.and_eq_true, Bool.or_eq_true, beq_iff_eq, Bool.decide_eq_false, not_and,
    Bool.not_eq_true, beq_eq_false_iff_ne, ne_eq, not_or]
  by_cases hc : c2 = '-' <;> simp [hc]
  tauto

/-! ## Claims about the error contract -/

/-- Claim C2.  Whenever the error number set by `CalculateAnswer` is non-zero,
the returned value is 0.0, whichever stage raised the error. -/
theorem CalculateAnswer_error_value {F : Type} [DoubleArith F] (g : ParsedExpression_t F)
    (p : List Char) (cap : Nat) (h : (CalculateAnswer g p cap).2 ≠ 0) :
    CalculateAnswer g p cap = (DoubleArith.zero, (CalculateAnswer g p cap).2) := by
  rcases CalculateAnswer_stages g p cap with ⟨_, h1⟩ | ⟨_, _, h1⟩ | ⟨_, _, h1⟩
  · rw [h1]
  · rw [h1]
  · rcases h1 with h1 | h1 | h1 | h1 | h1
    · exact absurd h1 h
    · rw [h1]
    · rw [h1]
    · rw [h1]
    · rw [h1]

theorem CalculateAnswer_error_value_witness :
    (CalculateAnswer zeroed ['5', '+'] 3).2 ≠ 0 ∧
      CalculateAnswer zeroed ['5', '+'] 3 = (Dbl.fin 0, 8) :=
  ⟨by decide!, (CalculateAnswer_error_value zeroed ['5', '+'] 3 (by decide!)).trans (by decide!)⟩

/-- Claim C3.  A buffer whose first character is the terminator gives error 2
and the value 0.0, for every capacity. -/
theorem CalculateAnswer_empty_input {F : Type} [DoubleArith F] (g : ParsedExpression_t F)
    (p : List Char) (cap : Nat) (h : charAt p 0 = NUL) :
    CalculateAnswer g p cap = (DoubleArith.zero, 2) := by
  have h1 : syntax_check_stage1 p cap = 2 := by
    unfold syntax_check_stage1
    rw [if_pos h]
  unfold CalculateAnswer
  simp [h1]

theorem CalculateAnswer_empty_input_witness :
    charAt [] 0 = NUL ∧ CalculateAnswer zeroed [] 0 = (Dbl.fin 0, 2) :=
  ⟨rfl, CalculateAnswer_empty_input zeroed [] 0 rfl⟩

/-- Claim C4.  For a buffer whose first character is not the terminator: if
none of its first `cap` characters is the terminator the result is error 3
with value 0.0, whatever the characters are; and if the string ends within the
capacity (length at most `cap - 1`) the error is never 3. -/
theorem CalculateAnswer_missing_terminator {F : Type} [DoubleArith F]
    (g : ParsedExpression_t F) (p : List Char) (cap : Nat) (h0 : charAt p 0 ≠ NUL) :
    ((∀ i, i < cap → charAt p i ≠ NUL) → CalculateAnswer g p cap = (DoubleArith.zero, 3)) ∧
      (strlen p + 1 ≤ cap → (CalculateAnswer g p cap).2 ≠ 3) := by
  constructor
  · intro hno
    have hf : stage1_find_null p cap 0 ≠ 0 := by
      intro hz
      obtain ⟨j, _, h2, h3⟩ := (stage1_find_null_eq_zero_iff p cap 0).1 hz
      exact hno j (by omega) h3
    have h1 : syntax_check_stage1 p cap = 3 := by
      unfold syntax_check_stage1
      rw [if_neg h0, if_pos hf]
    unfold CalculateAnswer
    simp [h1]
  · intro hlen
    have h1 := syntax_check_stage1_terminated p cap h0 (by omega)
    have h2 := stage1_invalid_char_cases p (strlen p % 256) 0
    have h3 := syntax_check_stage2_cases p 0
    have h4 := CalculateAnswer_error_stages g p cap
    omega

theorem CalculateAnswer_missing_terminator_witness :
    (charAt ['1', 'a', '+'] 0 ≠ NUL ∧ CalculateAnswer zeroed ['1', 'a', '+'] 3 = (Dbl.fin 0, 3)) ∧
      (strlen ['1', 'a', '+'] + 1 ≤ 4 ∧ (CalculateAnswer zeroed ['1', 'a', '+'] 4).2 ≠ 3) :=
  ⟨⟨by decide, (CalculateAnswer_missing_terminator zeroed ['1', 'a', '+'] 3 (by decide)).1
      (by decide)⟩,
    ⟨by decide, (CalculateAnswer_missing_terminator zeroed ['1', 'a', '+'] 4 (by decide)).2
      (by decide)⟩⟩

/-- Claim C5.  For a non-empty string terminated within the capacity, the
error is 4 exactly when some character of the string lies outside the allowed
set `0-9 + - x / . E`, whatever else is wrong with the string. -/
theorem CalculateAnswer_invalid_char {F : Type} [DoubleArith F] (g : ParsedExpression_t F)
    (p : List Char) (cap : Nat) (h0 : charAt p 0 ≠ NUL) (hterm : strlen p < cap)
    (hcap : cap < 256) :
    (CalculateAnswer g p cap).2 = 4 ↔ ∃ i, i < strlen p ∧ charAt p i ∉ allowed_chars := by
  have h1 := syntax_check_stage1_terminated p cap h0 hterm
  rw [Nat.mod_eq_of_lt (by omega)] at h1
  have h2 := stage1_invalid_char_eq_four_iff p (strlen p) 0
  have h3 := syntax_check_stage2_cases p 0
  have h4 := CalculateAnswer_error_stages g p cap
  have h5 := stage1_invalid_char_cases p (strlen p) 0
  have key : (CalculateAnswer g p cap).2 = 4 ↔ stage1_invalid_char p (strlen p) 0 = 4 := by
    omega
  rw [key, h2]
  constructor
  · rintro ⟨j, _, hj, hv⟩
    refine ⟨j, by omega, ?_⟩
    rw [← stage1_valid_char_iff, hv]
    simp
  · rintro ⟨j, hj, hv⟩
    refine ⟨j, Nat.zero_le _, by omega, ?_⟩
    rw [← stage1_valid_char_iff] at hv
    simpa using hv

theorem CalculateAnswer_invalid_char_witness :
    (charAt ['+', ' ', '+'] 0 ≠ NUL ∧ strlen ['+', ' ', '+'] < 4 ∧ 4 < 256) ∧
      (CalculateAnswer zeroed ['+', ' ', '+'] 4).2 = 4 ∧
      ∃ i, i < strlen ['+', ' ', '+'] ∧ charAt ['+', ' ', '+'] i ∉ allowed_chars :=
  ⟨⟨by decide, by decide, by decide⟩, by decide!,
    (CalculateAnswer_invalid_char zeroed ['+', ' ', '+'] 4 (by decide) (by decide)
      (by decide)).1 (by decide!)⟩

/-- Claim C6.  An input that passes the character validator and starts with one
of `+ x / E` gives error 7, whatever follows. -/
theorem CalculateAnswer_leading_operator {F : Type} [DoubleArith F] (g : ParsedExpression_t F)
    (p : List Char) (cap : Nat) (h1 : syntax_check_stage1 p cap = 0)
    (hc : charAt p 0 ∈ leading_forbidden) :
    CalculateAnswer g p cap = (DoubleArith.zero, 7) := by
  have h2 : syntax_check_stage2 p 0 = 7 := by
    unfold syntax_check_stage2
    dsimp only
    have : (is_operator (charAt p 0) && charAt p 0 != '-') = true := by
      simp only [leading_forbidden, List.mem_cons, List.mem_singleton, List.not_mem_nil,
        or_false] at hc
      rcases hc with h | h | h | h <;> rw [h] <;> decide
    rw [if_pos this]
  unfold CalculateAnswer
  simp [h1, h2]

theorem CalculateAnswer_leading_operator_witness :
    (syntax_check_stage1 ['+', '5', '+'] 4 = 0 ∧ charAt ['+', '5', '+'] 0 ∈ leading_forbidden) ∧
      CalculateAnswer zeroed ['+', '5', '+'] 4 = (Dbl.fin 0, 7) :=
  ⟨⟨by decide, by decide⟩,
    CalculateAnswer_leading_operator zeroed ['+', '5', '+'] 4 (by decide) (by decide)⟩

/-- The first test of the operator-position validator fails exactly on a
leading `+ x / E`. -/
theorem stage2_leading_iff (c : Char) :
    (is_operator c && c != '-') = true ↔ c ∈ leading_forbidden := by
  unfold is_operator leading_forbidden
  simp only [Bool.and_eq_true, Bool.or_eq_true, beq_iff_eq, bne_iff_ne, ne_eq, List.mem_cons,
    List.mem_singleton, List.not_mem_nil, or_false]
  constructor
  · rintro ⟨h, hne⟩
    tauto
  · intro h
    rcases h with h | h | h | h <;> subst h <;> decide

/-- Claim C8.  An input that passes the character validator, does not start
with one of `+ x / E`, and ends with an operator gives error 8. -/
theorem CalculateAnswer_trailing_operator {F : Type} [DoubleArith F] (g : ParsedExpression_t F)
    (p : List Char) (cap : Nat) (hcap : cap < 256) (h1 : syntax_check_stage1 p cap = 0)
    (hfirst : charAt p 0 ∉ leading_forbidden)
    (hlast : charAt p (strlen p - 1) ∈ operator_chars) :
    CalculateAnswer g p cap = (DoubleArith.zero, 8) := by
  obtain ⟨_, hlen, _, _⟩ := syntax_check_stage1_eq_zero p cap h1
  have h2 : syntax_check_stage2 p 0 = 8 := by
    unfold syntax_check_stage2
    dsimp only
    rw [Nat.mod_eq_of_lt (by omega : strlen p < 256)]
    rw [if_neg (by rw [stage2_leading_iff]; exact hfirst),
      if_pos ((is_operator_iff _).2 hlast)]
  unfold CalculateAnswer
  simp [h1, h2]

theorem CalculateAnswer_trailing_operator_witness :
    (3 < 256 ∧ syntax_check_stage1 ['-'] 3 = 0 ∧ charAt ['-'] 0 ∉ leading_forbidden ∧
      charAt ['-'] (strlen ['-'] - 1) ∈ operator_chars) ∧
      CalculateAnswer zeroed ['-'] 3 = (Dbl.fin 0, 8) :=
  ⟨⟨by decide, by decide, by decide, by decide⟩,
    CalculateAnswer_trailing_operator zeroed ['-'] 3 (by decide) (by decide) (by decide)
      (by decide)⟩

/-- Claim C9.  For an input that passes the character validator and the
leading and trailing operator rules, the error is 9 exactly when two
neighbouring characters are both operators and do not form one of the three
allowed pairs (a minus sign after `x`, `/` or `E`). -/
theorem CalculateAnswer_adjacent_operators {F : Type} [DoubleArith F]
    (g : ParsedExpression_t F) (p : List Char) (cap : Nat) (hcap : cap < 256)
    (h1 : syntax_check_stage1 p cap = 0) (hfirst : charAt p 0 ∉ leading_forbidden)
    (hlast : charAt p (strlen p - 1) ∉ operator_chars) :
    (CalculateAnswer g p cap).2 = 9 ↔
      ∃ i, i + 1 < strlen p ∧ charAt p i ∈ operator_chars ∧ charAt p (i + 1) ∈ operator_chars ∧
        (charAt p i, charAt p (i + 1)) ∉ allowed_pairs := by
  obtain ⟨_, hlen, hpos, _⟩ := syntax_check_stage1_eq_zero p cap h1
  have hadj := stage2_adjacent_iff p (strlen p - 1) 0
  have h2 : syntax_check_stage2 p 0 = 9 ↔ stage2_adjacent p (strlen p - 1) 0 = true := by
    unfold syntax_check_stage2
    dsimp only
    rw [Nat.mod_eq_of_lt (by omega : strlen p < 256)]
    rw [if_neg (by rw [stage2_leading_iff]; exact hfirst),
      if_neg (by rw [is_operator_iff]; exact hlast)]
    split_ifs <;> simp_all
  have h4 := CalculateAnswer_error_stages g p cap
  have key : (CalculateAnswer g p cap).2 = 9 ↔ syntax_check_stage2 p 0 = 9 := by
    omega
  rw [key, h2, hadj]
  constructor
  · rintro ⟨j, _, hj, hb⟩
    rw [stage2_pair_okay_eq_false_iff] at hb
    exact ⟨j, by omega, hb⟩
  · rintro ⟨j, hj, hb⟩
    exact ⟨j, Nat.zero_le _, by omega, (stage2_pair_okay_eq_false_iff _ _).2 hb⟩

theorem CalculateAnswer_adjacent_operators_witness :
    (5 < 256 ∧ syntax_check_stage1 ['5', '+', '-', '3'] 5 = 0 ∧
      charAt ['5', '+', '-', '3'] 0 ∉ leading_forbidden ∧
      charAt ['5', '+', '-', '3'] (strlen ['5', '+', '-', '3'] - 1) ∉ operator_chars) ∧
      (CalculateAnswer zeroed ['5', '+', '-', '3'] 5).2 = 9 ∧
      ∃ i, i + 1 < strlen ['5', '+', '-', '3'] ∧ charAt ['5', '+', '-', '3'] i ∈ operator_chars ∧
        charAt ['5', '+', '-', '3'] (i + 1) ∈ operator_chars ∧
        (charAt ['5', '+', '-', '3'] i, charAt ['5', '+', '-', '3'] (i + 1)) ∉ allowed_pairs :=
  ⟨⟨by decide, by decide, by decide, by decide⟩, by decide!,
    (CalculateAnswer_adjacent_operators zeroed ['5', '+', '-', '3'] 5 (by decide) (by decide)
      (by decide) (by decide)).1 (by decide!)⟩

/-! ## A minus sign in operand position -/

/-- At a character that is neither a digit nor a dot the tokenizer loop stops
with error 6. -/
theorem identify_tokens_loop_not_number {F : Type} [DoubleArith F] (p : List Char)
    (buf_len : Nat) (st : TokState F) (hlt : st.ch_no < buf_len)
    (hc : (isdigit (charAt p st.ch_no) || charAt p st.ch_no == '.') = false) :
    identify_tokens_loop p buf_len st = { st with error_ref_no := 6 } := by
  rw [identify_tokens_loop_unfold, if_pos hlt, if_neg (by rw [hc]; simp)]

/-- Claim C7 (evaluation of the code).  On the input "-5" the tokenizer
rejects the leading minus sign: the result is error 6 with value 0.0, not the
value -5.0. -/
theorem CalculateAnswer_minus_five {F : Type} [DoubleArith F] (g : ParsedExpression_t F) :
    CalculateAnswer g ['-', '5'] 3 = (DoubleArith.zero, 6) := by
  have e1 : syntax_check_stage1 ['-', '5'] 3 = 0 := by decide
  have e2 : syntax_check_stage2 ['-', '5'] 0 = 0 := by decide
  have hl : strlen ['-', '5'] % 256 = 2 := by decide
  unfold CalculateAnswer identify_tokens
  simp only [e1, e2, hl, ne_eq, not_true_eq_false, if_false]
  rw [identify_tokens_loop_not_number]
  · simp
  · show 0 < 2
    decide
  · show (isdigit (charAt ['-', '5'] 0) || charAt ['-', '5'] 0 == '.') = false
    decide

/-- Claim C10 (evaluation of the code).  On the inputs "5x-3" and "5E-1" the
tokenizer reads the number 5 and the operator, then rejects the minus sign:
the result is error 6 with value 0.0, not -15.0 or 0.5. -/
theorem CalculateAnswer_negative_operand {F : Type} [DoubleArith F]
    (g : ParsedExpression_t F) :
    CalculateAnswer g ['5', 'x', '-', '3'] 5 = (DoubleArith.zero, 6) ∧
      CalculateAnswer g ['5', 'E', '-', '1'] 5 = (DoubleArith.zero, 6) := by
  constructor
  · have e1 : syntax_check_stage1 ['5', 'x', '-', '3'] 5 = 0 := by decide
    have e2 : syntax_check_stage2 ['5', 'x', '-', '3'] 0 = 0 := by decide
    have hl : strlen ['5', 'x', '-', '3'] % 256 = 4 := by decide
    have hr : extract_number_loop ['5', 'x', '-', '3'] 4 0 [] = (1, ['5']) := by decide!
    have hw : skip_whitespace ['5', 'x', '-', '3'] 4 1 = 1 := by decide!
    unfold CalculateAnswer identify_tokens
    simp only [e1, e2, hl, ne_eq, not_true_eq_false, if_false]
    rw [identify_tokens_loop_unfold]
    simp [extract_number, extract_operator, after_number, hr, hw, MAX_NUMS_AND_OPS, charAt,
      isdigit, is_infix_char]
    rw [identify_tokens_loop_not_number]
    · simp
    · show 2 < 4
      decide
    · show (isdigit (charAt ['5', 'x', '-', '3'] 2) || charAt ['5', 'x', '-', '3'] 2 == '.') = false
      decide
  · have e1 : syntax_check_stage1 ['5', 'E', '-', '1'] 5 = 0 := by decide
    have e2 : syntax_check_stage2 ['5', 'E', '-', '1'] 0 = 0 := by decide
    have hl : strlen ['5', 'E', '-', '1'] % 256 = 4 := by decide
    have hr : extract_number_loop ['5', 'E', '-', '1'] 4 0 [] = (1, ['5']) := by decide!
    have hw : skip_whitespace ['5', 'E', '-', '1'] 4 1 = 1 := by decide!
    unfold CalculateAnswer identify_tokens
    simp only [e1, e2, hl, ne_eq, not_true_eq_false, if_false]
    rw [identify_tokens_loop_unfold]
    simp [extract_number, extract_operator, after_number, hr, hw, MAX_NUMS_AND_OPS, charAt,
      isdigit, is_infix_char]
    rw [identify_tokens_loop_not_number]
    · simp
    · show 2 < 4
      decide
    · show (isdigit (charAt ['5', 'E', '-', '1'] 2) || charAt ['5', 'E', '-', '1'] 2 == '.') = false
      decide

/-! ## The evaluator against the reference reduction -/

theorem setAt_same {α : Type} (a : Nat → α) (i : Nat) (v : α) : setAt a i v i = v := by
  simp [setAt]

theorem setAt_other {α : Type} (a : Nat → α) (i j : Nat) (v : α) (h : j ≠ i) :
    setAt a i v j = a j := by
  simp [setAt, h]

theorem live_numbers_succ {F : Type} (number : Nat → F) (used : Nat → Nat) (k i : Nat) :
    live_numbers number used (k + 1) i =
      if used i = 0 then number i :: live_numbers number used k (i + 1)
      else live_numbers number used k (i + 1) := rfl

theorem live_operators_succ (ops : Nat → Char) (used : Nat → Nat) (k i : Nat) :
    live_operators ops used (k + 1) i =
      if used i = 0 then ops i :: live_operators ops used k (i + 1)
      else live_operators ops used k (i + 1) := rfl

theorem find_next_unused_succ (used : Nat → Nat) (k i : Nat) :
    find_next_unused used (k + 1) i =
      if used i = 0 then some i else find_next_unused used k (i + 1) := rfl

/-- The live numbers from slot `i` on only depend on the slots from `i` on. -/
theorem live_numbers_congr {F : Type} (number number' : Nat → F) (used used' : Nat → Nat)
    (k i : Nat) (hn : ∀ l, i ≤ l → number l = number' l) (hu : ∀ l, i ≤ l → used l = used' l) :
    live_numbers number used k i = live_numbers number' used' k i := by
  induction k generalizing i with
  | zero => simp [live_numbers, hn i (Nat.le_refl _)]
  | succ k ih =>
    rw [live_numbers_succ, live_numbers_succ, hn i (Nat.le_refl _), hu i (Nat.le_refl _),
      ih (i + 1) (fun l hl => hn l (by omega)) (fun l hl => hu l (by omega))]

/-- The live operators from slot `i` on only depend on the flags from `i` on. -/
theorem live_operators_congr (ops : Nat → Char) (used used' : Nat → Nat)
    (k i : Nat) (hu : ∀ l, i ≤ l → used l = used' l) :
    live_operators ops used k i = live_operators ops used' k i := by
  induction k generalizing i with
  | zero => rfl
  | succ k ih =>
    rw [live_operators_succ, live_operators_succ, hu i (Nat.le_refl _),
      ih (i + 1) (fun l hl => hu l (by omega))]

/-- The search for the next unused number finds the first live slot: its
number heads the list of live numbers, and writing that slot changes the head
only. -/
theorem find_next_unused_live {F : Type} (number : Nat → F) (used : Nat → Nat) (k i : Nat)
    (hlast : used (i + k) = 0) :
    ∃ j tl, find_next_unused used (k + 1) i = some j ∧ i ≤ j ∧ j ≤ i + k ∧
      live_numbers number used k i = number j :: tl ∧
      ∀ v, live_numbers (setAt number j v) used k i = v :: tl := by
  induction k generalizing i with
  | zero =>
    refine ⟨i, [], ?_, Nat.le_refl _, Nat.le_refl _, rfl, ?_⟩
    · rw [find_next_unused_succ, if_pos (by simpa using hlast)]
    · intro v
      simp [live_numbers, setAt_same]
  | succ k ih =>
    by_cases hu : used i = 0
    · refine ⟨i, live_numbers number used k (i + 1), ?_, Nat.le_refl _, by omega, ?_, ?_⟩
      · rw [find_next_unused_succ, if_pos hu]
      · rw [live_numbers_succ, if_pos hu]
      · intro v
        rw [live_numbers_succ, if_pos hu, setAt_same,
          live_numbers_congr (setAt number i v) number used used k (i + 1)
            (fun l hl => setAt_other _ _ _ _ (by omega)) (fun _ _ => rfl)]
    · obtain ⟨j, tl, h1, h2, h3, h4, h5⟩ := ih (i + 1) (by rw [← hlast]; congr 1; omega)
      refine ⟨j, tl, ?_, by omega, by omega, ?_, ?_⟩
      · rw [find_next_unused_succ, if_neg hu]
        exact h1
      · rw [live_numbers_succ, if_neg hu]
        exact h4
      · intro v
        rw [live_numbers_succ, if_neg hu]
        exact h5 v

theorem live_numbers_ne_nil {F : Type} (number : Nat → F) (used : Nat → Nat) (k i : Nat) :
    ∃ b ns, live_numbers number used k i = b :: ns := by
  induction k generalizing i with
  | zero => exact ⟨number i, [], rfl⟩
  | succ k ih =>
    rw [live_numbers_succ]
    split
    · exact ⟨_, _, rfl⟩
    · exact ih (i + 1)

theorem reduce_pass_cons {F : Type} [DoubleArith F] (tier : Char → Bool) (a b : F)
    (ns : List F) (o : Char) (os : List Char) :
    reduce_pass tier (a :: b :: ns) (o :: os) =
      if tier o then reduce_pass tier (merge_value o a b :: ns) os
      else (a :: (reduce_pass tier (b :: ns) os).1, o :: (reduce_pass tier (b :: ns) os).2) := by
  rw [reduce_pass]

theorem evaluate_one_operator_loop_succ {F : Type} [DoubleArith F] (op : Char) (r i : Nat)
    (pe : ParsedExpression_t F) (e : Nat) :
    evaluate_one_operator_loop op (r + 1) i pe e =
      if pe.infix_operator i ≠ op then evaluate_one_operator_loop op r (i + 1) pe e
      else
        match find_next_unused pe.num_and_op_used (pe.n_numbers - (i + 1)) (i + 1) with
        | none => (pe, 1)
        | some next_index =>
          evaluate_one_operator_loop op r (i + 1) (merge_numbers pe i next_index op) e := rfl

/-- One pass of the evaluator over the operators `i .. i + k - 1` computes the
reference pass on the live part of the expression, marks exactly the slots of
the operators it processed, and raises no error.  Needed: the last number slot
is `i + k` and is not marked, and no operator of this tier has been processed
before. -/
theorem evaluate_one_operator_loop_refines {F : Type} [DoubleArith F] (op : Char) (k i : Nat)
    (pe : ParsedExpression_t F) (e : Nat)
    (hn : pe.n_numbers = i + k + 1)
    (hlast : pe.num_and_op_used (i + k) = 0)
    (hfresh : ∀ l, i ≤ l → l < i + k → pe.infix_operator l = op → pe.num_and_op_used l = 0) :
    (evaluate_one_operator_loop op k i pe e).2 = e ∧
      (evaluate_one_operator_loop op k i pe e).1.n_numbers = pe.n_numbers ∧
      (evaluate_one_operator_loop op k i pe e).1.n_infix_operators = pe.n_infix_operators ∧
      (evaluate_one_operator_loop op k i pe e).1.infix_operator = pe.infix_operator ∧
      (∀ l, l < i → (evaluate_one_operator_loop op k i pe e).1.number l = pe.number l) ∧
      (∀ l, (evaluate_one_operator_loop op k i pe e).1.num_and_op_used l =
        if i ≤ l ∧ l < i + k ∧ pe.infix_operator l = op then 1 else pe.num_and_op_used l) ∧
      reduce_pass (fun c => c == op) (live_numbers pe.number pe.num_and_op_used k i)
          (live_operators pe.infix_operator pe.num_and_op_used k i) =
        (live_numbers (evaluate_one_operator_loop op k i pe e).1.number
            (evaluate_one_operator_loop op k i pe e).1.num_and_op_used k i,
          live_operators pe.infix_operator
            (evaluate_one_operator_loop op k i pe e).1.num_and_op_used k i) := by
  induction k generalizing i pe with
  | zero =>
    refine ⟨rfl, rfl, rfl, rfl, fun _ _ => rfl, ?_, ?_⟩
    · intro l
      rw [if_neg (by omega)]
      rfl
    · simp [evaluate_one_operator_loop, live_numbers, live_operators, reduce_pass]
  | succ k ih =>
    have hidx : i + (k + 1) = i + 1 + k := by omega
    rw [evaluate_one_operator_loop_succ]
    by_cases hop : pe.infix_operator i = op
    · -- the operator at `i` belongs to this pass
      rw [if_neg (by simpa using hop)]
      have hui : pe.num_and_op_used i = 0 := hfresh i (Nat.le_refl _) (by omega) hop
      obtain ⟨j, tl, hfind, hij, hjk, hlive, hset⟩ :=
        find_next_unused_live pe.number pe.num_and_op_used k (i + 1) (by rw [← hidx]; exact hlast)
      have hrem : pe.n_numbers - (i + 1) = k + 1 := by omega
      rw [hrem, hfind]
      dsimp only
      have hm_n : (merge_numbers pe i j op).n_numbers = pe.n_numbers := rfl
      have hm_o : (merge_numbers pe i j op).infix_operator = pe.infix_operator := rfl
      have hm_c : (merge_numbers pe i j op).n_infix_operators = pe.n_infix_operators := rfl
      have hm_num : (merge_numbers pe i j op).number =
          setAt pe.number j (merge_value op (pe.number i) (pe.number j)) := rfl
      have hm_used : (merge_numbers pe i j op).num_and_op_used =
          setAt pe.num_and_op_used i 1 := rfl
      obtain ⟨r1, r2, r3, r4, r5, r6, r7⟩ := ih (i + 1) (merge_numbers pe i j op)
        (by rw [hm_n]; omega)
        (by rw [hm_used, setAt_other _ _ _ _ (by omega), ← hidx]; exact hlast)
        (by
          intro l hl1 hl2 hl3
          rw [hm_used, setAt_other _ _ _ _ (by omega)]
          rw [hm_o] at hl3
          exact hfresh l (by omega) (by omega) hl3)
      generalize evaluate_one_operator_loop op k (i + 1) (merge_numbers pe i j op) e = r
        at r1 r2 r3 r4 r5 r6 r7 ⊢
      rw [hm_o] at r4 r6 r7
      have hru : r.1.num_and_op_used i = 1 := by
        rw [r6 i, if_neg (by omega), hm_used, setAt_same]
      refine ⟨r1, by rw [r2, hm_n], by rw [r3, hm_c], r4, ?_, ?_, ?_⟩
      · intro l hl
        rw [r5 l (by omega), hm_num, setAt_other _ _ _ _ (by omega)]
      · intro l
        rw [r6 l, hm_used]
        by_cases hli : l = i
        · subst hli
          rw [if_neg (by omega), setAt_same, if_pos ⟨Nat.le_refl _, by omega, hop⟩]
        · rw [setAt_other _ _ _ _ hli]
          by_cases hc : i + 1 ≤ l ∧ l < i + 1 + k ∧ pe.infix_operator l = op
          · rw [if_pos hc, if_pos ⟨by omega, by omega, hc.2.2⟩]
          · rw [if_neg hc, if_neg (by
              rintro ⟨h1, h2, h3⟩
              exact hc ⟨by omega, by omega, h3⟩)]
      · rw [live_numbers_succ, live_operators_succ, if_pos hui, if_pos hui, hlive,
          reduce_pass_cons]
        simp only [beq_iff_eq, hop, if_true]
        rw [live_numbers_succ, live_operators_succ, if_neg (by omega : ¬ r.1.num_and_op_used i = 0),
          if_neg (by omega : ¬ r.1.num_and_op_used i = 0), ← r7, hm_num, hm_used]
        rw [live_numbers_congr (setAt pe.number j (merge_value op (pe.number i) (pe.number j)))
            (setAt pe.number j (merge_value op (pe.number i) (pe.number j)))
            (setAt pe.num_and_op_used i 1) pe.num_and_op_used k (i + 1) (fun _ _ => rfl)
            (fun l hl => setAt_other _ _ _ _ (by omega)),
          live_operators_congr pe.infix_operator (setAt pe.num_and_op_used i 1)
            pe.num_and_op_used k (i + 1) (fun l hl => setAt_other _ _ _ _ (by omega)),
          hset]
    · -- the operator at `i` is left for another pass
      rw [if_pos (by simpa using hop)]
      obtain ⟨r1, r2, r3, r4, r5, r6, r7⟩ := ih (i + 1) pe (by omega)
        (by rw [← hidx]; exact hlast)
        (fun l hl1 hl2 hl3 => hfresh l (by omega) (by omega) hl3)
      generalize evaluate_one_operator_loop op k (i + 1) pe e = r at r1 r2 r3 r4 r5 r6 r7 ⊢
      have hru : r.1.num_and_op_used i = pe.num_and_op_used i := by
        rw [r6 i, if_neg (by omega)]
      refine ⟨r1, r2, r3, r4, fun l hl => r5 l (by omega), ?_, ?_⟩
      · intro l
        rw [r6 l]
        by_cases hc : i + 1 ≤ l ∧ l < i + 1 + k ∧ pe.infix_operator l = op
        · rw [if_pos hc, if_pos ⟨by omega, by omega, hc.2.2⟩]
        · rw [if_neg hc, if_neg (by
            rintro ⟨h1, h2, h3⟩
            have : l ≠ i := by rintro rfl; exact hop h3
            exact hc ⟨by omega, by omega, h3⟩)]
      · rw [live_numbers_succ, live_operators_succ, live_numbers_succ, live_operators_succ, hru,
          r5 i (by omega)]
        by_cases hui : pe.num_and_op_used i = 0
        · simp only [if_pos hui]
          obtain ⟨b, ns, hb⟩ := live_numbers_ne_nil pe.number pe.num_and_op_used k (i + 1)
          rw [hb, reduce_pass_cons]
          have : ((pe.infix_operator i == op) = true) = False := by simpa using hop
          simp only [this, if_false]
          rw [← hb, r7]
        · simp only [if_neg hui]
          exact r7

/-- With every slot before the last marked, only the last number is live. -/
theorem live_all_used {F : Type} (number : Nat → F) (ops : Nat → Char) (used : Nat → Nat)
    (k i : Nat) (h : ∀ l, i ≤ l → l < i + k → used l ≠ 0) :
    live_numbers number used k i = [number (i + k)] ∧ live_operators ops used k i = [] := by
  induction k generalizing i with
  | zero => exact ⟨rfl, rfl⟩
  | succ k ih =>
    have hi : used i ≠ 0 := h i (Nat.le_refl _) (by omega)
    obtain ⟨h1, h2⟩ := ih (i + 1) (fun l hl1 hl2 => h l (by omega) (by omega))
    rw [live_numbers_succ, live_operators_succ, if_neg hi, if_neg hi, h1, h2]
    exact ⟨by rw [show i + 1 + k = i + (k + 1) by omega], rfl⟩

/-- With no slot marked, every number and every operator is live. -/
theorem live_none_used {F : Type} (number : Nat → F) (ops : Nat → Char) (used : Nat → Nat)
    (k i : Nat) (h : ∀ l, i ≤ l → l < i + k → used l = 0) :
    live_numbers number used k i = (List.range' i (k + 1)).map number ∧
      live_operators ops used k i = (List.range' i k).map ops := by
  induction k generalizing i with
  | zero => exact ⟨rfl, rfl⟩
  | succ k ih =>
    have hi : used i = 0 := h i (Nat.le_refl _) (by omega)
    obtain ⟨h1, h2⟩ := ih (i + 1) (fun l hl1 hl2 => h l (by omega) (by omega))
    rw [live_numbers_succ, live_operators_succ, if_pos hi, if_pos hi, h1, h2]
    exact ⟨by rw [List.range'_succ i (k + 1), List.map_cons],
      by rw [List.range'_succ i k, List.map_cons]⟩

/-- A whole pass of the evaluator on an expression with `m` operators and
`m + 1` numbers. -/
theorem evaluate_expression_one_operator_refines {F : Type} [DoubleArith F] (op : Char)
    (m : Nat) (pe : ParsedExpression_t F) (e : Nat)
    (hn : pe.n_numbers = m + 1) (hm : pe.n_infix_operators = m)
    (hlast : pe.num_and_op_used m = 0)
    (hfresh : ∀ l, l < m → pe.infix_operator l = op → pe.num_and_op_used l = 0) :
    (evaluate_expression_one_operator pe op e).2 = e ∧
      (evaluate_expression_one_operator pe op e).1.n_numbers = m + 1 ∧
      (evaluate_expression_one_operator pe op e).1.n_infix_operators = m ∧
      (evaluate_expression_one_operator pe op e).1.infix_operator = pe.infix_operator ∧
      (∀ l, (evaluate_expression_one_operator pe op e).1.num_and_op_used l =
        if l < m ∧ pe.infix_operator l = op then 1 else pe.num_and_op_used l) ∧
      reduce_pass (fun c => c == op) (live_numbers pe.number pe.num_and_op_used m 0)
          (live_operators pe.infix_operator pe.num_and_op_used m 0) =
        (live_numbers (evaluate_expression_one_operator pe op e).1.number
            (evaluate_expression_one_operator pe op e).1.num_and_op_used m 0,
          live_operators pe.infix_operator
            (evaluate_expression_one_operator pe op e).1.num_and_op_used m 0) := by
  unfold evaluate_expression_one_operator
  rw [hm]
  obtain ⟨r1, r2, r3, r4, _, r6, r7⟩ := evaluate_one_operator_loop_refines op m 0 pe e
    (by omega) (by rw [Nat.zero_add]; exact hlast)
    (fun l _ hl2 hl3 => hfresh l (by omega) hl3)
  refine ⟨r1, by rw [r2, hn], by rw [r3, hm], r4, ?_, r7⟩
  intro l
  rw [r6 l]
  simp only [Nat.zero_le, true_and, Nat.zero_add]

/-- The five passes of the evaluator compute the five-tier reference value of
the token sequence, with no error, on every expression with one operator
between each two numbers, at most 20 numbers, and operators among
`+ - x / E`. -/
theorem evaluate_expression_refines {F : Type} [DoubleArith F] (pe : ParsedExpression_t F)
    (hn : pe.n_numbers = pe.n_infix_operators + 1) (hmax : pe.n_numbers ≤ MAX_NUMS_AND_OPS)
    (hops : ∀ l, l < pe.n_infix_operators → is_infix_char (pe.infix_operator l) = true) :
    (evaluate_expression pe 0).2 = 0 ∧
      tier_value five_tiers (token_numbers pe) (token_operators pe) =
        some (evaluate_expression pe 0).1 := by
  generalize hm : pe.n_infix_operators = m at hn hops
  have hm20 : m < MAX_NUMS_AND_OPS := by omega
  unfold evaluate_expression
  dsimp only
  generalize hpe0 : ({ pe with num_and_op_used := fun index =>
      if index < MAX_NUMS_AND_OPS then 0 else pe.num_and_op_used index } :
      ParsedExpression_t F) = pe0
  have u0 : ∀ l, l ≤ m → pe0.num_and_op_used l = 0 := by
    intro l hl
    rw [← hpe0]
    show (if l < MAX_NUMS_AND_OPS then 0 else pe.num_and_op_used l) = 0
    rw [if_pos (by omega)]
  have o0 : pe0.infix_operator = pe.infix_operator := by rw [← hpe0]
  have n0 : pe0.number = pe.number := by rw [← hpe0]
  have c0 : pe0.n_numbers = m + 1 := by rw [← hpe0]; exact hn
  have d0 : pe0.n_infix_operators = m := by rw [← hpe0]; exact hm
  obtain ⟨a1, b1, c1, d1, e1, f1⟩ := evaluate_expression_one_operator_refines 'E' m pe0 0 c0 d0
    (u0 m (Nat.le_refl _)) (fun l hl _ => u0 l (by omega))
  generalize evaluate_expression_one_operator pe0 'E' 0 = r1 at a1 b1 c1 d1 e1 f1 ⊢
  obtain ⟨a2, b2, c2, d2, e2, f2⟩ := evaluate_expression_one_operator_refines '/' m r1.1 r1.2 b1 c1
    (by rw [e1 m, if_neg (by omega)]; exact u0 m (Nat.le_refl _))
    (fun l hl ho => by
      rw [d1] at ho
      rw [e1 l, if_neg (by rw [ho]; simp), u0 l (by omega)])
  generalize evaluate_expression_one_operator r1.1 '/' r1.2 = r2 at a2 b2 c2 d2 e2 f2 ⊢
  rw [d1] at d2 e2 f2
  obtain ⟨a3, b3, c3, d3, e3, f3⟩ := evaluate_expression_one_operator_refines 'x' m r2.1 r2.2 b2 c2
    (by rw [e2 m, if_neg (by omega), e1 m, if_neg (by omega)]; exact u0 m (Nat.le_refl _))
    (fun l hl ho => by
      rw [d2] at ho
      rw [e2 l, if_neg (by rw [ho]; simp), e1 l, if_neg (by rw [ho]; simp), u0 l (by omega)])
  generalize evaluate_expression_one_operator r2.1 'x' r2.2 = r3 at a3 b3 c3 d3 e3 f3 ⊢
  rw [d2] at d3 e3 f3
  obtain ⟨a4, b4, c4, d4, e4, f4⟩ := evaluate_expression_one_operator_refines '+' m r3.1 r3.2 b3 c3
    (by
      rw [e3 m, if_neg (by omega), e2 m, if_neg (by omega), e1 m, if_neg (by omega)]
      exact u0 m (Nat.le_refl _))
    (fun l hl ho => by
      rw [d3] at ho
      rw [e3 l, if_neg (by rw [ho]; simp), e2 l, if_neg (by rw [ho]; simp), e1 l,
        if_neg (by rw [ho]; simp), u0 l (by omega)])
  generalize evaluate_expression_one_operator r3.1 '+' r3.2 = r4 at a4 b4 c4 d4 e4 f4 ⊢
  rw [d3] at d4 e4 f4
  obtain ⟨a5, b5, c5, d5, e5, f5⟩ := evaluate_expression_one_operator_refines '-' m r4.1 r4.2 b4 c4
    (by
      rw [e4 m, if_neg (by omega), e3 m, if_neg (by omega), e2 m, if_neg (by omega), e1 m,
        if_neg (by omega)]
      exact u0 m (Nat.le_refl _))
    (fun l hl ho => by
      rw [d4] at ho
      rw [e4 l, if_neg (by rw [ho]; simp), e3 l, if_neg (by rw [ho]; simp), e2 l,
        if_neg (by rw [ho]; simp), e1 l, if_neg (by rw [ho]; simp), u0 l (by omega)])
  generalize evaluate_expression_one_operator r4.1 '-' r4.2 = r5 at a5 b5 c5 d5 e5 f5 ⊢
  rw [d4] at d5 e5 f5
  rw [o0] at d1 e1 f1 d2 e2 f2 d3 e3 f3 d4 e4 f4 d5 e5 f5
  have z1 : r1.2 = 0 := a1
  have z2 : r2.2 = 0 := by rw [a2, z1]
  have z3 : r3.2 = 0 := by rw [a3, z2]
  have z4 : r4.2 = 0 := by rw [a4, z3]
  have z5 : r5.2 = 0 := by rw [a5, z4]
  rw [if_neg (by omega), if_neg (by omega), if_neg (by omega), if_neg (by omega),
    if_neg (by omega)]
  refine ⟨z5, ?_⟩
  -- every slot before the last is marked after the five passes
  have hall : ∀ l, 0 ≤ l → l < 0 + m → r5.1.num_and_op_used l ≠ 0 := by
    intro l _ hl
    have hl' : l < m := by omega
    have hc := hops l hl'
    simp only [is_infix_char, Bool.or_eq_true, beq_iff_eq] at hc
    rw [e5 l, e4 l, e3 l, e2 l, e1 l]
    rcases hc with (((hc | hc) | hc) | hc) | hc <;> simp [hc, hl']
  obtain ⟨g1, g2⟩ := live_all_used r5.1.number pe.infix_operator r5.1.num_and_op_used m 0 hall
  obtain ⟨i1, i2⟩ := live_none_used pe0.number pe.infix_operator pe0.num_and_op_used m 0
    (fun l _ hl => u0 l (by omega))
  rw [g1, g2] at f5
  rw [i1, i2, n0] at f1
  have hnum : token_numbers pe = (List.range' 0 (m + 1)).map pe.number := by
    unfold token_numbers
    rw [hn, List.range_eq_range']
  have hopl : token_operators pe = (List.range' 0 m).map pe.infix_operator := by
    unfold token_operators
    rw [hm, List.range_eq_range']
  unfold tier_value five_tiers
  simp only [reduce_tiers]
  rw [hnum, hopl, f1]
  dsimp only
  rw [f2]
  dsimp only
  rw [f3]
  dsimp only
  rw [f4]
  dsimp only
  rw [f5]
  dsimp only
  rw [b5]
  simp

/-! ## The counts left by the tokenizer -/

/-- A successful `extract_number` appended one number within capacity and left
the operators alone. -/
theorem extract_number_ok {F : Type} [DoubleArith F] (p : List Char) (buf_len : Nat)
    (st : TokState F) (h : (extract_number p buf_len st).error_ref_no = 0) :
    st.parsed.n_numbers < MAX_NUMS_AND_OPS ∧
      (extract_number p buf_len st).parsed.n_numbers = st.parsed.n_numbers + 1 ∧
      (extract_number p buf_len st).parsed.n_infix_operators = st.parsed.n_infix_operators ∧
      (extract_number p buf_len st).parsed.infix_operator = st.parsed.infix_operator := by
  unfold extract_number at h ⊢
  dsimp only at h ⊢
  split_ifs at h ⊢ with h1 h2 h3
  exact ⟨h3, rfl, rfl, rfl⟩

/-- A successful `extract_operator` on an operator character below `buf_len`
appended that character within capacity and advanced the cursor by one. -/
theorem extract_operator_ok {F : Type} (p : List Char) (buf_len : Nat) (st : TokState F)
    (hlt : st.ch_no < buf_len) (h : (extract_operator p buf_len st).error_ref_no = 0) :
    is_infix_char (charAt p st.ch_no) = true ∧
      st.parsed.n_infix_operators < MAX_NUMS_AND_OPS ∧
      (extract_operator p buf_len st).ch_no = st.ch_no + 1 ∧
      (extract_operator p buf_len st).parsed.n_numbers = st.parsed.n_numbers ∧
      (extract_operator p buf_len st).parsed.n_infix_operators =
        st.parsed.n_infix_operators + 1 ∧
      (extract_operator p buf_len st).parsed.infix_operator =
        setAt st.parsed.infix_operator st.parsed.n_infix_operators (charAt p st.ch_no) := by
  unfold extract_operator at h ⊢
  dsimp only at h ⊢
  split_ifs at h ⊢ with h1 h2 h3
  · omega
  · exact ⟨h2, h3, rfl, rfl, rfl, rfl⟩

/-- When the tokenizer loop, entered in a state satisfying its invariant,
returns without error, the counts are within capacity, the operators are
operator characters, and, provided the string is not empty and does not end in
an operator, there is exactly one more number than operators. -/
theorem identify_tokens_loop_counts {F : Type} [inst : DoubleArith F] (p : List Char)
    (buf_len : Nat) (st : TokState F) (hinv : TokInv p buf_len st)
    (herr : (identify_tokens_loop p buf_len st).error_ref_no = 0) :
    (identify_tokens_loop p buf_len st).parsed.n_numbers ≤ MAX_NUMS_AND_OPS ∧
      (∀ l, l < (identify_tokens_loop p buf_len st).parsed.n_infix_operators →
        is_infix_char ((identify_tokens_loop p buf_len st).parsed.infix_operator l) = true) ∧
      (0 < buf_len → is_operator (charAt p (buf_len - 1)) = false →
        (identify_tokens_loop p buf_len st).parsed.n_numbers =
          (identify_tokens_loop p buf_len st).parsed.n_infix_operators + 1) := by
  induction st using @identify_tokens_loop.induct F inst p buf_len with
  | case1 x hlt hd st1 he =>
    have he1 : (extract_number p buf_len x).error_ref_no ≠ 0 := he
    rw [identify_tokens_loop_unfold, if_pos hlt, if_pos hd, if_pos he1] at herr
    exact absurd herr he1
  | case2 x hlt hd st1 he st2 hlt2 hop st3 he3 =>
    have he1 : ¬ (extract_number p buf_len x).error_ref_no ≠ 0 := he
    have hlt2a : (after_number p buf_len x).ch_no < buf_len := hlt2
    have hopa : is_infix_char (charAt p (after_number p buf_len x).ch_no) = true := hop
    have he3a : (extract_operator p buf_len (after_number p buf_len x)).error_ref_no ≠ 0 := he3
    rw [identify_tokens_loop_unfold, if_pos hlt, if_pos hd, if_neg he1, if_pos hlt2a, if_pos hopa,
      if_pos he3a] at herr
    exact absurd herr he3a
  | case3 x hlt hd st1 he st2 hlt2 hop st3 he3 ih =>
    have he1 : ¬ (extract_number p buf_len x).error_ref_no ≠ 0 := he
    have hlt2a : (after_number p buf_len x).ch_no < buf_len := hlt2
    have hopa : is_infix_char (charAt p (after_number p buf_len x).ch_no) = true := hop
    have he3a : ¬ (extract_operator p buf_len (after_number p buf_len x)).error_ref_no ≠ 0 := he3
    have hstep : identify_tokens_loop p buf_len x =
        identify_tokens_loop p buf_len (extract_operator p buf_len (after_number p buf_len x)) := by
      rw [identify_tokens_loop_unfold, if_pos hlt, if_pos hd, if_neg he1, if_pos hlt2a,
        if_pos hopa, if_neg he3a]
    rw [hstep] at herr ⊢
    refine ih ?_ herr
    obtain ⟨n1, n2, n3, n4⟩ := extract_number_ok p buf_len x (by omega)
    obtain ⟨_, o2, o3, o4, o5, o6⟩ :=
      extract_operator_ok p buf_len (after_number p buf_len x) hlt2a (by omega)
    have ap : (after_number p buf_len x).parsed = (extract_number p buf_len x).parsed := rfl
    rw [ap] at o2 o4 o5 o6
    obtain ⟨i1, i2, i3⟩ := hinv
    have hcount : x.parsed.n_numbers = x.parsed.n_infix_operators := by
      rcases i3 with ⟨h, _⟩ | ⟨_, h⟩
      · exact h
      · omega
    show TokInv p buf_len (extract_operator p buf_len (after_number p buf_len x))
    unfold TokInv
    refine ⟨by rw [o4, n2]; omega, ?_, Or.inl ⟨by rw [o4, o5, n2, n3, hcount], by omega, ?_⟩⟩
    · intro l hl
      rw [o5, n3] at hl
      rw [o6, n3, n4]
      by_cases hl' : l = x.parsed.n_infix_operators
      · rw [hl', setAt_same]
        exact hopa
      · rw [setAt_other _ _ _ _ hl']
        exact i2 l (by omega)
    · intro _
      rw [o3, Nat.add_sub_cancel]
      exact hopa
  | case4 x hlt hd st1 he st2 hlt2 hop =>
    have he1 : ¬ (extract_number p buf_len x).error_ref_no ≠ 0 := he
    have hlt2a : (after_number p buf_len x).ch_no < buf_len := hlt2
    have hopa : ¬ is_infix_char (charAt p (after_number p buf_len x).ch_no) = true := hop
    rw [identify_tokens_loop_unfold, if_pos hlt, if_pos hd, if_neg he1, if_pos hlt2a,
      if_neg hopa] at herr
    simp at herr
  | case5 x hlt hd st1 he st2 hlt2 ih =>
    have he1 : ¬ (extract_number p buf_len x).error_ref_no ≠ 0 := he
    have hlt2a : ¬ (after_number p buf_len x).ch_no < buf_len := hlt2
    have hstep : identify_tokens_loop p buf_len x =
        identify_tokens_loop p buf_len (after_number p buf_len x) := by
      rw [identify_tokens_loop_unfold, if_pos hlt, if_pos hd, if_neg he1, if_neg hlt2a]
    rw [hstep] at herr ⊢
    refine ih ?_ herr
    obtain ⟨n1, n2, n3, n4⟩ := extract_number_ok p buf_len x (by omega)
    have ap : (after_number p buf_len x).parsed = (extract_number p buf_len x).parsed := rfl
    obtain ⟨i1, i2, i3⟩ := hinv
    have hcount : x.parsed.n_numbers = x.parsed.n_infix_operators := by
      rcases i3 with ⟨h, _⟩ | ⟨_, h⟩
      · exact h
      · omega
    show TokInv p buf_len (after_number p buf_len x)
    unfold TokInv
    refine ⟨by rw [ap, n2]; omega, ?_, Or.inr ⟨by rw [ap, n2, n3, hcount], by omega⟩⟩
    intro l hl
    rw [ap, n3] at hl
    rw [ap, n4]
    exact i2 l hl
  | case6 x hlt hd =>
    rw [identify_tokens_loop_unfold, if_pos hlt, if_neg hd] at herr
    simp at herr
  | case7 x hlt =>
    rw [identify_tokens_loop_unfold, if_neg hlt] at herr ⊢
    obtain ⟨i1, i2, i3⟩ := hinv
    refine ⟨i1, i2, ?_⟩
    intro hpos hlast
    rcases i3 with ⟨_, h2, h3⟩ | ⟨h, _⟩
    · have hx : x.ch_no = buf_len := by omega
      rw [hx] at h3
      rw [h3 hpos] at hlast
      exact Bool.noConfusion hlast
    · exact h

/-- When `CalculateAnswer` reports no error, every stage passed and the result
is the evaluator's. -/
theorem CalculateAnswer_success {F : Type} [DoubleArith F] (g : ParsedExpression_t F)
    (p : List Char) (cap : Nat) (h : (CalculateAnswer g p cap).2 = 0) :
    syntax_check_stage1 p cap = 0 ∧ syntax_check_stage2 p 0 = 0 ∧
      (identify_tokens p 0 { g with n_numbers := 0, n_infix_operators := 0 }).1 = 0 ∧
      CalculateAnswer g p cap = evaluate_expression (parsed_tokens g p) 0 := by
  unfold CalculateAnswer at h ⊢
  unfold parsed_tokens
  dsimp only at h ⊢
  by_cases h1 : syntax_check_stage1 p cap = 0
  · rw [h1] at h ⊢
    simp only [ne_eq, not_true_eq_false, if_false] at h ⊢
    by_cases h2 : syntax_check_stage2 p 0 = 0
    · rw [h2] at h ⊢
      simp only [not_true_eq_false, if_false] at h ⊢
      by_cases h3 : (identify_tokens p 0 { g with n_numbers := 0, n_infix_operators := 0 }).1 = 0
      · rw [h3] at h ⊢
        simp only [not_true_eq_false, if_false] at h ⊢
        by_cases h4 : syntax_check_stage3
            (identify_tokens p 0 { g with n_numbers := 0, n_infix_operators := 0 }).2 0 = 0
        · rw [h4]
          simp
        · rw [if_pos h4] at h
          exact absurd h h4
      · rw [if_pos h3] at h
        exact absurd h h3
    · rw [if_pos h2] at h
      exact absurd h h2
  · rw [if_pos h1] at h
    exact absurd h h1

/-- An input that passes the operator-position validator does not end in an
operator. -/
theorem syntax_check_stage2_last (p : List Char) (h : syntax_check_stage2 p 0 = 0) :
    is_operator (charAt p (strlen p % 256 - 1)) = false := by
  unfold syntax_check_stage2 at h
  dsimp only at h
  split_ifs at h with h1 h2
  simpa using h2

/-- An accepted input leaves a parsed expression with one operator between
each two numbers, at most 20 numbers, and operators among `+ - x / E`. -/
theorem parsed_tokens_counts {F : Type} [DoubleArith F] (g : ParsedExpression_t F)
    (p : List Char) (cap : Nat) (hcap : cap < 256) (h1 : syntax_check_stage1 p cap = 0)
    (h2 : syntax_check_stage2 p 0 = 0)
    (h3 : (identify_tokens p 0 { g with n_numbers := 0, n_infix_operators := 0 }).1 = 0) :
    (parsed_tokens g p).n_numbers = (parsed_tokens g p).n_infix_operators + 1 ∧
      (parsed_tokens g p).n_numbers ≤ MAX_NUMS_AND_OPS ∧
      ∀ l, l < (parsed_tokens g p).n_infix_operators →
        is_infix_char ((parsed_tokens g p).infix_operator l) = true := by
  obtain ⟨_, hlen, hpos, _⟩ := syntax_check_stage1_eq_zero p cap h1
  have hl := syntax_check_stage2_last p h2
  have hinv : TokInv p (strlen p % 256)
      ({ ch_no := 0, parsed := { g with n_numbers := 0, n_infix_operators := 0 },
         error_ref_no := 0 } : TokState F) := by
    unfold TokInv
    refine ⟨Nat.zero_le _, ?_, Or.inl ⟨rfl, Nat.zero_le _, ?_⟩⟩
    · intro l hl
      exact absurd hl (Nat.not_lt_zero _)
    · intro hc
      exact absurd hc (Nat.lt_irrefl _)
  obtain ⟨c1, c2, c3⟩ := identify_tokens_loop_counts p (strlen p % 256) _ hinv h3
  have hmod : strlen p % 256 = strlen p := Nat.mod_eq_of_lt (by omega)
  exact ⟨c3 (by omega) hl, c1, c2⟩

/-- Claim C1, as amended.  For every input on which `CalculateAnswer` reports
no error, the returned value is the reduction of the token sequence in the
five tiers `E`, `/`, `x`, `+`, `-`, taken in this order, each tier reduced left
to right. -/
theorem CalculateAnswer_five_tier {F : Type} [DoubleArith F] (g : ParsedExpression_t F)
    (p : List Char) (cap : Nat) (hcap : cap < 256) (h : (CalculateAnswer g p cap).2 = 0) :
    tier_value five_tiers (token_numbers (parsed_tokens g p))
        (token_operators (parsed_tokens g p)) = some (CalculateAnswer g p cap).1 := by
  obtain ⟨h1, h2, h3, h4⟩ := CalculateAnswer_success g p cap h
  obtain ⟨c1, c2, c3⟩ := parsed_tokens_counts g p cap hcap h1 h2 h3
  rw [h4]
  exact (evaluate_expression_refines (parsed_tokens g p) c1 c2 c3).2

theorem CalculateAnswer_five_tier_witness :
    (6 < 256 ∧ (CalculateAnswer zeroed ['2', '+', '3', 'x', '4'] 6).2 = 0) ∧
      tier_value five_tiers (token_numbers (parsed_tokens zeroed ['2', '+', '3', 'x', '4']))
        (token_operators (parsed_tokens zeroed ['2', '+', '3', 'x', '4'])) =
          some (Dbl.fin 14) :=
  ⟨⟨by decide, by decide!⟩,
    (CalculateAnswer_five_tier zeroed ['2', '+', '3', 'x', '4'] 6 (by decide)
      (by decide!)).trans (by decide!)⟩

/-- Claim C1, counterexample.  On "1-2+3" `CalculateAnswer` reports no error
and returns -4, while the reduction of the tokens in the tier order
`E > {/, x} > {+, -}` is 2. -/
theorem CalculateAnswer_three_tier_counterexample :
    (CalculateAnswer zeroed ['1', '-', '2', '+', '3'] 6).2 = 0 ∧
      (CalculateAnswer zeroed ['1', '-', '2', '+', '3'] 6).1 = Dbl.fin (-4) ∧
      tier_value three_tiers (token_numbers (parsed_tokens zeroed ['1', '-', '2', '+', '3']))
        (token_operators (parsed_tokens zeroed ['1', '-', '2', '+', '3'])) =
          some (Dbl.fin 2) ∧
      tier_value three_tiers (token_numbers (parsed_tokens zeroed ['1', '-', '2', '+', '3']))
        (token_operators (parsed_tokens zeroed ['1', '-', '2', '+', '3'])) ≠
          some (CalculateAnswer zeroed ['1', '-', '2', '+', '3'] 6).1 := by
  decide!


/-! ## The exponent rules and the closed set of error numbers -/

/-- The inner exponent scan answers `true` exactly when a dot is met before
any operator character. -/
theorem stage2_dot_after_iff (p : List Char) (r b : Nat) :
    stage2_dot_after p r b = true ↔
      ∃ j, b ≤ j ∧ j < b + r ∧ charAt p j = '.' ∧
        ∀ l, b ≤ l → l < j → is_operator (charAt p l) = false := by
  induction r generalizing b with
  | zero =>
    constructor
    · intro h; simp [stage2_dot_after] at h
    · rintro ⟨j, h1, h2, _⟩; omega
  | succ r ih =>
    unfold stage2_dot_after
    split
    · rename_i hop
      constructor
      · intro h; exact absurd h (by simp)
      · rintro ⟨j, h1, h2, h3, h4⟩
        by_cases hj : j = b
        · subst hj
          rw [h3] at hop
          exact absurd hop (by decide)
        · have := h4 b (Nat.le_refl _) (by omega)
          rw [this] at hop
          exact absurd hop (by simp)
    · rename_i hop
      split
      · rename_i hdot
        constructor
        · intro _
          exact ⟨b, Nat.le_refl _, by omega, hdot, fun l h1 h2 => by omega⟩
        · intro _; rfl
      · rename_i hdot
        rw [ih (b + 1)]
        constructor
        · rintro ⟨j, h1, h2, h3, h4⟩
          refine ⟨j, by omega, by omega, h3, ?_⟩
          intro l hl1 hl2
          by_cases hl : l = b
          · subst hl; simpa using hop
          · exact h4 l (by omega) hl2
        · rintro ⟨j, h1, h2, h3, h4⟩
          have : j ≠ b := by rintro rfl; exact hdot h3
          exact ⟨j, by omega, by omega, h3, fun l hl1 hl2 => h4 l (by omega) hl2⟩

/-- The outer exponent scan raises error 11 exactly when some `E` in range is
followed by a dot with no operator character in between. -/
theorem stage2_exponent_iff (p : List Char) (bs r i : Nat) :
    stage2_exponent p bs r i = true ↔
      ∃ k, i ≤ k ∧ k < i + r ∧ charAt p k = 'E' ∧
        stage2_dot_after p (bs - (k + 1)) (k + 1) = true := by
  induction r generalizing i with
  | zero =>
    constructor
    · intro h; simp [stage2_exponent] at h
    · rintro ⟨k, h1, h2, _⟩; omega
  | succ r ih =>
    unfold stage2_exponent
    split
    · rename_i h
      constructor
      · intro _; exact ⟨i, Nat.le_refl _, by omega, h.1, h.2⟩
      · intro _; rfl
    · rename_i h
      rw [ih (i + 1)]
      constructor
      · rintro ⟨k, h1, h2, h3⟩; exact ⟨k, by omega, by omega, h3⟩
      · rintro ⟨k, h1, h2, h3, h4⟩
        have : k ≠ i := by rintro rfl; exact h ⟨h3, h4⟩
        exact ⟨k, by omega, by omega, h3, h4⟩

/-- Claim C11.  For an input that passes the character validator and the
leading, trailing and adjacency rules, the error is 11 exactly when some `E`
is followed by a dot with no operator character between the two. -/
theorem CalculateAnswer_exponent_decimal {F : Type} [DoubleArith F]
    (g : ParsedExpression_t F) (p : List Char) (cap : Nat) (hcap : cap < 256)
    (h1 : syntax_check_stage1 p cap = 0) (hfirst : charAt p 0 ∉ leading_forbidden)
    (hlast : charAt p (strlen p - 1) ∉ operator_chars)
    (hadj : ∀ i, i + 1 < strlen p → charAt p i ∈ operator_chars →
      charAt p (i + 1) ∈ operator_chars → (charAt p i, charAt p (i + 1)) ∈ allowed_pairs) :
    (CalculateAnswer g p cap).2 = 11 ↔
      ∃ i j, i < j ∧ j < strlen p ∧ charAt p i = 'E' ∧ charAt p j = '.' ∧
        ∀ l, i < l → l < j → charAt p l ∉ operator_chars := by
  obtain ⟨_, hlen, hpos, _⟩ := syntax_check_stage1_eq_zero p cap h1
  have hnadj : ¬ stage2_adjacent p (strlen p - 1) 0 = true := by
    rw [stage2_adjacent_iff]
    rintro ⟨j, _, hj, hb⟩
    rw [stage2_pair_okay_eq_false_iff] at hb
    exact hb.2.2 (hadj j (by omega) hb.1 hb.2.1)
  have h2 : syntax_check_stage2 p 0 = 11 ↔
      stage2_exponent p (strlen p) (strlen p - 1) 0 = true := by
    unfold syntax_check_stage2
    dsimp only
    rw [Nat.mod_eq_of_lt (by omega : strlen p < 256)]
    rw [if_neg (by rw [stage2_leading_iff]; exact hfirst),
      if_neg (by rw [is_operator_iff]; exact hlast), if_neg hnadj]
    split_ifs <;> simp_all
  have h4 := CalculateAnswer_error_stages g p cap
  have key : (CalculateAnswer g p cap).2 = 11 ↔ syntax_check_stage2 p 0 = 11 := by
    omega
  rw [key, h2, stage2_exponent_iff]
  constructor
  · rintro ⟨k, _, hk, hE, hd⟩
    obtain ⟨j, hj1, hj2, hj3, hj4⟩ := (stage2_dot_after_iff _ _ _).1 hd
    refine ⟨k, j, by omega, by omega, hE, hj3, ?_⟩
    intro l hl1 hl2
    rw [← is_operator_iff, hj4 l (by omega) hl2]
    simp
  · rintro ⟨i, j, hij, hj, hE, hdot, hno⟩
    refine ⟨i, Nat.zero_le _, by omega, hE, (stage2_dot_after_iff _ _ _).2 ?_⟩
    refine ⟨j, by omega, by omega, hdot, ?_⟩
    intro l hl1 hl2
    have := hno l (by omega) hl2
    rw [← is_operator_iff] at this
    simpa using this

theorem CalculateAnswer_exponent_decimal_witness :
    (6 < 256 ∧ syntax_check_stage1 ['5', 'E', '3', '.', '2'] 6 = 0 ∧
      charAt ['5', 'E', '3', '.', '2'] 0 ∉ leading_forbidden ∧
      charAt ['5', 'E', '3', '.', '2'] (strlen ['5', 'E', '3', '.', '2'] - 1) ∉ operator_chars) ∧
      (CalculateAnswer zeroed ['5', 'E', '3', '.', '2'] 6).2 = 11 ∧
      ∃ i j, i < j ∧ j < strlen ['5', 'E', '3', '.', '2'] ∧
        charAt ['5', 'E', '3', '.', '2'] i = 'E' ∧ charAt ['5', 'E', '3', '.', '2'] j = '.' ∧
        ∀ l, i < l → l < j → charAt ['5', 'E', '3', '.', '2'] l ∉ operator_chars :=
  ⟨⟨by decide, by decide, by decide, by decide⟩, by decide!,
    (CalculateAnswer_exponent_decimal zeroed ['5', 'E', '3', '.', '2'] 6 (by decide) (by decide)
      (by decide) (by decide)
      (fun i hi h1 h2 => by
        have hi' : i < 4 := by
          have : strlen ['5', 'E', '3', '.', '2'] = 5 := by decide
          omega
        interval_cases i <;> first | exact absurd h1 (by decide) | exact absurd h2 (by decide))).1
      (by decide!)⟩

/-- Claim C12, as amended.  On "5EE2" the adjacency scan of the
operator-position validator fires first: the result is error 9 with the value
0.0. -/
theorem CalculateAnswer_double_exponent {F : Type} [DoubleArith F] (g : ParsedExpression_t F) :
    CalculateAnswer g ['5', 'E', 'E', '2'] 5 = (DoubleArith.zero, 9) := by
  have e1 : syntax_check_stage1 ['5', 'E', 'E', '2'] 5 = 0 := by decide
  have e2 : syntax_check_stage2 ['5', 'E', 'E', '2'] 0 = 9 := by decide
  unfold CalculateAnswer
  simp [e1, e2]

/-- Claim C12, counterexample.  On "5EE2" the error number is 9, not 10. -/
theorem CalculateAnswer_double_exponent_counterexample :
    (CalculateAnswer zeroed ['5', 'E', 'E', '2'] 5).2 = 9 ∧
      (CalculateAnswer zeroed ['5', 'E', 'E', '2'] 5).2 ≠ 10 := by
  decide!

/-- Claim C16.  The error number set by `CalculateAnswer` is one of 0, 1, 2,
3, 4, 6, 7, 8, 9, 10, 11; in particular it is never 5. -/
theorem CalculateAnswer_error_set {F : Type} [DoubleArith F] (g : ParsedExpression_t F)
    (p : List Char) (cap : Nat) :
    (CalculateAnswer g p cap).2 ∈ [0, 1, 2, 3, 4, 6, 7, 8, 9, 10, 11] ∧
      (CalculateAnswer g p cap).2 ≠ 5 := by
  have h1 := syntax_check_stage1_cases p cap
  have h2 := syntax_check_stage2_cases p 0
  have h3 := CalculateAnswer_error_stages g p cap
  simp only [List.mem_cons, List.mem_singleton, List.not_mem_nil, or_false]
  omega

/-- Claim C20.  On a parsed expression with one operator between each two
numbers, between 1 and 20 numbers, and operators among `+ - x / E`, the
in-place evaluator (entered with error number 0) raises no error and returns
the value of the reference list reduction in the five tiers `E`, `/`, `x`, `+`,
`-`, taken in this order, each tier scanned left to right. -/
theorem evaluate_expression_five_pass {F : Type} [DoubleArith F] (pe : ParsedExpression_t F)
    (hcount : pe.n_infix_operators = pe.n_numbers - 1) (hone : 1 ≤ pe.n_numbers)
    (hmax : pe.n_numbers ≤ 20)
    (hops : ∀ l, l < pe.n_infix_operators → pe.infix_operator l ∈ operator_chars) :
    (evaluate_expression pe 0).2 = 0 ∧
      tier_value five_tiers (token_numbers pe) (token_operators pe) =
        some (evaluate_expression pe 0).1 :=
  evaluate_expression_refines pe (by omega) hmax
    (fun l hl => (is_operator_iff _).2 (hops l hl))

theorem evaluate_expression_five_pass_witness :
    (stale_expression.n_infix_operators = stale_expression.n_numbers - 1 ∧
      1 ≤ stale_expression.n_numbers ∧ stale_expression.n_numbers ≤ 20) ∧
      (evaluate_expression stale_expression 0).2 = 0 ∧
      tier_value five_tiers (token_numbers stale_expression)
        (token_operators stale_expression) = some (Dbl.fin (-4)) :=
  ⟨⟨by decide, by decide, by decide⟩,
    (evaluate_expression_five_pass stale_expression (by decide) (by decide) (by decide)
      (fun l hl => by
        have hl' : l < 2 := hl
        interval_cases l <;> decide)).1,
    (evaluate_expression_five_pass stale_expression (by decide) (by decide) (by decide)
      (fun l hl => by
        have hl' : l < 2 := hl
        interval_cases l <;> decide)).2.trans (by decide!)⟩


/-! ## The tokenizer on a string of tokens -/

theorem charAt_append_left (pre l : List Char) (i : Nat) (h : i < pre.length) :
    charAt (pre ++ l) i = charAt pre i := by
  induction pre generalizing i with
  | nil => simp at h
  | cons c cs ih =>
    cases i with
    | zero => rfl
    | succ j =>
      simp only [List.cons_append, charAt_cons_succ]
      exact ih j (by simpa using h)

theorem charAt_append_right (pre l : List Char) (i : Nat) :
    charAt (pre ++ l) (pre.length + i) = charAt l i := by
  induction pre with
  | nil => simp
  | cons c cs ih =>
    rw [List.cons_append, List.length_cons, show cs.length + 1 + i = (cs.length + i) + 1 by omega,
      charAt_cons_succ]
    exact ih

theorem charAt_length_append (pre l : List Char) :
    charAt (pre ++ l) pre.length = charAt l 0 := by
  have := charAt_append_right pre l 0
  simpa using this

theorem charAt_of_length_le (p : List Char) (i : Nat) (h : p.length ≤ i) : charAt p i = NUL := by
  induction p generalizing i with
  | nil => rfl
  | cons c cs ih =>
    cases i with
    | zero => simp at h
    | succ j =>
      rw [charAt_cons_succ]
      exact ih j (by simpa using h)

theorem charAt_mem (p : List Char) (i : Nat) (h : i < p.length) : charAt p i ∈ p := by
  induction p generalizing i with
  | nil => simp at h
  | cons c cs ih =>
    cases i with
    | zero => simp [charAt_cons_zero]
    | succ j =>
      rw [charAt_cons_succ]
      exact List.mem_cons_of_mem _ (ih j (by simpa using h))

/-- A string without a terminator character is as long as its list. -/
theorem strlen_eq_length (p : List Char) (h : ∀ c, c ∈ p → c ≠ NUL) : strlen p = p.length := by
  induction p with
  | nil => rfl
  | cons c cs ih =>
    unfold strlen
    rw [if_neg (h c (List.mem_cons_self _ _)), ih (fun d hd => h d (List.mem_cons_of_mem _ hd))]
    rfl

/-- The copy loop of `extract_number` on a run of digits and dots that fits the
staging array and is followed by another kind of character or by the end. -/
theorem extract_number_loop_run (pre run suf s : List Char)
    (hrun : ∀ c, c ∈ run → is_number_char c = true)
    (hlen : s.length + run.length ≤ 49)
    (hsuf : ∀ c t, suf = c :: t → is_number_char c = false) :
    extract_number_loop (pre ++ run ++ suf) (pre ++ run ++ suf).length pre.length s =
      (pre.length + run.length, s ++ run) := by
  induction run generalizing pre s with
  | nil =>
    rw [extract_number_loop, if_neg]
    · simp
    · rintro ⟨h1, _, h3⟩
      simp only [List.append_nil] at h1 h3
      rw [charAt_length_append] at h3
      cases suf with
      | nil => simp at h1
      | cons c t =>
        have := hsuf c t rfl
        rw [charAt_cons_zero] at h3
        simp only [is_number_char, Bool.or_eq_false_iff, beq_eq_false_iff_ne, ne_eq] at this
        rcases h3 with h3 | h3
        · rw [this.1] at h3; exact Bool.noConfusion h3
        · exact this.2 h3
  | cons c run ih =>
    have hc := hrun c (List.mem_cons_self _ _)
    simp only [is_number_char, Bool.or_eq_true, beq_iff_eq] at hc
    have hch : charAt (pre ++ c :: run ++ suf) pre.length = c := by
      rw [List.append_assoc, charAt_length_append]
      rfl
    rw [extract_number_loop, if_pos]
    · have hp : pre ++ c :: run ++ suf = (pre ++ [c]) ++ run ++ suf := by simp
      rw [hch]
      have := ih (pre ++ [c]) (s ++ [c]) (fun d hd => hrun d (List.mem_cons_of_mem _ hd))
        (by simp only [List.length_append, List.length_cons, List.length_nil] at hlen ⊢
            omega)
      rw [hp, show pre.length + 1 = (pre ++ [c]).length by simp, this]
      simp only [List.length_append, List.length_cons, List.length_nil, List.append_assoc,
        List.singleton_append]
      congr 1
      omega
    · refine ⟨?_, ?_, ?_⟩
      · simp only [List.length_append, List.length_cons, List.length_nil]
        omega
      · simp only [List.length_cons] at hlen
        simp only [MAX_NUMBER_STRING_LENGTH]
        omega
      · rw [hch]; exact hc

/-- An operator character is neither part of a number nor white space. -/
theorem is_infix_char_not_number (o : Char) (h : is_infix_char o = true) :
    is_number_char o = false ∧ isspace o = false := by
  simp only [is_infix_char, Bool.or_eq_true, beq_iff_eq] at h
  rcases h with (((h | h) | h) | h) | h <;> subst h <;> exact ⟨by decide, by decide⟩

/-- The function `extract_number` on a number token that is followed by another
kind of character or by the end: the token is converted and appended, the
cursor lands after it; with 20 numbers already stored the error is 1. -/
theorem extract_number_run {F : Type} [DoubleArith F] (pre run suf : List Char)
    (st : TokState F) (hst : st.ch_no = pre.length) (hrun : number_token run)
    (hsuf : ∀ c t, suf = c :: t → is_number_char c = false) :
    extract_number (pre ++ run ++ suf) (pre ++ run ++ suf).length st =
      if st.parsed.n_numbers < MAX_NUMS_AND_OPS then
        { st with ch_no := pre.length + run.length
                  parsed := push_number st.parsed (simple_atof run) }
      else { st with ch_no := pre.length + run.length, error_ref_no := 1 } := by
  obtain ⟨hne, hlen, hall⟩ := hrun
  obtain ⟨c, t, rfl⟩ := List.exists_cons_of_ne_nil hne
  have hc := hall c (List.mem_cons_self _ _)
  have hch : charAt (pre ++ c :: t ++ suf) st.ch_no = c := by
    rw [hst, List.append_assoc, charAt_length_append]
    rfl
  have hloop := extract_number_loop_run pre (c :: t) suf [] hall (by simpa using hlen) hsuf
  unfold extract_number
  rw [hch, hst, hloop]
  simp only [is_number_char, Bool.or_eq_true, beq_iff_eq] at hc
  rw [if_neg (by
    rintro ⟨h1, h2⟩
    rcases hc with hc | hc
    · exact h1 hc
    · exact h2 hc)]
  simp only [List.nil_append, List.length_cons, Nat.add_one_ne_zero, if_false]
  rfl

/-- The whitespace loop does not move at a character that is not white space
or at the end. -/
theorem skip_whitespace_stay (p : List Char) (buf_len i : Nat)
    (h : ¬ (i < buf_len ∧ isspace (charAt p i) = true)) : skip_whitespace p buf_len i = i := by
  rw [skip_whitespace, if_neg h]

/-- The tokenizer loop at the end of the buffer returns its state. -/
theorem identify_tokens_loop_end {F : Type} [DoubleArith F] (p : List Char) (buf_len : Nat)
    (st : TokState F) (h : ¬ st.ch_no < buf_len) : identify_tokens_loop p buf_len st = st := by
  rw [identify_tokens_loop_unfold, if_neg h]

theorem expression_string_ne_nil (n0 : List Char) (rest : List (Char × List Char))
    (h : n0 ≠ []) : expression_string n0 rest ≠ [] := by
  cases rest with
  | nil => exact h
  | cons t rest =>
    obtain ⟨o, n1⟩ := t
    simp [expression_string, h]

/-- The tokenizer loop on a string of tokens `n0 o1 n1 ... ok nk`, started at
the first character of `n0` with as many operators as numbers stored and no
error: when the numbers fit the capacity they are all stored, the cursor ends
at the end of the buffer and no error is raised; otherwise the error is 1. -/
theorem identify_tokens_loop_expression {F : Type} [DoubleArith F]
    (rest : List (Char × List Char)) (pre n0 : List Char) (st : TokState F)
    (hst : st.ch_no = pre.length) (herr : st.error_ref_no = 0)
    (hcount : st.parsed.n_infix_operators = st.parsed.n_numbers)
    (hn0 : number_token n0)
    (hrest : ∀ t, t ∈ rest → is_infix_char t.1 = true ∧ number_token t.2) :
    (st.parsed.n_numbers + rest.length + 1 ≤ MAX_NUMS_AND_OPS →
        identify_tokens_loop (pre ++ expression_string n0 rest)
            (pre ++ expression_string n0 rest).length st =
          { ch_no := (pre ++ expression_string n0 rest).length
            parsed := store_tokens st.parsed n0 rest
            error_ref_no := 0 }) ∧
      (MAX_NUMS_AND_OPS < st.parsed.n_numbers + rest.length + 1 →
        (identify_tokens_loop (pre ++ expression_string n0 rest)
          (pre ++ expression_string n0 rest).length st).error_ref_no = 1) := by
  induction rest generalizing pre n0 st with
  | nil =>
    have hx := extract_number_run pre n0 [] st hst hn0 (fun c t h => by simp at h)
    simp only [List.append_nil] at hx
    have hlt : st.ch_no < (pre ++ n0).length := by
      have := List.length_pos.2 hn0.1
      simp only [List.length_append]
      omega
    have hd : (isdigit (charAt (pre ++ n0) st.ch_no) || charAt (pre ++ n0) st.ch_no == '.')
        = true := by
      obtain ⟨c, t, rfl⟩ := List.exists_cons_of_ne_nil hn0.1
      rw [hst, charAt_length_append, charAt_cons_zero]
      exact hn0.2.2 c (List.mem_cons_self _ _)
    simp only [expression_string, List.length_nil, Nat.add_zero]
    constructor
    · intro hfit
      have hfit' : st.parsed.n_numbers < MAX_NUMS_AND_OPS := by omega
      rw [if_pos hfit'] at hx
      have han : after_number (pre ++ n0) (pre ++ n0).length st =
          { st with ch_no := pre.length + n0.length
                    parsed := push_number st.parsed (simple_atof n0) } := by
        unfold after_number
        rw [hx]
        dsimp only
        rw [skip_whitespace_stay _ _ _ (by
          simp only [List.length_append]
          omega)]
      rw [identify_tokens_loop_unfold, if_pos hlt, if_pos hd, hx, if_neg (by simpa using herr),
        han, if_neg (by simp only [List.length_append]; omega),
        identify_tokens_loop_end _ _ _ (by simp only [List.length_append]; omega)]
      simp only [store_tokens, List.length_append, herr]
    · intro hover
      have hover' : ¬ st.parsed.n_numbers < MAX_NUMS_AND_OPS := by omega
      rw [if_neg hover'] at hx
      rw [identify_tokens_loop_unfold, if_pos hlt, if_pos hd, hx, if_pos (by simp)]
  | cons t rest ih =>
    obtain ⟨o, n1⟩ := t
    obtain ⟨ho, hn1⟩ := hrest (o, n1) (List.mem_cons_self _ _)
    have hrest' : ∀ t, t ∈ rest → is_infix_char t.1 = true ∧ number_token t.2 :=
      fun t ht => hrest t (List.mem_cons_of_mem _ ht)
    obtain ⟨hon, hos⟩ := is_infix_char_not_number o ho
    have hp : pre ++ expression_string n0 ((o, n1) :: rest) =
        pre ++ n0 ++ (o :: expression_string n1 rest) := by
      simp [expression_string]
    have hp2 : pre ++ n0 ++ (o :: expression_string n1 rest) =
        (pre ++ n0 ++ [o]) ++ expression_string n1 rest := by simp
    have hq := List.length_pos.2 (expression_string_ne_nil n1 rest hn1.1)
    have hx := extract_number_run pre n0 (o :: expression_string n1 rest) st hst hn0
      (fun c t h => by
        have : c = o := by injection h with h1 _; exact h1.symm
        rw [this]; exact hon)
    have hlt : st.ch_no < (pre ++ n0 ++ (o :: expression_string n1 rest)).length := by
      simp only [List.length_append, List.length_cons]
      omega
    have hd : (isdigit (charAt (pre ++ n0 ++ (o :: expression_string n1 rest)) st.ch_no) ||
        charAt (pre ++ n0 ++ (o :: expression_string n1 rest)) st.ch_no == '.') = true := by
      obtain ⟨c, t, rfl⟩ := List.exists_cons_of_ne_nil hn0.1
      rw [hst, List.append_assoc, charAt_length_append]
      exact hn0.2.2 c (List.mem_cons_self _ _)
    have hcho : charAt (pre ++ n0 ++ (o :: expression_string n1 rest))
        (pre.length + n0.length) = o := by
      rw [show pre.length + n0.length = (pre ++ n0).length by simp, charAt_length_append]
      rfl
    rw [hp]
    simp only [List.length_cons]
    by_cases hfit : st.parsed.n_numbers < MAX_NUMS_AND_OPS
    · rw [if_pos hfit] at hx
      have han : after_number (pre ++ n0 ++ (o :: expression_string n1 rest))
          (pre ++ n0 ++ (o :: expression_string n1 rest)).length st =
          { st with ch_no := pre.length + n0.length
                    parsed := push_number st.parsed (simple_atof n0) } := by
        unfold after_number
        rw [hx]
        dsimp only
        rw [skip_whitespace_stay _ _ _ (by
          rintro ⟨_, h2⟩
          rw [hcho, hos] at h2
          exact Bool.noConfusion h2)]
      have hxo : extract_operator (pre ++ n0 ++ (o :: expression_string n1 rest))
          (pre ++ n0 ++ (o :: expression_string n1 rest)).length
          ({ st with ch_no := pre.length + n0.length
                     parsed := push_number st.parsed (simple_atof n0) } : TokState F) =
          { st with ch_no := pre.length + n0.length + 1
                    parsed := push_operator (push_number st.parsed (simple_atof n0)) o } := by
        unfold extract_operator
        dsimp only
        rw [if_neg (by simp only [List.length_append, List.length_cons]; omega), hcho, if_pos ho,
          if_pos (by
            show st.parsed.n_infix_operators < MAX_NUMS_AND_OPS
            omega)]
        rfl
      have hstep : identify_tokens_loop (pre ++ n0 ++ (o :: expression_string n1 rest))
          (pre ++ n0 ++ (o :: expression_string n1 rest)).length st =
          identify_tokens_loop (pre ++ n0 ++ (o :: expression_string n1 rest))
            (pre ++ n0 ++ (o :: expression_string n1 rest)).length
            ({ st with ch_no := pre.length + n0.length + 1
                       parsed := push_operator (push_number st.parsed (simple_atof n0)) o } :
              TokState F) := by
        rw [identify_tokens_loop_unfold, if_pos hlt, if_pos hd, hx,
          if_neg (by simpa using herr), han,
          if_pos (by
            show pre.length + n0.length < _
            simp only [List.length_append, List.length_cons]; omega),
          if_pos (by
            show is_infix_char (charAt _ (pre.length + n0.length)) = true
            rw [hcho]; exact ho),
          hxo, if_neg (by simpa using herr)]
      rw [hstep, hp2]
      obtain ⟨ih1, ih2⟩ := ih (pre ++ n0 ++ [o]) n1
        ({ st with ch_no := pre.length + n0.length + 1
                   parsed := push_operator (push_number st.parsed (simple_atof n0)) o } :
          TokState F)
        (by
          show pre.length + n0.length + 1 = (pre ++ n0 ++ [o]).length
          simp only [List.length_append, List.length_cons, List.length_nil]) herr
        (by
          show st.parsed.n_infix_operators + 1 = st.parsed.n_numbers + 1
          rw [hcount])
        hn1 hrest'
      constructor
      · intro h
        rw [ih1 (by
          show st.parsed.n_numbers + 1 + rest.length + 1 ≤ MAX_NUMS_AND_OPS
          omega)]
        rfl
      · intro h
        exact ih2 (by
          show MAX_NUMS_AND_OPS < st.parsed.n_numbers + 1 + rest.length + 1
          omega)
    · rw [if_neg hfit] at hx
      constructor
      · intro h
        omega
      · intro _
        rw [identify_tokens_loop_unfold, if_pos hlt, if_pos hd, hx, if_pos (by simp)]

/-! ## The validators on a string of tokens -/

theorem is_number_char_not_operator (c : Char) (h : is_number_char c = true) :
    is_operator c = false ∧ c ≠ NUL ∧ stage1_valid_char c = true := by
  simp only [is_number_char, Bool.or_eq_true, beq_iff_eq] at h
  rcases h with h | h
  · rw [isdigit_iff] at h
    simp only [List.mem_cons, List.mem_singleton, List.not_mem_nil, or_false] at h
    rcases h with h | h | h | h | h | h | h | h | h | h <;> subst h <;>
      exact ⟨by decide, by decide, by decide⟩
  · subst h
    exact ⟨by decide, by decide, by decide⟩

theorem is_infix_char_valid (c : Char) (h : is_infix_char c = true) :
    is_operator c = true ∧ c ≠ NUL ∧ stage1_valid_char c = true ∧ c ≠ '.' := by
  simp only [is_infix_char, Bool.or_eq_true, beq_iff_eq] at h
  rcases h with (((h | h) | h) | h) | h <;> subst h <;>
    exact ⟨by decide, by decide, by decide, by decide⟩

/-- Every character of a string of tokens belongs to a number or is an
operator character. -/
theorem expression_string_mem (rest : List (Char × List Char)) (n0 : List Char)
    (hn0 : number_token n0)
    (hrest : ∀ t, t ∈ rest → is_infix_char t.1 = true ∧ number_token t.2) (c : Char)
    (hc : c ∈ expression_string n0 rest) :
    (is_number_char c = true ∧ (c ∈ n0 ∨ ∃ t, t ∈ rest ∧ c ∈ t.2)) ∨
      (is_infix_char c = true ∧ ∃ t, t ∈ rest ∧ c = t.1) := by
  induction rest generalizing n0 with
  | nil => exact Or.inl ⟨hn0.2.2 c hc, Or.inl hc⟩
  | cons t rest ih =>
    obtain ⟨o, n1⟩ := t
    obtain ⟨ho, hn1⟩ := hrest (o, n1) (List.mem_cons_self _ _)
    simp only [expression_string, List.mem_append, List.mem_cons] at hc
    rcases hc with hc | hc | hc
    · exact Or.inl ⟨hn0.2.2 c hc, Or.inl hc⟩
    · exact Or.inr ⟨by rw [hc]; exact ho, (o, n1), List.mem_cons_self _ _, hc⟩
    · rcases ih n1 hn1 (fun t ht => hrest t (List.mem_cons_of_mem _ ht)) hc with
        ⟨h1, h2⟩ | ⟨h1, t, ht, h2⟩
      · refine Or.inl ⟨h1, Or.inr ?_⟩
        rcases h2 with h2 | ⟨t, ht, h2⟩
        · exact ⟨(o, n1), List.mem_cons_self _ _, h2⟩
        · exact ⟨t, List.mem_cons_of_mem _ ht, h2⟩
      · exact Or.inr ⟨h1, t, List.mem_cons_of_mem _ ht, h2⟩

theorem expression_string_head (rest : List (Char × List Char)) (n0 : List Char)
    (hn0 : number_token n0) : is_number_char (charAt (expression_string n0 rest) 0) = true := by
  obtain ⟨c, t, rfl⟩ := List.exists_cons_of_ne_nil hn0.1
  have hc := hn0.2.2 c (List.mem_cons_self _ _)
  cases rest with
  | nil => exact hc
  | cons u rest =>
    obtain ⟨o, n1⟩ := u
    exact hc

/-- In a string of tokens every operator character stands between two number
characters. -/
theorem expression_string_spaced (rest : List (Char × List Char)) (n0 : List Char)
    (hn0 : number_token n0)
    (hrest : ∀ t, t ∈ rest → is_infix_char t.1 = true ∧ number_token t.2) (j : Nat)
    (hj : is_operator (charAt (expression_string n0 rest) j) = true) :
    0 < j ∧ is_number_char (charAt (expression_string n0 rest) (j - 1)) = true ∧
      is_number_char (charAt (expression_string n0 rest) (j + 1)) = true := by
  induction rest generalizing n0 j with
  | nil =>
    exfalso
    simp only [expression_string] at hj
    by_cases hl : j < n0.length
    · have := (is_number_char_not_operator _ (hn0.2.2 _ (charAt_mem n0 j hl))).1
      rw [this] at hj
      exact Bool.noConfusion hj
    · rw [charAt_of_length_le n0 j (by omega)] at hj
      exact absurd hj (by decide)
  | cons t rest ih =>
    obtain ⟨o, n1⟩ := t
    obtain ⟨ho, hn1⟩ := hrest (o, n1) (List.mem_cons_self _ _)
    have hpos := List.length_pos.2 hn0.1
    simp only [expression_string] at hj ⊢
    by_cases hl : j < n0.length
    · exfalso
      rw [charAt_append_left _ _ _ hl] at hj
      have := (is_number_char_not_operator _ (hn0.2.2 _ (charAt_mem n0 j hl))).1
      rw [this] at hj
      exact Bool.noConfusion hj
    · by_cases he : j = n0.length
      · subst he
        refine ⟨hpos, ?_, ?_⟩
        · rw [charAt_append_left _ _ _ (by omega)]
          exact hn0.2.2 _ (charAt_mem n0 _ (by omega))
        · rw [charAt_append_right, charAt_cons_succ]
          exact expression_string_head rest n1 hn1
      · obtain ⟨j', rfl⟩ : ∃ j', j = n0.length + (j' + 1) := ⟨j - n0.length - 1, by omega⟩
        rw [charAt_append_right, charAt_cons_succ] at hj
        obtain ⟨i1, i2, i3⟩ := ih n1 hn1 (fun t ht => hrest t (List.mem_cons_of_mem _ ht)) j' hj
        refine ⟨by omega, ?_, ?_⟩
        · rw [show n0.length + (j' + 1) - 1 = n0.length + ((j' - 1) + 1) by omega,
            charAt_append_right, charAt_cons_succ]
          exact i2
        · rw [show n0.length + (j' + 1) + 1 = n0.length + ((j' + 1) + 1) by omega,
            charAt_append_right, charAt_cons_succ]
          exact i3

/-- A string of tokens terminated within the capacity passes the character
validator. -/
theorem syntax_check_stage1_expression (rest : List (Char × List Char)) (n0 : List Char)
    (cap : Nat) (hn0 : number_token n0)
    (hrest : ∀ t, t ∈ rest → is_infix_char t.1 = true ∧ number_token t.2)
    (hterm : (expression_string n0 rest).length < cap) :
    syntax_check_stage1 (expression_string n0 rest) cap = 0 ∧
      strlen (expression_string n0 rest) = (expression_string n0 rest).length := by
  have hall : ∀ c, c ∈ expression_string n0 rest → c ≠ NUL ∧ stage1_valid_char c = true := by
    intro c hc
    rcases expression_string_mem rest n0 hn0 hrest c hc with ⟨h, _⟩ | ⟨h, _⟩
    · exact (is_number_char_not_operator c h).2
    · exact ⟨(is_infix_char_valid c h).2.1, (is_infix_char_valid c h).2.2.1⟩
  have hlen := strlen_eq_length (expression_string n0 rest) (fun c hc => (hall c hc).1)
  have hne := List.length_pos.2 (expression_string_ne_nil n0 rest hn0.1)
  have h0 : charAt (expression_string n0 rest) 0 ≠ NUL :=
    (hall _ (charAt_mem _ 0 hne)).1
  refine ⟨?_, hlen⟩
  rw [syntax_check_stage1_terminated _ cap h0 (by omega)]
  rcases stage1_invalid_char_cases (expression_string n0 rest)
      (strlen (expression_string n0 rest) % 256) 0 with h | h
  · exact h
  · exfalso
    obtain ⟨j, _, hj, hv⟩ := (stage1_invalid_char_eq_four_iff _ _ _).1 h
    have hj' : j < (expression_string n0 rest).length := by
      have := Nat.mod_le (strlen (expression_string n0 rest)) 256
      omega
    rw [(hall _ (charAt_mem _ j hj')).2] at hv
    exact Bool.noConfusion hv

/-- A string of tokens shorter than 256 characters passes the leading,
trailing and adjacency rules of the operator-position validator, which then
answers 11 or 0 according to the exponent scan. -/
theorem syntax_check_stage2_expression (rest : List (Char × List Char)) (n0 : List Char)
    (hn0 : number_token n0)
    (hrest : ∀ t, t ∈ rest → is_infix_char t.1 = true ∧ number_token t.2)
    (hshort : (expression_string n0 rest).length < 256) :
    syntax_check_stage2 (expression_string n0 rest) 0 =
      if stage2_exponent (expression_string n0 rest) (expression_string n0 rest).length
          ((expression_string n0 rest).length - 1) 0 then 11 else 0 := by
  have hsp := expression_string_spaced rest n0 hn0 hrest
  have hall : ∀ c, c ∈ expression_string n0 rest → c ≠ NUL := by
    intro c hc
    rcases expression_string_mem rest n0 hn0 hrest c hc with ⟨h, _⟩ | ⟨h, _⟩
    · exact (is_number_char_not_operator c h).2.1
    · exact (is_infix_char_valid c h).2.1
  have hlen := strlen_eq_length (expression_string n0 rest) hall
  have hne := List.length_pos.2 (expression_string_ne_nil n0 rest hn0.1)
  generalize expression_string n0 rest = p at *
  have hnop : ∀ j, is_number_char (charAt p j) = true → ¬ is_operator (charAt p j) = true := by
    intro j h1 h2
    rw [(is_number_char_not_operator _ h1).1] at h2
    exact Bool.noConfusion h2
  unfold syntax_check_stage2
  dsimp only
  rw [hlen, Nat.mod_eq_of_lt hshort]
  have c1 : ¬ (is_operator (charAt p 0) && charAt p 0 != '-') = true := by
    intro h
    simp only [Bool.and_eq_true] at h
    have := (hsp 0 h.1).1
    omega
  have c2 : ¬ is_operator (charAt p (p.length - 1)) = true := by
    intro h
    have := (hsp _ h).2.2
    rw [charAt_of_length_le p _ (by omega)] at this
    exact absurd this (by decide)
  have c3 : ¬ stage2_adjacent p (p.length - 1) 0 = true := by
    rw [stage2_adjacent_iff]
    rintro ⟨j, _, _, hb⟩
    unfold stage2_pair_okay at hb
    by_cases ha : (is_operator (charAt p j) && is_operator (charAt p (j + 1))) = true
    · simp only [Bool.and_eq_true] at ha
      exact hnop (j + 1) (hsp j ha.1).2.2 ha.2
    · rw [if_neg ha] at hb
      exact Bool.noConfusion hb
  rw [if_neg c1, if_neg c2, if_neg c3]

/-! ## The pipeline on a string of tokens -/

/-- The exponent scan finds nothing when no dot stands after an `E`. -/
theorem stage2_exponent_no_dot (p : List Char) (bs r i : Nat)
    (h : ∀ k j, k < j → charAt p k = 'E' → charAt p j ≠ '.') :
    stage2_exponent p bs r i = false := by
  cases hx : stage2_exponent p bs r i with
  | false => rfl
  | true =>
    exfalso
    obtain ⟨k, _, _, hE, hd⟩ := (stage2_exponent_iff p bs r i).1 hx
    obtain ⟨j, hj1, _, hj3, _⟩ := (stage2_dot_after_iff _ _ _).1 hd
    exact h k j (by omega) hE hj3

/-- After the two string-level validators have passed, the result is decided
by the tokenizer, the token validator and the evaluator, in this order. -/
theorem CalculateAnswer_of_stages {F : Type} [DoubleArith F] (g : ParsedExpression_t F)
    (p : List Char) (cap : Nat) (h1 : syntax_check_stage1 p cap = 0)
    (h2 : syntax_check_stage2 p 0 = 0) :
    CalculateAnswer g p cap =
      if (identify_tokens p 0 { g with n_numbers := 0, n_infix_operators := 0 }).1 ≠ 0 then
        (DoubleArith.zero,
          (identify_tokens p 0 { g with n_numbers := 0, n_infix_operators := 0 }).1)
      else if syntax_check_stage3 (parsed_tokens g p) 0 ≠ 0 then
        (DoubleArith.zero, syntax_check_stage3 (parsed_tokens g p) 0)
      else evaluate_expression (parsed_tokens g p) 0 := by
  unfold CalculateAnswer parsed_tokens
  dsimp only
  rw [h1, if_neg (by simp), h2, if_neg (by simp)]
  by_cases h3 : (identify_tokens p 0 { g with n_numbers := 0, n_infix_operators := 0 }).1 = 0
  · rw [h3]
    simp only [ne_eq, not_true_eq_false, if_false]
    by_cases h4 : syntax_check_stage3
        (identify_tokens p 0 { g with n_numbers := 0, n_infix_operators := 0 }).2 0 = 0
    · rw [h4]
    · rw [if_pos h4, if_pos h4]
  · rw [if_pos h3, if_pos h3]

/-- The tokenizer on a string of tokens shorter than 256 characters, entered
with both counts at 0: it stores all the tokens when there are at most 20
numbers, and raises error 1 otherwise. -/
theorem identify_tokens_expression {F : Type} [DoubleArith F] (pe : ParsedExpression_t F)
    (rest : List (Char × List Char)) (n0 : List Char) (hn0 : number_token n0)
    (hrest : ∀ t, t ∈ rest → is_infix_char t.1 = true ∧ number_token t.2)
    (hshort : (expression_string n0 rest).length < 256)
    (hc1 : pe.n_numbers = 0) (hc2 : pe.n_infix_operators = 0) :
    (rest.length + 1 ≤ 20 →
        identify_tokens (expression_string n0 rest) 0 pe = (0, store_tokens pe n0 rest)) ∧
      (20 < rest.length + 1 → (identify_tokens (expression_string n0 rest) 0 pe).1 = 1) := by
  have hall : ∀ c, c ∈ expression_string n0 rest → c ≠ NUL := by
    intro c hc
    rcases expression_string_mem rest n0 hn0 hrest c hc with ⟨h, _⟩ | ⟨h, _⟩
    · exact (is_number_char_not_operator c h).2.1
    · exact (is_infix_char_valid c h).2.1
  have hlen := strlen_eq_length (expression_string n0 rest) hall
  obtain ⟨l1, l2⟩ := identify_tokens_loop_expression rest [] n0
    ({ ch_no := 0, parsed := pe, error_ref_no := 0 } : TokState F) rfl rfl
    (by show pe.n_infix_operators = pe.n_numbers; rw [hc1, hc2]) hn0 hrest
  simp only [List.nil_append] at l1 l2
  unfold identify_tokens
  dsimp only
  rw [hlen, Nat.mod_eq_of_lt hshort]
  constructor
  · intro h
    rw [l1 (by show pe.n_numbers + rest.length + 1 ≤ MAX_NUMS_AND_OPS
               rw [hc1]; simp only [MAX_NUMS_AND_OPS]; omega)]
  · intro h
    exact l2 (by show MAX_NUMS_AND_OPS < pe.n_numbers + rest.length + 1
                 rw [hc1]; simp only [MAX_NUMS_AND_OPS]; omega)

/-- The pipeline on a string of tokens that is terminated within the capacity
and on which the exponent scan finds nothing: with at most 20 numbers the
tokens are stored and the result is the token validator's error 10 or the
evaluator's result; with more than 20 numbers the result is error 1. -/
theorem CalculateAnswer_expression {F : Type} [DoubleArith F] (g : ParsedExpression_t F)
    (rest : List (Char × List Char)) (n0 : List Char) (cap : Nat) (hcap : cap < 256)
    (hn0 : number_token n0)
    (hrest : ∀ t, t ∈ rest → is_infix_char t.1 = true ∧ number_token t.2)
    (hterm : (expression_string n0 rest).length < cap)
    (hexp : stage2_exponent (expression_string n0 rest) (expression_string n0 rest).length
      ((expression_string n0 rest).length - 1) 0 = false) :
    syntax_check_stage1 (expression_string n0 rest) cap = 0 ∧
      syntax_check_stage2 (expression_string n0 rest) 0 = 0 ∧
      (rest.length + 1 ≤ 20 →
        parsed_tokens g (expression_string n0 rest) =
            store_tokens { g with n_numbers := 0, n_infix_operators := 0 } n0 rest ∧
          (identify_tokens (expression_string n0 rest) 0
            { g with n_numbers := 0, n_infix_operators := 0 }).1 = 0 ∧
          CalculateAnswer g (expression_string n0 rest) cap =
            if syntax_check_stage3 (parsed_tokens g (expression_string n0 rest)) 0 ≠ 0 then
              (DoubleArith.zero,
                syntax_check_stage3 (parsed_tokens g (expression_string n0 rest)) 0)
            else evaluate_expression (parsed_tokens g (expression_string n0 rest)) 0) ∧
      (20 < rest.length + 1 →
        CalculateAnswer g (expression_string n0 rest) cap = (DoubleArith.zero, 1)) := by
  obtain ⟨s1, _⟩ := syntax_check_stage1_expression rest n0 cap hn0 hrest hterm
  have s2 := syntax_check_stage2_expression rest n0 hn0 hrest (by omega)
  rw [hexp] at s2
  simp only [Bool.false_eq_true, if_false] at s2
  obtain ⟨t1, t2⟩ := identify_tokens_expression
    ({ g with n_numbers := 0, n_infix_operators := 0 } : ParsedExpression_t F) rest n0 hn0 hrest
    (by omega) rfl rfl
  have hca := CalculateAnswer_of_stages g (expression_string n0 rest) cap s1 s2
  refine ⟨s1, s2, ?_, ?_⟩
  · intro h
    have ht := t1 h
    have hp : parsed_tokens g (expression_string n0 rest) =
        store_tokens { g with n_numbers := 0, n_infix_operators := 0 } n0 rest := by
      unfold parsed_tokens
      rw [ht]
    refine ⟨hp, by rw [ht], ?_⟩
    rw [hca, ht]
    simp
  · intro h
    rw [hca, t2 h]
    simp


/-! ## Claims about strings of tokens -/

/-- The evaluator on a single number returns it. -/
theorem evaluate_expression_single {F : Type} [DoubleArith F] (pe : ParsedExpression_t F)
    (v : F) (h : pe.n_infix_operators = 0) :
    evaluate_expression (push_number pe v) 0 = ((push_number pe v).number pe.n_numbers, 0) := by
  unfold evaluate_expression evaluate_expression_one_operator
  simp [push_number, h, evaluate_one_operator_loop]

/-- Claim C17.  A non-empty string of at most 49 digits and dots, terminated
within the capacity, passes the three validators and the tokenizer as one
number token, and `CalculateAnswer` returns error 0 with the value the number
parser gives to the whole string; a second dot is not rejected. -/
theorem CalculateAnswer_digits_and_dots {F : Type} [DoubleArith F] (g : ParsedExpression_t F)
    (p : List Char) (cap : Nat) (hcap : cap < 256) (hne : p ≠ []) (hlen : p.length ≤ 49)
    (hall : ∀ c, c ∈ p → isdigit c = true ∨ c = '.') (hterm : p.length < cap) :
    syntax_check_stage1 p cap = 0 ∧ syntax_check_stage2 p 0 = 0 ∧
      (identify_tokens p 0 { g with n_numbers := 0, n_infix_operators := 0 }).1 = 0 ∧
      syntax_check_stage3 (parsed_tokens g p) 0 = 0 ∧
      CalculateAnswer g p cap = (simple_atof p, 0) := by
  have htok : number_token p :=
    ⟨hne, hlen, fun c hc => by
      simp only [is_number_char, Bool.or_eq_true, beq_iff_eq]
      exact hall c hc⟩
  have hexp : stage2_exponent (expression_string p []) (expression_string p []).length
      ((expression_string p []).length - 1) 0 = false := by
    apply stage2_exponent_no_dot
    intro k j _ hE _
    simp only [expression_string] at hE
    by_cases hk : k < p.length
    · have := htok.2.2 _ (charAt_mem p k hk)
      rw [hE] at this
      exact absurd this (by decide)
    · rw [charAt_of_length_le p k (by omega)] at hE
      exact absurd hE (by decide)
  obtain ⟨s1, s2, s3, _⟩ := CalculateAnswer_expression g [] p cap hcap htok
    (fun t ht => by simp at ht) hterm hexp
  obtain ⟨t1, t2, t3⟩ := s3 (by simp)
  simp only [expression_string] at s1 s2 t1 t2 t3
  have h3 : syntax_check_stage3 (parsed_tokens g p) 0 = 0 := by
    rw [t1]
    rfl
  refine ⟨s1, s2, t2, h3, ?_⟩
  rw [t3, h3, if_neg (by simp), t1]
  simp only [store_tokens]
  rw [evaluate_expression_single _ _ rfl]
  simp [push_number, setAt]

theorem CalculateAnswer_digits_and_dots_witness :
    (4 < 256 ∧ ['.'] ≠ [] ∧ ['.'].length ≤ 49 ∧ ['.'].length < 4) ∧
      CalculateAnswer zeroed ['.'] 4 = (Dbl.fin 0, 0) ∧
      CalculateAnswer zeroed ['1', '.', '2', '.', '3'] 7 = (Dbl.fin (6 / 5), 0) :=
  ⟨⟨by decide, by decide, by decide, by decide⟩,
    (CalculateAnswer_digits_and_dots zeroed ['.'] 4 (by decide) (by decide) (by decide)
      (fun c hc => by
        simp only [List.mem_singleton] at hc
        exact Or.inr hc) (by decide)).2.2.2.2.trans (by decide!),
    (CalculateAnswer_digits_and_dots zeroed ['1', '.', '2', '.', '3'] 7 (by decide) (by decide)
      (by decide)
      (fun c hc => by
        simp only [List.mem_cons, List.mem_singleton, List.not_mem_nil, or_false] at hc
        rcases hc with h | h | h | h | h <;> subst h <;> decide) (by decide)).2.2.2.2.trans
      (by decide!)⟩

/-- A buffer that does not start with the terminator and has none among its
first `cap` characters gets error 3 with the value 0.0. -/
theorem CalculateAnswer_not_terminated {F : Type} [DoubleArith F] (g : ParsedExpression_t F)
    (p : List Char) (cap : Nat) (h0 : charAt p 0 ≠ NUL)
    (hno : ∀ i, i < cap → charAt p i ≠ NUL) :
    CalculateAnswer g p cap = (DoubleArith.zero, 3) := by
  have hf : stage1_find_null p cap 0 ≠ 0 := by
    intro hz
    obtain ⟨j, _, h2, h3⟩ := (stage1_find_null_eq_zero_iff p cap 0).1 hz
    exact hno j (by omega) h3
  have h1 : syntax_check_stage1 p cap = 3 := by
    unfold syntax_check_stage1
    rw [if_neg h0, if_pos hf]
  unfold CalculateAnswer
  simp [h1]

/-- A string of tokens that is at least as long as the capacity gets error 3
with the value 0.0. -/
theorem CalculateAnswer_expression_not_terminated {F : Type} [DoubleArith F]
    (g : ParsedExpression_t F) (rest : List (Char × List Char)) (n0 : List Char) (cap : Nat)
    (hn0 : number_token n0)
    (hrest : ∀ t, t ∈ rest → is_infix_char t.1 = true ∧ number_token t.2)
    (hlong : cap ≤ (expression_string n0 rest).length) :
    CalculateAnswer g (expression_string n0 rest) cap = (DoubleArith.zero, 3) := by
  have hall : ∀ c, c ∈ expression_string n0 rest → c ≠ NUL := by
    intro c hc
    rcases expression_string_mem rest n0 hn0 hrest c hc with ⟨h, _⟩ | ⟨h, _⟩
    · exact (is_number_char_not_operator c h).2.1
    · exact (is_infix_char_valid c h).2.1
  have hne := List.length_pos.2 (expression_string_ne_nil n0 rest hn0.1)
  exact CalculateAnswer_not_terminated g _ cap (hall _ (charAt_mem _ 0 hne))
    (fun i hi => hall _ (charAt_mem _ i (by omega)))

/-- Claim C14, as amended.  For an input `n1 o1 n2 ... nk` of numbers of 1 to
9 digits separated by single operators, passed with a capacity below 256: if
the string is terminated within the capacity and has more than 20 numbers the
result is error 1 with the value 0.0; if the string is at least as long as the
capacity the result is error 3 with the value 0.0; and with at most 20 numbers
the error is never 1. -/
theorem CalculateAnswer_capacity {F : Type} [DoubleArith F] (g : ParsedExpression_t F)
    (n1 : List Char) (rest : List (Char × List Char)) (cap : Nat) (hcap : cap < 256)
    (hn1 : digit_token n1)
    (hrest : ∀ t, t ∈ rest → t.1 ∈ operator_chars ∧ digit_token t.2) :
    (20 < rest.length + 1 → (expression_string n1 rest).length < cap →
        CalculateAnswer g (expression_string n1 rest) cap = (DoubleArith.zero, 1)) ∧
      (cap ≤ (expression_string n1 rest).length →
        CalculateAnswer g (expression_string n1 rest) cap = (DoubleArith.zero, 3)) ∧
      (rest.length + 1 ≤ 20 → (CalculateAnswer g (expression_string n1 rest) cap).2 ≠ 1) := by
  have hnum : ∀ n, digit_token n → number_token n := by
    intro n hn
    refine ⟨List.ne_nil_of_length_pos (by have := hn.1; omega), by have := hn.2.1; omega, ?_⟩
    intro c hc
    simp only [is_number_char, Bool.or_eq_true, beq_iff_eq]
    exact Or.inl (hn.2.2 c hc)
  have hrest' : ∀ t, t ∈ rest → is_infix_char t.1 = true ∧ number_token t.2 :=
    fun t ht => ⟨(is_operator_iff _).2 (hrest t ht).1, hnum _ (hrest t ht).2⟩
  have hlong : cap ≤ (expression_string n1 rest).length →
      CalculateAnswer g (expression_string n1 rest) cap = (DoubleArith.zero, 3) :=
    CalculateAnswer_expression_not_terminated g rest n1 cap (hnum _ hn1) hrest'
  have hnodot : ∀ c, c ∈ expression_string n1 rest → c ≠ '.' := by
    intro c hc
    rcases expression_string_mem rest n1 (hnum _ hn1) hrest' c hc with ⟨_, h⟩ | ⟨h, _⟩
    · have hd : isdigit c = true := by
        rcases h with h | ⟨t, ht, h⟩
        · exact hn1.2.2 c h
        · exact (hrest t ht).2.2.2 c h
      rintro rfl
      exact absurd hd (by decide)
    · exact (is_infix_char_valid c h).2.2.2
  have hexp : stage2_exponent (expression_string n1 rest) (expression_string n1 rest).length
      ((expression_string n1 rest).length - 1) 0 = false := by
    apply stage2_exponent_no_dot
    intro k j _ _ hdot
    by_cases hj : j < (expression_string n1 rest).length
    · exact hnodot _ (charAt_mem _ j hj) hdot
    · rw [charAt_of_length_le _ j (by omega)] at hdot
      exact absurd hdot (by decide)
  refine ⟨fun hk hterm => ?_, hlong, fun hk => ?_⟩
  · exact (CalculateAnswer_expression g rest n1 cap hcap (hnum _ hn1) hrest' hterm hexp).2.2.2 hk
  by_cases hterm : (expression_string n1 rest).length < cap
  · obtain ⟨s1, s2, s3, s4⟩ := CalculateAnswer_expression g rest n1 cap hcap (hnum _ hn1) hrest'
      hterm hexp
    obtain ⟨_, t2, t3⟩ := s3 hk
    obtain ⟨c1, c2, c3⟩ := parsed_tokens_counts g (expression_string n1 rest) cap hcap s1 s2 t2
    have hev := (evaluate_expression_refines (parsed_tokens g (expression_string n1 rest))
      c1 c2 c3).1
    have h3 := syntax_check_stage3_cases (parsed_tokens g (expression_string n1 rest)) 0
    rw [t3]
    split_ifs with hs
    · show syntax_check_stage3 (parsed_tokens g (expression_string n1 rest)) 0 ≠ 1
      omega
    · rw [hev]
      decide
  · rw [hlong (by omega)]
    show (3 : Nat) ≠ 1
    decide

theorem CalculateAnswer_capacity_witness :
    (50 < 256 ∧ digit_token ['1'] ∧
      20 < (List.replicate 20 ('+', ['1'])).length + 1 ∧
      (expression_string ['1'] (List.replicate 20 ('+', ['1']))).length < 50 ∧
      30 ≤ (expression_string ['1'] (List.replicate 20 ('+', ['1']))).length ∧
      [('+', ['1'])].length + 1 ≤ 20) ∧
      CalculateAnswer zeroed (expression_string ['1'] (List.replicate 20 ('+', ['1']))) 50 =
        (Dbl.fin 0, 1) ∧
      CalculateAnswer zeroed (expression_string ['1'] (List.replicate 20 ('+', ['1']))) 30 =
        (Dbl.fin 0, 3) ∧
      (CalculateAnswer zeroed (expression_string ['1'] [('+', ['1'])]) 50).2 ≠ 1 :=
  ⟨⟨by decide, ⟨by decide, by decide, by decide⟩, by decide, by decide, by decide, by decide⟩,
    (CalculateAnswer_capacity zeroed ['1'] (List.replicate 20 ('+', ['1'])) 50 (by decide)
      ⟨by decide, by decide, by decide⟩
      (fun t ht => by
        rw [List.eq_of_mem_replicate ht]
        exact ⟨by decide, by decide, by decide, by decide⟩)).1 (by decide) (by decide),
    (CalculateAnswer_capacity zeroed ['1'] (List.replicate 20 ('+', ['1'])) 30 (by decide)
      ⟨by decide, by decide, by decide⟩
      (fun t ht => by
        rw [List.eq_of_mem_replicate ht]
        exact ⟨by decide, by decide, by decide, by decide⟩)).2.1 (by decide),
    (CalculateAnswer_capacity zeroed ['1'] [('+', ['1'])] 50 (by decide)
      ⟨by decide, by decide, by decide⟩
      (fun t ht => by
        rw [List.mem_singleton.1 ht]
        exact ⟨by decide, by decide, by decide, by decide⟩)).2.2 (by decide)⟩

set_option maxRecDepth 100000 in
/-- Claim C14, counterexample.  The input of 128 numbers `1` separated by `+`
has 255 characters, and the input of 26 numbers `123456789` separated by `x`
has 259: both have the shape of the claim with more than 20 numbers, yet at
the capacity 255, the largest there is, the result is error 3 and not error 1,
no terminator being found within the capacity. -/
theorem CalculateAnswer_capacity_counterexample :
    (digit_token ['1'] ∧ ('+' ∈ operator_chars) ∧
      20 < (List.replicate 127 ('+', ['1'])).length + 1 ∧
      (expression_string ['1'] (List.replicate 127 ('+', ['1']))).length = 255) ∧
      CalculateAnswer zeroed (expression_string ['1'] (List.replicate 127 ('+', ['1']))) 255 =
        (Dbl.fin 0, 3) ∧
      (digit_token ['1', '2', '3', '4', '5', '6', '7', '8', '9'] ∧ ('x' ∈ operator_chars) ∧
        20 < (List.replicate 25 ('x', ['1', '2', '3', '4', '5', '6', '7', '8', '9'])).length + 1 ∧
        (expression_string ['1', '2', '3', '4', '5', '6', '7', '8', '9']
          (List.replicate 25 ('x', ['1', '2', '3', '4', '5', '6', '7', '8', '9']))).length
            = 259) ∧
      CalculateAnswer zeroed (expression_string ['1', '2', '3', '4', '5', '6', '7', '8', '9']
        (List.replicate 25 ('x', ['1', '2', '3', '4', '5', '6', '7', '8', '9']))) 255 =
        (Dbl.fin 0, 3) :=
  ⟨⟨⟨by decide, by decide, by decide⟩, by decide, by decide, by decide!⟩, by decide!,
    ⟨⟨by decide, by decide, by decide⟩, by decide, by decide, by decide!⟩, by decide!⟩

/-- The evaluator on two numbers with one operator between them returns the
operator's value of the two, without error. -/
theorem evaluate_expression_pair {F : Type} [DoubleArith F] (pe : ParsedExpression_t F)
    (a b : F) (o : Char) (ho : is_infix_char o = true) (h1 : pe.n_numbers = 0)
    (h2 : pe.n_infix_operators = 0) :
    evaluate_expression (push_number (push_operator (push_number pe a) o) b) 0 =
      (merge_value o a b, 0) := by
  have hr := evaluate_expression_refines (push_number (push_operator (push_number pe a) o) b)
    (by simp [push_number, push_operator, h1, h2])
    (by simp [push_number, push_operator, h1, h2, MAX_NUMS_AND_OPS])
    (fun l hl => by
      have hl' : l = 0 := by
        simp only [push_number, push_operator, h2] at hl
        omega
      subst hl'
      simp only [push_number, push_operator, h2, setAt_same]
      exact ho)
  have hn : token_numbers (push_number (push_operator (push_number pe a) o) b) = [a, b] := by
    simp [token_numbers, push_number, push_operator, h1, setAt, List.range_succ]
  have ht : token_operators (push_number (push_operator (push_number pe a) o) b) = [o] := by
    simp [token_operators, push_number, push_operator, h2, setAt, List.range_succ]
  rw [hn, ht] at hr
  have hv : tier_value five_tiers [a, b] [o] = some (merge_value o a b) := by
    simp only [is_infix_char, Bool.or_eq_true, beq_iff_eq] at ho
    rcases ho with (((h | h) | h) | h) | h <;> subst h <;>
      simp [tier_value, five_tiers, reduce_tiers, reduce_pass]
  have hval : (evaluate_expression (push_number (push_operator (push_number pe a) o) b) 0).1 =
      merge_value o a b := by
    have := hr.2
    rw [hv] at this
    exact (Option.some.inj this).symm
  exact Prod.ext hval hr.1

/-- The pipeline on `a o b` for two number tokens and one operator, terminated
within the capacity, the exponent scan finding nothing. -/
theorem CalculateAnswer_pair {F : Type} [DoubleArith F] (g : ParsedExpression_t F)
    (a b : List Char) (o : Char) (cap : Nat) (hcap : cap < 256) (ha : number_token a)
    (hb : number_token b) (ho : is_infix_char o = true) (hterm : (a ++ o :: b).length < cap)
    (hexp : stage2_exponent (a ++ o :: b) (a ++ o :: b).length ((a ++ o :: b).length - 1) 0
      = false) :
    CalculateAnswer g (a ++ o :: b) cap = (merge_value o (simple_atof a) (simple_atof b), 0) := by
  obtain ⟨_, _, s3, _⟩ := CalculateAnswer_expression g [(o, b)] a cap hcap ha
    (fun t ht => by
      rw [List.mem_singleton.1 ht]
      exact ⟨ho, hb⟩) hterm hexp
  obtain ⟨t1, _, t3⟩ := s3 (by simp)
  simp only [expression_string] at t1 t3
  have hst : store_tokens ({ g with n_numbers := 0, n_infix_operators := 0 } :
      ParsedExpression_t F) a [(o, b)] =
      push_number (push_operator (push_number
        ({ g with n_numbers := 0, n_infix_operators := 0 } : ParsedExpression_t F)
        (simple_atof a)) o) (simple_atof b) := rfl
  have h3 : syntax_check_stage3 (parsed_tokens g (a ++ o :: b)) 0 = 0 := by
    rw [t1, hst]
    rfl
  rw [t3, h3, if_neg (by simp), t1, hst]
  exact evaluate_expression_pair _ _ _ o ho rfl rfl

/-- Claim C15.  A zero divisor raises no error: for any two numbers `a` and
`b` the evaluator on the tokens `a / b` returns the quotient the double
division gives, with error 0; `CalculateAnswer` on "5/0" returns error 0 with
the quotient of 5.0 by 0.0, which is the positive infinity in the model of
IEEE arithmetic. -/
theorem CalculateAnswer_division_by_zero {F : Type} [DoubleArith F] (g : ParsedExpression_t F)
    (gd : ParsedExpression_t Dbl) (a b : F) :
    evaluate_expression
        (push_number (push_operator (push_number
          ({ g with n_numbers := 0, n_infix_operators := 0 } : ParsedExpression_t F) a) '/') b)
        0 = (DoubleArith.div a b, 0) ∧
      CalculateAnswer g ['5', '/', '0'] 4 =
        (DoubleArith.div (simple_atof ['5']) (simple_atof ['0']), 0) ∧
      CalculateAnswer gd ['5', '/', '0'] 4 = (Dbl.pinf, 0) := by
  have hgen : ∀ {G : Type} [DoubleArith G] (h : ParsedExpression_t G),
      CalculateAnswer h ['5', '/', '0'] 4 =
        (DoubleArith.div (simple_atof ['5']) (simple_atof ['0']), 0) := by
    intro G _ h
    exact CalculateAnswer_pair h ['5'] ['0'] '/' 4 (by decide)
      ⟨by decide, by decide, by decide⟩ ⟨by decide, by decide, by decide⟩ (by decide)
      (by decide) (by decide)
  refine ⟨?_, hgen g, ?_⟩
  · exact evaluate_expression_pair _ a b '/' (by decide) rfl rfl
  · rw [hgen gd]
    decide!


/-! ## The number parser in exact arithmetic -/

theorem wrap_int_of_fits (z : Int) (h0 : 0 ≤ z) (h1 : z < 2147483648) : wrap_int z = z := by
  unfold wrap_int
  omega

theorem foldl_value_ge (ds : List Char) (acc : Nat) :
    acc ≤ ds.foldl (fun v c => v * 10 + digit_value c) acc := by
  induction ds generalizing acc with
  | nil => exact Nat.le_refl _
  | cons c ds ih =>
    rw [List.foldl_cons]
    have := ih (acc * 10 + digit_value c)
    omega

/-- The integer-part loop on a run of digits whose value fits an `int`: it
consumes the run and accumulates its decimal value. -/
theorem atof_int_part_digits (ds rest : List Char) (acc : Nat)
    (hds : ∀ c, c ∈ ds → isdigit c = true)
    (hrest : ∀ c t, rest = c :: t → isdigit c = false)
    (hfit : ds.foldl (fun v c => v * 10 + digit_value c) acc < 2147483648) :
    atof_int_part (ds ++ rest) (acc : Int) =
      (((ds.foldl (fun v c => v * 10 + digit_value c) acc : Nat) : Int), rest) := by
  induction ds generalizing acc with
  | nil =>
    cases rest with
    | nil => rfl
    | cons c t =>
      simp only [List.nil_append, List.foldl_nil]
      unfold atof_int_part
      rw [if_neg (by rw [hrest c t rfl]; simp)]
  | cons c ds ih =>
    have hc := hds c (List.mem_cons_self _ _)
    have hc' : 48 ≤ c.toNat ∧ c.toNat ≤ 57 := by simpa [isdigit] using hc
    have hge := foldl_value_ge ds (acc * 10 + digit_value c)
    rw [List.foldl_cons] at hfit ⊢
    have hw : wrap_int ((acc : Int) * 10 + ((c.toNat : Int) - 48)) =
        ((acc * 10 + digit_value c : Nat) : Int) := by
      have hd : ((digit_value c : Nat) : Int) = (c.toNat : Int) - 48 := by
        unfold digit_value
        omega
      rw [wrap_int_of_fits _ (by omega) (by omega)]
      push_cast
      omega
    rw [List.cons_append]
    unfold atof_int_part
    rw [if_pos hc, hw]
    exact ih (acc * 10 + digit_value c) (fun d hd => hds d (List.mem_cons_of_mem _ hd)) hfit

/-- The fractional-part loop in exact arithmetic on a run of digits: each
digit is divided by the next power of ten and added. -/
theorem atof_frac_part_digits (fs rest : List Char) (fr dv : ℚ) (hdv : dv ≠ 0)
    (hfs : ∀ c, c ∈ fs → isdigit c = true)
    (hrest : ∀ c t, rest = c :: t → isdigit c = false) :
    atof_frac_part (fs ++ rest) (Dbl.fin fr) (Dbl.fin dv) =
      Dbl.fin (fr + frac_value fs * 10 / dv) := by
  induction fs generalizing fr dv with
  | nil =>
    simp only [List.nil_append, frac_value, zero_mul, zero_div, add_zero]
    cases rest with
    | nil => rfl
    | cons c t =>
      unfold atof_frac_part
      rw [if_neg (by rw [hrest c t rfl]; simp)]
  | cons c fs ih =>
    have hc := hfs c (List.mem_cons_self _ _)
    have hc' : 48 ≤ c.toNat ∧ c.toNat ≤ 57 := by simpa [isdigit] using hc
    rw [List.cons_append]
    unfold atof_frac_part
    rw [if_pos hc]
    have h1 : (DoubleArith.add (Dbl.fin fr)
        (DoubleArith.div (DoubleArith.ofInt ((c.toNat : Int) - 48)) (Dbl.fin dv)) : Dbl) =
        Dbl.fin (fr + (digit_value c : ℚ) / dv) := by
      show Dbl.add (Dbl.fin fr) (Dbl.div (Dbl.fin (((c.toNat : Int) - 48 : Int) : ℚ)) (Dbl.fin dv))
        = _
      have hd : ((((c.toNat : Int) - 48 : Int)) : ℚ) = (digit_value c : ℚ) := by
        unfold digit_value
        rw [Nat.cast_sub hc'.1]
        push_cast
        ring
      rw [hd]
      simp only [Dbl.div, if_neg hdv, Dbl.add]
    have h2 : (DoubleArith.mul (Dbl.fin dv) (DoubleArith.ofInt 10) : Dbl) = Dbl.fin (dv * 10) := by
      show Dbl.mul (Dbl.fin dv) (Dbl.fin ((10 : Int) : ℚ)) = _
      simp only [Dbl.mul]
      norm_num
    rw [h1, h2, ih _ _ (mul_ne_zero hdv (by norm_num)) (fun d hd => hfs d (List.mem_cons_of_mem _ hd))]
    congr 1
    simp only [frac_value]
    field_simp
    ring

/-- The parser on a string that starts with neither a space nor a sign: the
value is `1 * (int_part + frac_part)`. -/
theorem simple_atof_unsigned {F : Type} [DoubleArith F] (s : List Char)
    (h : ∀ c t, s = c :: t → c ≠ ' ' ∧ c ≠ '-' ∧ c ≠ '+') :
    (simple_atof s : F) =
      DoubleArith.mul (DoubleArith.ofInt 1)
        (DoubleArith.add (DoubleArith.ofInt (atof_int_part s 0).1)
          (match (atof_int_part s 0).2 with
            | c :: cs => if c = '.' then atof_frac_part cs DoubleArith.zero DoubleArith.ten
                         else DoubleArith.zero
            | [] => DoubleArith.zero)) := by
  cases s with
  | nil => rfl
  | cons c t =>
    obtain ⟨h1, h2, h3⟩ := h c t rfl
    unfold simple_atof
    simp only [atof_skip_spaces, if_neg h1, if_neg h2, if_neg h3]

/-- The parser on a minus sign followed by a string: the value is
`-1 * (int_part + frac_part)`. -/
theorem simple_atof_minus {F : Type} [DoubleArith F] (s : List Char) :
    (simple_atof ('-' :: s) : F) =
      DoubleArith.mul (DoubleArith.ofInt (-1))
        (DoubleArith.add (DoubleArith.ofInt (atof_int_part s 0).1)
          (match (atof_int_part s 0).2 with
            | c :: cs => if c = '.' then atof_frac_part cs DoubleArith.zero DoubleArith.ten
                         else DoubleArith.zero
            | [] => DoubleArith.zero)) := by
  unfold simple_atof
  simp only [atof_skip_spaces, if_neg (by decide : ¬ '-' = ' '), if_true]

theorem isdigit_not_sign (c : Char) (h : isdigit c = true) :
    c ≠ ' ' ∧ c ≠ '-' ∧ c ≠ '+' ∧ c ≠ '.' := by
  refine ⟨?_, ?_, ?_, ?_⟩ <;> rintro rfl <;> exact absurd h (by decide)

/-- In exact arithmetic the parser gives a digit string its decimal value, as
long as that value fits an `int`. -/
theorem simple_atof_digits (ip : List Char) (hip : ∀ c, c ∈ ip → isdigit c = true)
    (hfit : nat_value ip < 2147483648) :
    (simple_atof ip : Dbl) = Dbl.fin (nat_value ip) := by
  have hi := atof_int_part_digits ip [] 0 hip (fun c t h => by simp at h) hfit
  simp only [List.append_nil, Nat.cast_zero] at hi
  rw [simple_atof_unsigned ip (fun c t h => by
    have := isdigit_not_sign c (hip c (by rw [h]; exact List.mem_cons_self _ _))
    exact ⟨this.1, this.2.1, this.2.2.1⟩), hi]
  show Dbl.mul (Dbl.fin ((1 : Int) : ℚ)) (Dbl.add (Dbl.fin ((nat_value ip : Int) : ℚ))
    (Dbl.fin 0)) = _
  simp only [Dbl.add, Dbl.mul]
  congr 1
  push_cast
  ring

/-- In exact arithmetic the parser gives `I.F` the value of `I` plus
`f1/10 + f2/100 + ...`, as long as the value of `I` fits an `int`. -/
theorem simple_atof_decimal (ip fp : List Char) (hip : ∀ c, c ∈ ip → isdigit c = true)
    (hfp : ∀ c, c ∈ fp → isdigit c = true) (hfit : nat_value ip < 2147483648) :
    (simple_atof (ip ++ '.' :: fp) : Dbl) = Dbl.fin (nat_value ip + frac_value fp) := by
  have hi := atof_int_part_digits ip ('.' :: fp) 0 hip
    (fun c t h => by
      have : c = '.' := by injection h with h1 _; exact h1.symm
      rw [this]; decide) hfit
  simp only [Nat.cast_zero] at hi
  have hf := atof_frac_part_digits fp [] 0 10 (by norm_num) hfp (fun c t h => by simp at h)
  simp only [List.append_nil] at hf
  rw [simple_atof_unsigned _ (fun c t h => by
    cases ip with
    | nil =>
      have : c = '.' := by
        simp only [List.nil_append] at h
        injection h with h1 _
        exact h1.symm
      rw [this]
      exact ⟨by decide, by decide, by decide⟩
    | cons d ds =>
      have : c = d := by
        simp only [List.cons_append] at h
        injection h with h1 _
        exact h1.symm
      have := isdigit_not_sign c (by rw [this]; exact hip d (List.mem_cons_self _ _))
      exact ⟨this.1, this.2.1, this.2.2.1⟩), hi]
  simp only [if_true]
  show Dbl.mul (Dbl.fin ((1 : Int) : ℚ)) (Dbl.add (Dbl.fin ((nat_value ip : Int) : ℚ))
    (atof_frac_part fp (Dbl.fin 0) (Dbl.fin 10))) = _
  rw [hf]
  simp only [Dbl.add, Dbl.mul]
  congr 1
  push_cast
  field_simp

/-- The range of `double` against the powers of ten: the thresholds of
`Dbl.pow10`. -/
theorem pow10_range :
    (10 : ℚ) ^ 308 ≤ DBL_MAX ∧ DBL_MAX < (10 : ℚ) ^ 309 ∧
      (10 : ℚ) ^ (-324 : Int) < (2 : ℚ) ^ (-1075 : Int) ∧
      (2 : ℚ) ^ (-1075 : Int) < (10 : ℚ) ^ (-323 : Int) := by
  unfold DBL_MAX
  refine ⟨by norm_num, by norm_num, ?_, ?_⟩
  · rw [zpow_neg, zpow_neg, inv_lt_inv₀ (by positivity) (by positivity)]
    norm_num
  · rw [zpow_neg, zpow_neg, inv_lt_inv₀ (by positivity) (by positivity)]
    norm_num

/-- The power `pow(10.0, n)` of a natural number up to 308. -/
theorem pow10_nat (n : Nat) (h : n ≤ 308) :
    Dbl.pow10 (Dbl.fin (n : ℚ)) = Dbl.fin ((10 : ℚ) ^ n) := by
  simp only [Dbl.pow10, Rat.den_natCast, if_true, Rat.num_natCast]
  rw [if_neg (by omega), if_neg (by omega), zpow_natCast]

/-- The power `pow(10.0, n)` of a natural number from 309 on is `+inf`. -/
theorem pow10_overflow (n : Nat) (h : 308 < n) : Dbl.pow10 (Dbl.fin (n : ℚ)) = Dbl.pinf := by
  simp only [Dbl.pow10, Rat.den_natCast, if_true, Rat.num_natCast]
  rw [if_pos (by omega)]


/-! ## The exponent law and the re-parse of displayed text -/

/-- The exponent scan finds nothing in `a E b` when `b` is a digit string. -/
theorem stage2_exponent_pair (a b : List Char) (ha : number_token a)
    (hb : ∀ c, c ∈ b → isdigit c = true) :
    stage2_exponent (a ++ 'E' :: b) (a ++ 'E' :: b).length ((a ++ 'E' :: b).length - 1) 0
      = false := by
  apply stage2_exponent_no_dot
  intro k j hkj hE hdot
  by_cases hk : k < a.length
  · rw [charAt_append_left _ _ _ hk] at hE
    have := ha.2.2 _ (charAt_mem a k hk)
    rw [hE] at this
    exact absurd this (by decide)
  · obtain ⟨j', rfl⟩ : ∃ j', j = a.length + (j' + 1) := ⟨j - a.length - 1, by omega⟩
    rw [charAt_append_right, charAt_cons_succ] at hdot
    by_cases hj : j' < b.length
    · have := hb _ (charAt_mem b j' hj)
      rw [hdot] at this
      exact absurd this (by decide)
    · rw [charAt_of_length_le b j' (by omega)] at hdot
      exact absurd hdot (by decide)

/-- Claim C13, as amended.  For an input `a E b` terminated within the
capacity, where `a` is a non-empty digit string with an optional fractional
part, of at most 49 characters, and `b` is a non-empty digit string of at most
49 characters, `CalculateAnswer` returns error 0 and the value
`simple_atof(a) * pow(10.0, simple_atof(b))`, in whatever arithmetic the
doubles have.  When `a` has no fractional part, `a ≤ 2147483647`, `b ≤ 22`
and `a * 10^b < 2^53`, so that every step is exact in double arithmetic, the
value is `a * 10^b`. -/
theorem CalculateAnswer_exponent_law {F : Type} [DoubleArith F] (g : ParsedExpression_t F)
    (gd : ParsedExpression_t Dbl) (ip : List Char)
    (fp : Option (List Char)) (b : List Char) (cap : Nat) (hcap : cap < 256)
    (hne : ip ≠ []) (hip : ∀ c, c ∈ ip → isdigit c = true)
    (hfp : ∀ f, fp = some f → ∀ c, c ∈ f → isdigit c = true)
    (hlen : (mantissa_string ip fp).length ≤ 49)
    (hbne : b ≠ []) (hb : ∀ c, c ∈ b → isdigit c = true) (hblen : b.length ≤ 49)
    (hterm : (mantissa_string ip fp ++ 'E' :: b).length < cap) :
    CalculateAnswer g (mantissa_string ip fp ++ 'E' :: b) cap =
        (DoubleArith.mul (simple_atof (mantissa_string ip fp))
          (DoubleArith.pow10 (simple_atof b)), 0) ∧
      (fp = none → nat_value ip ≤ 2147483647 → nat_value b ≤ 22 →
        nat_value ip * 10 ^ nat_value b < 2 ^ 53 →
        CalculateAnswer gd (mantissa_string ip fp ++ 'E' :: b) cap =
          (Dbl.fin ((nat_value ip : ℚ) * (10 : ℚ) ^ nat_value b), 0)) := by
  have ha : number_token (mantissa_string ip fp) := by
    refine ⟨?_, hlen, ?_⟩
    · cases fp with
      | none => exact hne
      | some f => simp [mantissa_string]
    · intro c hc
      simp only [is_number_char, Bool.or_eq_true, beq_iff_eq]
      cases fp with
      | none => exact Or.inl (hip c hc)
      | some f =>
        simp only [mantissa_string, List.mem_append, List.mem_cons] at hc
        rcases hc with hc | hc | hc
        · exact Or.inl (hip c hc)
        · exact Or.inr hc
        · exact Or.inl (hfp f rfl c hc)
  have hbt : number_token b :=
    ⟨hbne, hblen, fun c hc => by
      simp only [is_number_char, Bool.or_eq_true, beq_iff_eq]
      exact Or.inl (hb c hc)⟩
  have hpair : ∀ {G : Type} [DoubleArith G] (h : ParsedExpression_t G),
      CalculateAnswer h (mantissa_string ip fp ++ 'E' :: b) cap =
        (DoubleArith.mul (simple_atof (mantissa_string ip fp))
          (DoubleArith.pow10 (simple_atof b)), 0) := fun h =>
    CalculateAnswer_pair h (mantissa_string ip fp) b 'E' cap hcap ha hbt (by decide) hterm
      (stage2_exponent_pair _ b ha hb)
  refine ⟨hpair g, fun hnone hfit hbfit _ => ?_⟩
  subst hnone
  rw [hpair gd]
  show (Dbl.mul (simple_atof ip) (Dbl.pow10 (simple_atof b)), 0) = _
  rw [simple_atof_digits ip hip (by omega), simple_atof_digits b hb (by omega),
    pow10_nat (nat_value b) (by omega)]
  rfl

theorem CalculateAnswer_exponent_law_witness :
    (8 < 256 ∧ ['5'] ≠ [] ∧ (mantissa_string ['5'] (some ['2'])).length ≤ 49 ∧ ['3'] ≠ [] ∧
      ['3'].length ≤ 49 ∧ (mantissa_string ['5'] (some ['2']) ++ 'E' :: ['3']).length < 8) ∧
      CalculateAnswer zeroed ['5', '.', '2', 'E', '3'] 8 = (Dbl.fin 5200, 0) ∧
      (nat_value ['1'] ≤ 2147483647 ∧ nat_value ['2'] ≤ 22 ∧
        nat_value ['1'] * 10 ^ nat_value ['2'] < 2 ^ 53) ∧
      CalculateAnswer zeroed ['1', 'E', '2'] 8 = (Dbl.fin 100, 0) :=
  ⟨⟨by decide, by decide, by decide, by decide, by decide, by decide⟩,
    (CalculateAnswer_exponent_law zeroed zeroed ['5'] (some ['2']) ['3'] 8 (by decide)
      (by decide)
      (fun c hc => by rw [List.mem_singleton.1 hc]; decide)
      (fun f hf c hc => by
        rw [← Option.some.inj hf] at hc
        rw [List.mem_singleton.1 hc]; decide)
      (by decide) (by decide)
      (fun c hc => by rw [List.mem_singleton.1 hc]; decide) (by decide)
      (by decide)).1.trans (by decide!),
    ⟨by decide, by decide, by decide⟩,
    ((CalculateAnswer_exponent_law zeroed zeroed ['1'] none ['2'] 8 (by decide) (by decide)
      (fun c hc => by rw [List.mem_singleton.1 hc]; decide)
      (fun f hf => by simp at hf)
      (by decide) (by decide)
      (fun c hc => by rw [List.mem_singleton.1 hc]; decide) (by decide)
      (by decide)).2 rfl (by decide) (by decide) (by decide)).trans (by decide!)⟩

set_option maxRecDepth 100000 in
/-- Claim C13, counterexample.  The input made of fifty digits `0`, `E` and
`1` has the form `a E b`, yet the result is error 7: the number phase stops
after 49 characters and the operator phase meets the fiftieth digit.  On
"3000000000E0" the integer part does not fit an `int`: with the wrap-around of
the target the value returned is -1294967296.  On "1E400" the power of ten
leaves the range of `double`: the value returned is `+inf`, not 10^400, and on
"0E400" it is NaN, not 0. -/
theorem CalculateAnswer_exponent_law_counterexample :
    CalculateAnswer zeroed (List.replicate 50 '0' ++ ['E', '1']) 60 = (Dbl.fin 0, 7) ∧
      (CalculateAnswer zeroed (List.replicate 50 '0' ++ ['E', '1']) 60).2 ≠ 0 ∧
      CalculateAnswer zeroed ['3', '0', '0', '0', '0', '0', '0', '0', '0', '0', 'E', '0'] 20 =
        (Dbl.fin (-1294967296), 0) ∧
      CalculateAnswer zeroed ['1', 'E', '4', '0', '0'] 20 = (Dbl.pinf, 0) ∧
      CalculateAnswer zeroed ['0', 'E', '4', '0', '0'] 20 = (Dbl.nan, 0) := by
  decide!

/-! ## Re-parsing the displayed text -/

theorem digit_char_spec (d : Nat) (h : d < 10) :
    isdigit (digit_char d) = true ∧ digit_value (digit_char d) = d := by
  interval_cases d <;> exact ⟨by decide, by decide⟩

/-- The digits of `%d` are digit characters. -/
theorem format_nat_digits (n : Nat) (c : Char) (hc : c ∈ format_nat n) : isdigit c = true := by
  unfold format_nat at hc
  split at hc
  · rw [List.mem_singleton.1 hc]
    decide
  · obtain ⟨d, hd, rfl⟩ := List.mem_map.1 hc
    exact (digit_char_spec d (Nat.digits_lt_base (by norm_num) (List.mem_reverse.1 hd))).1

theorem foldr_digit_value (L : List Nat) (h : ∀ d, d ∈ L → d < 10) :
    List.foldr (fun d v => v * 10 + digit_value (digit_char d)) 0 L = Nat.ofDigits 10 L := by
  induction L with
  | nil => rfl
  | cons d L ih =>
    rw [List.foldr_cons, ih (fun e he => h e (List.mem_cons_of_mem _ he)), Nat.ofDigits_cons,
      (digit_char_spec d (h d (List.mem_cons_self _ _))).2]
    ring

/-- The decimal value of the text of `%d` is the number. -/
theorem nat_value_format_nat (n : Nat) : nat_value (format_nat n) = n := by
  unfold format_nat
  split
  · rename_i h
    rw [h]
    decide
  · unfold nat_value
    rw [List.foldl_map, List.foldl_reverse,
      foldr_digit_value _ (fun d hd => Nat.digits_lt_base (by norm_num) hd),
      Nat.ofDigits_digits]

/-- In exact arithmetic the value `sign * (int_part + frac_part)` the parser
computes on `I.F` after the sign. -/
theorem atof_body_decimal (sg : Int) (ip fp : List Char)
    (hip : ∀ c, c ∈ ip → isdigit c = true) (hfp : ∀ c, c ∈ fp → isdigit c = true)
    (hfit : nat_value ip < 2147483648) :
    (DoubleArith.mul (DoubleArith.ofInt sg)
        (DoubleArith.add (DoubleArith.ofInt (atof_int_part (ip ++ '.' :: fp) 0).1)
          (match (atof_int_part (ip ++ '.' :: fp) 0).2 with
            | c :: cs => if c = '.' then atof_frac_part cs DoubleArith.zero DoubleArith.ten
                         else DoubleArith.zero
            | [] => DoubleArith.zero)) : Dbl) =
      Dbl.fin ((sg : ℚ) * ((nat_value ip : ℚ) + frac_value fp)) := by
  have hi := atof_int_part_digits ip ('.' :: fp) 0 hip
    (fun c t h => by
      have : c = '.' := by injection h with h1 _; exact h1.symm
      rw [this]; decide) hfit
  simp only [Nat.cast_zero] at hi
  have hf := atof_frac_part_digits fp [] 0 10 (by norm_num) hfp (fun c t h => by simp at h)
  simp only [List.append_nil] at hf
  rw [hi]
  simp only [if_true]
  show Dbl.mul (Dbl.fin ((sg : Int) : ℚ)) (Dbl.add (Dbl.fin ((nat_value ip : Int) : ℚ))
    (atof_frac_part fp (Dbl.fin 0) (Dbl.fin 10))) = _
  rw [hf]
  simp only [Dbl.add, Dbl.mul]
  congr 1
  push_cast
  field_simp

theorem frac_value_zeros : frac_value ['0', '0'] = 0 := by
  simp [frac_value, digit_value]

/-- Claim C19, as amended.  For every integer `n` with `-2^31 < n < 2^31`, the
text `DisplayResult` builds for the integer part `n` and the fractional part 0
(the `%d` text of `n`, a dot, and `00`) is parsed back by `simple_atof` to
exactly `n`. -/
theorem simple_atof_format_result (n : Int) (hlo : -2147483648 < n) (hhi : n < 2147483648) :
    (simple_atof (format_result n 0) : Dbl) = Dbl.fin (n : ℚ) := by
  have h02 : format_02d 0 = ['0', '0'] := by decide
  unfold format_result format_d
  rw [h02]
  by_cases hneg : n < 0
  · rw [if_pos hneg, List.cons_append, simple_atof_minus]
    refine (atof_body_decimal (-1) (format_nat n.natAbs) ['0', '0'] (format_nat_digits _)
        (fun c hc => by
          simp only [List.mem_cons, List.mem_singleton, List.not_mem_nil, or_false] at hc
          rcases hc with h | h <;> subst h <;> decide)
        (by rw [nat_value_format_nat]; omega)).trans ?_
    rw [nat_value_format_nat, frac_value_zeros]
    congr 1
    have : ((n.natAbs : Int) : ℚ) = -(n : ℚ) := by
      rw [Int.ofNat_natAbs_of_nonpos (by omega)]
      push_cast
      ring
    rw [← Int.cast_natCast, this]
    push_cast
    ring
  · rw [if_neg hneg]
    have hfirst : ∀ c t, format_nat n.toNat ++ ['.', '0', '0'] = c :: t →
        c ≠ ' ' ∧ c ≠ '-' ∧ c ≠ '+' := by
      intro c t h
      have hc : isdigit c = true := by
        cases hf : format_nat n.toNat with
        | nil =>
          exfalso
          have := nat_value_format_nat n.toNat
          unfold format_nat at hf
          split at hf <;> simp at hf
          rename_i h0
          exact h0 ((Nat.digits_eq_nil_iff_eq_zero).1 hf)
        | cons d ds =>
          rw [hf] at h
          have : c = d := by
            simp only [List.cons_append] at h
            injection h with h1 _
            exact h1.symm
          rw [this]
          exact format_nat_digits n.toNat d (by rw [hf]; exact List.mem_cons_self _ _)
      have := isdigit_not_sign c hc
      exact ⟨this.1, this.2.1, this.2.2.1⟩
    rw [simple_atof_unsigned _ hfirst]
    refine (atof_body_decimal 1 (format_nat n.toNat) ['0', '0'] (format_nat_digits _)
        (fun c hc => by
          simp only [List.mem_cons, List.mem_singleton, List.not_mem_nil, or_false] at hc
          rcases hc with h | h <;> subst h <;> decide)
        (by rw [nat_value_format_nat]; omega)).trans ?_
    rw [nat_value_format_nat, frac_value_zeros]
    congr 1
    have : ((n.toNat : Int) : ℚ) = (n : ℚ) := by
      rw [Int.toNat_of_nonneg (by omega)]
    rw [← Int.cast_natCast, this]
    push_cast
    ring

theorem simple_atof_format_result_witness :
    (-2147483648 < (-7 : Int) ∧ (-7 : Int) < 2147483648) ∧
      format_result (-7) 0 = ['-', '7', '.', '0', '0'] ∧
      (simple_atof (format_result (-7) 0) : Dbl) = Dbl.fin (-7) :=
  ⟨⟨by decide, by decide⟩, by
      simp only [format_result, format_d, format_nat, format_02d]
      norm_num [digit_char],
    (simple_atof_format_result (-7) (by decide) (by decide)).trans (by norm_num)⟩

/-- Claim C19, counterexample.  For `n = -2^31`, which a 32-bit `int` holds,
the text is "-2147483648.00"; the integer part the parser accumulates does not
fit an `int`, and with the wrap-around of the target the parser returns
`+2147483648`, not `n`. -/
theorem simple_atof_format_result_counterexample :
    format_result (-2147483648) 0 =
        ['-', '2', '1', '4', '7', '4', '8', '3', '6', '4', '8', '.', '0', '0'] ∧
      (simple_atof (format_result (-2147483648) 0) : Dbl) = Dbl.fin 2147483648 ∧
      (simple_atof (format_result (-2147483648) 0) : Dbl) ≠ Dbl.fin (-2147483648) := by
  have h : format_result (-2147483648) 0 =
      ['-', '2', '1', '4', '7', '4', '8', '3', '6', '4', '8', '.', '0', '0'] := by
    simp only [format_result, format_d, format_nat, format_02d]
    norm_num [digit_char]
  rw [h]
  exact ⟨rfl, by decide!, by decide!⟩


/-! ## Independence of the initial contents of the local struct -/

theorem extract_number_agree {F : Type} [DoubleArith F] (p : List Char) (buf_len : Nat)
    (s1 s2 : TokState F) (h : Agree s1 s2) :
    Agree (extract_number p buf_len s1) (extract_number p buf_len s2) := by
  obtain ⟨a1, a2, a3, a4, a5, a6⟩ := h
  unfold extract_number
  rw [← a1, ← a3]
  dsimp only
  split_ifs with c1 c2 c3
  · exact ⟨rfl, rfl, a3, a4, a5, a6⟩
  · exact ⟨rfl, rfl, a3, a4, a5, a6⟩
  · refine ⟨rfl, a2, by show s1.parsed.n_numbers + 1 = s1.parsed.n_numbers + 1; rfl, a4, ?_, a6⟩
    intro l hl
    have hl' : l < s1.parsed.n_numbers + 1 := hl
    show setAt s1.parsed.number s1.parsed.n_numbers _ l =
      setAt s2.parsed.number s1.parsed.n_numbers _ l
    by_cases he : l = s1.parsed.n_numbers
    · rw [he, setAt_same, setAt_same]
    · rw [setAt_other _ _ _ _ he, setAt_other _ _ _ _ he]
      exact a5 l (by omega)
  · exact ⟨rfl, rfl, a3, a4, a5, a6⟩

theorem extract_operator_agree {F : Type} (p : List Char) (buf_len : Nat)
    (s1 s2 : TokState F) (h : Agree s1 s2) :
    Agree (extract_operator p buf_len s1) (extract_operator p buf_len s2) := by
  obtain ⟨a1, a2, a3, a4, a5, a6⟩ := h
  unfold extract_operator
  rw [← a1, ← a4]
  dsimp only
  split_ifs with c1 c2 c3
  · exact ⟨a1, a2, a3, a4, a5, a6⟩
  · refine ⟨rfl, a2, a3, rfl, a5, ?_⟩
    intro l hl
    have hl' : l < s1.parsed.n_infix_operators + 1 := hl
    show setAt s1.parsed.infix_operator s1.parsed.n_infix_operators _ l =
      setAt s2.parsed.infix_operator s1.parsed.n_infix_operators _ l
    by_cases he : l = s1.parsed.n_infix_operators
    · rw [he, setAt_same, setAt_same]
    · rw [setAt_other _ _ _ _ he, setAt_other _ _ _ _ he]
      exact a6 l (by omega)
  · exact ⟨rfl, rfl, a3, a4, a5, a6⟩
  · exact ⟨rfl, rfl, a3, a4, a5, a6⟩

theorem after_number_agree {F : Type} [DoubleArith F] (p : List Char) (buf_len : Nat)
    (s1 s2 : TokState F) (h : Agree s1 s2) :
    Agree (after_number p buf_len s1) (after_number p buf_len s2) := by
  obtain ⟨a1, a2, a3, a4, a5, a6⟩ := extract_number_agree p buf_len s1 s2 h
  unfold after_number
  exact ⟨by show skip_whitespace p buf_len _ = skip_whitespace p buf_len _; rw [a1],
    a2, a3, a4, a5, a6⟩

/-- The tokenizer loop takes agreeing states to agreeing states. -/
theorem identify_tokens_loop_agree {F : Type} [inst : DoubleArith F] (p : List Char)
    (buf_len : Nat) (s1 s2 : TokState F) (h : Agree s1 s2) :
    Agree (identify_tokens_loop p buf_len s1) (identify_tokens_loop p buf_len s2) := by
  induction s1 using @identify_tokens_loop.induct F inst p buf_len generalizing s2 with
  | case1 x hlt hd st1 he =>
    have he1 : (extract_number p buf_len x).error_ref_no ≠ 0 := he
    have hn := extract_number_agree p buf_len x s2 h
    have e1 : identify_tokens_loop p buf_len x = extract_number p buf_len x := by
      rw [identify_tokens_loop_unfold, if_pos hlt, if_pos hd, if_pos he1]
    have e2 : identify_tokens_loop p buf_len s2 = extract_number p buf_len s2 := by
      rw [identify_tokens_loop_unfold, if_pos (by rw [← h.1]; exact hlt),
        if_pos (by rw [← h.1]; exact hd), if_pos (by rw [← hn.2.1]; exact he1)]
    rw [e1, e2]
    exact hn
  | case2 x hlt hd st1 he st2 hlt2 hop st3 he3 =>
    have he1 : ¬ (extract_number p buf_len x).error_ref_no ≠ 0 := he
    have hlt2a : (after_number p buf_len x).ch_no < buf_len := hlt2
    have hopa : is_infix_char (charAt p (after_number p buf_len x).ch_no) = true := hop
    have he3a : (extract_operator p buf_len (after_number p buf_len x)).error_ref_no ≠ 0 := he3
    have hn := extract_number_agree p buf_len x s2 h
    have ha := after_number_agree p buf_len x s2 h
    have ho := extract_operator_agree p buf_len _ _ ha
    have e1 : identify_tokens_loop p buf_len x =
        extract_operator p buf_len (after_number p buf_len x) := by
      rw [identify_tokens_loop_unfold, if_pos hlt, if_pos hd, if_neg he1, if_pos hlt2a,
        if_pos hopa, if_pos he3a]
    have e2 : identify_tokens_loop p buf_len s2 =
        extract_operator p buf_len (after_number p buf_len s2) := by
      rw [identify_tokens_loop_unfold, if_pos (by rw [← h.1]; exact hlt),
        if_pos (by rw [← h.1]; exact hd), if_neg (by rw [← hn.2.1]; exact he1),
        if_pos (by rw [← ha.1]; exact hlt2a), if_pos (by rw [← ha.1]; exact hopa),
        if_pos (by rw [← ho.2.1]; exact he3a)]
    rw [e1, e2]
    exact ho
  | case3 x hlt hd st1 he st2 hlt2 hop st3 he3 ih =>
    have he1 : ¬ (extract_number p buf_len x).error_ref_no ≠ 0 := he
    have hlt2a : (after_number p buf_len x).ch_no < buf_len := hlt2
    have hopa : is_infix_char (charAt p (after_number p buf_len x).ch_no) = true := hop
    have he3a : ¬ (extract_operator p buf_len (after_number p buf_len x)).error_ref_no ≠ 0 := he3
    have hn := extract_number_agree p buf_len x s2 h
    have ha := after_number_agree p buf_len x s2 h
    have ho := extract_operator_agree p buf_len _ _ ha
    have e1 : identify_tokens_loop p buf_len x =
        identify_tokens_loop p buf_len (extract_operator p buf_len (after_number p buf_len x)) := by
      rw [identify_tokens_loop_unfold, if_pos hlt, if_pos hd, if_neg he1, if_pos hlt2a,
        if_pos hopa, if_neg he3a]
    have e2 : identify_tokens_loop p buf_len s2 =
        identify_tokens_loop p buf_len
          (extract_operator p buf_len (after_number p buf_len s2)) := by
      rw [identify_tokens_loop_unfold, if_pos (by rw [← h.1]; exact hlt),
        if_pos (by rw [← h.1]; exact hd), if_neg (by rw [← hn.2.1]; exact he1),
        if_pos (by rw [← ha.1]; exact hlt2a), if_pos (by rw [← ha.1]; exact hopa),
        if_neg (by rw [← ho.2.1]; exact he3a)]
    rw [e1, e2]
    exact ih _ ho
  | case4 x hlt hd st1 he st2 hlt2 hop =>
    have he1 : ¬ (extract_number p buf_len x).error_ref_no ≠ 0 := he
    have hlt2a : (after_number p buf_len x).ch_no < buf_len := hlt2
    have hopa : ¬ is_infix_char (charAt p (after_number p buf_len x).ch_no) = true := hop
    have hn := extract_number_agree p buf_len x s2 h
    have ha := after_number_agree p buf_len x s2 h
    have e1 : identify_tokens_loop p buf_len x =
        { after_number p buf_len x with error_ref_no := 7 } := by
      rw [identify_tokens_loop_unfold, if_pos hlt, if_pos hd, if_neg he1, if_pos hlt2a,
        if_neg hopa]
    have e2 : identify_tokens_loop p buf_len s2 =
        { after_number p buf_len s2 with error_ref_no := 7 } := by
      rw [identify_tokens_loop_unfold, if_pos (by rw [← h.1]; exact hlt),
        if_pos (by rw [← h.1]; exact hd), if_neg (by rw [← hn.2.1]; exact he1),
        if_pos (by rw [← ha.1]; exact hlt2a), if_neg (by rw [← ha.1]; exact hopa)]
    rw [e1, e2]
    exact ⟨ha.1, rfl, ha.2.2.1, ha.2.2.2.1, ha.2.2.2.2.1, ha.2.2.2.2.2⟩
  | case5 x hlt hd st1 he st2 hlt2 ih =>
    have he1 : ¬ (extract_number p buf_len x).error_ref_no ≠ 0 := he
    have hlt2a : ¬ (after_number p buf_len x).ch_no < buf_len := hlt2
    have hn := extract_number_agree p buf_len x s2 h
    have ha := after_number_agree p buf_len x s2 h
    have e1 : identify_tokens_loop p buf_len x =
        identify_tokens_loop p buf_len (after_number p buf_len x) := by
      rw [identify_tokens_loop_unfold, if_pos hlt, if_pos hd, if_neg he1, if_neg hlt2a]
    have e2 : identify_tokens_loop p buf_len s2 =
        identify_tokens_loop p buf_len (after_number p buf_len s2) := by
      rw [identify_tokens_loop_unfold, if_pos (by rw [← h.1]; exact hlt),
        if_pos (by rw [← h.1]; exact hd), if_neg (by rw [← hn.2.1]; exact he1),
        if_neg (by rw [← ha.1]; exact hlt2a)]
    rw [e1, e2]
    exact ih _ ha
  | case6 x hlt hd =>
    have e1 : identify_tokens_loop p buf_len x = { x with error_ref_no := 6 } := by
      rw [identify_tokens_loop_unfold, if_pos hlt, if_neg hd]
    have e2 : identify_tokens_loop p buf_len s2 = { s2 with error_ref_no := 6 } := by
      rw [identify_tokens_loop_unfold, if_pos (by rw [← h.1]; exact hlt),
        if_neg (by rw [← h.1]; exact hd)]
    rw [e1, e2]
    exact ⟨h.1, rfl, h.2.2.1, h.2.2.2.1, h.2.2.2.2.1, h.2.2.2.2.2⟩
  | case7 x hlt =>
    have e1 : identify_tokens_loop p buf_len x = x := by
      rw [identify_tokens_loop_unfold, if_neg hlt]
    have e2 : identify_tokens_loop p buf_len s2 = s2 := by
      rw [identify_tokens_loop_unfold, if_neg (by rw [← h.1]; exact hlt)]
    rw [e1, e2]
    exact h

/-- The token validator only reads the operators below the count. -/
theorem stage3_adjacent_E_congr (ops ops' : Nat → Char) (r i : Nat)
    (h : ∀ l, i ≤ l → l ≤ i + r → 0 < r → ops l = ops' l) :
    stage3_adjacent_E ops r i = stage3_adjacent_E ops' r i := by
  induction r generalizing i with
  | zero => rfl
  | succ r ih =>
    unfold stage3_adjacent_E
    rw [h i (Nat.le_refl _) (by omega) (by omega), h (i + 1) (by omega) (by omega) (by omega),
      ih (i + 1) (fun l h1 h2 _ => h l (by omega) (by omega) (by omega))]

/-- Claim C18.  The result of `CalculateAnswer` is a function of the input
bytes and the capacity only: whatever the local struct holds on entry (number
and operator slots, used flags, stale counts), the pair of value and error
number is the same. -/
theorem CalculateAnswer_deterministic {F : Type} [DoubleArith F] (g1 g2 : ParsedExpression_t F)
    (p : List Char) (cap : Nat) (hcap : cap < 256) :
    CalculateAnswer g1 p cap = CalculateAnswer g2 p cap := by
  by_cases h1 : syntax_check_stage1 p cap = 0
  · by_cases h2 : syntax_check_stage2 p 0 = 0
    · have hag := identify_tokens_loop_agree p (strlen p % 256)
        ({ ch_no := 0, parsed := { g1 with n_numbers := 0, n_infix_operators := 0 },
           error_ref_no := 0 } : TokState F)
        ({ ch_no := 0, parsed := { g2 with n_numbers := 0, n_infix_operators := 0 },
           error_ref_no := 0 } : TokState F)
        ⟨rfl, rfl, rfl, rfl, fun l hl => absurd hl (Nat.not_lt_zero _),
          fun l hl => absurd hl (Nat.not_lt_zero _)⟩
      have herr : (identify_tokens p 0 { g1 with n_numbers := 0, n_infix_operators := 0 }).1 =
          (identify_tokens p 0 { g2 with n_numbers := 0, n_infix_operators := 0 }).1 := hag.2.1
      have hnn : (parsed_tokens g1 p).n_numbers = (parsed_tokens g2 p).n_numbers := hag.2.2.1
      have hno : (parsed_tokens g1 p).n_infix_operators =
          (parsed_tokens g2 p).n_infix_operators := hag.2.2.2.1
      have hnum : ∀ l, l < (parsed_tokens g1 p).n_numbers →
          (parsed_tokens g1 p).number l = (parsed_tokens g2 p).number l := hag.2.2.2.2.1
      have hops : ∀ l, l < (parsed_tokens g1 p).n_infix_operators →
          (parsed_tokens g1 p).infix_operator l = (parsed_tokens g2 p).infix_operator l :=
        hag.2.2.2.2.2
      rw [CalculateAnswer_of_stages g1 p cap h1 h2, CalculateAnswer_of_stages g2 p cap h1 h2,
        ← herr]
      by_cases h3 : (identify_tokens p 0 { g1 with n_numbers := 0, n_infix_operators := 0 }).1 = 0
      · have hs3 : syntax_check_stage3 (parsed_tokens g1 p) 0 =
            syntax_check_stage3 (parsed_tokens g2 p) 0 := by
          unfold syntax_check_stage3
          rw [← hno, stage3_adjacent_E_congr (parsed_tokens g1 p).infix_operator
            (parsed_tokens g2 p).infix_operator _ 0 (fun l _ hl hr => hops l (by omega))]
        obtain ⟨c1, c2, c3⟩ := parsed_tokens_counts g1 p cap hcap h1 h2 h3
        obtain ⟨d1, d2, d3⟩ := parsed_tokens_counts g2 p cap hcap h1 h2 (by rw [← herr]; exact h3)
        obtain ⟨v1, w1⟩ := evaluate_expression_refines (parsed_tokens g1 p) c1 c2 c3
        obtain ⟨v2, w2⟩ := evaluate_expression_refines (parsed_tokens g2 p) d1 d2 d3
        have htn : token_numbers (parsed_tokens g1 p) = token_numbers (parsed_tokens g2 p) := by
          unfold token_numbers
          rw [← hnn]
          exact List.map_congr_left (fun l hl => hnum l (List.mem_range.1 hl))
        have hto : token_operators (parsed_tokens g1 p) =
            token_operators (parsed_tokens g2 p) := by
          unfold token_operators
          rw [← hno]
          exact List.map_congr_left (fun l hl => hops l (List.mem_range.1 hl))
        rw [htn, hto, w2] at w1
        have hval := Option.some.inj w1
        have hev : evaluate_expression (parsed_tokens g1 p) 0 =
            evaluate_expression (parsed_tokens g2 p) 0 :=
          Prod.ext hval.symm (by rw [v1, v2])
        rw [h3, ← hs3, hev]
      · rw [if_pos h3, if_pos h3]
    · rcases CalculateAnswer_stages g1 p cap with ⟨a, _⟩ | ⟨_, _, a⟩ | ⟨_, a, _⟩
      · exact absurd h1 a
      · rcases CalculateAnswer_stages g2 p cap with ⟨b, _⟩ | ⟨_, _, b⟩ | ⟨_, b, _⟩
        · exact absurd h1 b
        · rw [a, b]
        · exact absurd b h2
      · exact absurd a h2
  · rcases CalculateAnswer_stages g1 p cap with ⟨_, a⟩ | ⟨a, _⟩ | ⟨a, _⟩
    · rcases CalculateAnswer_stages g2 p cap with ⟨_, b⟩ | ⟨b, _⟩ | ⟨b, _⟩
      · rw [a, b]
      · exact absurd b h1
      · exact absurd b h1
    · exact absurd a h1
    · exact absurd a h1

theorem CalculateAnswer_deterministic_witness :
    6 < 256 ∧
      CalculateAnswer stale_expression ['1', '-', '2', '+', '3'] 6 =
        CalculateAnswer zeroed ['1', '-', '2', '+', '3'] 6 ∧
      CalculateAnswer stale_expression ['1', '-', '2', '+', '3'] 6 = (Dbl.fin (-4), 0) :=
  ⟨by decide, CalculateAnswer_deterministic stale_expression zeroed _ 6 (by decide),
    (CalculateAnswer_deterministic stale_expression zeroed _ 6 (by decide)).trans (by decide!)⟩

/-! ## The count invariant and the token validator -/

/-- Claim C21.  Count invariant: when the character validator, the
operator-position validator and the tokenizer (entered from both counts at 0,
as `CalculateAnswer` does) all report no error, the parsed expression holds at
least one number and exactly one operator fewer than numbers. -/
theorem parsed_tokens_count_invariant {F : Type} [DoubleArith F] (g : ParsedExpression_t F)
    (p : List Char) (cap : Nat) (hcap : cap < 256) (h1 : syntax_check_stage1 p cap = 0)
    (h2 : syntax_check_stage2 p 0 = 0)
    (h3 : (identify_tokens p 0 { g with n_numbers := 0, n_infix_operators := 0 }).1 = 0) :
    1 ≤ (parsed_tokens g p).n_numbers ∧
      (parsed_tokens g p).n_infix_operators = (parsed_tokens g p).n_numbers - 1 := by
  obtain ⟨hc, _, _⟩ := parsed_tokens_counts g p cap hcap h1 h2 h3
  omega

theorem parsed_tokens_count_invariant_witness :
    (6 < 256 ∧ syntax_check_stage1 ['2', '+', '3', 'x', '4'] 6 = 0 ∧
      syntax_check_stage2 ['2', '+', '3', 'x', '4'] 0 = 0 ∧
      (identify_tokens ['2', '+', '3', 'x', '4'] 0
        { zeroed with n_numbers := 0, n_infix_operators := 0 }).1 = 0) ∧
      (parsed_tokens zeroed ['2', '+', '3', 'x', '4']).n_numbers = 3 ∧
      (parsed_tokens zeroed ['2', '+', '3', 'x', '4']).n_infix_operators = 2 ∧
      1 ≤ (parsed_tokens zeroed ['2', '+', '3', 'x', '4']).n_numbers ∧
      (parsed_tokens zeroed ['2', '+', '3', 'x', '4']).n_infix_operators =
        (parsed_tokens zeroed ['2', '+', '3', 'x', '4']).n_numbers - 1 :=
  ⟨⟨by decide, by decide!, by decide!, by decide!⟩, by decide!, by decide!,
    parsed_tokens_count_invariant zeroed ['2', '+', '3', 'x', '4'] 6 (by decide) (by decide!)
      (by decide!) (by decide!)⟩

/-- The loop of `syntax_check_stage3` raises the error exactly when two
consecutive operators it looks at are both `E`. -/
theorem stage3_adjacent_E_iff (ops : Nat → Char) (r i : Nat) :
    stage3_adjacent_E ops r i = true ↔
      ∃ j, i ≤ j ∧ j < i + r ∧ ops j = 'E' ∧ ops (j + 1) = 'E' := by
  induction r generalizing i with
  | zero =>
    constructor
    · intro h
      simp [stage3_adjacent_E] at h
    · rintro ⟨j, h1, h2, _⟩
      omega
  | succ r ih =>
    unfold stage3_adjacent_E
    by_cases hc : ops i = 'E' ∧ ops (i + 1) = 'E'
    · rw [if_pos hc]
      exact ⟨fun _ => ⟨i, Nat.le_refl _, by omega, hc.1, hc.2⟩, fun _ => rfl⟩
    · rw [if_neg hc, ih (i + 1)]
      constructor
      · rintro ⟨j, h1, h2, h3⟩
        exact ⟨j, by omega, by omega, h3⟩
      · rintro ⟨j, h1, h2, h3⟩
        have hne : j ≠ i := by
          intro hji
          subst hji
          exact hc h3
        exact ⟨j, by omega, by omega, h3⟩

/-- The token validator in terms of the operator sequence. -/
theorem syntax_check_stage3_iff {F : Type} (pe : ParsedExpression_t F) (e : Nat) :
    ((∃ j, j + 1 < pe.n_infix_operators ∧ pe.infix_operator j = 'E' ∧
        pe.infix_operator (j + 1) = 'E') → syntax_check_stage3 pe e = 10) ∧
      ((¬ ∃ j, j + 1 < pe.n_infix_operators ∧ pe.infix_operator j = 'E' ∧
        pe.infix_operator (j + 1) = 'E') → syntax_check_stage3 pe e = e) := by
  have key := stage3_adjacent_E_iff pe.infix_operator (pe.n_infix_operators - 1) 0
  unfold syntax_check_stage3
  constructor
  · rintro ⟨j, h1, h2⟩
    rw [if_pos (key.2 ⟨j, Nat.zero_le _, by omega, h2⟩)]
  · intro hno
    rw [if_neg]
    intro hc
    obtain ⟨j, _, h2, h3⟩ := key.1 hc
    exact hno ⟨j, by omega, h3⟩

/-- The entry point stops at the token validator with error 10 when the
tokens `n0 E n1 E n2` are read. -/
theorem CalculateAnswer_exponent_chain {F : Type} [DoubleArith F] (g : ParsedExpression_t F)
    (n0 n1 n2 : List Char) (cap : Nat) (hcap : cap < 256) (h0 : number_token n0)
    (h1 : number_token n1) (h2 : number_token n2)
    (hterm : (expression_string n0 [('E', n1), ('E', n2)]).length < cap)
    (hexp : stage2_exponent (expression_string n0 [('E', n1), ('E', n2)])
      (expression_string n0 [('E', n1), ('E', n2)]).length
      ((expression_string n0 [('E', n1), ('E', n2)]).length - 1) 0 = false) :
    CalculateAnswer g (expression_string n0 [('E', n1), ('E', n2)]) cap =
      (DoubleArith.zero, 10) := by
  have hrest : ∀ t, t ∈ [('E', n1), ('E', n2)] → is_infix_char t.1 = true ∧ number_token t.2 := by
    intro t ht
    simp only [List.mem_cons, List.mem_singleton, List.mem_nil_iff, or_false] at ht
    rcases ht with rfl | rfl
    · exact ⟨rfl, h1⟩
    · exact ⟨rfl, h2⟩
  obtain ⟨_, _, hk, _⟩ := CalculateAnswer_expression g [('E', n1), ('E', n2)] n0 cap hcap h0 hrest
    hterm hexp
  obtain ⟨hp, _, hc⟩ := hk (by simp)
  have h3 : syntax_check_stage3
      (parsed_tokens g (expression_string n0 [('E', n1), ('E', n2)])) 0 = 10 := by
    refine (syntax_check_stage3_iff _ 0).1 ⟨0, ?_, ?_, ?_⟩
    · rw [hp]
      simp [store_tokens, push_number, push_operator]
    · rw [hp]
      simp [store_tokens, push_number, push_operator, setAt]
    · rw [hp]
      simp [store_tokens, push_number, push_operator, setAt]
  rw [hc, h3]
  simp

/-- Claim C22.  Token validator: `syntax_check_stage3` leaves 10 when two
consecutive entries of the operator sequence are both `E`, and otherwise leaves
the error number it was entered with; through the entry point the inputs
"1E2E3" and "12.E3E4" (the case named in the code comment) give error 10. -/
theorem syntax_check_stage3_adjacent_exponents {F : Type} [DoubleArith F]
    (pe g : ParsedExpression_t F) (e : Nat) :
    ((∃ j, j + 1 < pe.n_infix_operators ∧ pe.infix_operator j = 'E' ∧
        pe.infix_operator (j + 1) = 'E') → syntax_check_stage3 pe e = 10) ∧
      ((¬ ∃ j, j + 1 < pe.n_infix_operators ∧ pe.infix_operator j = 'E' ∧
        pe.infix_operator (j + 1) = 'E') → syntax_check_stage3 pe e = e) ∧
      CalculateAnswer g ['1', 'E', '2', 'E', '3'] 6 = (DoubleArith.zero, 10) ∧
      CalculateAnswer g ['1', '2', '.', 'E', '3', 'E', '4'] 8 = (DoubleArith.zero, 10) := by
  refine ⟨(syntax_check_stage3_iff pe e).1, (syntax_check_stage3_iff pe e).2, ?_, ?_⟩
  · exact CalculateAnswer_exponent_chain g ['1'] ['2'] ['3'] 6 (by decide)
      (by simp [number_token, is_number_char, isdigit])
      (by simp [number_token, is_number_char, isdigit])
      (by simp [number_token, is_number_char, isdigit]) (by decide) (by decide)
  · exact CalculateAnswer_exponent_chain g ['1', '2', '.'] ['3'] ['4'] 8 (by decide)
      (by simp [number_token, is_number_char, isdigit])
      (by simp [number_token, is_number_char, isdigit])
      (by simp [number_token, is_number_char, isdigit]) (by decide) (by decide)

theorem syntax_check_stage3_adjacent_exponents_witness :
    ((∃ j, j + 1 < (parsed_tokens zeroed ['1', 'E', '2', 'E', '3']).n_infix_operators ∧
        (parsed_tokens zeroed ['1', 'E', '2', 'E', '3']).infix_operator j = 'E' ∧
        (parsed_tokens zeroed ['1', 'E', '2', 'E', '3']).infix_operator (j + 1) = 'E') ∧
      syntax_check_stage3 (parsed_tokens zeroed ['1', 'E', '2', 'E', '3']) 0 = 10) ∧
      ((¬ ∃ j, j + 1 < (parsed_tokens zeroed ['1', 'E', '2', 'x', '3']).n_infix_operators ∧
        (parsed_tokens zeroed ['1', 'E', '2', 'x', '3']).infix_operator j = 'E' ∧
        (parsed_tokens zeroed ['1', 'E', '2', 'x', '3']).infix_operator (j + 1) = 'E') ∧
      syntax_check_stage3 (parsed_tokens zeroed ['1', 'E', '2', 'x', '3']) 0 = 0) :=
  have hyes : ∃ j, j + 1 < (parsed_tokens zeroed ['1', 'E', '2', 'E', '3']).n_infix_operators ∧
      (parsed_tokens zeroed ['1', 'E', '2', 'E', '3']).infix_operator j = 'E' ∧
      (parsed_tokens zeroed ['1', 'E', '2', 'E', '3']).infix_operator (j + 1) = 'E' :=
    ⟨0, by decide!, by decide!, by decide!⟩
  have hno : ¬ ∃ j, j + 1 < (parsed_tokens zeroed ['1', 'E', '2', 'x', '3']).n_infix_operators ∧
      (parsed_tokens zeroed ['1', 'E', '2', 'x', '3']).infix_operator j = 'E' ∧
      (parsed_tokens zeroed ['1', 'E', '2', 'x', '3']).infix_operator (j + 1) = 'E' := by
    rintro ⟨j, h1, h2, h3⟩
    have hn : (parsed_tokens zeroed ['1', 'E', '2', 'x', '3']).n_infix_operators = 2 := by
      decide!
    rw [hn] at h1
    have hj : j = 0 := by omega
    subst hj
    exact absurd h3 (by decide!)
  ⟨⟨hyes, (syntax_check_stage3_adjacent_exponents
      (parsed_tokens zeroed ['1', 'E', '2', 'E', '3']) zeroed 0).1 hyes⟩,
    hno, (syntax_check_stage3_adjacent_exponents
      (parsed_tokens zeroed ['1', 'E', '2', 'x', '3']) zeroed 0).2.1 hno⟩

/-! ## The state the evaluator leaves -/

/-- The result of `evaluate_expression` read off the state after the passes. -/
theorem evaluate_expression_eq_passes {F : Type} [DoubleArith F] (pe : ParsedExpression_t F)
    (e : Nat) :
    evaluate_expression pe e =
      if (evaluate_expression_passes pe e).2 ≠ 0 then
        (DoubleArith.zero, (evaluate_expression_passes pe e).2)
      else ((evaluate_expression_passes pe e).1.number
        ((evaluate_expression_passes pe e).1.n_numbers - 1), (evaluate_expression_passes pe e).2) := by
  unfold evaluate_expression evaluate_expression_passes
  dsimp only
  split_ifs <;> rfl

/-- A pass of the evaluator changes neither the counts nor the operators,
whether or not it raises the error. -/
theorem evaluate_one_operator_loop_frame {F : Type} [DoubleArith F] (op : Char) (r i : Nat)
    (pe : ParsedExpression_t F) (e : Nat) :
    (evaluate_one_operator_loop op r i pe e).1.n_numbers = pe.n_numbers ∧
      (evaluate_one_operator_loop op r i pe e).1.n_infix_operators = pe.n_infix_operators ∧
      (evaluate_one_operator_loop op r i pe e).1.infix_operator = pe.infix_operator := by
  induction r generalizing i pe with
  | zero => exact ⟨rfl, rfl, rfl⟩
  | succ r ih =>
    unfold evaluate_one_operator_loop
    split
    · exact ih _ _
    · split
      · exact ⟨rfl, rfl, rfl⟩
      · exact ih _ _

/-- A pass whose operator stands last in the operator sequence, with no number
slot after it, raises error 1. -/
theorem evaluate_one_operator_loop_missing {F : Type} [DoubleArith F] (op : Char) (r i : Nat)
    (pe : ParsedExpression_t F) (e : Nat) (hr : 0 < r) (hm : pe.n_numbers ≤ i + r)
    (hop : pe.infix_operator (i + r - 1) = op) :
    (evaluate_one_operator_loop op r i pe e).2 = 1 := by
  induction r generalizing i pe with
  | zero => omega
  | succ r ih =>
    rw [evaluate_one_operator_loop_succ]
    by_cases hr0 : r = 0
    · subst hr0
      have hop' : pe.infix_operator i = op := hop
      rw [if_neg (by simpa using hop')]
      have hz : pe.n_numbers - (i + 1) = 0 := by omega
      rw [hz]
      rfl
    · have hidx : i + 1 + r - 1 = i + (r + 1) - 1 := by omega
      split
      · exact ih (i + 1) pe (by omega) (by omega) (by rw [hidx]; exact hop)
      · split
        · rfl
        · exact ih (i + 1) _ (by omega) (by show pe.n_numbers ≤ i + 1 + r; omega)
            (by rw [hidx]; exact hop)

/-- With at least as many operators as numbers, and the last operator one of
the five, the evaluator entered without error returns 0.0 and error 1. -/
theorem evaluate_expression_missing {F : Type} [DoubleArith F] (pe : ParsedExpression_t F)
    (hone : 1 ≤ pe.n_infix_operators) (hge : pe.n_numbers ≤ pe.n_infix_operators)
    (hlast : is_infix_char (pe.infix_operator (pe.n_infix_operators - 1)) = true) :
    evaluate_expression pe 0 = (DoubleArith.zero, 1) := by
  unfold evaluate_expression
  dsimp only
  generalize hpe0 : ({ pe with num_and_op_used := fun index =>
      if index < MAX_NUMS_AND_OPS then 0 else pe.num_and_op_used index } :
      ParsedExpression_t F) = pe0
  have c0 : pe0.n_numbers = pe.n_numbers := by rw [← hpe0]
  have d0 : pe0.n_infix_operators = pe.n_infix_operators := by rw [← hpe0]
  have o0 : pe0.infix_operator = pe.infix_operator := by rw [← hpe0]
  have pass : ∀ (q : ParsedExpression_t F) (op : Char) (e : Nat),
      q.n_numbers = pe.n_numbers → q.n_infix_operators = pe.n_infix_operators →
      q.infix_operator = pe.infix_operator →
      (evaluate_expression_one_operator q op e).1.n_numbers = pe.n_numbers ∧
        (evaluate_expression_one_operator q op e).1.n_infix_operators = pe.n_infix_operators ∧
        (evaluate_expression_one_operator q op e).1.infix_operator = pe.infix_operator ∧
        ((evaluate_expression_one_operator q op e).2 = e ∨
          (evaluate_expression_one_operator q op e).2 = 1) ∧
        (pe.infix_operator (pe.n_infix_operators - 1) = op →
          (evaluate_expression_one_operator q op e).2 = 1) := by
    intro q op e hc hd ho
    obtain ⟨f1, f2, f3⟩ := evaluate_one_operator_loop_frame op q.n_infix_operators 0 q e
    refine ⟨f1.trans hc, f2.trans hd, f3.trans ho, evaluate_expression_one_operator_cases q op e,
      fun hop => ?_⟩
    exact evaluate_one_operator_loop_missing op q.n_infix_operators 0 q e (by omega) (by omega)
      (by rw [ho, hd]; simpa using hop)
  obtain ⟨c1, d1, o1, e1, m1⟩ := pass pe0 'E' 0 c0 d0 o0
  generalize evaluate_expression_one_operator pe0 'E' 0 = r1 at c1 d1 o1 e1 m1 ⊢
  obtain ⟨c2, d2, o2, e2, m2⟩ := pass r1.1 '/' r1.2 c1 d1 o1
  generalize evaluate_expression_one_operator r1.1 '/' r1.2 = r2 at c2 d2 o2 e2 m2 ⊢
  obtain ⟨c3, d3, o3, e3, m3⟩ := pass r2.1 'x' r2.2 c2 d2 o2
  generalize evaluate_expression_one_operator r2.1 'x' r2.2 = r3 at c3 d3 o3 e3 m3 ⊢
  obtain ⟨c4, d4, o4, e4, m4⟩ := pass r3.1 '+' r3.2 c3 d3 o3
  generalize evaluate_expression_one_operator r3.1 '+' r3.2 = r4 at c4 d4 o4 e4 m4 ⊢
  obtain ⟨c5, d5, o5, e5, m5⟩ := pass r4.1 '-' r4.2 c4 d4 o4
  generalize evaluate_expression_one_operator r4.1 '-' r4.2 = r5 at c5 d5 o5 e5 m5 ⊢
  simp only [is_infix_char, Bool.or_eq_true, beq_iff_eq] at hlast
  have hsome : r1.2 = 1 ∨ r2.2 = 1 ∨ r3.2 = 1 ∨ r4.2 = 1 ∨ r5.2 = 1 := by
    rcases hlast with (((h | h) | h) | h) | h
    · exact Or.inr (Or.inr (Or.inr (Or.inl (m4 h))))
    · exact Or.inr (Or.inr (Or.inr (Or.inr (m5 h))))
    · exact Or.inr (Or.inr (Or.inl (m3 h)))
    · exact Or.inr (Or.inl (m2 h))
    · exact Or.inl (m1 h)
  split_ifs with a1 a2 a3 a4 a5
  · rw [show r1.2 = 1 by omega]
  · rw [show r2.2 = 1 by omega]
  · rw [show r3.2 = 1 by omega]
  · rw [show r4.2 = 1 by omega]
  · rw [show r5.2 = 1 by omega]
  · omega

/-- Claim C24.  Missing operand: on a parsed expression whose operators are
among `+ - x / E`, with at least one operator and at least as many operators
as numbers (within the capacity of 20), the evaluator entered with error
number 0 sets error 1 and returns 0.0. -/
theorem evaluate_expression_missing_operand {F : Type} [DoubleArith F]
    (pe : ParsedExpression_t F) (hone : 1 ≤ pe.n_infix_operators)
    (hge : pe.n_numbers ≤ pe.n_infix_operators) (hmax : pe.n_infix_operators ≤ 20)
    (hops : ∀ l, l < pe.n_infix_operators → pe.infix_operator l ∈ operator_chars) :
    evaluate_expression pe 0 = (DoubleArith.zero, 1) :=
  evaluate_expression_missing pe hone hge
    ((is_operator_iff _).2 (hops (pe.n_infix_operators - 1) (by omega)))

/-- On a well-formed expression the five passes raise no error, keep the
counts, and leave the flag of every slot before the last at 1 and the flag of
the last slot at 0. -/
theorem evaluate_expression_passes_flags {F : Type} [DoubleArith F] (pe : ParsedExpression_t F)
    (hn : pe.n_numbers = pe.n_infix_operators + 1) (hmax : pe.n_numbers ≤ MAX_NUMS_AND_OPS)
    (hops : ∀ l, l < pe.n_infix_operators → is_infix_char (pe.infix_operator l) = true) :
    (evaluate_expression_passes pe 0).2 = 0 ∧
      (evaluate_expression_passes pe 0).1.n_numbers = pe.n_numbers ∧
      (∀ l, l < pe.n_infix_operators → (evaluate_expression_passes pe 0).1.num_and_op_used l = 1) ∧
      (evaluate_expression_passes pe 0).1.num_and_op_used pe.n_infix_operators = 0 := by
  generalize hm : pe.n_infix_operators = m at hn hops
  have hm20 : m < MAX_NUMS_AND_OPS := by omega
  unfold evaluate_expression_passes
  dsimp only
  generalize hpe0 : ({ pe with num_and_op_used := fun index =>
      if index < MAX_NUMS_AND_OPS then 0 else pe.num_and_op_used index } :
      ParsedExpression_t F) = pe0
  have u0 : ∀ l, l ≤ m → pe0.num_and_op_used l = 0 := by
    intro l hl
    rw [← hpe0]
    show (if l < MAX_NUMS_AND_OPS then 0 else pe.num_and_op_used l) = 0
    rw [if_pos (by omega)]
  have o0 : pe0.infix_operator = pe.infix_operator := by rw [← hpe0]
  have c0 : pe0.n_numbers = m + 1 := by rw [← hpe0]; exact hn
  have d0 : pe0.n_infix_operators = m := by rw [← hpe0]; exact hm
  obtain ⟨a1, b1, c1, d1, e1, _⟩ := evaluate_expression_one_operator_refines 'E' m pe0 0 c0 d0
    (u0 m (Nat.le_refl _)) (fun l hl _ => u0 l (by omega))
  generalize evaluate_expression_one_operator pe0 'E' 0 = r1 at a1 b1 c1 d1 e1 ⊢
  obtain ⟨a2, b2, c2, d2, e2, _⟩ := evaluate_expression_one_operator_refines '/' m r1.1 r1.2 b1 c1
    (by rw [e1 m, if_neg (by omega)]; exact u0 m (Nat.le_refl _))
    (fun l hl ho => by
      rw [d1] at ho
      rw [e1 l, if_neg (by rw [ho]; simp), u0 l (by omega)])
  generalize evaluate_expression_one_operator r1.1 '/' r1.2 = r2 at a2 b2 c2 d2 e2 ⊢
  rw [d1] at d2 e2
  obtain ⟨a3, b3, c3, d3, e3, _⟩ := evaluate_expression_one_operator_refines 'x' m r2.1 r2.2 b2 c2
    (by rw [e2 m, if_neg (by omega), e1 m, if_neg (by omega)]; exact u0 m (Nat.le_refl _))
    (fun l hl ho => by
      rw [d2] at ho
      rw [e2 l, if_neg (by rw [ho]; simp), e1 l, if_neg (by rw [ho]; simp), u0 l (by omega)])
  generalize evaluate_expression_one_operator r2.1 'x' r2.2 = r3 at a3 b3 c3 d3 e3 ⊢
  rw [d2] at d3 e3
  obtain ⟨a4, b4, c4, d4, e4, _⟩ := evaluate_expression_one_operator_refines '+' m r3.1 r3.2 b3 c3
    (by
      rw [e3 m, if_neg (by omega), e2 m, if_neg (by omega), e1 m, if_neg (by omega)]
      exact u0 m (Nat.le_refl _))
    (fun l hl ho => by
      rw [d3] at ho
      rw [e3 l, if_neg (by rw [ho]; simp), e2 l, if_neg (by rw [ho]; simp), e1 l,
        if_neg (by rw [ho]; simp), u0 l (by omega)])
  generalize evaluate_expression_one_operator r3.1 '+' r3.2 = r4 at a4 b4 c4 d4 e4 ⊢
  rw [d3] at d4 e4
  obtain ⟨a5, b5, c5, d5, e5, _⟩ := evaluate_expression_one_operator_refines '-' m r4.1 r4.2 b4 c4
    (by
      rw [e4 m, if_neg (by omega), e3 m, if_neg (by omega), e2 m, if_neg (by omega), e1 m,
        if_neg (by omega)]
      exact u0 m (Nat.le_refl _))
    (fun l hl ho => by
      rw [d4] at ho
      rw [e4 l, if_neg (by rw [ho]; simp), e3 l, if_neg (by rw [ho]; simp), e2 l,
        if_neg (by rw [ho]; simp), e1 l, if_neg (by rw [ho]; simp), u0 l (by omega)])
  generalize evaluate_expression_one_operator r4.1 '-' r4.2 = r5 at a5 b5 c5 d5 e5 ⊢
  rw [d4] at d5 e5
  rw [o0] at d1 e1 d2 e2 d3 e3 d4 e4 d5 e5
  have z1 : r1.2 = 0 := a1
  have z2 : r2.2 = 0 := by rw [a2, z1]
  have z3 : r3.2 = 0 := by rw [a3, z2]
  have z4 : r4.2 = 0 := by rw [a4, z3]
  have z5 : r5.2 = 0 := by rw [a5, z4]
  rw [if_neg (by omega), if_neg (by omega), if_neg (by omega), if_neg (by omega)]
  refine ⟨z5, b5.trans hn.symm, ?_, ?_⟩
  · intro l hl
    have hc := hops l hl
    simp only [is_infix_char, Bool.or_eq_true, beq_iff_eq] at hc
    rw [e5 l, e4 l, e3 l, e2 l, e1 l]
    rcases hc with (((hc | hc) | hc) | hc) | hc <;> simp [hc, hl]
  · rw [e5 m, if_neg (by omega), e4 m, if_neg (by omega), e3 m, if_neg (by omega), e2 m,
      if_neg (by omega), e1 m, if_neg (by omega)]
    exact u0 m (Nat.le_refl _)

/-- Claim C23.  Final slot: on a parsed expression with one operator between
each two numbers, between 1 and 20 numbers, and operators among `+ - x / E`,
the evaluator (entered with error number 0) sets no error; in the state its
five passes leave, every number slot before the last is marked used, the last
slot is the only number slot not marked, and the value returned is the
content of that slot. -/
theorem evaluate_expression_final_slot {F : Type} [DoubleArith F] (pe : ParsedExpression_t F)
    (hcount : pe.n_infix_operators = pe.n_numbers - 1) (hone : 1 ≤ pe.n_numbers)
    (hmax : pe.n_numbers ≤ 20)
    (hops : ∀ l, l < pe.n_infix_operators → pe.infix_operator l ∈ operator_chars) :
    (evaluate_expression pe 0).2 = 0 ∧ (evaluate_expression_passes pe 0).2 = 0 ∧
      (∀ l, l + 1 < pe.n_numbers → (evaluate_expression_passes pe 0).1.num_and_op_used l ≠ 0) ∧
      (∀ l, l < pe.n_numbers →
        ((evaluate_expression_passes pe 0).1.num_and_op_used l = 0 ↔ l = pe.n_numbers - 1)) ∧
      (evaluate_expression pe 0).1 =
        (evaluate_expression_passes pe 0).1.number (pe.n_numbers - 1) := by
  obtain ⟨h1, h2, h3, h4⟩ := evaluate_expression_passes_flags pe (by omega) hmax
    (fun l hl => (is_operator_iff _).2 (hops l hl))
  have hv := evaluate_expression_eq_passes pe 0
  rw [if_neg (by omega), h2] at hv
  refine ⟨by rw [hv]; exact h1, h1, ?_, ?_, by rw [hv]⟩
  · intro l hl
    rw [h3 l (by omega)]
    decide
  · intro l hl
    constructor
    · intro hz
      by_contra hne
      rw [h3 l (by omega)] at hz
      omega
    · intro hl'
      rw [hl', ← hcount]
      exact h4

theorem evaluate_expression_final_slot_witness :
    (stale_expression.n_infix_operators = stale_expression.n_numbers - 1 ∧
      1 ≤ stale_expression.n_numbers ∧ stale_expression.n_numbers ≤ 20) ∧
      (evaluate_expression stale_expression 0).2 = 0 ∧
      (evaluate_expression_passes stale_expression 0).2 = 0 ∧
      (∀ l, l + 1 < stale_expression.n_numbers →
        (evaluate_expression_passes stale_expression 0).1.num_and_op_used l ≠ 0) ∧
      (∀ l, l < stale_expression.n_numbers →
        ((evaluate_expression_passes stale_expression 0).1.num_and_op_used l = 0 ↔
          l = stale_expression.n_numbers - 1)) ∧
      (evaluate_expression stale_expression 0).1 =
        (evaluate_expression_passes stale_expression 0).1.number
          (stale_expression.n_numbers - 1) :=
  ⟨⟨by decide, by decide, by decide⟩,
    evaluate_expression_final_slot stale_expression (by decide) (by decide) (by decide)
      (fun l hl => by
        have hl' : l < 2 := hl
        interval_cases l <;> decide)⟩

theorem evaluate_expression_missing_operand_witness :
    (1 ≤ (push_operator (push_number zeroed (Dbl.fin 5)) '+').n_infix_operators ∧
      (push_operator (push_number zeroed (Dbl.fin 5)) '+').n_numbers ≤
        (push_operator (push_number zeroed (Dbl.fin 5)) '+').n_infix_operators ∧
      (push_operator (push_number zeroed (Dbl.fin 5)) '+').n_infix_operators ≤ 20) ∧
      evaluate_expression (push_operator (push_number zeroed (Dbl.fin 5)) '+') 0 =
        (Dbl.fin 0, 1) :=
  ⟨⟨by decide, by decide, by decide⟩,
    evaluate_expression_missing_operand (push_operator (push_number zeroed (Dbl.fin 5)) '+')
      (by decide) (by decide) (by decide)
      (fun l hl => by
        have hl' : l < 1 := hl
        interval_cases l
        decide)⟩

/-! ## The sequences the tokenizer produces -/

theorem token_numbers_push_number {F : Type} (pe : ParsedExpression_t F) (v : F) :
    token_numbers (push_number pe v) = token_numbers pe ++ [v] := by
  unfold token_numbers push_number
  simp only [List.range_succ, List.map_append, List.map_cons, List.map_nil, setAt_same]
  congr 1
  apply List.map_congr_left
  intro l hl
  exact setAt_other _ _ _ _ (by have := List.mem_range.1 hl; omega)

theorem token_numbers_push_operator {F : Type} (pe : ParsedExpression_t F) (o : Char) :
    token_numbers (push_operator pe o) = token_numbers pe := rfl

theorem token_operators_push_number {F : Type} (pe : ParsedExpression_t F) (v : F) :
    token_operators (push_number pe v) = token_operators pe := rfl

theorem token_operators_push_operator {F : Type} (pe : ParsedExpression_t F) (o : Char) :
    token_operators (push_operator pe o) = token_operators pe ++ [o] := by
  unfold token_operators push_operator
  simp only [List.range_succ, List.map_append, List.map_cons, List.map_nil, setAt_same]
  congr 1
  apply List.map_congr_left
  intro l hl
  exact setAt_other _ _ _ _ (by have := List.mem_range.1 hl; omega)

/-- The number and operator sequences after storing the tokens
`n0 o1 n1 ... ok nk`. -/
theorem store_tokens_sequences {F : Type} [DoubleArith F] (rest : List (Char × List Char))
    (pe : ParsedExpression_t F) (n0 : List Char) :
    token_numbers (store_tokens pe n0 rest) =
        token_numbers pe ++ simple_atof n0 :: rest.map (fun t => simple_atof t.2) ∧
      token_operators (store_tokens pe n0 rest) =
        token_operators pe ++ rest.map (fun t => t.1) := by
  induction rest generalizing pe n0 with
  | nil =>
    simp only [store_tokens, List.map_nil, List.append_nil]
    exact ⟨token_numbers_push_number _ _, token_operators_push_number _ _⟩
  | cons t rest ih =>
    obtain ⟨o, n1⟩ := t
    simp only [store_tokens, List.map_cons]
    obtain ⟨h1, h2⟩ := ih (push_operator (push_number pe (simple_atof n0)) o) n1
    rw [h1, h2, token_numbers_push_operator, token_numbers_push_number,
      token_operators_push_operator, token_operators_push_number]
    simp

/-- Claim C25, as amended.  Tokenizer output: for every string
`n0 o1 n1 ... ok nk` of at most 255 characters with `k ≤ 19`, each `ni` a
non-empty run of at most 49 digits and dots and each `oi` one of `+ - x / E`,
`identify_tokens` entered with error number 0 and both counts at 0 reports no
error and leaves the number sequence `[simple_atof n0, ..., simple_atof nk]`
and the operator sequence `[o1, ..., ok]`. -/
theorem identify_tokens_output {F : Type} [DoubleArith F] (pe : ParsedExpression_t F)
    (n0 : List Char) (rest : List (Char × List Char)) (hc1 : pe.n_numbers = 0)
    (hc2 : pe.n_infix_operators = 0) (hk : rest.length ≤ 19) (hn0 : number_token n0)
    (hrest : ∀ t, t ∈ rest → t.1 ∈ operator_chars ∧ number_token t.2)
    (hshort : (expression_string n0 rest).length ≤ 255) :
    (identify_tokens (expression_string n0 rest) 0 pe).1 = 0 ∧
      token_numbers (identify_tokens (expression_string n0 rest) 0 pe).2 =
        simple_atof n0 :: rest.map (fun t => simple_atof t.2) ∧
      token_operators (identify_tokens (expression_string n0 rest) 0 pe).2 =
        rest.map (fun t => t.1) := by
  have hrest' : ∀ t, t ∈ rest → is_infix_char t.1 = true ∧ number_token t.2 :=
    fun t ht => ⟨(is_operator_iff _).2 (hrest t ht).1, (hrest t ht).2⟩
  obtain ⟨h, _⟩ := identify_tokens_expression pe rest n0 hn0 hrest' (by omega) hc1 hc2
  rw [h (by omega)]
  obtain ⟨s1, s2⟩ := store_tokens_sequences rest pe n0
  refine ⟨rfl, ?_, ?_⟩
  · rw [s1]
    unfold token_numbers
    rw [hc1]
    rfl
  · rw [s2]
    unfold token_operators
    rw [hc2]
    rfl

theorem identify_tokens_output_witness :
    (zeroed.n_numbers = 0 ∧ zeroed.n_infix_operators = 0 ∧
      [('+', ['1', '.', '5']), ('E', ['2'])].length ≤ 19 ∧
      (expression_string ['7'] [('+', ['1', '.', '5']), ('E', ['2'])]).length ≤ 255) ∧
      expression_string ['7'] [('+', ['1', '.', '5']), ('E', ['2'])] =
        ['7', '+', '1', '.', '5', 'E', '2'] ∧
      (identify_tokens (expression_string ['7'] [('+', ['1', '.', '5']), ('E', ['2'])]) 0
        zeroed).1 = 0 ∧
      token_numbers (identify_tokens
        (expression_string ['7'] [('+', ['1', '.', '5']), ('E', ['2'])]) 0 zeroed).2 =
        [Dbl.fin 7, Dbl.fin (3 / 2), Dbl.fin 2] ∧
      token_operators (identify_tokens
        (expression_string ['7'] [('+', ['1', '.', '5']), ('E', ['2'])]) 0 zeroed).2 =
        ['+', 'E'] :=
  have h := identify_tokens_output zeroed ['7'] [('+', ['1', '.', '5']), ('E', ['2'])] rfl rfl
    (by decide) (by simp [number_token, is_number_char, isdigit])
    (fun t ht => by
      simp only [List.mem_cons, List.mem_singleton, List.mem_nil_iff, or_false] at ht
      rcases ht with rfl | rfl
      · exact ⟨by decide, by simp [number_token, is_number_char, isdigit]⟩
      · exact ⟨by decide, by simp [number_token, is_number_char, isdigit]⟩)
    (by decide)
  ⟨⟨rfl, rfl, by decide, by decide⟩, rfl, h.1, h.2.1.trans (by decide!), h.2.2⟩

/-- Claim C25, counterexample.  A string of the stated shape with 256
characters: six numbers (one of 6 zeros, five of 49 zeros) joined by `+`.  The
length, narrowed to eight bits, is 0, so the tokenizer reads nothing: it
reports no error and leaves no number and no operator, not six numbers and
five operators. -/
theorem identify_tokens_output_counterexample :
    (List.replicate 5 ('+', List.replicate 49 '0')).length ≤ 19 ∧
      number_token (List.replicate 6 '0') ∧ number_token (List.replicate 49 '0') ∧
      (expression_string (List.replicate 6 '0')
        (List.replicate 5 ('+', List.replicate 49 '0'))).length = 256 ∧
      strlen (expression_string (List.replicate 6 '0')
        (List.replicate 5 ('+', List.replicate 49 '0'))) % 256 = 0 ∧
      (identify_tokens (expression_string (List.replicate 6 '0')
        (List.replicate 5 ('+', List.replicate 49 '0'))) 0 zeroed).1 = 0 ∧
      token_numbers (identify_tokens (expression_string (List.replicate 6 '0')
        (List.replicate 5 ('+', List.replicate 49 '0'))) 0 zeroed).2 = [] ∧
      token_operators (identify_tokens (expression_string (List.replicate 6 '0')
        (List.replicate 5 ('+', List.replicate 49 '0'))) 0 zeroed).2 = [] ∧
      token_numbers (identify_tokens (expression_string (List.replicate 6 '0')
        (List.replicate 5 ('+', List.replicate 49 '0'))) 0 zeroed).2 ≠
        (simple_atof (List.replicate 6 '0') : Dbl) ::
          (List.replicate 5 ('+', List.replicate 49 '0')).map (fun t => simple_atof t.2) := by
  have hn : token_numbers (identify_tokens (expression_string (List.replicate 6 '0')
      (List.replicate 5 ('+', List.replicate 49 '0'))) 0 zeroed).2 = [] := by decide!
  refine ⟨by decide, ?_, ?_, by decide!, by decide!, by decide!, hn, by decide!, ?_⟩
  · exact ⟨by decide, by decide, fun c hc => by rw [List.eq_of_mem_replicate hc]; decide⟩
  · exact ⟨by decide, by decide, fun c hc => by rw [List.eq_of_mem_replicate hc]; decide⟩
  · rw [hn]
    exact fun h => List.noConfusion h

/-! ## Subtraction followed by addition -/

theorem plain_number_token (n : List Char) (h : plain_number n) : number_token n :=
  ⟨h.1, h.2.1, fun c hc => by
    simp only [is_number_char, Bool.or_eq_true, beq_iff_eq]
    exact Or.inl (h.2.2.1 c hc)⟩

/-- The pipeline on three numbers joined by two operators that are not both
`E` and with no `E` in front of a dot: no error, and the value of the five
passes on the three parsed numbers. -/
theorem CalculateAnswer_three {F : Type} [DoubleArith F] (g : ParsedExpression_t F)
    (a b c : List Char) (o1 o2 : Char) (cap : Nat) (hcap : cap < 256) (ha : number_token a)
    (hb : number_token b) (hc : number_token c) (ho1 : is_infix_char o1 = true)
    (ho2 : is_infix_char o2 = true) (hE : o1 ≠ 'E')
    (hterm : (expression_string a [(o1, b), (o2, c)]).length < cap)
    (hexp : stage2_exponent (expression_string a [(o1, b), (o2, c)])
      (expression_string a [(o1, b), (o2, c)]).length
      ((expression_string a [(o1, b), (o2, c)]).length - 1) 0 = false) :
    (CalculateAnswer g (expression_string a [(o1, b), (o2, c)]) cap).2 = 0 ∧
      tier_value five_tiers [simple_atof a, simple_atof b, simple_atof c] [o1, o2] =
        some (CalculateAnswer g (expression_string a [(o1, b), (o2, c)]) cap).1 := by
  have hrest : ∀ t, t ∈ [(o1, b), (o2, c)] → is_infix_char t.1 = true ∧ number_token t.2 := by
    intro t ht
    simp only [List.mem_cons, List.mem_singleton, List.mem_nil_iff, or_false] at ht
    rcases ht with rfl | rfl
    · exact ⟨ho1, hb⟩
    · exact ⟨ho2, hc⟩
  obtain ⟨_, _, hk, _⟩ := CalculateAnswer_expression g [(o1, b), (o2, c)] a cap hcap ha hrest
    hterm hexp
  obtain ⟨hp, _, hca⟩ := hk (by simp)
  obtain ⟨s1, s2⟩ := store_tokens_sequences [(o1, b), (o2, c)]
    ({ g with n_numbers := 0, n_infix_operators := 0 } : ParsedExpression_t F) a
  have s1' : token_numbers (parsed_tokens g (expression_string a [(o1, b), (o2, c)])) =
      [simple_atof a, simple_atof b, simple_atof c] := by
    rw [hp, s1]
    rfl
  have s2' : token_operators (parsed_tokens g (expression_string a [(o1, b), (o2, c)])) =
      [o1, o2] := by
    rw [hp, s2]
    rfl
  have hcnt : (parsed_tokens g (expression_string a [(o1, b), (o2, c)])).n_infix_operators = 2 := by
    rw [hp]
    rfl
  have hnum : (parsed_tokens g (expression_string a [(o1, b), (o2, c)])).n_numbers = 3 := by
    rw [hp]
    rfl
  have hop0 : (parsed_tokens g (expression_string a [(o1, b), (o2, c)])).infix_operator 0 = o1 := by
    rw [hp]
    simp [store_tokens, push_number, push_operator, setAt]
  have hop1 : (parsed_tokens g (expression_string a [(o1, b), (o2, c)])).infix_operator 1 = o2 := by
    rw [hp]
    simp [store_tokens, push_number, push_operator, setAt]
  have h3 : syntax_check_stage3 (parsed_tokens g (expression_string a [(o1, b), (o2, c)])) 0
      = 0 := by
    refine (syntax_check_stage3_iff _ 0).2 ?_
    rintro ⟨j, hj, hj1, _⟩
    rw [hcnt] at hj
    have hj0 : j = 0 := by omega
    subst hj0
    rw [hop0] at hj1
    exact hE hj1
  rw [hca, h3, if_neg (by simp)]
  obtain ⟨r1, r2⟩ := evaluate_expression_refines
    (parsed_tokens g (expression_string a [(o1, b), (o2, c)])) (by rw [hnum, hcnt])
    (by rw [hnum]; decide)
    (fun l hl => by
      rw [hcnt] at hl
      have hl' : l = 0 ∨ l = 1 := by omega
      rcases hl' with rfl | rfl
      · rw [hop0]; exact ho1
      · rw [hop1]; exact ho2)
  rw [s1', s2'] at r2
  exact ⟨r1, r2⟩

/-- The five passes on `x - y + z` and on `x + y - z`. -/
theorem tier_value_minus_plus {F : Type} [DoubleArith F] (x y z : F) :
    tier_value five_tiers [x, y, z] ['-', '+'] =
        some (DoubleArith.sub x (DoubleArith.add y z)) ∧
      tier_value five_tiers [x, y, z] ['+', '-'] =
        some (DoubleArith.sub (DoubleArith.add x y) z) := by
  constructor
  · simp [tier_value, five_tiers, reduce_tiers, reduce_pass, merge_value]
  · simp [tier_value, five_tiers, reduce_tiers, reduce_pass, merge_value]

/-- A string of plain numbers joined by `+` and `-` has no `E` in it. -/
theorem stage2_exponent_plus_minus (a b c : List Char) (o1 o2 : Char) (ha : plain_number a)
    (hb : plain_number b) (hc : plain_number c) (ho1 : o1 = '-' ∨ o1 = '+')
    (ho2 : o2 = '-' ∨ o2 = '+') :
    stage2_exponent (expression_string a [(o1, b), (o2, c)])
      (expression_string a [(o1, b), (o2, c)]).length
      ((expression_string a [(o1, b), (o2, c)]).length - 1) 0 = false := by
  apply stage2_exponent_no_dot
  intro k j _ hE _
  by_cases hk : k < (expression_string a [(o1, b), (o2, c)]).length
  · have hm := charAt_mem _ k hk
    rw [hE] at hm
    simp only [expression_string, List.mem_append, List.mem_cons] at hm
    have hnd : ¬ isdigit 'E' = true := by decide
    rcases hm with h | h | h | h | h
    · exact hnd (ha.2.2.1 _ h)
    · rcases ho1 with rfl | rfl <;> exact absurd h (by decide)
    · exact hnd (hb.2.2.1 _ h)
    · rcases ho2 with rfl | rfl <;> exact absurd h (by decide)
    · exact hnd (hc.2.2.1 _ h)
  · rw [charAt_of_length_le _ k (by omega)] at hE
    exact absurd hE (by decide)

/-- Claim C30, as amended.  Subtraction followed by addition groups to the
right: for numbers `a`, `b`, `c` written as plain digit strings of 1 to 49
digits with values at most 2147483647, and the input terminated within the
capacity, `CalculateAnswer` on `a-b+c` returns error 0 and the value
`a - (b + c)`, whereas on `a+b-c` it returns `(a + b) - c` (exact arithmetic). -/
theorem CalculateAnswer_minus_plus (gd : ParsedExpression_t Dbl) (a b c : List Char)
    (cap : Nat) (hcap : cap < 256) (ha : plain_number a) (hb : plain_number b)
    (hc : plain_number c) (hterm : a.length + b.length + c.length + 2 < cap) :
    CalculateAnswer gd (a ++ '-' :: (b ++ '+' :: c)) cap =
        (Dbl.fin ((nat_value a : ℚ) - ((nat_value b : ℚ) + (nat_value c : ℚ))), 0) ∧
      CalculateAnswer gd (a ++ '+' :: (b ++ '-' :: c)) cap =
        (Dbl.fin (((nat_value a : ℚ) + (nat_value b : ℚ)) - (nat_value c : ℚ)), 0) := by
  have va := simple_atof_digits a ha.2.2.1 ha.2.2.2
  have vb := simple_atof_digits b hb.2.2.1 hb.2.2.2
  have vc := simple_atof_digits c hc.2.2.1 hc.2.2.2
  have hlen : ∀ o1 o2 : Char, (expression_string a [(o1, b), (o2, c)]).length < cap := by
    intro o1 o2
    simp only [expression_string, List.length_append, List.length_cons]
    omega
  obtain ⟨t1, t2⟩ := tier_value_minus_plus (simple_atof a : Dbl) (simple_atof b) (simple_atof c)
  constructor
  · obtain ⟨e, v⟩ := CalculateAnswer_three gd a b c '-' '+' cap hcap (plain_number_token a ha)
      (plain_number_token b hb) (plain_number_token c hc) rfl rfl (by decide) (hlen _ _)
      (stage2_exponent_plus_minus a b c '-' '+' ha hb hc (Or.inl rfl) (Or.inr rfl))
    rw [t1, va, vb, vc] at v
    have v' := (Option.some.inj v).symm
    have hs : a ++ '-' :: (b ++ '+' :: c) = expression_string a [('-', b), ('+', c)] := rfl
    rw [hs]
    refine Prod.ext ?_ e
    rw [v']
    show Dbl.fin ((nat_value a : ℚ) + -((nat_value b : ℚ) + (nat_value c : ℚ))) = _
    rw [sub_eq_add_neg]
  · obtain ⟨e, v⟩ := CalculateAnswer_three gd a b c '+' '-' cap hcap (plain_number_token a ha)
      (plain_number_token b hb) (plain_number_token c hc) rfl rfl (by decide) (hlen _ _)
      (stage2_exponent_plus_minus a b c '+' '-' ha hb hc (Or.inr rfl) (Or.inl rfl))
    rw [t2, va, vb, vc] at v
    have v' := (Option.some.inj v).symm
    have hs : a ++ '+' :: (b ++ '-' :: c) = expression_string a [('+', b), ('-', c)] := rfl
    rw [hs]
    refine Prod.ext ?_ e
    rw [v']
    show Dbl.fin ((nat_value a : ℚ) + (nat_value b : ℚ) + -(nat_value c : ℚ)) = _
    rw [sub_eq_add_neg]

theorem CalculateAnswer_minus_plus_witness :
    (6 < 256 ∧ plain_number ['1'] ∧ plain_number ['2'] ∧ plain_number ['3'] ∧
      ['1'].length + ['2'].length + ['3'].length + 2 < 6) ∧
      CalculateAnswer zeroed ['1', '-', '2', '+', '3'] 6 = (Dbl.fin (-4), 0) ∧
      CalculateAnswer zeroed ['1', '+', '2', '-', '3'] 6 = (Dbl.fin 0, 0) :=
  have h1 : plain_number ['1'] := ⟨by decide, by decide, by decide, by decide⟩
  have h2 : plain_number ['2'] := ⟨by decide, by decide, by decide, by decide⟩
  have h3 : plain_number ['3'] := ⟨by decide, by decide, by decide, by decide⟩
  have h := CalculateAnswer_minus_plus zeroed ['1'] ['2'] ['3'] 6 (by decide) h1 h2 h3 (by decide)
  ⟨⟨by decide, h1, h2, h3, by decide⟩, h.1.trans (by decide!), h.2.trans (by decide!)⟩

/-- Claim C30, counterexample.  With `a` written as fifty zeros the input
`a-2+3` gives error 7; with `a` written as "3000000000" the input `a-0+0`
gives -1294967296. -/
theorem CalculateAnswer_minus_plus_counterexample :
    CalculateAnswer zeroed (List.replicate 50 '0' ++ ['-', '2', '+', '3']) 60 = (Dbl.fin 0, 7) ∧
      (CalculateAnswer zeroed (List.replicate 50 '0' ++ ['-', '2', '+', '3']) 60).2 ≠ 0 ∧
      CalculateAnswer zeroed
        ['3', '0', '0', '0', '0', '0', '0', '0', '0', '0', '-', '0', '+', '0'] 20 =
        (Dbl.fin (-1294967296), 0) ∧
      (CalculateAnswer zeroed
        ['3', '0', '0', '0', '0', '0', '0', '0', '0', '0', '-', '0', '+', '0'] 20).1 ≠
        Dbl.fin (3000000000 - (0 + 0)) := by
  decide!

/-! ## A number run longer than the staging array -/

/-- The copy loop of `extract_number` stops when the staging array holds 49
characters, although more digits follow. -/
theorem extract_number_loop_cap (p : List Char) (buf_len : Nat) (k ch_no : Nat) (s : List Char)
    (hk : s.length + k = 49)
    (hrun : ∀ j, ch_no ≤ j → j < ch_no + k → j < buf_len ∧ is_number_char (charAt p j) = true) :
    (extract_number_loop p buf_len ch_no s).1 = ch_no + k ∧
      (extract_number_loop p buf_len ch_no s).2.length = 49 := by
  induction k generalizing ch_no s with
  | zero =>
    rw [extract_number_loop, if_neg (by simp only [MAX_NUMBER_STRING_LENGTH]; omega)]
    exact ⟨rfl, by simpa using hk⟩
  | succ k ih =>
    obtain ⟨h1, h2⟩ := hrun ch_no (Nat.le_refl _) (by omega)
    have h2' : isdigit (charAt p ch_no) = true ∨ charAt p ch_no = '.' := by
      simpa [is_number_char] using h2
    rw [extract_number_loop, if_pos ⟨h1, by simp only [MAX_NUMBER_STRING_LENGTH]; omega, h2'⟩]
    obtain ⟨i1, i2⟩ := ih (ch_no + 1) (s ++ [charAt p ch_no])
      (by rw [List.length_append, List.length_cons, List.length_nil]; omega)
      (fun j hj1 hj2 => hrun j (by omega) (by omega))
    exact ⟨by rw [i1]; omega, i2⟩

/-- On a run of at least 49 digits and dots `extract_number` consumes 49
characters and sets no error (while there is room for the number). -/
theorem extract_number_cap {F : Type} [DoubleArith F] (p : List Char) (buf_len : Nat)
    (st : TokState F) (hroom : st.parsed.n_numbers < MAX_NUMS_AND_OPS)
    (hrun : ∀ j, st.ch_no ≤ j → j < st.ch_no + 49 →
      j < buf_len ∧ is_number_char (charAt p j) = true) :
    (extract_number p buf_len st).ch_no = st.ch_no + 49 ∧
      (extract_number p buf_len st).error_ref_no = st.error_ref_no := by
  obtain ⟨r1, r2⟩ := extract_number_loop_cap p buf_len 49 st.ch_no [] rfl hrun
  have h0 := (hrun st.ch_no (Nat.le_refl _) (by omega)).2
  have h0' : isdigit (charAt p st.ch_no) = true ∨ charAt p st.ch_no = '.' := by
    simpa [is_number_char] using h0
  have hn : ¬ (¬ isdigit (charAt p st.ch_no) = true ∧ charAt p st.ch_no ≠ '.') := by
    rcases h0' with h | h
    · simp [h]
    · simp [h]
  unfold extract_number
  rw [if_neg hn]
  dsimp only
  rw [if_neg (by rw [r2]; decide), if_pos hroom]
  exact ⟨r1, rfl⟩

/-- A digit is neither white space nor an operator. -/
theorem isdigit_not_space (c : Char) (h : isdigit c = true) :
    isspace c = false ∧ is_infix_char c = false ∧ is_operator c = false ∧ c ≠ NUL ∧
      stage1_valid_char c = true := by
  have hm := (isdigit_iff c).1 h
  simp only [List.mem_cons, List.mem_singleton, List.not_mem_nil, or_false] at hm
  rcases hm with h | h | h | h | h | h | h | h | h | h <;> subst h <;> decide

/-- A string in which no operator occurs passes the operator-position
validator. -/
theorem syntax_check_stage2_no_operator (p : List Char) (e : Nat)
    (h : ∀ j, is_operator (charAt p j) = false) : syntax_check_stage2 p e = e := by
  unfold syntax_check_stage2
  dsimp only
  have c1 : ¬ (is_operator (charAt p 0) && charAt p 0 != '-') = true := by
    rw [h 0]
    simp
  have c2 : ¬ is_operator (charAt p (strlen p % 256 - 1)) = true := by
    rw [h _]
    simp
  have c3 : ¬ stage2_adjacent p (strlen p % 256 - 1) 0 = true := by
    rw [stage2_adjacent_iff]
    rintro ⟨j, _, _, hb⟩
    unfold stage2_pair_okay at hb
    rw [h j] at hb
    simp at hb
  have c4 : ¬ stage2_exponent p (strlen p % 256) (strlen p % 256 - 1) 0 = true := by
    rw [stage2_exponent_iff]
    rintro ⟨k, _, _, hE, _⟩
    have := h k
    rw [hE] at this
    exact absurd this (by decide)
  rw [if_neg c1, if_neg c2, if_neg c3, if_neg c4]

/-- Claim C26, as amended.  Staging-buffer cap: for an input that is a single
run of 50 or more digits, terminated within the capacity, `extract_number`
stops copying at 49 characters and sets no error itself, but the tokenizer then
finds a digit where it expects an operator: `identify_tokens` reports error 7,
and `CalculateAnswer` returns 0.0 with error 7. -/
theorem CalculateAnswer_long_run {F : Type} [DoubleArith F] (g : ParsedExpression_t F)
    (p : List Char) (cap : Nat) (hcap : cap < 256) (hlen : 50 ≤ p.length)
    (hdig : ∀ c, c ∈ p → isdigit c = true) (hterm : p.length < cap) :
    (extract_number p p.length
        ({ ch_no := 0, parsed := { g with n_numbers := 0, n_infix_operators := 0 },
           error_ref_no := 0 } : TokState F)).ch_no = 49 ∧
      (extract_number p p.length
        ({ ch_no := 0, parsed := { g with n_numbers := 0, n_infix_operators := 0 },
           error_ref_no := 0 } : TokState F)).error_ref_no = 0 ∧
      (identify_tokens p 0 { g with n_numbers := 0, n_infix_operators := 0 }).1 = 7 ∧
      CalculateAnswer g p cap = (DoubleArith.zero, 7) := by
  have hch : ∀ j, j < p.length → isdigit (charAt p j) = true :=
    fun j hj => hdig _ (charAt_mem p j hj)
  have hnop : ∀ j, is_operator (charAt p j) = false := by
    intro j
    by_cases hj : j < p.length
    · exact (isdigit_not_space _ (hch j hj)).2.2.1
    · rw [charAt_of_length_le p j (by omega)]
      decide
  have hsl : strlen p = p.length :=
    strlen_eq_length p (fun c hc => (isdigit_not_space c (hdig c hc)).2.2.2.1)
  have hmod : strlen p % 256 = p.length := by
    rw [hsl]
    exact Nat.mod_eq_of_lt (by omega)
  have h1 : syntax_check_stage1 p cap = 0 := by
    rw [syntax_check_stage1_terminated p cap
      (isdigit_not_space _ (hch 0 (by omega))).2.2.2.1 (by omega)]
    rcases stage1_invalid_char_cases p (strlen p % 256) 0 with h | h
    · exact h
    · exfalso
      obtain ⟨j, _, hj, hv⟩ := (stage1_invalid_char_eq_four_iff _ _ _).1 h
      rw [hmod] at hj
      rw [(isdigit_not_space _ (hch j (by omega))).2.2.2.2] at hv
      exact Bool.noConfusion hv
  have h2 : syntax_check_stage2 p 0 = 0 := syntax_check_stage2_no_operator p 0 hnop
  generalize hst : (⟨0, { g with n_numbers := 0, n_infix_operators := 0 }, 0⟩ : TokState F) = st
  have hst0 : st.ch_no = 0 := by rw [← hst]
  have hste : st.error_ref_no = 0 := by rw [← hst]
  have hstn : st.parsed.n_numbers < MAX_NUMS_AND_OPS := by
    rw [← hst]
    show 0 < 20
    decide
  obtain ⟨x1, x2⟩ := extract_number_cap p p.length st hstn (fun j _ hj => by
    rw [hst0] at hj
    have hj' : j < p.length := by omega
    refine ⟨hj', ?_⟩
    simp only [is_number_char, Bool.or_eq_true, beq_iff_eq]
    exact Or.inl (hch j hj'))
  rw [hst0] at x1
  rw [hste] at x2
  have hd49 := isdigit_not_space _ (hch 49 (by omega))
  have hsk : skip_whitespace p p.length 49 = 49 :=
    skip_whitespace_stay p p.length 49 (by rw [hd49.1]; simp)
  have ha : (after_number p p.length st).ch_no = 49 := by
    show skip_whitespace p p.length (extract_number p p.length st).ch_no = 49
    rw [x1]
    exact hsk
  have h3 : (identify_tokens p 0 { g with n_numbers := 0, n_infix_operators := 0 }).1 = 7 := by
    unfold identify_tokens
    dsimp only
    rw [hmod, hst, identify_tokens_loop_unfold, if_pos (by rw [hst0]; omega),
      if_pos (by rw [hst0, hch 0 (by omega)]; rfl), if_neg (by rw [x2]; simp),
      if_pos (by rw [ha]; omega), if_neg (by rw [ha, hd49.2.1]; simp)]
  refine ⟨by omega, x2, h3, ?_⟩
  rw [CalculateAnswer_of_stages g p cap h1 h2, if_pos (by rw [h3]; decide), h3]

theorem CalculateAnswer_long_run_witness :
    (60 < 256 ∧ 50 ≤ (List.replicate 50 '7').length ∧ (List.replicate 50 '7').length < 60) ∧
      (identify_tokens (List.replicate 50 '7') 0
        { zeroed with n_numbers := 0, n_infix_operators := 0 }).1 = 7 ∧
      CalculateAnswer zeroed (List.replicate 50 '7') 60 = (Dbl.fin 0, 7) :=
  have h := CalculateAnswer_long_run zeroed (List.replicate 50 '7') 60 (by decide) (by decide)
    (fun c hc => by rw [List.eq_of_mem_replicate hc]; decide) (by decide)
  ⟨⟨by decide, by decide, by decide⟩, h.2.2.1, h.2.2.2⟩

/-- Claim C26, counterexample.  An input of fifty digits terminated within
the capacity: `identify_tokens` reports error 7 and `CalculateAnswer` returns
0.0 with error 7, not a result without error. -/
theorem CalculateAnswer_long_run_counterexample :
    (List.replicate 50 '7').length = 50 ∧
      syntax_check_stage1 (List.replicate 50 '7') 60 = 0 ∧
      syntax_check_stage2 (List.replicate 50 '7') 0 = 0 ∧
      (identify_tokens (List.replicate 50 '7') 0 zeroed).1 = 7 ∧
      (identify_tokens (List.replicate 50 '7') 0 zeroed).1 ≠ 0 ∧
      CalculateAnswer zeroed (List.replicate 50 '7') 60 = (Dbl.fin 0, 7) ∧
      (CalculateAnswer zeroed (List.replicate 50 '7') 60).2 ≠ 0 := by
  decide!

/-! ## The number parser on digits and dots -/

/-- The integer-part loop of `simple_atof` runs through a digit string and
stops at what follows, whatever the accumulator holds. -/
theorem atof_int_part_append (ds rest : List Char) (acc : Int)
    (hds : ∀ c, c ∈ ds → isdigit c = true)
    (hrest : ∀ c t, rest = c :: t → isdigit c = false) :
    atof_int_part (ds ++ rest) acc = ((atof_int_part ds acc).1, rest) := by
  induction ds generalizing acc with
  | nil =>
    cases rest with
    | nil => rfl
    | cons c t =>
      simp only [List.nil_append, atof_int_part, hrest c t rfl, Bool.false_eq_true, if_false]
  | cons d ds ih =>
    simp only [List.cons_append, atof_int_part, hds d (List.mem_cons_self _ _), if_true]
    exact ih _ (fun c hc => hds c (List.mem_cons_of_mem _ hc))

/-- The fractional-part loop of `simple_atof` stops at the first character
that is not a digit; what follows it is not read. -/
theorem atof_frac_part_stop {F : Type} [DoubleArith F] (fs : List Char) (c : Char)
    (t : List Char) (fr dv : F) (hfs : ∀ d, d ∈ fs → isdigit d = true)
    (hc : isdigit c = false) :
    atof_frac_part (fs ++ c :: t) fr dv = atof_frac_part fs fr dv := by
  induction fs generalizing fr dv with
  | nil => simp only [List.nil_append, atof_frac_part, hc, Bool.false_eq_true, if_false]
  | cons d ds ih =>
    simp only [List.cons_append, atof_frac_part, hfs d (List.mem_cons_self _ _), if_true]
    exact ih _ _ (fun c hc => hfs c (List.mem_cons_of_mem _ hc))

/-- A digit string followed by a dot starts with neither a space nor a sign. -/
theorem decimal_first_char (ip rest : List Char) (hip : ∀ c, c ∈ ip → isdigit c = true) :
    ∀ c t, ip ++ '.' :: rest = c :: t → c ≠ ' ' ∧ c ≠ '-' ∧ c ≠ '+' := by
  intro c t h
  cases ip with
  | nil =>
    have : c = '.' := by
      simp only [List.nil_append] at h
      injection h with h1 _
      exact h1.symm
    rw [this]
    exact ⟨by decide, by decide, by decide⟩
  | cons d ds =>
    have : c = d := by
      simp only [List.cons_append] at h
      injection h with h1 _
      exact h1.symm
    have := isdigit_not_sign c (by rw [this]; exact hip d (List.mem_cons_self _ _))
    exact ⟨this.1, this.2.1, this.2.2.1⟩

/-- The parser reads `I.F.T` as it reads `I.F`: it stops at the second dot. -/
theorem simple_atof_stops {F : Type} [DoubleArith F] (ip fp t : List Char)
    (hip : ∀ c, c ∈ ip → isdigit c = true) (hfp : ∀ c, c ∈ fp → isdigit c = true) :
    (simple_atof (ip ++ '.' :: (fp ++ '.' :: t)) : F) = simple_atof (ip ++ '.' :: fp) := by
  have hdot : ∀ (r : List Char) (c : Char) (u : List Char), '.' :: r = c :: u →
      isdigit c = false := by
    intro r c u h
    injection h with h1 _
    rw [← h1]
    decide
  rw [simple_atof_unsigned _ (decimal_first_char ip _ hip),
    simple_atof_unsigned _ (decimal_first_char ip _ hip),
    atof_int_part_append ip ('.' :: (fp ++ '.' :: t)) 0 hip (hdot _),
    atof_int_part_append ip ('.' :: fp) 0 hip (hdot _)]
  simp only [if_true]
  rw [atof_frac_part_stop fp '.' t _ _ hfp (by decide)]

/-- The fractional value as the sum `f1/10 + f2/100 + ... + fm/10^m`. -/
theorem frac_value_eq_sum (fs : List Char) :
    frac_value fs =
      Finset.sum (Finset.range fs.length)
        (fun i => (digit_value (fs.getD i '0') : ℚ) / (10 : ℚ) ^ (i + 1)) := by
  induction fs with
  | nil => simp [frac_value]
  | cons c cs ih =>
    rw [frac_value, ih, List.length_cons, Finset.sum_range_succ', Finset.sum_div]
    simp only [List.getD_cons_succ, List.getD_cons_zero, zero_add, pow_one]
    rw [add_comm]
    congr 1
    apply Finset.sum_congr rfl
    intro i _
    rw [div_div, pow_succ (10 : ℚ) (i + 1)]

/-- Claim C27, as amended.  Restricted number parser: for every string made of
a (possibly empty) run of digits `I` of value at most 2147483647, optionally
followed by a dot and a run of digits `F = f1 f2 ... fm`, `simple_atof` returns
`value(I) + f1/10 + f2/100 + ... + fm/10^m`, where `value(I)` comes from
`value = value * 10 + digit` (exact arithmetic; the value of the empty run is
0). -/
theorem simple_atof_restricted (ip fp : List Char) (hip : ∀ c, c ∈ ip → isdigit c = true)
    (hfp : ∀ c, c ∈ fp → isdigit c = true) (hfit : nat_value ip ≤ 2147483647) :
    nat_value [] = 0 ∧ (simple_atof ip : Dbl) = Dbl.fin (nat_value ip) ∧
      (simple_atof (ip ++ '.' :: fp) : Dbl) =
        Dbl.fin ((nat_value ip : ℚ) + Finset.sum (Finset.range fp.length)
          (fun i => (digit_value (fp.getD i '0') : ℚ) / (10 : ℚ) ^ (i + 1))) := by
  refine ⟨rfl, simple_atof_digits ip hip (by omega), ?_⟩
  rw [simple_atof_decimal ip fp hip hfp (by omega), frac_value_eq_sum]

theorem simple_atof_restricted_witness :
    nat_value ['1', '2'] ≤ 2147483647 ∧
      (simple_atof ['1', '2'] : Dbl) = Dbl.fin 12 ∧
      (simple_atof ['1', '2', '.', '3', '4'] : Dbl) = Dbl.fin (12 + 3 / 10 + 4 / 100) ∧
      (simple_atof ['.', '5'] : Dbl) = Dbl.fin (5 / 10) :=
  have h := simple_atof_restricted ['1', '2'] ['3', '4'] (by decide) (by decide) (by decide)
  have h' := simple_atof_restricted [] ['5'] (by decide) (by decide) (by decide)
  ⟨by decide, h.2.1.trans (by decide!), h.2.2.trans (by decide!), h'.2.2.trans (by decide!)⟩

/-- Claim C27, counterexample.  The digit string "2147483648" is parsed to
-2147483648, not to its decimal value: the `int` accumulator overflows. -/
theorem simple_atof_restricted_counterexample :
    nat_value ['2', '1', '4', '7', '4', '8', '3', '6', '4', '8'] = 2147483648 ∧
      (simple_atof ['2', '1', '4', '7', '4', '8', '3', '6', '4', '8'] : Dbl) =
        Dbl.fin (-2147483648) ∧
      (simple_atof ['2', '1', '4', '7', '4', '8', '3', '6', '4', '8'] : Dbl) ≠
        Dbl.fin (nat_value ['2', '1', '4', '7', '4', '8', '3', '6', '4', '8']) := by
  decide!

/-- Claim C28, as amended.  Second decimal point in the parser: given a token
`I.F.T` with two dots, `simple_atof` does not reject it; it stops at the second
dot, so the result is that of `I.F` and what follows the second dot
contributes nothing (in exact arithmetic, `value(I) + f1/10 + ... + fm/10^m`
when `value(I)` fits an `int`). -/
theorem simple_atof_second_dot {F : Type} [DoubleArith F] (ip fp t : List Char)
    (hip : ∀ c, c ∈ ip → isdigit c = true) (hfp : ∀ c, c ∈ fp → isdigit c = true) :
    (simple_atof (ip ++ '.' :: (fp ++ '.' :: t)) : F) = simple_atof (ip ++ '.' :: fp) ∧
      (nat_value ip < 2147483648 →
        (simple_atof (ip ++ '.' :: (fp ++ '.' :: t)) : Dbl) =
          Dbl.fin (nat_value ip + frac_value fp)) := by
  refine ⟨simple_atof_stops ip fp t hip hfp, fun hfit => ?_⟩
  rw [simple_atof_stops ip fp t hip hfp]
  exact simple_atof_decimal ip fp hip hfp hfit

theorem simple_atof_second_dot_witness :
    nat_value ['1'] < 2147483648 ∧
      (simple_atof ['1', '.', '2', '.', '3'] : Dbl) = simple_atof ['1', '.', '2'] ∧
      (simple_atof ['1', '.', '2', '.', '3'] : Dbl) = Dbl.fin (1 + 2 / 10) :=
  have h := simple_atof_second_dot (F := Dbl) ['1'] ['2'] ['3'] (by decide) (by decide)
  ⟨by decide, h.1, (h.2 (by decide)).trans (by decide!)⟩

/-- Claim C28, counterexample.  The token "1.2.3" is parsed to 1 + 2/10, not
to 1 + 2/10 + 3/100: the digit after the second dot contributes nothing. -/
theorem simple_atof_second_dot_counterexample :
    (simple_atof ['1', '.', '2', '.', '3'] : Dbl) = Dbl.fin (1 + 2 / 10) ∧
      (simple_atof ['1', '.', '2', '.', '3'] : Dbl) ≠ Dbl.fin (1 + 2 / 10 + 3 / 100) := by
  decide!

/-! ## Termination of the tokenizer -/

/-- One iteration of the tokenizer loop with fuel, written out. -/
theorem identify_tokens_fuel_succ {F : Type} [DoubleArith F] (p : List Char) (buf_len fuel : Nat)
    (st : TokState F) :
    identify_tokens_fuel p buf_len (fuel + 1) st =
      if st.ch_no < buf_len then
        if (isdigit (charAt p st.ch_no) || charAt p st.ch_no == '.') = true then
          if (extract_number p buf_len st).error_ref_no ≠ 0 then some (extract_number p buf_len st)
          else if (after_number p buf_len st).ch_no < buf_len then
            if is_infix_char (charAt p (after_number p buf_len st).ch_no) = true then
              if (extract_operator p buf_len (after_number p buf_len st)).error_ref_no ≠ 0 then
                some (extract_operator p buf_len (after_number p buf_len st))
              else identify_tokens_fuel p buf_len fuel
                (extract_operator p buf_len (after_number p buf_len st))
            else some { after_number p buf_len st with error_ref_no := 7 }
          else identify_tokens_fuel p buf_len fuel (after_number p buf_len st)
        else some { st with error_ref_no := 6 }
      else some st := rfl

/-- The cursor after a number and the white space behind it is beyond the
cursor before the number. -/
theorem after_number_advances {F : Type} [DoubleArith F] (p : List Char) (buf_len : Nat)
    (st : TokState F) (hlt : st.ch_no < buf_len)
    (hd : (isdigit (charAt p st.ch_no) || charAt p st.ch_no == '.') = true) :
    st.ch_no < (after_number p buf_len st).ch_no := by
  have h1 := extract_number_advances p buf_len st hlt hd
  have h2 := skip_whitespace_le p buf_len (extract_number p buf_len st).ch_no
  show st.ch_no < skip_whitespace p buf_len (extract_number p buf_len st).ch_no
  omega

/-- Each iteration of the tokenizer loop either returns with an error or goes
on from a cursor that has advanced. -/
theorem identify_tokens_fuel_progress {F : Type} [DoubleArith F] (p : List Char)
    (buf_len fuel : Nat) (st : TokState F) (hlt : st.ch_no < buf_len) :
    (∃ st1, identify_tokens_fuel p buf_len (fuel + 1) st = some st1 ∧ st1.error_ref_no ≠ 0) ∨
      (∃ st1, st.ch_no < st1.ch_no ∧
        identify_tokens_fuel p buf_len (fuel + 1) st = identify_tokens_fuel p buf_len fuel st1) := by
  rw [identify_tokens_fuel_succ, if_pos hlt]
  by_cases hd : (isdigit (charAt p st.ch_no) || charAt p st.ch_no == '.') = true
  · rw [if_pos hd]
    have ha := after_number_advances p buf_len st hlt hd
    by_cases he : (extract_number p buf_len st).error_ref_no ≠ 0
    · rw [if_pos he]
      exact Or.inl ⟨_, rfl, he⟩
    · rw [if_neg he]
      by_cases h2 : (after_number p buf_len st).ch_no < buf_len
      · rw [if_pos h2]
        by_cases ho : is_infix_char (charAt p (after_number p buf_len st).ch_no) = true
        · rw [if_pos ho]
          by_cases he3 : (extract_operator p buf_len (after_number p buf_len st)).error_ref_no ≠ 0
          · rw [if_pos he3]
            exact Or.inl ⟨_, rfl, he3⟩
          · rw [if_neg he3]
            have h3 := extract_operator_le p buf_len (after_number p buf_len st)
            exact Or.inr ⟨_, by omega, rfl⟩
        · rw [if_neg ho]
          exact Or.inl ⟨_, rfl, by simp⟩
      · rw [if_neg h2]
        exact Or.inr ⟨_, ha, rfl⟩
  · rw [if_neg hd]
    exact Or.inl ⟨_, rfl, by simp⟩

/-- With more fuel than characters left, the tokenizer loop returns, and its
result is that of `identify_tokens_loop`. -/
theorem identify_tokens_fuel_enough {F : Type} [DoubleArith F] (p : List Char)
    (buf_len fuel : Nat) (st : TokState F) (h : buf_len - st.ch_no < fuel) :
    identify_tokens_fuel p buf_len fuel st = some (identify_tokens_loop p buf_len st) := by
  induction fuel generalizing st with
  | zero => omega
  | succ fuel ih =>
    rw [identify_tokens_fuel_succ, identify_tokens_loop_unfold]
    by_cases hlt : st.ch_no < buf_len
    · rw [if_pos hlt, if_pos hlt]
      by_cases hd : (isdigit (charAt p st.ch_no) || charAt p st.ch_no == '.') = true
      · rw [if_pos hd, if_pos hd]
        have ha := after_number_advances p buf_len st hlt hd
        by_cases he : (extract_number p buf_len st).error_ref_no ≠ 0
        · rw [if_pos he, if_pos he]
        · rw [if_neg he, if_neg he]
          by_cases h2 : (after_number p buf_len st).ch_no < buf_len
          · rw [if_pos h2, if_pos h2]
            by_cases ho : is_infix_char (charAt p (after_number p buf_len st).ch_no) = true
            · rw [if_pos ho, if_pos ho]
              by_cases he3 :
                  (extract_operator p buf_len (after_number p buf_len st)).error_ref_no ≠ 0
              · rw [if_pos he3, if_pos he3]
              · rw [if_neg he3, if_neg he3]
                have h3 := extract_operator_le p buf_len (after_number p buf_len st)
                exact ih _ (by omega)
            · rw [if_neg ho, if_neg ho]
          · rw [if_neg h2, if_neg h2]
            exact ih _ (by omega)
      · rw [if_neg hd, if_neg hd]
    · rw [if_neg hlt, if_neg hlt]

/-- The operator phase on an operator character below `buf_len` consumes
exactly one character, or sets error 1 and leaves the cursor. -/
theorem extract_operator_one {F : Type} (p : List Char) (buf_len : Nat) (st : TokState F)
    (hlt : st.ch_no < buf_len) (ho : is_infix_char (charAt p st.ch_no) = true) :
    ((extract_operator p buf_len st).ch_no = st.ch_no + 1 ∧
        (extract_operator p buf_len st).error_ref_no = st.error_ref_no) ∨
      ((extract_operator p buf_len st).ch_no = st.ch_no ∧
        (extract_operator p buf_len st).error_ref_no = 1) := by
  unfold extract_operator
  rw [if_neg (by omega)]
  dsimp only
  rw [if_pos ho]
  split_ifs
  · exact Or.inl ⟨rfl, rfl⟩
  · exact Or.inr ⟨rfl, rfl⟩

/-- Claim C29.  Termination with progress: for every terminated buffer of
length at most 254, `identify_tokens` returns after at most as many iterations
of its outer loop as the buffer has characters (`length + 1` tests of the loop
condition suffice), because each iteration either returns with an error or
advances the cursor: the number phase consumes at least one character, the
operator phase exactly one (or it sets error 1). -/
theorem identify_tokens_terminates {F : Type} [DoubleArith F] (p : List Char) (e : Nat)
    (pe : ParsedExpression_t F) (hlen : strlen p ≤ 254) :
    (∃ st, identify_tokens_fuel p (strlen p) (strlen p + 1) ⟨0, pe, e⟩ = some st ∧
        identify_tokens p e pe = (st.error_ref_no, st.parsed)) ∧
      (∀ (fuel : Nat) (st : TokState F), st.ch_no < strlen p →
        (∃ st1, identify_tokens_fuel p (strlen p) (fuel + 1) st = some st1 ∧
            st1.error_ref_no ≠ 0) ∨
          (∃ st1, st.ch_no < st1.ch_no ∧
            identify_tokens_fuel p (strlen p) (fuel + 1) st =
              identify_tokens_fuel p (strlen p) fuel st1)) ∧
      (∀ st : TokState F, st.ch_no < strlen p →
        (isdigit (charAt p st.ch_no) || charAt p st.ch_no == '.') = true →
        st.ch_no + 1 ≤ (extract_number p (strlen p) st).ch_no) ∧
      (∀ st : TokState F, st.ch_no < strlen p → is_infix_char (charAt p st.ch_no) = true →
        ((extract_operator p (strlen p) st).ch_no = st.ch_no + 1 ∧
            (extract_operator p (strlen p) st).error_ref_no = st.error_ref_no) ∨
          ((extract_operator p (strlen p) st).ch_no = st.ch_no ∧
            (extract_operator p (strlen p) st).error_ref_no = 1)) := by
  refine ⟨⟨identify_tokens_loop p (strlen p) ⟨0, pe, e⟩, ?_, ?_⟩, ?_, ?_, ?_⟩
  · exact identify_tokens_fuel_enough p (strlen p) (strlen p + 1) ⟨0, pe, e⟩
      (by show strlen p - 0 < strlen p + 1; omega)
  · unfold identify_tokens
    dsimp only
    rw [Nat.mod_eq_of_lt (by omega)]
  · exact fun fuel st hlt => identify_tokens_fuel_progress p (strlen p) fuel st hlt
  · exact fun st hlt hd => extract_number_advances p (strlen p) st hlt hd
  · exact fun st hlt ho => extract_operator_one p (strlen p) st hlt ho

theorem identify_tokens_terminates_witness :
    strlen ['2', '+', '3', 'x', '4'] ≤ 254 ∧
      (∃ st, identify_tokens_fuel ['2', '+', '3', 'x', '4'] (strlen ['2', '+', '3', 'x', '4'])
          (strlen ['2', '+', '3', 'x', '4'] + 1) ⟨0, zeroed, 0⟩ = some st ∧
        identify_tokens ['2', '+', '3', 'x', '4'] 0 zeroed = (st.error_ref_no, st.parsed)) ∧
      (identify_tokens ['2', '+', '3', 'x', '4'] 0 zeroed).1 = 0 ∧
      (identify_tokens ['2', '+', '3', 'x', '4'] 0 zeroed).2.n_numbers = 3 :=
  ⟨by decide, (identify_tokens_terminates ['2', '+', '3', 'x', '4'] 0 zeroed (by decide)).1,
    by decide!, by decide!⟩

/-! ## The range of the integer part of the number parser -/

/-- The value of `wrap_int` is a 32-bit `int`. -/
theorem wrap_int_range (z : Int) : -2147483648 ≤ wrap_int z ∧ wrap_int z < 2147483648 := by
  unfold wrap_int
  omega

/-- The accumulator of the integer-part loop is a 32-bit `int` throughout. -/
theorem atof_int_part_range (ds : List Char) (acc : Int)
    (h : -2147483648 ≤ acc ∧ acc < 2147483648) :
    -2147483648 ≤ (atof_int_part ds acc).1 ∧ (atof_int_part ds acc).1 < 2147483648 := by
  induction ds generalizing acc with
  | nil => exact h
  | cons c cs ih =>
    unfold atof_int_part
    split
    · exact ih _ (wrap_int_range _)
    · exact h

/-- The value of a prefix of a digit string is at most the value of the string. -/
theorem nat_value_prefix_le (pre suf : List Char) : nat_value pre ≤ nat_value (pre ++ suf) := by
  unfold nat_value
  rw [List.foldl_append]
  exact foldl_value_ge suf _

/-- In exact arithmetic the parser gives a digit string the value its `int`
accumulator ends with. -/
theorem simple_atof_int_part (ds : List Char) (hds : ∀ c, c ∈ ds → isdigit c = true) :
    (simple_atof ds : Dbl) = Dbl.fin ((atof_int_part ds 0).1 : ℚ) := by
  have hi := atof_int_part_append ds [] 0 hds (fun c t h => by simp at h)
  simp only [List.append_nil] at hi
  rw [simple_atof_unsigned ds (fun c t h => by
    have := isdigit_not_sign c (hds c (by rw [h]; exact List.mem_cons_self _ _))
    exact ⟨this.1, this.2.1, this.2.2.1⟩), hi]
  show Dbl.mul (Dbl.fin ((1 : Int) : ℚ)) (Dbl.add (Dbl.fin (((atof_int_part ds 0).1 : Int) : ℚ))
    (Dbl.fin 0)) = _
  simp only [Dbl.add, Dbl.mul]
  congr 1
  push_cast
  ring

/-- Claim C34.  Integer-part range: the integer part of `simple_atof` is
accumulated in a 32-bit signed `int`.  For a digit string whose decimal value
is at most 2147483647, the value after every prefix is at most 2147483647 and
is what the accumulator holds (no step overflows), and the result is the
decimal value exactly; for a digit string of larger value the result is not
its decimal value ("3000000000" gives -1294967296). -/
theorem simple_atof_int_range (ds : List Char) (hds : ∀ c, c ∈ ds → isdigit c = true) :
    (nat_value ds ≤ 2147483647 →
        (∀ pre suf, ds = pre ++ suf →
          nat_value pre ≤ 2147483647 ∧ (atof_int_part pre 0).1 = (nat_value pre : Int)) ∧
        (simple_atof ds : Dbl) = Dbl.fin (nat_value ds)) ∧
      (2147483647 < nat_value ds → (simple_atof ds : Dbl) ≠ Dbl.fin (nat_value ds)) ∧
      (simple_atof ['3', '0', '0', '0', '0', '0', '0', '0', '0', '0'] : Dbl) =
        Dbl.fin (-1294967296) := by
  refine ⟨fun hfit => ⟨?_, simple_atof_digits ds hds (by omega)⟩, fun hbig => ?_, by decide!⟩
  · intro pre suf hsplit
    have hle := nat_value_prefix_le pre suf
    rw [← hsplit] at hle
    have hpre : ∀ c, c ∈ pre → isdigit c = true :=
      fun c hc => hds c (by rw [hsplit]; exact List.mem_append_left _ hc)
    have hi := atof_int_part_digits pre [] 0 hpre (fun c t h => by simp at h)
      (by show nat_value pre < 2147483648; omega)
    simp only [List.append_nil, Nat.cast_zero] at hi
    refine ⟨by omega, ?_⟩
    rw [hi]
    rfl
  · rw [simple_atof_int_part ds hds]
    intro heq
    have hq : (((atof_int_part ds 0).1 : Int) : ℚ) = ((nat_value ds : Nat) : ℚ) := Dbl.fin.inj heq
    have hz : (atof_int_part ds 0).1 = (nat_value ds : Int) := by exact_mod_cast hq
    have hr := atof_int_part_range ds 0 (by decide)
    omega

theorem simple_atof_int_range_witness :
    (nat_value ['2', '1', '4', '7', '4', '8', '3', '6', '4', '7'] ≤ 2147483647 ∧
      2147483647 < nat_value ['3', '0', '0', '0', '0', '0', '0', '0', '0', '0']) ∧
      (simple_atof ['2', '1', '4', '7', '4', '8', '3', '6', '4', '7'] : Dbl) =
        Dbl.fin 2147483647 ∧
      (simple_atof ['3', '0', '0', '0', '0', '0', '0', '0', '0', '0'] : Dbl) ≠
        Dbl.fin (nat_value ['3', '0', '0', '0', '0', '0', '0', '0', '0', '0']) :=
  ⟨⟨by decide, by decide⟩,
    ((simple_atof_int_range ['2', '1', '4', '7', '4', '8', '3', '6', '4', '7'] (by decide)).1
      (by decide)).2.trans (by decide!),
    (simple_atof_int_range ['3', '0', '0', '0', '0', '0', '0', '0', '0', '0'] (by decide)).2.1
      (by decide)⟩

/-! ## A minus sign where the tokenizer expects a number -/

/-- The characters the copy loop of `extract_number` passes over are digits
and dots. -/
theorem extract_number_loop_consumed (p : List Char) (buf_len : Nat) (ch_no : Nat)
    (s : List Char) (j : Nat) (h1 : ch_no ≤ j) (h2 : j < (extract_number_loop p buf_len ch_no s).1) :
    is_number_char (charAt p j) = true := by
  induction ch_no, s using extract_number_loop.induct p buf_len with
  | case1 ch_no s h ih =>
    rw [extract_number_loop, if_pos h] at h2
    by_cases hj : j = ch_no
    · subst hj
      simp only [is_number_char, Bool.or_eq_true, beq_iff_eq]
      exact h.2.2
    · exact ih (by omega) h2
  | case2 ch_no s h =>
    rw [extract_number_loop, if_neg h] at h2
    exact absurd h2 (by show ¬ j < ch_no; omega)

/-- The characters `extract_number` passes over are digits and dots. -/
theorem extract_number_consumed {F : Type} [DoubleArith F] (p : List Char) (buf_len : Nat)
    (st : TokState F) (j : Nat) (h1 : st.ch_no ≤ j) (h2 : j < (extract_number p buf_len st).ch_no) :
    is_number_char (charAt p j) = true := by
  have key := extract_number_loop_consumed p buf_len st.ch_no [] j h1
  unfold extract_number at h2
  dsimp only at h2
  split_ifs at h2
  · exact absurd h2 (by show ¬ j < st.ch_no; omega)
  · exact key h2
  · exact key h2
  · exact key h2

/-- The characters the whitespace loop passes over are white space. -/
theorem skip_whitespace_consumed (p : List Char) (buf_len : Nat) (i : Nat) (j : Nat)
    (h1 : i ≤ j) (h2 : j < skip_whitespace p buf_len i) : isspace (charAt p j) = true := by
  induction i using skip_whitespace.induct p buf_len with
  | case1 i h ih =>
    rw [skip_whitespace, if_pos h] at h2
    by_cases hj : j = i
    · subst hj
      exact h.2
    · exact ih (by omega) h2
  | case2 i h =>
    rw [skip_whitespace, if_neg h] at h2
    omega

/-- When the tokenizer loop ends without error, the character at the cursor
(if any is left) is a digit or a dot, and so is the character after every
operator character from the cursor on that is not the last character. -/
theorem identify_tokens_loop_operands {F : Type} [inst : DoubleArith F] (p : List Char)
    (buf_len : Nat) (st : TokState F)
    (herr : (identify_tokens_loop p buf_len st).error_ref_no = 0) :
    (st.ch_no < buf_len → is_number_char (charAt p st.ch_no) = true) ∧
      ∀ j, st.ch_no ≤ j → j + 1 < buf_len → is_infix_char (charAt p j) = true →
        is_number_char (charAt p (j + 1)) = true := by
  induction st using @identify_tokens_loop.induct F inst p buf_len with
  | case1 x hlt hd st1 he =>
    have he1 : (extract_number p buf_len x).error_ref_no ≠ 0 := he
    rw [identify_tokens_loop_unfold, if_pos hlt, if_pos hd, if_pos he1] at herr
    exact absurd herr he1
  | case2 x hlt hd st1 he st2 hlt2 hop st3 he3 =>
    have he1 : ¬ (extract_number p buf_len x).error_ref_no ≠ 0 := he
    have hlt2a : (after_number p buf_len x).ch_no < buf_len := hlt2
    have hopa : is_infix_char (charAt p (after_number p buf_len x).ch_no) = true := hop
    have he3a : (extract_operator p buf_len (after_number p buf_len x)).error_ref_no ≠ 0 := he3
    rw [identify_tokens_loop_unfold, if_pos hlt, if_pos hd, if_neg he1, if_pos hlt2a, if_pos hopa,
      if_pos he3a] at herr
    exact absurd herr he3a
  | case3 x hlt hd st1 he st2 hlt2 hop st3 he3 ih =>
    have he1 : ¬ (extract_number p buf_len x).error_ref_no ≠ 0 := he
    have hlt2a : (after_number p buf_len x).ch_no < buf_len := hlt2
    have hopa : is_infix_char (charAt p (after_number p buf_len x).ch_no) = true := hop
    have he3a : ¬ (extract_operator p buf_len (after_number p buf_len x)).error_ref_no ≠ 0 := he3
    rw [identify_tokens_loop_unfold, if_pos hlt, if_pos hd, if_neg he1, if_pos hlt2a, if_pos hopa,
      if_neg he3a] at herr
    have iha : ((extract_operator p buf_len (after_number p buf_len x)).ch_no < buf_len →
        is_number_char (charAt p (extract_operator p buf_len (after_number p buf_len x)).ch_no)
          = true) ∧
        ∀ j, (extract_operator p buf_len (after_number p buf_len x)).ch_no ≤ j →
          j + 1 < buf_len → is_infix_char (charAt p j) = true →
          is_number_char (charAt p (j + 1)) = true := ih herr
    have hok := extract_operator_ok p buf_len (after_number p buf_len x) hlt2a (by omega)
    have hnext := hok.2.2.1
    refine ⟨fun _ => hd, fun j hj1 hj2 hj3 => ?_⟩
    have hnn := is_infix_char_not_number _ hj3
    by_cases c1 : j < (extract_number p buf_len x).ch_no
    · rw [extract_number_consumed p buf_len x j hj1 c1] at hnn
      exact absurd hnn.1 (by decide)
    · by_cases c2 : j < (after_number p buf_len x).ch_no
      · have hs := skip_whitespace_consumed p buf_len (extract_number p buf_len x).ch_no j
          (by omega) c2
        rw [hs] at hnn
        exact absurd hnn.2 (by decide)
      · by_cases c3 : j = (after_number p buf_len x).ch_no
        · have := iha.1 (by rw [hnext]; omega)
          rw [hnext, ← c3] at this
          exact this
        · exact iha.2 j (by rw [hnext]; omega) hj2 hj3
  | case4 x hlt hd st1 he st2 hlt2 hop =>
    have he1 : ¬ (extract_number p buf_len x).error_ref_no ≠ 0 := he
    have hlt2a : (after_number p buf_len x).ch_no < buf_len := hlt2
    have hopa : ¬ is_infix_char (charAt p (after_number p buf_len x).ch_no) = true := hop
    rw [identify_tokens_loop_unfold, if_pos hlt, if_pos hd, if_neg he1, if_pos hlt2a,
      if_neg hopa] at herr
    exact absurd herr (by show ¬ (7 : Nat) = 0; decide)
  | case5 x hlt hd st1 he st2 hlt2 ih =>
    have hlt2a : ¬ (after_number p buf_len x).ch_no < buf_len := hlt2
    refine ⟨fun _ => hd, fun j hj1 hj2 hj3 => ?_⟩
    have hnn := is_infix_char_not_number _ hj3
    by_cases c1 : j < (extract_number p buf_len x).ch_no
    · rw [extract_number_consumed p buf_len x j hj1 c1] at hnn
      exact absurd hnn.1 (by decide)
    · have hs := skip_whitespace_consumed p buf_len (extract_number p buf_len x).ch_no j
        (by omega) (by
          show j < (after_number p buf_len x).ch_no
          omega)
      rw [hs] at hnn
      exact absurd hnn.2 (by decide)
  | case6 x hlt hd =>
    rw [identify_tokens_loop_unfold, if_pos hlt, if_neg hd] at herr
    exact absurd herr (by show ¬ (6 : Nat) = 0; decide)
  | case7 x hlt =>
    exact ⟨fun h => absurd h hlt, fun j hj1 hj2 _ => by omega⟩

/-- An input that passes the two string validators and starts with a minus
sign is stopped by the tokenizer with error 6. -/
theorem CalculateAnswer_leading_minus {F : Type} [DoubleArith F] (g : ParsedExpression_t F)
    (p : List Char) (cap : Nat) (hcap : cap < 256) (h1 : syntax_check_stage1 p cap = 0)
    (h2 : syntax_check_stage2 p 0 = 0) (hm : charAt p 0 = '-') :
    CalculateAnswer g p cap = (DoubleArith.zero, 6) := by
  obtain ⟨_, hlt, hpos, _⟩ := syntax_check_stage1_eq_zero p cap h1
  have hmod : strlen p % 256 = strlen p := Nat.mod_eq_of_lt (by omega)
  have h3 : (identify_tokens p 0 { g with n_numbers := 0, n_infix_operators := 0 }).1 = 6 := by
    unfold identify_tokens
    dsimp only
    rw [hmod, identify_tokens_loop_not_number p (strlen p) _ hpos (by
      show (isdigit (charAt p 0) || charAt p 0 == '.') = false
      rw [hm]
      decide)]
  rw [CalculateAnswer_of_stages g p cap h1 h2, if_pos (by rw [h3]; decide), h3]

/-- Claim C31.  A minus sign in operand position is never accepted: an input
that starts with a minus sign, or that contains a minus sign right after `x`,
after the division sign or after `E`, gets a non-zero error number from
`CalculateAnswer`; and an input that passes the character validator and the
operator-position validator and starts with a minus sign gets exactly 6. -/
theorem CalculateAnswer_minus_operand {F : Type} [DoubleArith F] (g : ParsedExpression_t F)
    (p : List Char) (cap : Nat) (hcap : cap < 256) :
    (charAt p 0 = '-' → (CalculateAnswer g p cap).2 ≠ 0) ∧
      (∀ i, i + 1 < strlen p → charAt p i ∈ ['x', '/', 'E'] → charAt p (i + 1) = '-' →
        (CalculateAnswer g p cap).2 ≠ 0) ∧
      (syntax_check_stage1 p cap = 0 → syntax_check_stage2 p 0 = 0 → charAt p 0 = '-' →
        CalculateAnswer g p cap = (DoubleArith.zero, 6)) := by
  refine ⟨fun hm hz => ?_, fun i hi hx hmin hz => ?_,
    fun h1 h2 hm => CalculateAnswer_leading_minus g p cap hcap h1 h2 hm⟩
  · obtain ⟨h1, h2, _, _⟩ := CalculateAnswer_success g p cap hz
    rw [CalculateAnswer_leading_minus g p cap hcap h1 h2 hm] at hz
    exact absurd hz (by show ¬ (6 : Nat) = 0; decide)
  · obtain ⟨h1, _, h3, _⟩ := CalculateAnswer_success g p cap hz
    obtain ⟨_, hlt, _, _⟩ := syntax_check_stage1_eq_zero p cap h1
    have hmod : strlen p % 256 = strlen p := Nat.mod_eq_of_lt (by omega)
    unfold identify_tokens at h3
    dsimp only at h3
    rw [hmod] at h3
    have hop : is_infix_char (charAt p i) = true := by
      simp only [List.mem_cons, List.mem_singleton, List.not_mem_nil, or_false] at hx
      rcases hx with h | h | h <;> rw [h] <;> decide
    have := (identify_tokens_loop_operands p (strlen p) _ h3).2 i (Nat.zero_le _) hi hop
    rw [hmin] at this
    exact absurd this (by decide)

theorem CalculateAnswer_minus_operand_witness :
    (5 < 256 ∧ charAt ['-', '5'] 0 = '-' ∧ syntax_check_stage1 ['-', '5'] 5 = 0 ∧
      syntax_check_stage2 ['-', '5'] 0 = 0 ∧ 1 + 1 < strlen ['5', 'x', '-', '3'] ∧
      charAt ['5', 'x', '-', '3'] 1 ∈ ['x', '/', 'E'] ∧ charAt ['5', 'x', '-', '3'] (1 + 1) = '-') ∧
      (CalculateAnswer zeroed ['-', '5'] 5).2 ≠ 0 ∧
      (CalculateAnswer zeroed ['5', 'x', '-', '3'] 5).2 ≠ 0 ∧
      CalculateAnswer zeroed ['-', '5'] 5 = (Dbl.fin 0, 6) :=
  ⟨⟨by decide, by decide, by decide, by decide, by decide, by decide, by decide⟩,
    (CalculateAnswer_minus_operand zeroed ['-', '5'] 5 (by decide)).1 (by decide),
    (CalculateAnswer_minus_operand zeroed ['5', 'x', '-', '3'] 5 (by decide)).2.1 1 (by decide)
      (by decide) (by decide),
    (CalculateAnswer_minus_operand zeroed ['-', '5'] 5 (by decide)).2.2 (by decide) (by decide)
      (by decide)⟩

/-! ## The counts during the tokenizer's run -/

/-- The three ways `extract_number` can end, with the counts it leaves. -/
theorem extract_number_counts {F : Type} [DoubleArith F] (p : List Char) (buf_len : Nat)
    (st : TokState F) :
    (extract_number p buf_len st).parsed.n_infix_operators = st.parsed.n_infix_operators ∧
      (((extract_number p buf_len st).parsed.n_numbers = st.parsed.n_numbers + 1 ∧
          st.parsed.n_numbers < MAX_NUMS_AND_OPS ∧
          (extract_number p buf_len st).error_ref_no = st.error_ref_no) ∨
        ((extract_number p buf_len st).parsed.n_numbers = st.parsed.n_numbers ∧
          (extract_number p buf_len st).error_ref_no = 6) ∨
        ((extract_number p buf_len st).parsed.n_numbers = st.parsed.n_numbers ∧
          (extract_number p buf_len st).error_ref_no = 1 ∧
          MAX_NUMS_AND_OPS ≤ st.parsed.n_numbers)) := by
  unfold extract_number
  dsimp only
  split_ifs with h1 h2 h3
  · exact ⟨rfl, Or.inr (Or.inl ⟨rfl, rfl⟩)⟩
  · exact ⟨rfl, Or.inr (Or.inl ⟨rfl, rfl⟩)⟩
  · exact ⟨rfl, Or.inl ⟨rfl, h3, rfl⟩⟩
  · exact ⟨rfl, Or.inr (Or.inr ⟨rfl, rfl, by omega⟩)⟩

/-- The ways `extract_operator` can end, with the counts it leaves. -/
theorem extract_operator_counts {F : Type} (p : List Char) (buf_len : Nat) (st : TokState F) :
    (extract_operator p buf_len st).parsed.n_numbers = st.parsed.n_numbers ∧
      (((extract_operator p buf_len st).parsed.n_infix_operators =
            st.parsed.n_infix_operators + 1 ∧
          st.parsed.n_infix_operators < MAX_NUMS_AND_OPS ∧
          (extract_operator p buf_len st).error_ref_no = st.error_ref_no) ∨
        ((extract_operator p buf_len st).parsed.n_infix_operators = st.parsed.n_infix_operators ∧
          (extract_operator p buf_len st).error_ref_no = 1 ∧
          MAX_NUMS_AND_OPS ≤ st.parsed.n_infix_operators) ∨
        ((extract_operator p buf_len st).parsed.n_infix_operators = st.parsed.n_infix_operators ∧
          (extract_operator p buf_len st).error_ref_no = 7 ∧
          is_infix_char (charAt p st.ch_no) = false) ∨
        (extract_operator p buf_len st = st ∧ buf_len ≤ st.ch_no)) := by
  unfold extract_operator
  dsimp only
  split_ifs with h1 h2 h3
  · exact ⟨rfl, Or.inr (Or.inr (Or.inr ⟨rfl, h1⟩))⟩
  · exact ⟨rfl, Or.inl ⟨rfl, h3, rfl⟩⟩
  · exact ⟨rfl, Or.inr (Or.inl ⟨rfl, rfl, by omega⟩)⟩
  · exact ⟨rfl, Or.inr (Or.inr (Or.inl ⟨rfl, rfl, by simpa using h2⟩))⟩

/-- One pass through the loop body, written with `after_number`. -/
theorem identify_tokens_iteration_eq {F : Type} [DoubleArith F] (p : List Char) (buf_len : Nat)
    (st : TokState F) :
    identify_tokens_iteration p buf_len st =
      if st.ch_no < buf_len then
        if (isdigit (charAt p st.ch_no) || charAt p st.ch_no == '.') = true then
          if (extract_number p buf_len st).error_ref_no ≠ 0 then none
          else if (after_number p buf_len st).ch_no < buf_len then
            if is_infix_char (charAt p (after_number p buf_len st).ch_no) = true then
              if (extract_operator p buf_len (after_number p buf_len st)).error_ref_no ≠ 0 then
                none
              else some (extract_operator p buf_len (after_number p buf_len st))
            else none
          else some (after_number p buf_len st)
        else none
      else none := rfl

/-- A pass through the loop body that reaches the next test of the loop
condition started below `buf_len` at a digit or dot, without error, and the
function's result from the old state is its result from the new one. -/
theorem identify_tokens_iteration_some {F : Type} [DoubleArith F] (p : List Char)
    (buf_len : Nat) (st st' : TokState F) (h : identify_tokens_iteration p buf_len st = some st') :
    st.ch_no < buf_len ∧ is_number_char (charAt p st.ch_no) = true ∧
      (extract_number p buf_len st).error_ref_no = 0 ∧ st'.error_ref_no = 0 ∧
      identify_tokens_loop p buf_len st = identify_tokens_loop p buf_len st' ∧
      ((st' = after_number p buf_len st ∧ buf_len ≤ (after_number p buf_len st).ch_no) ∨
        (st' = extract_operator p buf_len (after_number p buf_len st) ∧
          (after_number p buf_len st).ch_no < buf_len ∧
          is_infix_char (charAt p (after_number p buf_len st).ch_no) = true)) := by
  rw [identify_tokens_iteration_eq] at h
  rw [identify_tokens_loop_unfold]
  split_ifs at h ⊢ with c1 c2 c3 c4 c5 c6
  · have e := Option.some.inj h
    subst e
    exact ⟨c1, c2, by omega, by omega, rfl, Or.inr ⟨rfl, c4, c5⟩⟩
  · have e := Option.some.inj h
    subst e
    refine ⟨c1, c2, by omega, ?_, rfl, Or.inl ⟨rfl, by omega⟩⟩
    show (extract_number p buf_len st).error_ref_no = 0
    omega

/-- The counts invariant passes from one test of the loop condition to the
next. -/
theorem CountsAtHead_iteration {F : Type} [DoubleArith F] (p : List Char) (buf_len : Nat)
    (st st' : TokState F) (hinv : CountsAtHead buf_len st)
    (h : identify_tokens_iteration p buf_len st = some st') : CountsAtHead buf_len st' := by
  obtain ⟨hlt, _, he1, he', _, hcase⟩ := identify_tokens_iteration_some p buf_len st st' h
  obtain ⟨hmax, hc⟩ := hinv
  have hnm : st.parsed.n_numbers = st.parsed.n_infix_operators := by
    rcases hc with hc | hc
    · exact hc
    · omega
  obtain ⟨m1, n1⟩ := extract_number_counts p buf_len st
  have ha1 : (after_number p buf_len st).parsed = (extract_number p buf_len st).parsed := rfl
  have ha2 : (after_number p buf_len st).error_ref_no = (extract_number p buf_len st).error_ref_no :=
    rfl
  unfold CountsAtHead
  rcases hcase with ⟨rfl, hend⟩ | ⟨rfl, hlt2, hop⟩
  · rw [ha1]
    rcases n1 with ⟨a, b, _⟩ | ⟨_, b⟩ | ⟨_, b, _⟩
    · exact ⟨by omega, Or.inr ⟨by omega, hend⟩⟩
    · omega
    · omega
  · obtain ⟨m3, n3⟩ := extract_operator_counts p buf_len (after_number p buf_len st)
    rw [ha1] at m3 n3
    rw [ha2] at n3
    rw [m3]
    rcases n1 with ⟨a, b, _⟩ | ⟨_, b⟩ | ⟨_, b, _⟩
    · rcases n3 with ⟨c, _, _⟩ | ⟨_, c, _⟩ | ⟨_, c, _⟩ | ⟨_, c⟩
      · exact ⟨by omega, Or.inl (by omega)⟩
      · omega
      · omega
      · omega
    · omega
    · omega

/-- The counts invariant holds at every test of the loop condition the
tokenizer reaches. -/
theorem CountsAtHead_head {F : Type} [DoubleArith F] (p : List Char) (buf_len : Nat) (k : Nat)
    (st st' : TokState F) (hinv : CountsAtHead buf_len st)
    (h : identify_tokens_head p buf_len k st = some st') : CountsAtHead buf_len st' := by
  induction k generalizing st with
  | zero =>
    have e : st = st' := Option.some.inj h
    rw [← e]
    exact hinv
  | succ k ih =>
    unfold identify_tokens_head at h
    cases hit : identify_tokens_iteration p buf_len st with
    | none =>
      rw [hit] at h
      exact absurd h (by simp)
    | some s1 =>
      rw [hit] at h
      exact ih s1 (CountsAtHead_iteration p buf_len st s1 hinv hit) h

/-- The function's result is the same from every test of the loop condition
it reaches. -/
theorem identify_tokens_head_result {F : Type} [DoubleArith F] (p : List Char) (buf_len : Nat)
    (k : Nat) (st st' : TokState F) (h : identify_tokens_head p buf_len k st = some st') :
    identify_tokens_loop p buf_len st = identify_tokens_loop p buf_len st' := by
  induction k generalizing st with
  | zero =>
    have e : st = st' := Option.some.inj h
    rw [e]
  | succ k ih =>
    unfold identify_tokens_head at h
    cases hit : identify_tokens_iteration p buf_len st with
    | none =>
      rw [hit] at h
      exact absurd h (by simp)
    | some s1 =>
      rw [hit] at h
      rw [(identify_tokens_iteration_some p buf_len st s1 hit).2.2.2.2.1]
      exact ih s1 h

/-- At a test of the loop condition where the counts invariant holds and the
number phase succeeds, there is room for the operator: the branch "too many
operators" of `extract_operator` is not taken. -/
theorem extract_operator_room {F : Type} [DoubleArith F] (p : List Char) (buf_len : Nat)
    (st : TokState F) (hinv : CountsAtHead buf_len st) (hlt : st.ch_no < buf_len)
    (he : (extract_number p buf_len st).error_ref_no = 0) (h0 : st.error_ref_no = 0) :
    (after_number p buf_len st).parsed.n_infix_operators < MAX_NUMS_AND_OPS ∧
      (extract_operator p buf_len (after_number p buf_len st)).error_ref_no ≠ 1 := by
  obtain ⟨hmax, hc⟩ := hinv
  obtain ⟨m1, n1⟩ := extract_number_counts p buf_len st
  have ha1 : (after_number p buf_len st).parsed = (extract_number p buf_len st).parsed := rfl
  have ha2 : (after_number p buf_len st).error_ref_no = (extract_number p buf_len st).error_ref_no :=
    rfl
  have hroom : (after_number p buf_len st).parsed.n_infix_operators < MAX_NUMS_AND_OPS := by
    rw [ha1, m1]
    rcases n1 with ⟨_, b, _⟩ | ⟨_, b⟩ | ⟨_, b, _⟩ <;> omega
  refine ⟨hroom, ?_⟩
  obtain ⟨_, n3⟩ := extract_operator_counts p buf_len (after_number p buf_len st)
  rw [ha2, he] at n3
  rcases n3 with ⟨_, _, c⟩ | ⟨_, _, c⟩ | ⟨_, c, _⟩ | ⟨c, _⟩
  · omega
  · omega
  · omega
  · rw [c, ha2, he]
    decide

/-- When the tokenizer loop, entered without error at a state satisfying the
counts invariant, ends with error 1, it has reached a test of the loop
condition with 20 numbers and 20 operators stored and a further digit or dot
at the cursor, where `extract_number` set the error. -/
theorem identify_tokens_loop_overflow {F : Type} [inst : DoubleArith F] (p : List Char)
    (buf_len : Nat) (st : TokState F) (hinv : CountsAtHead buf_len st)
    (h0 : st.error_ref_no = 0) (herr : (identify_tokens_loop p buf_len st).error_ref_no = 1) :
    ∃ k st', identify_tokens_head p buf_len k st = some st' ∧ st'.ch_no < buf_len ∧
      is_number_char (charAt p st'.ch_no) = true ∧ st'.parsed.n_numbers = 20 ∧
      st'.parsed.n_infix_operators = 20 ∧ (extract_number p buf_len st').error_ref_no = 1 ∧
      identify_tokens_loop p buf_len st = extract_number p buf_len st' := by
  induction st using @identify_tokens_loop.induct F inst p buf_len with
  | case1 x hlt hd st1 he =>
    have he1 : (extract_number p buf_len x).error_ref_no ≠ 0 := he
    have hres : identify_tokens_loop p buf_len x = extract_number p buf_len x := by
      rw [identify_tokens_loop_unfold, if_pos hlt, if_pos hd, if_pos he1]
    rw [hres] at herr
    obtain ⟨hmax, hc⟩ := hinv
    obtain ⟨_, n1⟩ := extract_number_counts p buf_len x
    have hfull : MAX_NUMS_AND_OPS ≤ x.parsed.n_numbers := by
      rcases n1 with ⟨_, _, b⟩ | ⟨_, b⟩ | ⟨_, _, b⟩ <;> omega
    have h20 : x.parsed.n_numbers = 20 := by
      have : MAX_NUMS_AND_OPS = 20 := rfl
      omega
    exact ⟨0, x, rfl, hlt, hd, h20, by rcases hc with hc | hc <;> omega, herr, hres⟩
  | case2 x hlt hd st1 he st2 hlt2 hop st3 he3 =>
    have he1 : ¬ (extract_number p buf_len x).error_ref_no ≠ 0 := he
    have hlt2a : (after_number p buf_len x).ch_no < buf_len := hlt2
    have hopa : is_infix_char (charAt p (after_number p buf_len x).ch_no) = true := hop
    have he3a : (extract_operator p buf_len (after_number p buf_len x)).error_ref_no ≠ 0 := he3
    rw [identify_tokens_loop_unfold, if_pos hlt, if_pos hd, if_neg he1, if_pos hlt2a, if_pos hopa,
      if_pos he3a] at herr
    exact absurd herr (extract_operator_room p buf_len x hinv hlt (by omega) h0).2
  | case3 x hlt hd st1 he st2 hlt2 hop st3 he3 ih =>
    have he1 : ¬ (extract_number p buf_len x).error_ref_no ≠ 0 := he
    have hlt2a : (after_number p buf_len x).ch_no < buf_len := hlt2
    have hopa : is_infix_char (charAt p (after_number p buf_len x).ch_no) = true := hop
    have he3a : ¬ (extract_operator p buf_len (after_number p buf_len x)).error_ref_no ≠ 0 := he3
    have hit : identify_tokens_iteration p buf_len x =
        some (extract_operator p buf_len (after_number p buf_len x)) := by
      rw [identify_tokens_iteration_eq, if_pos hlt, if_pos hd, if_neg he1, if_pos hlt2a,
        if_pos hopa, if_neg he3a]
    have hres := (identify_tokens_iteration_some p buf_len x _ hit).2.2.2.2.1
    rw [hres] at herr
    have iha : ∃ k st', identify_tokens_head p buf_len k
          (extract_operator p buf_len (after_number p buf_len x)) = some st' ∧
        st'.ch_no < buf_len ∧ is_number_char (charAt p st'.ch_no) = true ∧
        st'.parsed.n_numbers = 20 ∧ st'.parsed.n_infix_operators = 20 ∧
        (extract_number p buf_len st').error_ref_no = 1 ∧
        identify_tokens_loop p buf_len (extract_operator p buf_len (after_number p buf_len x)) =
          extract_number p buf_len st' :=
      ih (CountsAtHead_iteration p buf_len x _ hinv hit) (by omega) herr
    obtain ⟨k, st', a1, a2⟩ := iha
    refine ⟨k + 1, st', ?_, ?_⟩
    · unfold identify_tokens_head
      rw [hit]
      exact a1
    · rw [hres]
      exact a2
  | case4 x hlt hd st1 he st2 hlt2 hop =>
    have he1 : ¬ (extract_number p buf_len x).error_ref_no ≠ 0 := he
    have hlt2a : (after_number p buf_len x).ch_no < buf_len := hlt2
    have hopa : ¬ is_infix_char (charAt p (after_number p buf_len x).ch_no) = true := hop
    rw [identify_tokens_loop_unfold, if_pos hlt, if_pos hd, if_neg he1, if_pos hlt2a,
      if_neg hopa] at herr
    exact absurd herr (by show ¬ (7 : Nat) = 1; decide)
  | case5 x hlt hd st1 he st2 hlt2 ih =>
    have he1 : ¬ (extract_number p buf_len x).error_ref_no ≠ 0 := he
    have hlt2a : ¬ (after_number p buf_len x).ch_no < buf_len := hlt2
    rw [identify_tokens_loop_unfold, if_pos hlt, if_pos hd, if_neg he1, if_neg hlt2a,
      identify_tokens_loop_end p buf_len _ hlt2a] at herr
    have : (after_number p buf_len x).error_ref_no = (extract_number p buf_len x).error_ref_no :=
      rfl
    omega
  | case6 x hlt hd =>
    rw [identify_tokens_loop_unfold, if_pos hlt, if_neg hd] at herr
    exact absurd herr (by show ¬ (6 : Nat) = 1; decide)
  | case7 x hlt =>
    rw [identify_tokens_loop_end p buf_len x hlt] at herr
    omega

/-! ## Where error 1 comes from -/

/-- The states at the tests of the loop condition carry no error when the
tokenizer was entered without error. -/
theorem identify_tokens_head_error {F : Type} [DoubleArith F] (p : List Char) (buf_len : Nat)
    (k : Nat) (st st' : TokState F) (h0 : st.error_ref_no = 0)
    (h : identify_tokens_head p buf_len k st = some st') : st'.error_ref_no = 0 := by
  induction k generalizing st with
  | zero =>
    have e : st = st' := Option.some.inj h
    rw [← e]
    exact h0
  | succ k ih =>
    unfold identify_tokens_head at h
    cases hit : identify_tokens_iteration p buf_len st with
    | none =>
      rw [hit] at h
      exact absurd h (by simp)
    | some s1 =>
      rw [hit] at h
      exact ih s1 (identify_tokens_iteration_some p buf_len st s1 hit).2.2.2.1 h

/-- The counts invariant holds when the tokenizer is entered with both counts
at 0. -/
theorem CountsAtHead_start {F : Type} (buf_len : Nat) (pe : ParsedExpression_t F) (e : Nat)
    (h1 : pe.n_numbers = 0) (h2 : pe.n_infix_operators = 0) :
    CountsAtHead buf_len (⟨0, pe, e⟩ : TokState F) :=
  ⟨by show pe.n_numbers ≤ 20; omega, Or.inl (by show pe.n_numbers = pe.n_infix_operators; omega)⟩

/-- An input that passes the two string validators and the tokenizer is
evaluated without error (whatever the token validator says). -/
theorem evaluate_expression_parsed_tokens {F : Type} [DoubleArith F] (g : ParsedExpression_t F)
    (p : List Char) (cap : Nat) (hcap : cap < 256) (h1 : syntax_check_stage1 p cap = 0)
    (h2 : syntax_check_stage2 p 0 = 0)
    (h3 : (identify_tokens p 0 { g with n_numbers := 0, n_infix_operators := 0 }).1 = 0) :
    (evaluate_expression (parsed_tokens g p) 0).2 = 0 := by
  obtain ⟨a, b, c⟩ := parsed_tokens_counts g p cap hcap h1 h2 h3
  exact (evaluate_expression_refines (parsed_tokens g p) a b c).1

/-- Error 1 from the entry point is the tokenizer's. -/
theorem CalculateAnswer_one_stage {F : Type} [DoubleArith F] (g : ParsedExpression_t F)
    (p : List Char) (cap : Nat) (hcap : cap < 256) (h : (CalculateAnswer g p cap).2 = 1) :
    syntax_check_stage1 p cap = 0 ∧ syntax_check_stage2 p 0 = 0 ∧
      (identify_tokens p 0 { g with n_numbers := 0, n_infix_operators := 0 }).1 = 1 := by
  have s1 := syntax_check_stage1_cases p cap
  have s2 := syntax_check_stage2_cases p 0
  rcases CalculateAnswer_error_stages g p cap with ⟨a, b⟩ | ⟨a, b, c⟩ | ⟨a, b, _⟩
  · omega
  · omega
  · refine ⟨a, b, ?_⟩
    rw [CalculateAnswer_of_stages g p cap a b] at h
    by_cases t : (identify_tokens p 0 { g with n_numbers := 0, n_infix_operators := 0 }).1 ≠ 0
    · rw [if_pos t] at h
      exact h
    · rw [if_neg t] at h
      have s3 := syntax_check_stage3_cases (parsed_tokens g p) 0
      have ev := evaluate_expression_parsed_tokens g p cap hcap a b (by omega)
      split_ifs at h with c3
      · have h' : syntax_check_stage3 (parsed_tokens g p) 0 = 1 := h
        omega
      · omega

/-- Claim C32.  Through the entry point, error 1 comes only from the overflow
of the number capacity: when `CalculateAnswer` returns error 1, the two string
validators passed and the tokenizer set the error in `extract_number`, at a
test of its loop condition with 20 numbers and 20 operators stored and a
further number starting at the cursor.  At no test of the loop condition the
tokenizer reaches, the branch "too many operators" of `extract_operator` is
taken, and the evaluator raises no error on what the tokenizer accepted. -/
theorem CalculateAnswer_error_one {F : Type} [DoubleArith F] (g : ParsedExpression_t F)
    (p : List Char) (cap : Nat) (hcap : cap < 256) :
    ((CalculateAnswer g p cap).2 = 1 →
        syntax_check_stage1 p cap = 0 ∧ syntax_check_stage2 p 0 = 0 ∧
        (identify_tokens p 0 { g with n_numbers := 0, n_infix_operators := 0 }).1 = 1 ∧
        ∃ k st, identify_tokens_head p (strlen p % 256) k
            ⟨0, { g with n_numbers := 0, n_infix_operators := 0 }, 0⟩ = some st ∧
          st.ch_no < strlen p % 256 ∧ is_number_char (charAt p st.ch_no) = true ∧
          st.parsed.n_numbers = 20 ∧ st.parsed.n_infix_operators = 20 ∧
          (extract_number p (strlen p % 256) st).error_ref_no = 1 ∧
          identify_tokens_loop p (strlen p % 256)
            ⟨0, { g with n_numbers := 0, n_infix_operators := 0 }, 0⟩ =
              extract_number p (strlen p % 256) st) ∧
      (∀ k st, identify_tokens_head p (strlen p % 256) k
          ⟨0, { g with n_numbers := 0, n_infix_operators := 0 }, 0⟩ = some st →
        st.ch_no < strlen p % 256 → (extract_number p (strlen p % 256) st).error_ref_no = 0 →
        (after_number p (strlen p % 256) st).parsed.n_infix_operators < MAX_NUMS_AND_OPS ∧
          (extract_operator p (strlen p % 256)
            (after_number p (strlen p % 256) st)).error_ref_no ≠ 1) ∧
      (syntax_check_stage1 p cap = 0 → syntax_check_stage2 p 0 = 0 →
        (identify_tokens p 0 { g with n_numbers := 0, n_infix_operators := 0 }).1 = 0 →
        (evaluate_expression (parsed_tokens g p) 0).2 = 0) := by
  have hstart := CountsAtHead_start (strlen p % 256)
    ({ g with n_numbers := 0, n_infix_operators := 0 } : ParsedExpression_t F) 0 rfl rfl
  refine ⟨fun h => ?_, fun k st hk hlt he => ?_,
    fun h1 h2 h3 => evaluate_expression_parsed_tokens g p cap hcap h1 h2 h3⟩
  · obtain ⟨a, b, c⟩ := CalculateAnswer_one_stage g p cap hcap h
    exact ⟨a, b, c, identify_tokens_loop_overflow p (strlen p % 256) _ hstart rfl c⟩
  · exact extract_operator_room p (strlen p % 256) st
      (CountsAtHead_head p (strlen p % 256) k _ st hstart hk) hlt he
      (identify_tokens_head_error p (strlen p % 256) k _ st rfl hk)

set_option maxRecDepth 100000 in
theorem CalculateAnswer_error_one_witness :
    (50 < 256 ∧
      (CalculateAnswer zeroed (expression_string ['1'] (List.replicate 20 ('+', ['1']))) 50).2
        = 1) ∧
      (identify_tokens (expression_string ['1'] (List.replicate 20 ('+', ['1']))) 0
        { zeroed with n_numbers := 0, n_infix_operators := 0 }).1 = 1 :=
  ⟨⟨by decide, by decide!⟩,
    ((CalculateAnswer_error_one zeroed (expression_string ['1'] (List.replicate 20 ('+', ['1'])))
      50 (by decide)).1 (by decide!)).2.2.1⟩

/-! ## The bounds of the array indices -/

/-- The bounds on the counts follow from the invariant at the loop head. -/
theorem CountsBounded_of_head {F : Type} (buf_len : Nat) (st : TokState F)
    (h : CountsAtHead buf_len st) : CountsBounded st.parsed := by
  obtain ⟨h1, h2⟩ := h
  have : MAX_NUMS_AND_OPS = 20 := rfl
  unfold CountsBounded
  rcases h2 with h2 | h2 <;> omega

/-- The bounds on the counts hold after the number phase. -/
theorem CountsBounded_extract_number {F : Type} [DoubleArith F] (p : List Char) (buf_len : Nat)
    (st : TokState F) (hinv : CountsAtHead buf_len st) (hlt : st.ch_no < buf_len) :
    CountsBounded (extract_number p buf_len st).parsed := by
  obtain ⟨h1, h2⟩ := hinv
  obtain ⟨m1, n1⟩ := extract_number_counts p buf_len st
  have : MAX_NUMS_AND_OPS = 20 := rfl
  unfold CountsBounded
  rw [m1]
  rcases h2 with h2 | h2
  · rcases n1 with ⟨a, b, _⟩ | ⟨a, _⟩ | ⟨a, _, _⟩ <;> omega
  · omega

/-- The bounds on the counts hold after the operator phase. -/
theorem CountsBounded_extract_operator {F : Type} [DoubleArith F] (p : List Char)
    (buf_len : Nat) (st : TokState F) (hinv : CountsAtHead buf_len st) (hlt : st.ch_no < buf_len)
    (he : (extract_number p buf_len st).error_ref_no = 0) :
    CountsBounded (extract_operator p buf_len (after_number p buf_len st)).parsed := by
  obtain ⟨h1, h2⟩ := hinv
  obtain ⟨m1, n1⟩ := extract_number_counts p buf_len st
  obtain ⟨m3, n3⟩ := extract_operator_counts p buf_len (after_number p buf_len st)
  have ha1 : (after_number p buf_len st).parsed = (extract_number p buf_len st).parsed := rfl
  rw [ha1] at m3 n3
  have : MAX_NUMS_AND_OPS = 20 := rfl
  unfold CountsBounded
  rw [m3]
  have hn1 : (extract_number p buf_len st).parsed.n_numbers = st.parsed.n_numbers + 1 ∧
      st.parsed.n_numbers < 20 := by
    rcases n1 with ⟨a, b, _⟩ | ⟨_, b⟩ | ⟨_, b, _⟩ <;> omega
  rcases h2 with h2 | h2
  · rcases n3 with ⟨a, _, _⟩ | ⟨a, _, _⟩ | ⟨a, _, _⟩ | ⟨a, _⟩
    · omega
    · omega
    · omega
    · rw [a, ha1, m1]
      omega
  · omega

/-- The bounds on the counts hold in the state the tokenizer returns. -/
theorem CountsBounded_result {F : Type} [inst : DoubleArith F] (p : List Char) (buf_len : Nat)
    (st : TokState F) (hinv : CountsAtHead buf_len st) :
    CountsBounded (identify_tokens_loop p buf_len st).parsed := by
  induction st using @identify_tokens_loop.induct F inst p buf_len with
  | case1 x hlt hd st1 he =>
    have he1 : (extract_number p buf_len x).error_ref_no ≠ 0 := he
    rw [identify_tokens_loop_unfold, if_pos hlt, if_pos hd, if_pos he1]
    exact CountsBounded_extract_number p buf_len x hinv hlt
  | case2 x hlt hd st1 he st2 hlt2 hop st3 he3 =>
    have he1 : ¬ (extract_number p buf_len x).error_ref_no ≠ 0 := he
    have hlt2a : (after_number p buf_len x).ch_no < buf_len := hlt2
    have hopa : is_infix_char (charAt p (after_number p buf_len x).ch_no) = true := hop
    have he3a : (extract_operator p buf_len (after_number p buf_len x)).error_ref_no ≠ 0 := he3
    rw [identify_tokens_loop_unfold, if_pos hlt, if_pos hd, if_neg he1, if_pos hlt2a, if_pos hopa,
      if_pos he3a]
    exact CountsBounded_extract_operator p buf_len x hinv hlt (by omega)
  | case3 x hlt hd st1 he st2 hlt2 hop st3 he3 ih =>
    have he1 : ¬ (extract_number p buf_len x).error_ref_no ≠ 0 := he
    have hlt2a : (after_number p buf_len x).ch_no < buf_len := hlt2
    have hopa : is_infix_char (charAt p (after_number p buf_len x).ch_no) = true := hop
    have he3a : ¬ (extract_operator p buf_len (after_number p buf_len x)).error_ref_no ≠ 0 := he3
    have hit : identify_tokens_iteration p buf_len x =
        some (extract_operator p buf_len (after_number p buf_len x)) := by
      rw [identify_tokens_iteration_eq, if_pos hlt, if_pos hd, if_neg he1, if_pos hlt2a,
        if_pos hopa, if_neg he3a]
    rw [(identify_tokens_iteration_some p buf_len x _ hit).2.2.2.2.1]
    exact ih (CountsAtHead_iteration p buf_len x _ hinv hit)
  | case4 x hlt hd st1 he st2 hlt2 hop =>
    have he1 : ¬ (extract_number p buf_len x).error_ref_no ≠ 0 := he
    have hlt2a : (after_number p buf_len x).ch_no < buf_len := hlt2
    have hopa : ¬ is_infix_char (charAt p (after_number p buf_len x).ch_no) = true := hop
    rw [identify_tokens_loop_unfold, if_pos hlt, if_pos hd, if_neg he1, if_pos hlt2a, if_neg hopa]
    exact CountsBounded_extract_number p buf_len x hinv hlt
  | case5 x hlt hd st1 he st2 hlt2 ih =>
    have he1 : ¬ (extract_number p buf_len x).error_ref_no ≠ 0 := he
    have hlt2a : ¬ (after_number p buf_len x).ch_no < buf_len := hlt2
    rw [identify_tokens_loop_unfold, if_pos hlt, if_pos hd, if_neg he1, if_neg hlt2a,
      identify_tokens_loop_end p buf_len _ hlt2a]
    exact CountsBounded_extract_number p buf_len x hinv hlt
  | case6 x hlt hd =>
    rw [identify_tokens_loop_unfold, if_pos hlt, if_neg hd]
    exact CountsBounded_of_head buf_len x hinv
  | case7 x hlt =>
    rw [identify_tokens_loop_end p buf_len x hlt]
    exact CountsBounded_of_head buf_len x hinv

/-- What `extract_number` writes: nothing of `number[]` changes when
`extract_number_write` is `none`; otherwise the index is the old count, it is
below 20, and no other entry changes. -/
theorem extract_number_write_spec {F : Type} [DoubleArith F] (p : List Char) (buf_len : Nat)
    (st : TokState F) :
    (extract_number_write p buf_len st = none →
        (extract_number p buf_len st).parsed.number = st.parsed.number) ∧
      (∀ i, extract_number_write p buf_len st = some i →
        i = st.parsed.n_numbers ∧ i < 20 ∧
        ∀ l, l ≠ i → (extract_number p buf_len st).parsed.number l = st.parsed.number l) := by
  unfold extract_number_write extract_number
  dsimp only
  split_ifs with h1 h2 h3
  · exact ⟨fun _ => rfl, fun i h => by simp at h⟩
  · exact ⟨fun _ => rfl, fun i h => by simp at h⟩
  · refine ⟨fun h => by simp at h, fun i h => ?_⟩
    have e : st.parsed.n_numbers = i := Option.some.inj h
    subst e
    exact ⟨rfl, h3, fun l hl => setAt_other _ _ _ _ hl⟩
  · exact ⟨fun _ => rfl, fun i h => by simp at h⟩

/-- What `extract_operator` writes: nothing of `infix_operator[]` changes when
`extract_operator_write` is `none`; otherwise the index is the old count, it is
below 20, and no other entry changes. -/
theorem extract_operator_write_spec {F : Type} (p : List Char) (buf_len : Nat)
    (st : TokState F) :
    (extract_operator_write p buf_len st = none →
        (extract_operator p buf_len st).parsed.infix_operator = st.parsed.infix_operator) ∧
      (∀ i, extract_operator_write p buf_len st = some i →
        i = st.parsed.n_infix_operators ∧ i < 20 ∧
        ∀ l, l ≠ i →
          (extract_operator p buf_len st).parsed.infix_operator l =
            st.parsed.infix_operator l) := by
  unfold extract_operator_write extract_operator
  dsimp only
  split_ifs with h1 h2 h3
  · exact ⟨fun _ => rfl, fun i h => by simp at h⟩
  · refine ⟨fun h => by simp at h, fun i h => ?_⟩
    have e : st.parsed.n_infix_operators = i := Option.some.inj h
    subst e
    exact ⟨rfl, h3, fun l hl => setAt_other _ _ _ _ hl⟩
  · exact ⟨fun _ => rfl, fun i h => by simp at h⟩
  · exact ⟨fun _ => rfl, fun i h => by simp at h⟩

/-- The inner loop of the evaluator reads flags from `next_index` on, below
`next_index + remaining`. -/
theorem find_next_unused_accesses_bound (used : Nat → Nat) (r i : Nat) (a : Access)
    (h : a ∈ find_next_unused_accesses used r i) : i ≤ a.index ∧ a.index < i + r := by
  induction r generalizing i with
  | zero => simp [find_next_unused_accesses] at h
  | succ r ih =>
    unfold find_next_unused_accesses at h
    rcases List.mem_cons.1 h with h | h
    · subst h
      exact ⟨Nat.le_refl _, by show i < i + (r + 1); omega⟩
    · split_ifs at h
      · simp at h
      · have := ih (i + 1) h
        omega

/-- The index the inner loop of the evaluator finds lies in its range. -/
theorem find_next_unused_bound (used : Nat → Nat) (r i j : Nat)
    (h : find_next_unused used r i = some j) : i ≤ j ∧ j < i + r := by
  induction r generalizing i with
  | zero => simp [find_next_unused] at h
  | succ r ih =>
    rw [find_next_unused_succ] at h
    split_ifs at h
    · have e : i = j := Option.some.inj h
      omega
    · have := ih (i + 1) h
      omega

/-- Every access of a pass of the evaluator is at an index below `n_numbers`,
when there are fewer operators than numbers. -/
theorem evaluate_one_operator_loop_accesses_bound {F : Type} [DoubleArith F] (op : Char)
    (r i : Nat) (pe : ParsedExpression_t F) (hr : i + r ≤ pe.n_infix_operators)
    (hm : pe.n_infix_operators < pe.n_numbers) (a : Access)
    (h : a ∈ evaluate_one_operator_loop_accesses op r i pe) : a.index < pe.n_numbers := by
  induction r generalizing i pe with
  | zero => simp [evaluate_one_operator_loop_accesses] at h
  | succ r ih =>
    unfold evaluate_one_operator_loop_accesses at h
    rcases List.mem_cons.1 h with h | h
    · subst h
      show i < pe.n_numbers
      omega
    · split_ifs at h with hop
      · exact ih (i + 1) pe (by omega) hm h
      · rcases List.mem_append.1 h with h | h
        · have := find_next_unused_accesses_bound _ _ _ a h
          omega
        · cases hf : find_next_unused pe.num_and_op_used (pe.n_numbers - (i + 1)) (i + 1) with
          | none =>
            rw [hf] at h
            simp at h
          | some j =>
            rw [hf] at h
            have hj := find_next_unused_bound _ _ _ j hf
            rcases List.mem_append.1 h with h | h
            · simp only [merge_numbers_accesses, List.mem_cons, List.mem_singleton,
                List.not_mem_nil, or_false] at h
              rcases h with h | h | h | h <;> subst h
              · show i < pe.n_numbers
                omega
              · show j < pe.n_numbers
                omega
              · show j < pe.n_numbers
                omega
              · show i < pe.n_numbers
                omega
            · exact ih (i + 1) (merge_numbers pe i j op) (by show i + 1 + r ≤ pe.n_infix_operators; omega)
                hm h

/-- A call of `evaluate_expression_one_operator` keeps the counts, and its
accesses are at indices below `n_numbers` when there are fewer operators than
numbers. -/
theorem evaluate_expression_one_operator_accesses_bound {F : Type} [DoubleArith F]
    (q : ParsedExpression_t F) (op : Char) (e : Nat) (hm : q.n_infix_operators < q.n_numbers) :
    (evaluate_expression_one_operator q op e).1.n_numbers = q.n_numbers ∧
      (evaluate_expression_one_operator q op e).1.n_infix_operators = q.n_infix_operators ∧
      ∀ a, a ∈ evaluate_expression_one_operator_accesses q op → a.index < q.n_numbers := by
  obtain ⟨f1, f2, _⟩ := evaluate_one_operator_loop_frame op q.n_infix_operators 0 q e
  exact ⟨f1, f2, fun a h =>
    evaluate_one_operator_loop_accesses_bound op q.n_infix_operators 0 q (by omega) hm a h⟩

/-- After the reset of the flags, every access of the evaluator is at an index
below `n_numbers`, when there are fewer operators than numbers. -/
theorem evaluate_expression_pass_accesses_bound {F : Type} [DoubleArith F]
    (pe : ParsedExpression_t F) (e : Nat) (hm : pe.n_infix_operators < pe.n_numbers) (a : Access)
    (h : a ∈ evaluate_expression_pass_accesses pe e) : a.index < pe.n_numbers := by
  unfold evaluate_expression_pass_accesses at h
  dsimp only at h
  generalize hpe0 : ({ pe with num_and_op_used := fun index =>
      if index < MAX_NUMS_AND_OPS then 0 else pe.num_and_op_used index } :
      ParsedExpression_t F) = pe0 at h
  have c0 : pe0.n_numbers = pe.n_numbers := by rw [← hpe0]
  have d0 : pe0.n_infix_operators = pe.n_infix_operators := by rw [← hpe0]
  obtain ⟨c1, d1, b1⟩ := evaluate_expression_one_operator_accesses_bound pe0 'E' e (by omega)
  generalize evaluate_expression_one_operator pe0 'E' e = r1 at c1 d1 h
  obtain ⟨c2, d2, b2⟩ := evaluate_expression_one_operator_accesses_bound r1.1 '/' r1.2 (by omega)
  generalize evaluate_expression_one_operator r1.1 '/' r1.2 = r2 at c2 d2 h
  obtain ⟨c3, d3, b3⟩ := evaluate_expression_one_operator_accesses_bound r2.1 'x' r2.2 (by omega)
  generalize evaluate_expression_one_operator r2.1 'x' r2.2 = r3 at c3 d3 h
  obtain ⟨c4, d4, b4⟩ := evaluate_expression_one_operator_accesses_bound r3.1 '+' r3.2 (by omega)
  generalize evaluate_expression_one_operator r3.1 '+' r3.2 = r4 at c4 d4 h
  obtain ⟨c5, d5, b5⟩ := evaluate_expression_one_operator_accesses_bound r4.1 '-' r4.2 (by omega)
  generalize evaluate_expression_one_operator r4.1 '-' r4.2 = r5 at c5 d5 h
  have k1 := b1 a
  have k2 := b2 a
  have k3 := b3 a
  have k4 := b4 a
  have k5 := b5 a
  split_ifs at h
  all_goals try simp only [List.mem_append, List.mem_singleton] at h
  · have := k1 h
    omega
  · rcases h with h | h
    · have := k1 h
      omega
    · have := k2 h
      omega
  · rcases h with (h | h) | h
    · have := k1 h
      omega
    · have := k2 h
      omega
    · have := k3 h
      omega
  · rcases h with ((h | h) | h) | h
    · have := k1 h
      omega
    · have := k2 h
      omega
    · have := k3 h
      omega
    · have := k4 h
      omega
  · rcases h with (((h | h) | h) | h) | h
    · have := k1 h
      omega
    · have := k2 h
      omega
    · have := k3 h
      omega
    · have := k4 h
      omega
    · have := k5 h
      omega
  · rcases h with ((((h | h) | h) | h) | h) | h
    · have := k1 h
      omega
    · have := k2 h
      omega
    · have := k3 h
      omega
    · have := k4 h
      omega
    · have := k5 h
      omega
    · subst h
      show r5.1.n_numbers - 1 < pe.n_numbers
      omega

/-- When the evaluator raises no error, its last access is the read of
`number[n_numbers - 1]`. -/
theorem evaluate_expression_final_read {F : Type} [DoubleArith F] (pe : ParsedExpression_t F)
    (e : Nat) (h : (evaluate_expression pe e).2 = 0) :
    ∃ l, evaluate_expression_pass_accesses pe e = l ++ [Access.number (pe.n_numbers - 1)] := by
  unfold evaluate_expression at h
  unfold evaluate_expression_pass_accesses
  dsimp only at h ⊢
  generalize hpe0 : ({ pe with num_and_op_used := fun index =>
      if index < MAX_NUMS_AND_OPS then 0 else pe.num_and_op_used index } :
      ParsedExpression_t F) = pe0 at h ⊢
  have c0 : pe0.n_numbers = pe.n_numbers := by rw [← hpe0]
  have fr : ∀ (q : ParsedExpression_t F) (op : Char) (x : Nat),
      (evaluate_expression_one_operator q op x).1.n_numbers = q.n_numbers :=
    fun q op x => (evaluate_one_operator_loop_frame op q.n_infix_operators 0 q x).1
  have c1 := fr pe0 'E' e
  generalize evaluate_expression_one_operator pe0 'E' e = r1 at c1 h ⊢
  have c2 := fr r1.1 '/' r1.2
  generalize evaluate_expression_one_operator r1.1 '/' r1.2 = r2 at c2 h ⊢
  have c3 := fr r2.1 'x' r2.2
  generalize evaluate_expression_one_operator r2.1 'x' r2.2 = r3 at c3 h ⊢
  have c4 := fr r3.1 '+' r3.2
  generalize evaluate_expression_one_operator r3.1 '+' r3.2 = r4 at c4 h ⊢
  have c5 := fr r4.1 '-' r4.2
  generalize evaluate_expression_one_operator r4.1 '-' r4.2 = r5 at c5 h ⊢
  have hn : r5.1.n_numbers = pe.n_numbers := by omega
  split_ifs at h ⊢ with a1 a2 a3 a4 a5
  · exact absurd h a1
  · exact absurd h a2
  · exact absurd h a3
  · exact absurd h a4
  · exact absurd h a5
  · rw [hn]
    exact ⟨_, rfl⟩

/-- The reset loop of the evaluator writes the flags 0 to 19. -/
theorem evaluate_expression_reset_accesses_bound (a : Access)
    (h : a ∈ evaluate_expression_reset_accesses) : a.index < 20 := by
  unfold evaluate_expression_reset_accesses at h
  obtain ⟨i, hi, rfl⟩ := List.mem_map.1 h
  exact List.mem_range.1 hi

/-- Claim C33, as amended.  Bounds invariant of the pipeline.  In
`identify_tokens` started with both counts at 0, at every test of the loop
condition that is reached, after the number phase and after the operator
phase of the pass that follows it, and on return,
`n_numbers - 1 ≤ n_infix_operators ≤ n_numbers ≤ 20`; every write to `number[]`
and `infix_operator[]` is at an index below 20.  For every input the pipeline
accepts, `1 ≤ n_numbers ≤ 20`, every index the evaluator reads or writes in the
three arrays is below 20, and after the reset of the 20 used flags every such
index is below `n_numbers`, the last access being the read of
`number[n_numbers - 1]`. -/
theorem pipeline_index_bounds {F : Type} [DoubleArith F] (g pe : ParsedExpression_t F)
    (p : List Char) (cap e : Nat) (hcap : cap < 256) (hc1 : pe.n_numbers = 0)
    (hc2 : pe.n_infix_operators = 0) :
    (∀ k st, identify_tokens_head p (strlen p % 256) k ⟨0, pe, e⟩ = some st →
        CountsBounded st.parsed ∧
        (st.ch_no < strlen p % 256 →
          CountsBounded (extract_number p (strlen p % 256) st).parsed ∧
          ((extract_number p (strlen p % 256) st).error_ref_no = 0 →
            CountsBounded (extract_operator p (strlen p % 256)
              (after_number p (strlen p % 256) st)).parsed))) ∧
      CountsBounded (identify_tokens p e pe).2 ∧
      (∀ (st : TokState F) (i : Nat),
        (extract_number_write p (strlen p % 256) st = some i → i < 20) ∧
        (extract_operator_write p (strlen p % 256) st = some i → i < 20)) ∧
      ((CalculateAnswer g p cap).2 = 0 →
        1 ≤ (parsed_tokens g p).n_numbers ∧ (parsed_tokens g p).n_numbers ≤ 20 ∧
        (∀ a, a ∈ evaluate_expression_accesses (parsed_tokens g p) 0 → a.index < 20) ∧
        (∀ a, a ∈ evaluate_expression_pass_accesses (parsed_tokens g p) 0 →
          a.index < (parsed_tokens g p).n_numbers) ∧
        ∃ l, evaluate_expression_pass_accesses (parsed_tokens g p) 0 =
          l ++ [Access.number ((parsed_tokens g p).n_numbers - 1)]) := by
  have hstart := CountsAtHead_start (strlen p % 256) pe e hc1 hc2
  refine ⟨fun k st hk => ?_, CountsBounded_result p (strlen p % 256) _ hstart, fun st i => ?_,
    fun hz => ?_⟩
  · have hinv := CountsAtHead_head p (strlen p % 256) k _ st hstart hk
    exact ⟨CountsBounded_of_head _ st hinv, fun hlt =>
      ⟨CountsBounded_extract_number p _ st hinv hlt,
        fun he => CountsBounded_extract_operator p _ st hinv hlt he⟩⟩
  · exact ⟨fun h => ((extract_number_write_spec (F := F) p _ st).2 i h).2.1,
      fun h => ((extract_operator_write_spec p _ st).2 i h).2.1⟩
  · obtain ⟨h1, h2, h3, hev⟩ := CalculateAnswer_success g p cap hz
    obtain ⟨hn, hmax, _⟩ := parsed_tokens_counts g p cap hcap h1 h2 h3
    have hmax' : (parsed_tokens g p).n_numbers ≤ 20 := hmax
    have hpass := evaluate_expression_pass_accesses_bound (parsed_tokens g p) 0 (by omega)
    refine ⟨by omega, hmax', fun a ha => ?_, hpass, ?_⟩
    · unfold evaluate_expression_accesses at ha
      rcases List.mem_append.1 ha with ha | ha
      · exact evaluate_expression_reset_accesses_bound a ha
      · have := hpass a ha
        omega
    · exact evaluate_expression_final_read (parsed_tokens g p) 0 (by rw [← hev]; exact hz)

theorem pipeline_index_bounds_witness :
    (6 < 256 ∧ zeroed.n_numbers = 0 ∧ zeroed.n_infix_operators = 0 ∧
      (CalculateAnswer zeroed ['2', '+', '3', 'x', '4'] 6).2 = 0) ∧
      CountsBounded (identify_tokens ['2', '+', '3', 'x', '4'] 0 zeroed).2 ∧
      (parsed_tokens zeroed ['2', '+', '3', 'x', '4']).n_numbers = 3 ∧
      (∀ a, a ∈ evaluate_expression_pass_accesses (parsed_tokens zeroed ['2', '+', '3', 'x', '4'])
        0 → a.index < (parsed_tokens zeroed ['2', '+', '3', 'x', '4']).n_numbers) ∧
      ∃ l, evaluate_expression_pass_accesses (parsed_tokens zeroed ['2', '+', '3', 'x', '4']) 0 =
        l ++ [Access.number ((parsed_tokens zeroed ['2', '+', '3', 'x', '4']).n_numbers - 1)] :=
  have h := pipeline_index_bounds zeroed zeroed ['2', '+', '3', 'x', '4'] 6 0 (by decide) rfl rfl
  ⟨⟨by decide, rfl, rfl, by decide!⟩, h.2.1, by decide!, (h.2.2.2 (by decide!)).2.2.2.1,
    (h.2.2.2 (by decide!)).2.2.2.2⟩

/-- Claim C33, counterexample.  On the accepted input "5" the parsed
expression holds one number, and the evaluator's first loop writes
`num_and_op_used[19]`: an index below 20 but not below `n_numbers`. -/
theorem pipeline_index_bounds_counterexample :
    (CalculateAnswer zeroed ['5'] 3).2 = 0 ∧ (parsed_tokens zeroed ['5']).n_numbers = 1 ∧
      Access.num_and_op_used 19 ∈ evaluate_expression_accesses (parsed_tokens zeroed ['5']) 0 ∧
      ¬ (Access.num_and_op_used 19).index < (parsed_tokens zeroed ['5']).n_numbers := by
  decide!

/-! ## The input collector -/

theorem storeAt_same (a : Int → Char) (i : Int) (v : Char) : storeAt a i v i = v := by
  simp [storeAt]

theorem storeAt_other (a : Int → Char) (i k : Int) (v : Char) (h : k ≠ i) :
    storeAt a i v k = a k := by
  simp [storeAt, h]

/-- Either character a shifted key stands for is in the allowed set. -/
theorem shift_choice_allowed (s : Bool) (a b : Char) (ha : a ∈ allowed_chars)
    (hb : b ∈ allowed_chars) : (if s = true then a else b) ∈ allowed_chars := by
  cases s
  · simpa using hb
  · simpa using ha

/-- Appending a character of the allowed set below the last index keeps the
invariant. -/
theorem ReadInv_append_char (size : Int) (st : ReadState) (c : Char) (hinv : ReadInv size st)
    (hlt : ¬ st.j ≥ size - 1) (hc : c ∈ allowed_chars) : ReadInv size (append_char st c) := by
  obtain ⟨h1, h2, h3⟩ := hinv
  refine ⟨by show 0 ≤ st.j + 1; omega, by show st.j + 1 ≤ size - 1; omega, fun w hw => ?_⟩
  have hw' : w = (st.j + 1, NUL) ∨ w = (st.j, c) ∨ w ∈ st.writes := by
    simpa [append_char] using hw
  rcases hw' with rfl | rfl | hw'
  · exact ⟨by show 0 ≤ st.j + 1; omega, by show st.j + 1 ≤ size - 1; omega, Or.inl rfl⟩
  · exact ⟨h1, by show st.j ≤ size - 1; omega, Or.inr hc⟩
  · exact h3 w hw'

/-- Appending a character changes the buffer only where the log says so. -/
theorem ReadFrame_append_char (b : Int → Char) (st : ReadState) (c : Char)
    (hf : ReadFrame b st) : ReadFrame b (append_char st c) := by
  intro i hi
  have h1 : i ≠ st.j + 1 := fun e => hi (st.j + 1, NUL) (by simp [append_char]) e.symm
  have h2 : i ≠ st.j := fun e => hi (st.j, c) (by simp [append_char]) e.symm
  show storeAt (storeAt st.input_buffer st.j c) (st.j + 1) NUL i = b i
  rw [storeAt_other _ _ _ _ h1, storeAt_other _ _ _ _ h2]
  exact hf i (fun w hw => hi w (by simp [append_char, hw]))

/-- A change of the flags only keeps the invariant and the frame. -/
theorem ReadInv_congr (size : Int) (st st' : ReadState) (hj : st'.j = st.j)
    (hw : st'.writes = st.writes) (hinv : ReadInv size st) : ReadInv size st' := by
  unfold ReadInv
  rw [hj, hw]
  exact hinv

theorem ReadFrame_congr (b : Int → Char) (st st' : ReadState)
    (hb : st'.input_buffer = st.input_buffer) (hw : st'.writes = st.writes)
    (hf : ReadFrame b st) : ReadFrame b st' := by
  unfold ReadFrame
  rw [hb, hw]
  exact hf

/-- The `switch` keeps the invariant and the frame, when entered below the
last index. -/
theorem ReadInv_switch (b : Int → Char) (size : Int) (st : ReadState) (key : Char)
    (hinv : ReadInv size st) (hf : ReadFrame b st) (hfull : ¬ st.j ≥ size - 1) :
    ReadInv size (ReadAndEchoInput_switch st key) ∧
      ReadFrame b (ReadAndEchoInput_switch st key) := by
  have hkeep : ∀ st2 : ReadState, st2.j = st.j → st2.writes = st.writes →
      st2.input_buffer = st.input_buffer → ReadInv size st2 ∧ ReadFrame b st2 :=
    fun st2 e1 e2 e3 => ⟨ReadInv_congr size st st2 e1 e2 hinv, ReadFrame_congr b st st2 e3 e2 hf⟩
  have hclear : ∀ st2 : ReadState, ReadInv size st2 ∧ ReadFrame b st2 →
      ReadInv size (clear_shift st2) ∧ ReadFrame b (clear_shift st2) :=
    fun st2 h => ⟨ReadInv_congr size st2 _ rfl rfl h.1, ReadFrame_congr b st2 _ rfl rfl h.2⟩
  have happ : ∀ c, c ∈ allowed_chars →
      ReadInv size (clear_shift (append_char st c)) ∧
        ReadFrame b (clear_shift (append_char st c)) :=
    fun c hc => hclear _ ⟨ReadInv_append_char size st c hinv hfull hc,
      ReadFrame_append_char b st c hf⟩
  have h0 : 0 ≤ st.j := hinv.1
  unfold ReadAndEchoInput_switch
  by_cases c1 : isdigit key = true
  · rw [if_pos c1]
    by_cases c2 : st.j < 16
    · rw [if_pos c2]
      exact happ key ((stage1_valid_char_iff key).1 (by simp [stage1_valid_char, c1]))
    · rw [if_neg c2]
      exact hclear st ⟨hinv, hf⟩
  · rw [if_neg c1]
    by_cases cA : key = 'A'
    · rw [if_pos cA]
      exact happ _ (shift_choice_allowed _ 'x' '+' (by decide) (by decide))
    · rw [if_neg cA]
      by_cases cB : key = 'B'
      · rw [if_pos cB]
        exact happ _ (shift_choice_allowed _ '/' '-' (by decide) (by decide))
      · rw [if_neg cB]
        by_cases cC : key = 'C'
        · rw [if_pos cC]
          exact happ _ (shift_choice_allowed _ 'E' '.' (by decide) (by decide))
        · rw [if_neg cC]
          by_cases cD : key = 'D'
          · rw [if_pos cD]
            exact hkeep _ rfl rfl rfl
          · rw [if_neg cD]
            by_cases cH : key = '#'
            · rw [if_pos cH]
              apply hclear
              by_cases cs : st.b_shift_key_pressed = true
              · rw [if_pos cs]
                by_cases cj : st.j > 0
                · rw [if_pos cj]
                  refine ⟨⟨by show 0 ≤ st.j - 1; omega, by show st.j - 1 ≤ size - 1; omega,
                    fun w hw => ?_⟩, fun i hi => ?_⟩
                  · have hw' : w = (st.j - 1, NUL) ∨ w ∈ st.writes := by
                      simpa [backspace] using hw
                    rcases hw' with rfl | hw'
                    · exact ⟨by show 0 ≤ st.j - 1; omega,
                        by show st.j - 1 ≤ size - 1; omega, Or.inl rfl⟩
                    · exact hinv.2.2 w hw'
                  · have h1 : i ≠ st.j - 1 :=
                      fun e => hi (st.j - 1, NUL) (by simp [backspace]) e.symm
                    show storeAt st.input_buffer (st.j - 1) NUL i = b i
                    rw [storeAt_other _ _ _ _ h1]
                    exact hf i (fun w hw => hi w (by simp [backspace, hw]))
                · rw [if_neg cj]
                  exact ⟨hinv, hf⟩
              · rw [if_neg cs]
                exact ⟨⟨by show (0 : Int) ≤ 0; omega, by show (0 : Int) ≤ size - 1; omega,
                  hinv.2.2⟩, ReadFrame_congr b st _ rfl rfl hf⟩
            · rw [if_neg cH]
              by_cases cS : key = '*'
              · rw [if_pos cS]
                exact hkeep _ rfl rfl rfl
              · rw [if_neg cS]
                exact ⟨hinv, hf⟩

/-- One pass through the loop body keeps the invariant and the frame. -/
theorem ReadInv_iteration (b : Int → Char) (size : Int) (st : ReadState) (key : Char)
    (hsize : 1 ≤ size) (hinv : ReadInv size st) (hf : ReadFrame b st) :
    ReadInv size (ReadAndEchoInput_iteration size st key) ∧
      ReadFrame b (ReadAndEchoInput_iteration size st key) := by
  unfold ReadAndEchoInput_iteration
  by_cases hfull : st.j ≥ size - 1
  · rw [if_pos hfull]
    exact ⟨⟨by show 0 ≤ size - 1; omega, by show size - 1 ≤ size - 1; omega, hinv.2.2⟩,
      ReadFrame_congr b st _ rfl rfl hf⟩
  · rw [if_neg hfull]
    exact ReadInv_switch b size _ key (ReadInv_congr size st _ rfl rfl hinv)
      (ReadFrame_congr b st _ rfl rfl hf) hfull

/-- The loop keeps the invariant and the frame. -/
theorem ReadInv_loop (b : Int → Char) (size : Int) (keys : List Char) (st : ReadState)
    (hsize : 1 ≤ size) (hinv : ReadInv size st) (hf : ReadFrame b st) :
    ReadInv size (ReadAndEchoInput_loop size keys st) ∧
      ReadFrame b (ReadAndEchoInput_loop size keys st) := by
  induction keys generalizing st with
  | nil => exact ⟨hinv, hf⟩
  | cons key keys ih =>
    unfold ReadAndEchoInput_loop
    split_ifs
    · exact ⟨hinv, hf⟩
    · obtain ⟨a, c⟩ := ReadInv_iteration b size st key hsize hinv hf
      exact ih _ a c

/-- Claim C35.  Input-collector bounds: for every sequence of key events and
every `input_buffer_size ≥ 1`, `ReadAndEchoInput` keeps its write index within
`0 ≤ j ≤ input_buffer_size - 1`; every write to `input_buffer` is at an index
from 0 to `input_buffer_size - 1` (so nothing outside the buffer changes), and
every character written is the terminator or one of `0-9 + - x / . E`, the set
the character validator accepts. -/
theorem ReadAndEchoInput_bounds (input_buffer : Int → Char) (input_buffer_size : Int)
    (keys : List Char) (hsize : 1 ≤ input_buffer_size) :
    0 ≤ (ReadAndEchoInput input_buffer input_buffer_size keys).j ∧
      (ReadAndEchoInput input_buffer input_buffer_size keys).j ≤ input_buffer_size - 1 ∧
      (∀ w, w ∈ (ReadAndEchoInput input_buffer input_buffer_size keys).writes →
        0 ≤ w.1 ∧ w.1 ≤ input_buffer_size - 1 ∧ (w.2 = NUL ∨ w.2 ∈ allowed_chars) ∧
          (w.2 ≠ NUL → stage1_valid_char w.2 = true)) ∧
      (∀ i, (i < 0 ∨ input_buffer_size - 1 < i) →
        (ReadAndEchoInput input_buffer input_buffer_size keys).input_buffer i = input_buffer i) := by
  obtain ⟨⟨h1, h2, h3⟩, hf⟩ := ReadInv_loop input_buffer input_buffer_size keys
    { input_buffer := input_buffer, j := 0, b_shift_key_pressed := false, b_cleared := false,
      returned := false, writes := [] } hsize
    ⟨Int.le_refl 0, by show (0 : Int) ≤ input_buffer_size - 1; omega,
      fun w hw => absurd hw (List.not_mem_nil w)⟩
    (fun i _ => rfl)
  refine ⟨h1, h2, fun w hw => ?_, fun i hi => hf i (fun w hw e => ?_)⟩
  · obtain ⟨a, b, c⟩ := h3 w hw
    refine ⟨a, b, c, fun hne => ?_⟩
    rcases c with c | c
    · exact absurd c hne
    · exact (stage1_valid_char_iff _).2 c
  · obtain ⟨a, b, _⟩ := h3 w hw
    omega

theorem ReadAndEchoInput_bounds_witness :
    (1 : Int) ≤ 3 ∧
      (ReadAndEchoInput (fun _ => 'z') 3 ['1', 'A', '2', '3']).j = 2 ∧
      0 ≤ (ReadAndEchoInput (fun _ => 'z') 3 ['1', 'A', '2', '3']).j ∧
      (ReadAndEchoInput (fun _ => 'z') 3 ['1', 'A', '2', '3']).j ≤ 3 - 1 ∧
      (ReadAndEchoInput (fun _ => 'z') 3 ['1', 'A', '2', '3']).writes =
        [(2, NUL), (1, '+'), (1, NUL), (0, '1')] :=
  ⟨by decide, by decide, (ReadAndEchoInput_bounds (fun _ => 'z') 3 ['1', 'A', '2', '3']
      (by decide)).1,
    (ReadAndEchoInput_bounds (fun _ => 'z') 3 ['1', 'A', '2', '3'] (by decide)).2.1, by decide⟩

/-- The `switch` on an unshifted `#`: the write index becomes 0, the buffer and
the log of writes are as before. -/
theorem ReadAndEchoInput_switch_clear (st : ReadState) (h : st.b_shift_key_pressed = false) :
    ReadAndEchoInput_switch st '#' = { st with j := 0, b_shift_key_pressed := false } := by
  unfold ReadAndEchoInput_switch
  rw [if_neg (by decide), if_neg (by decide), if_neg (by decide), if_neg (by decide),
    if_neg (by decide), if_pos rfl, if_neg (by rw [h]; decide)]
  rfl

/-- Claim C36.  Clear key leaves the buffer intact: an unshifted `#` met below
the last index sets the write index to 0 and writes nothing to `input_buffer`;
so for the keys `1`, `2`, `#`, `*` (buffer of at least 4 characters) the
function returns with `j = 0` and the buffer still holding the terminated
string "12", not an empty string. -/
theorem ReadAndEchoInput_clear_key (input_buffer : Int → Char) (input_buffer_size : Int)
    (hsize : 4 ≤ input_buffer_size) :
    (∀ st : ReadState, ¬ st.j ≥ input_buffer_size - 1 → st.b_shift_key_pressed = false →
        (ReadAndEchoInput_iteration input_buffer_size st '#').j = 0 ∧
        (ReadAndEchoInput_iteration input_buffer_size st '#').input_buffer = st.input_buffer ∧
        (ReadAndEchoInput_iteration input_buffer_size st '#').writes = st.writes ∧
        (ReadAndEchoInput_iteration input_buffer_size st '#').returned = st.returned) ∧
      (ReadAndEchoInput input_buffer input_buffer_size ['1', '2', '#', '*']).returned = true ∧
      (ReadAndEchoInput input_buffer input_buffer_size ['1', '2', '#', '*']).j = 0 ∧
      (ReadAndEchoInput input_buffer input_buffer_size ['1', '2', '#', '*']).input_buffer 0 = '1' ∧
      (ReadAndEchoInput input_buffer input_buffer_size ['1', '2', '#', '*']).input_buffer 1 = '2' ∧
      (ReadAndEchoInput input_buffer input_buffer_size ['1', '2', '#', '*']).input_buffer 2 = NUL ∧
      (ReadAndEchoInput input_buffer input_buffer_size ['1', '2', '#', '*']).input_buffer 0 ≠ NUL := by
  have step : ∀ st : ReadState, ¬ st.j ≥ input_buffer_size - 1 →
      st.b_shift_key_pressed = false →
      ReadAndEchoInput_iteration input_buffer_size st '#' =
        { st with j := 0, b_shift_key_pressed := false,
                  b_cleared := if '#' ≠ '?' ∧ st.b_cleared = false then true else st.b_cleared } := by
    intro st h1 h2
    unfold ReadAndEchoInput_iteration
    rw [if_neg h1]
    exact ReadAndEchoInput_switch_clear _ h2
  have b1 : ¬ input_buffer_size ≤ 1 := by omega
  have b2 : ¬ input_buffer_size ≤ 2 := by omega
  have b3 : ¬ input_buffer_size ≤ 3 := by omega
  have hres : ReadAndEchoInput input_buffer input_buffer_size ['1', '2', '#', '*'] =
      { input_buffer := storeAt (storeAt (storeAt (storeAt input_buffer 0 '1') 1 NUL) 1 '2') 2 NUL,
        j := 0, b_shift_key_pressed := false, b_cleared := true, returned := true,
        writes := [(2, NUL), (1, '2'), (1, NUL), (0, '1')] } := by
    simp [ReadAndEchoInput, ReadAndEchoInput_loop, ReadAndEchoInput_iteration,
      ReadAndEchoInput_switch, append_char, clear_shift, b1, b2, b3, isdigit]
  refine ⟨fun st h1 h2 => ?_, ?_⟩
  · rw [step st h1 h2]
    exact ⟨rfl, rfl, rfl, rfl⟩
  · rw [hres]
    refine ⟨rfl, rfl, ?_, ?_, ?_, ?_⟩
    · show storeAt (storeAt (storeAt (storeAt input_buffer 0 '1') 1 NUL) 1 '2') 2 NUL 0 = '1'
      simp [storeAt]
    · show storeAt (storeAt (storeAt (storeAt input_buffer 0 '1') 1 NUL) 1 '2') 2 NUL 1 = '2'
      simp [storeAt]
    · show storeAt (storeAt (storeAt (storeAt input_buffer 0 '1') 1 NUL) 1 '2') 2 NUL 2 = NUL
      simp [storeAt]
    · show storeAt (storeAt (storeAt (storeAt input_buffer 0 '1') 1 NUL) 1 '2') 2 NUL 0 ≠ NUL
      simp [storeAt, NUL]

/-! ## The result display -/

/-- Truncation of a value strictly between -100 and 100 gives an integer from
-99 to 99, of the sign of the value. -/
theorem truncate_small (r : ℚ) (h1 : -100 < r) (h2 : r < 100) :
    -99 ≤ truncate r ∧ truncate r ≤ 99 ∧ (0 ≤ r → 0 ≤ truncate r) ∧ (r ≤ 0 → truncate r ≤ 0) := by
  unfold truncate
  split_ifs with h
  · have a : ⌊r⌋ < 100 := Int.floor_lt.2 (by exact_mod_cast h2)
    have b : 0 ≤ ⌊r⌋ := Int.floor_nonneg.2 h
    refine ⟨by omega, by omega, fun _ => b, fun h0 => ?_⟩
    have : r = 0 := le_antisymm h0 h
    rw [this]
    simp
  · have a : -100 < ⌈r⌉ := Int.lt_ceil.2 (by exact_mod_cast h1)
    have b : ⌈r⌉ ≤ 0 := Int.ceil_le.2 (by push_neg at h; exact_mod_cast h.le)
    exact ⟨by omega, by omega, fun h0 => absurd h0 h, fun _ => b⟩

/-- For a number from 0 to 99 the `%02d` text is the two digits of the number. -/
theorem format_02d_int_small (n : Nat) (h : n ≤ 99) :
    format_02d_int (n : Int) = format_02d n := by
  interval_cases n <;> decide!

/-- The `%02d` text of a non-negative number consists of digits. -/
theorem format_02d_int_digits (n : Nat) (c : Char) (hc : c ∈ format_02d_int (n : Int)) :
    isdigit c = true := by
  unfold format_02d_int at hc
  rw [if_neg (by omega)] at hc
  split_ifs at hc
  · rcases List.mem_cons.1 hc with h | h
    · rw [h]; decide
    · exact format_nat_digits _ _ h
  · exact format_nat_digits _ _ hc

/-- The text of `DisplayResult` when the two conversions to `int` are defined
and the second is not the least `int`: the `%d` text of the first, a dot, and
the `%02d` text of the absolute value of the second. -/
theorem DisplayResult_text {F : Type} [DoubleArith F] [DoubleToInt F] (answer : F)
    (int_part frac_part : Int) (h1 : DoubleToInt.to_int answer = some int_part)
    (h2 : DoubleToInt.to_int (DoubleArith.mul
      (DoubleArith.sub answer (DoubleArith.ofInt int_part)) (DoubleArith.ofInt 100))
        = some frac_part)
    (h3 : -2147483648 < frac_part) :
    DisplayResult answer =
      some ((format_d int_part ++ '.' :: format_02d_int (frac_part.natAbs : Int)).take 19) := by
  have hf : (if frac_part < 0 then wrap_int (-frac_part) else frac_part) =
      (frac_part.natAbs : Int) := by
    unfold wrap_int
    split_ifs with hneg <;> omega
  unfold DisplayResult
  rw [h1]
  dsimp only
  rw [h2]
  dsimp only
  rw [hf]

/-- The text of a value of integer part 0 has no minus sign. -/
theorem DisplayResult_zero_no_minus (n : Nat) :
    '-' ∉ (format_d 0 ++ '.' :: format_02d_int (n : Int)).take 19 := by
  intro hm
  have hm := List.mem_of_mem_take hm
  have : format_d 0 = ['0'] := by decide!
  rw [this] at hm
  simp only [List.singleton_append, List.mem_cons] at hm
  rcases hm with h | h | h
  · exact absurd h (by decide)
  · exact absurd h (by decide)
  · exact absurd (format_02d_int_digits _ _ h) (by decide)

/-- In the exact model the two conversions are defined for every value
strictly between -1 and 1: the first gives 0 and the second a number from -99
to 99. -/
theorem Dbl_to_int_small (q : ℚ) (h1 : -1 < q) (h2 : q < 1) :
    DoubleToInt.to_int (Dbl.fin q) = some 0 ∧
      ∃ frac_part : Int, DoubleToInt.to_int (DoubleArith.mul
        (DoubleArith.sub (Dbl.fin q) (DoubleArith.ofInt 0)) (DoubleArith.ofInt 100))
          = some frac_part ∧ -99 ≤ frac_part ∧ frac_part ≤ 99 := by
  have hz : truncate q = 0 := by
    unfold truncate
    split_ifs with h
    · exact Int.floor_eq_iff.2 ⟨by push_cast; linarith, by push_cast; linarith⟩
    · exact Int.ceil_eq_iff.2 ⟨by push_cast; linarith, by push_cast; linarith⟩
  have e1 : DoubleToInt.to_int (Dbl.fin q) = some 0 := by
    show Dbl.to_int (Dbl.fin q) = some 0
    simp only [Dbl.to_int]
    rw [hz]
    rfl
  have hprod : DoubleArith.mul (DoubleArith.sub (Dbl.fin q) (DoubleArith.ofInt 0))
      (DoubleArith.ofInt 100) = Dbl.fin (q * 100) := by
    show Dbl.mul (Dbl.sub (Dbl.fin q) (Dbl.fin ((0 : Int) : ℚ))) (Dbl.fin ((100 : Int) : ℚ)) = _
    simp only [Dbl.sub, Dbl.neg, Dbl.add, Dbl.mul]
    congr 1
    push_cast
    ring
  obtain ⟨t1, t2, _, _⟩ := truncate_small (q * 100) (by linarith) (by linarith)
  refine ⟨e1, truncate (q * 100), ?_, t1, t2⟩
  rw [hprod]
  show Dbl.to_int (Dbl.fin (q * 100)) = _
  simp only [Dbl.to_int]
  rw [if_pos ⟨by omega, by omega⟩]

theorem ReadAndEchoInput_clear_key_witness :
    (4 : Int) ≤ 17 ∧
      (ReadAndEchoInput (fun _ => 'z') 17 ['1', '2', '#', '*']).returned = true ∧
      (ReadAndEchoInput (fun _ => 'z') 17 ['1', '2', '#', '*']).j = 0 ∧
      (ReadAndEchoInput (fun _ => 'z') 17 ['1', '2', '#', '*']).input_buffer 0 = '1' ∧
      (ReadAndEchoInput (fun _ => 'z') 17 ['1', '2', '#', '*']).input_buffer 1 = '2' ∧
      (ReadAndEchoInput (fun _ => 'z') 17 ['1', '2', '#', '*']).input_buffer 2 = NUL ∧
      (ReadAndEchoInput (fun _ => 'z') 17 ['1', '2', '#', '*']).input_buffer 0 ≠ NUL :=
  ⟨by decide, (ReadAndEchoInput_clear_key (fun _ => 'z') 17 (by decide)).2⟩

/-- Claim C37.  Result rendering, in whatever arithmetic the doubles have:
when `(int)answer` is `int_part` and `(int)((answer - int_part) * 100)` is
`frac_part` (not the least `int`), `DisplayResult` gives the `%d` text of
`int_part`, a dot, and the `%02d` text of the absolute value of `frac_part`,
which is two digits when that value is at most 99.  Consequently a value whose
integer part is 0, as is every value strictly between -1 and 0, gets a text
that starts with `0.` and carries no minus sign, the same text as a value of
integer part 0 whose `frac_part` has the same absolute value.  -0.5 gives
"0.50", as +0.5 does. -/
theorem DisplayResult_small_negative {F : Type} [DoubleArith F] [DoubleToInt F] (answer : F)
    (int_part frac_part : Int) (h1 : DoubleToInt.to_int answer = some int_part)
    (h2 : DoubleToInt.to_int (DoubleArith.mul
      (DoubleArith.sub answer (DoubleArith.ofInt int_part)) (DoubleArith.ofInt 100))
        = some frac_part)
    (h3 : -2147483648 < frac_part) :
    DisplayResult answer =
        some ((format_d int_part ++ '.' :: format_02d_int (frac_part.natAbs : Int)).take 19) ∧
      (frac_part.natAbs ≤ 99 →
        DisplayResult answer = some ((format_result int_part frac_part.natAbs).take 19)) ∧
      (int_part = 0 →
        DisplayResult answer =
            some (('0' :: '.' :: format_02d_int (frac_part.natAbs : Int)).take 19) ∧
          '-' ∉ ('0' :: '.' :: format_02d_int (frac_part.natAbs : Int)).take 19 ∧
          ∀ (other : F) (frac_part2 : Int), DoubleToInt.to_int other = some 0 →
            DoubleToInt.to_int (DoubleArith.mul
              (DoubleArith.sub other (DoubleArith.ofInt 0)) (DoubleArith.ofInt 100))
                = some frac_part2 →
            -2147483648 < frac_part2 → frac_part2.natAbs = frac_part.natAbs →
            DisplayResult other = DisplayResult answer) ∧
      (∀ q : ℚ, -1 < q → q < 0 →
        DoubleToInt.to_int (Dbl.fin q) = some 0 ∧
          ∃ text, DisplayResult (Dbl.fin q) = some text ∧ '-' ∉ text) ∧
      DisplayResult (Dbl.fin (-1 / 2)) = some ['0', '.', '5', '0'] ∧
      DisplayResult (Dbl.fin (1 / 2)) = some ['0', '.', '5', '0'] := by
  have hd0 : format_d 0 = ['0'] := by decide!
  have e := DisplayResult_text answer int_part frac_part h1 h2 h3
  refine ⟨e, fun h99 => ?_, fun h0 => ?_, fun q q1 q2 => ?_, by decide!, by decide!⟩
  · rw [e, format_02d_int_small _ h99]
    rfl
  · subst h0
    have hn := DisplayResult_zero_no_minus frac_part.natAbs
    rw [hd0] at hn e
    refine ⟨e, hn, fun other frac_part2 o1 o2 o3 o4 => ?_⟩
    rw [e, DisplayResult_text other 0 frac_part2 o1 o2 o3, hd0, o4]
  · obtain ⟨z1, fp, z2, z3, z4⟩ := Dbl_to_int_small q q1 (by linarith)
    refine ⟨z1, _, DisplayResult_text (Dbl.fin q) 0 fp z1 z2 (by omega), ?_⟩
    exact DisplayResult_zero_no_minus _

theorem DisplayResult_small_negative_witness :
    (DoubleToInt.to_int (Dbl.fin (-1 / 4)) = some 0 ∧
      DoubleToInt.to_int (DoubleArith.mul
        (DoubleArith.sub (Dbl.fin (-1 / 4)) (DoubleArith.ofInt 0)) (DoubleArith.ofInt 100))
          = some (-25) ∧ (-2147483648 : Int) < -25) ∧
      DisplayResult (Dbl.fin (-1 / 4)) = some ['0', '.', '2', '5'] ∧
      '-' ∉ ['0', '.', '2', '5'] ∧
      DisplayResult (Dbl.fin (1 / 4)) = DisplayResult (Dbl.fin (-1 / 4)) ∧
      DisplayResult (Dbl.fin (-7 / 2)) = some ['-', '3', '.', '5', '0'] :=
  have h := DisplayResult_small_negative (Dbl.fin (-1 / 4)) 0 (-25) (by decide!) (by decide!)
    (by decide)
  ⟨⟨by decide!, by decide!, by decide⟩, h.1.trans (by decide!), by decide,
    (h.2.2.1 rfl).2.2 (Dbl.fin (1 / 4)) 25 (by decide!) (by decide!) (by decide) (by decide),
    (DisplayResult_small_negative (Dbl.fin (-7 / 2)) (-3) (-50) (by decide!) (by decide!)
      (by decide)).1.trans (by decide!)⟩

end Calc
